import Mathlib

/-!
# Reducer maps of the Cheetah runtime (hash-table variant)

A shallow embedding of `runtime/reducer/cilkred_map_hash.{h,c}`,
`runtime/reducer/reducer_impl_hash.c` and `runtime/reducer/hyperlookup_hash.c`,
followed by theorems about it.

Conventions of the embedding.

* Pointers (`void *key`, `void *view`, `__cilkrts_hyperobject_base *hb`, worker
  and frame addresses) are natural numbers; `0` is the null pointer.
* A `bucket` is its capacity `nmax` together with the slot array `el`, a list
  that holds the `nmax + 1` slots the C code allocates.  A pointer to a slot is
  a pair (bucket index, slot index).
* `size_t` arithmetic is done in `Nat` without wrap-around at `2 ^ 64`: every
  quantity is a byte size or an element count of objects living in one 64-bit
  address space.  The two decrements that could pass below zero
  (`nbuckets - 1`, `--nelem`) are given their `size_t` value.
* Storage returned by the allocator is modelled as zero-filled; the code only
  ever reads the `key` field of a slot before writing the slot.
* Dereferencing outside an allocation is undefined in C.  The embedding is
  total: a read outside a list ends the scan or yields a null slot, a write
  outside a list is dropped.  On the well-formed maps (`WF`) the theorems are
  about no such access happens; a theorem stated for arbitrary maps holds under
  this convention.
* The two maps of a merge are distinct objects, as are a map and the buckets
  of another map.
* `CILK_ASSERT`, `CILK_ASSERT_G` and `cilkrts_bug` do not return: they end the
  run with a `Fault`, and the outcome records the state at that moment.
* User callbacks are recorded in a trace of `Event`s; they are assumed not to
  touch the maps or the scheduler state.  The pointer a call of `allocate_fn`
  returns is a parameter of the function that makes the call.
-/

namespace CilkRed

/-! ## Outcomes -/

/-- The ways a run can end in the fatal-error sink. -/
inductive Fault where
  /-- A `CILK_ASSERT` or `CILK_ASSERT_G` failed. -/
  | assertion
  /-- The call `cilkrts_bug(w, UNSYNCED_REDUCER_MSG)`. -/
  | unsynced_reducer
  /-- The call `cilkrts_bug(w, "User error: hyperobject used by another hyperobject")`. -/
  | hyperobject_in_use
  /-- The call `cilkrts_bug(w, "TLS Reducer race")`. -/
  | reducer_race
deriving DecidableEq, Repr

/-- Outcome of a call on a state of type `σ`: either the call returns `val` in
state `st`, or the run is aborted in state `st`. -/
inductive Res (σ : Type) (α : Type) where
  | ok (val : α) (st : σ)
  | fatal (why : Fault) (st : σ)
deriving DecidableEq, Repr

/-- Sequencing of two calls; an abort is propagated. -/
def Res.bind {σ α β : Type} (r : Res σ α) (f : α → σ → Res σ β) : Res σ β :=
  match r with
  | Res.ok a s => f a s
  | Res.fatal why s => Res.fatal why s

/-- Does the call return? -/
def Res.isOk {σ α : Type} : Res σ α → Bool
  | Res.ok _ _ => true
  | Res.fatal _ _ => false

/-- The state in which the call ended. -/
def Res.state {σ α : Type} : Res σ α → σ
  | Res.ok _ s => s
  | Res.fatal _ s => s

/-- Calls of user callbacks of a descriptor.  The field `key` of `reduce` and
`deallocate` is bookkeeping: it names the map element on whose behalf the
callback runs (the C call passes only `hb` and the views). -/
inductive Event where
  | reduce (key hb left right : Nat)
  | deallocate (key hb view : Nat)
  | allocate (hb size : Nat)
  | identity (hb view : Nat)
deriving DecidableEq, Repr

/-! ## Data model (`cilkred_map_hash.h`) -/

/-- The type `enum merge_kind`. -/
inductive merge_kind where
  | MERGE_UNORDERED
  | MERGE_INTO_LEFT
  | MERGE_INTO_RIGHT
deriving DecidableEq, Repr

/-- The type `struct elem`. -/
structure elem where
  key : Nat
  hb : Nat
  view : Nat
deriving DecidableEq, Repr

/-- The type `struct bucket`: `el` holds the `nmax + 1` allocated slots. -/
structure bucket where
  nmax : Nat
  el : List elem
deriving DecidableEq, Repr

/-- The type `struct cilkred_map`. -/
structure cilkred_map where
  g : Nat
  nelem : Nat
  nbuckets : Nat
  buckets : List (Option bucket)
  merging : Bool
  is_leftmost : Bool
deriving DecidableEq, Repr

/-- The fields of `__cilkrts_hyperobject_base` the reducer code reads, with the
address of the descriptor. -/
structure __cilkrts_hyperobject_base where
  addr : Nat
  __view_offset : Int
  __view_size : Nat
deriving DecidableEq, Repr

/-- The fields of `__cilkrts_worker` the reducer code reads, with the address
of the worker. -/
structure __cilkrts_worker where
  self : Nat
  g : Nat
  current_stack_frame : Nat
  reducer_map : Option cilkred_map
deriving DecidableEq, Repr

/-- Scheduler state read by `cilkred_map_merge`: the result of
`__cilkrts_get_tls_worker()` and the `worker` field of each stack frame. -/
structure sched_env where
  tls_worker : Nat
  sf_worker : Nat → Nat

/-- Slot written by the allocator model and by the key-zeroing loops. -/
def null_elem : elem := ⟨0, 0, 0⟩

/-- The function `get_hyperobject_key`: `((char *)hb) + hb->__view_offset`. -/
def get_hyperobject_key (hb : __cilkrts_hyperobject_base) : Nat :=
  (((hb.addr : Int) + hb.__view_offset) % (2 ^ 64 : Int)).toNat

/-- The function `get_leftmost_view`. -/
def get_leftmost_view (key : Nat) : Nat := key

/-- The function `hashfun`. -/
def hashfun (h : cilkred_map) (key : Nat) : Nat :=
  let k := key
  let k := k ^^^ (k >>> 21)
  let k := k ^^^ (k >>> 8)
  let k := k ^^^ (k >>> 3)
  k &&& (if h.nbuckets = 0 then 2 ^ 64 - 1 else h.nbuckets - 1)

/-! ## `elem` functions -/

/-- The function `elem_is_leftmost`. -/
def elem_is_leftmost (el : elem) : Bool := el.key == el.view

/-- The function `elem_destroy`: the slot afterwards and the callbacks made. -/
def elem_destroy (el : elem) : elem × List Event :=
  let evs := if !elem_is_leftmost el then [Event.deallocate el.key el.hb el.view] else []
  ({ el with view := 0 }, evs)

/-! ## `bucket` functions -/

/-- The function `sizeof_bucket` on LP64: `sizeof(bucket) = 32`, `sizeof(elem) = 24`. -/
def sizeof_bucket (nmax : Nat) : Nat := 32 + nmax * 24

/-- The function `roundup`. -/
def roundup (nmax : Nat) : Nat :=
  let sz := sizeof_bucket nmax
  let sz :=
    if sz < 64 then 64
    else if sz < 2048 then
      let sz := sz - 1
      let sz := sz ||| (sz >>> 1)
      let sz := sz ||| (sz >>> 2)
      let sz := sz ||| (sz >>> 4)
      let sz := sz ||| (sz >>> 8)
      let sz := sz ||| (sz >>> 16)
      sz + 1
    else sz
  (sz - 32) / 24

/-! ## `cilkred_map` functions -/

/-- The function `is_power_of_2`. -/
def is_power_of_2 (n : Nat) : Bool :=
  (n &&& (if n = 0 then 2 ^ 64 - 1 else n - 1)) == 0

/-- The assertion `(w == 0 && this_map->g == 0) || w->g == this_map->g`. -/
def g_ok (w : Option __cilkrts_worker) (this_map : cilkred_map) : Bool :=
  match w with
  | none => this_map.g == 0
  | some w => w.g == this_map.g

/-- The function `cilkred_map_make_buckets`. -/
def cilkred_map_make_buckets (this_map : cilkred_map) (_w : Option __cilkrts_worker)
    (new_nbuckets : Nat) : Res cilkred_map Unit :=
  let m1 := { this_map with nbuckets := new_nbuckets }
  if !is_power_of_2 m1.nbuckets then Res.fatal Fault.assertion m1
  else Res.ok () { m1 with buckets := List.replicate new_nbuckets none, nelem := 0 }

/-- The function `minsz`. -/
def minsz (nelem : Nat) : Nat := 1 + nelem + nelem / 8

/-- The function `nextsz`. -/
def nextsz (nelem : Nat) : Nat := 2 * nelem

/-- The function `cilkred_map_need_rehash_p`. -/
def cilkred_map_need_rehash_p (this_map : cilkred_map) : Bool :=
  decide (minsz this_map.nelem > this_map.nbuckets)

/-- The inner loop of `cilkred_map_check` over the slots of one bucket; the
state is `count`. -/
def check_bucket (allow_null_view : Bool) : List elem → Nat → Res Nat Unit
  | [], count => Res.ok () count
  | el :: rest, count =>
    if el.key = 0 then Res.ok () count
    else if !(allow_null_view || el.view != 0) then Res.fatal Fault.assertion count
    else check_bucket allow_null_view rest (count + 1)

/-- The outer loop of `cilkred_map_check` over the bucket array. -/
def check_buckets (allow_null_view : Bool) : List (Option bucket) → Nat → Res Nat Unit
  | [], count => Res.ok () count
  | none :: rest, count => check_buckets allow_null_view rest count
  | some b :: rest, count =>
    (check_bucket allow_null_view b.el count).bind
      (fun _ c1 => check_buckets allow_null_view rest c1)

/-- The function `cilkred_map_check`; the state of the outcome is `count`.
The bucket array is part of the map, so `CILK_ASSERT_G(this_map->buckets)` holds. -/
def cilkred_map_check (this_map : cilkred_map) (allow_null_view : Bool) : Res Nat Unit :=
  (check_buckets allow_null_view (this_map.buckets.take this_map.nbuckets) 0).bind
    (fun _ count =>
      if this_map.nelem ≠ count then Res.fatal Fault.assertion count else Res.ok () count)

/-- The first loop of `cilkred_map_grow`: the first index `i < nmax` (counted
from `i`) whose slot has key zero. -/
def find_empty : List elem → Nat → Nat → Option Nat
  | [], _, _ => none
  | e :: rest, nmax, i =>
    if nmax = 0 then none
    else if e.key = 0 then some i
    else find_empty rest (nmax - 1) (i + 1)

/-- The second half of `cilkred_map_grow`: allocate a bucket of capacity
`roundup(2 * nmax)`, copy the `nmax` old slots, zero the keys of the slots
`nmax .. nnmax`, and return the slot `nmax`. -/
def grow_realloc (old : List elem) (nmax : Nat) : bucket × Nat :=
  let nnmax := roundup (2 * nmax)
  ({ nmax := nnmax, el := old.take nmax ++ List.replicate (nnmax + 1 - nmax) null_elem }, nmax)

/-- The function `cilkred_map_grow`: the bucket stored in `*bp` afterwards and
the index of the returned slot. -/
def cilkred_map_grow : Option bucket → bucket × Nat
  | some b =>
    match find_empty b.el b.nmax 0 with
    | some i => (b, i)
    | none => grow_realloc b.el b.nmax
  | none => grow_realloc [] 0

/-- The function `cilkred_map_insert_no_rehash`; the value is the pointer to the slot. -/
def cilkred_map_insert_no_rehash (this_map : cilkred_map) (w : Option __cilkrts_worker)
    (key hb view : Nat) : Res cilkred_map (Nat × Nat) :=
  if !g_ok w this_map then Res.fatal Fault.assertion this_map
  else if key = 0 then Res.fatal Fault.assertion this_map
  else if view = 0 then Res.fatal Fault.assertion this_map
  else
    let i := hashfun this_map key
    let r := cilkred_map_grow (this_map.buckets.getD i none)
    let nb : bucket := { nmax := r.1.nmax, el := r.1.el.set r.2 ⟨key, hb, view⟩ }
    Res.ok (i, r.2)
      { this_map with buckets := this_map.buckets.set i (some nb), nelem := this_map.nelem + 1 }

/-- The inner loop of `cilkred_map_rehash`: walk the slots of an old bucket up
to the first zero key and insert each element into the new table. -/
def rehash_bucket (w : Option __cilkrts_worker) : List elem → cilkred_map → Res cilkred_map Unit
  | [], m => Res.ok () m
  | oel :: rest, m =>
    if oel.key = 0 then Res.ok () m
    else (cilkred_map_insert_no_rehash m w oel.key oel.hb oel.view).bind
      (fun _ m1 => rehash_bucket w rest m1)

/-- The outer loop of `cilkred_map_rehash` over the old bucket array. -/
def rehash_buckets (w : Option __cilkrts_worker) :
    List (Option bucket) → cilkred_map → Res cilkred_map Unit
  | [], m => Res.ok () m
  | none :: rest, m => rehash_buckets w rest m
  | some b :: rest, m => (rehash_bucket w b.el m).bind (fun _ m1 => rehash_buckets w rest m1)

/-- The function `cilkred_map_rehash`. -/
def cilkred_map_rehash (this_map : cilkred_map) (w : Option __cilkrts_worker) :
    Res cilkred_map Unit :=
  if !g_ok w this_map then Res.fatal Fault.assertion this_map
  else
    let onbuckets := this_map.nbuckets
    let onelem := this_map.nelem
    let obuckets := this_map.buckets
    (cilkred_map_make_buckets this_map w (nextsz this_map.nbuckets)).bind (fun _ m1 =>
      (rehash_buckets w (obuckets.take onbuckets) m1).bind (fun _ m2 =>
        if m2.nelem ≠ onelem then Res.fatal Fault.assertion m2 else Res.ok () m2))

/-- The function `cilkred_map_rehash_and_insert`. -/
def cilkred_map_rehash_and_insert (this_map : cilkred_map) (w : Option __cilkrts_worker)
    (key hb view : Nat) : Res cilkred_map (Nat × Nat) :=
  if cilkred_map_need_rehash_p this_map then
    (cilkred_map_rehash this_map w).bind (fun _ m1 =>
      cilkred_map_insert_no_rehash m1 w key hb view)
  else cilkred_map_insert_no_rehash this_map w key hb view

/-- The loop of `cilkred_map_lookup` over the slots of one bucket, starting at
slot `j`: the index of the first slot with the key, before the first zero key. -/
def lookup_scan (key : Nat) : List elem → Nat → Res Unit (Option Nat)
  | [], _ => Res.ok none ()
  | e :: rest, j =>
    if e.key = 0 then Res.ok none ()
    else if e.key = key then
      (if e.view = 0 then Res.fatal Fault.assertion () else Res.ok (some j) ())
    else lookup_scan key rest (j + 1)

/-- The function `cilkred_map_lookup`: a pointer to the slot found, or null. -/
def cilkred_map_lookup (this_map : cilkred_map) (key : Nat) :
    Res cilkred_map (Option (Nat × Nat)) :=
  let i := hashfun this_map key
  match this_map.buckets.getD i none with
  | none => Res.ok none this_map
  | some b =>
    match lookup_scan key b.el 0 with
    | Res.ok r _ => Res.ok (r.map (fun j => (i, j))) this_map
    | Res.fatal why _ => Res.fatal why this_map

/-- Dereference of a slot pointer. -/
def get_slot (m : cilkred_map) (p : Nat × Nat) : elem :=
  match m.buckets.getD p.1 none with
  | none => null_elem
  | some b => b.el.getD p.2 null_elem

/-- Store through a slot pointer. -/
def set_slot (m : cilkred_map) (p : Nat × Nat) (e : elem) : cilkred_map :=
  match m.buckets.getD p.1 none with
  | none => m
  | some b =>
    { m with buckets := m.buckets.set p.1 (some { nmax := b.nmax, el := b.el.set p.2 e }) }

/-- The function `cilkred_map_make_map`; `CILK_ASSERT_G(w)` holds as the worker is given. -/
def cilkred_map_make_map (w : __cilkrts_worker) : Res cilkred_map Unit :=
  let h : cilkred_map :=
    { g := w.g, nelem := 0, nbuckets := 0, buckets := [], merging := false, is_leftmost := false }
  (cilkred_map_make_buckets h (some w) 1).bind (fun _ h1 =>
    Res.ok () { h1 with merging := false, is_leftmost := false })

/-- The inner loop of `cilkred_map_destroy_map` over the slots of one bucket. -/
def destroy_bucket : List elem → List Event
  | [] => []
  | el :: rest =>
    if el.key = 0 then []
    else (if el.view ≠ 0 then (elem_destroy el).2 else []) ++ destroy_bucket rest

/-- The outer loop of `cilkred_map_destroy_map`. -/
def destroy_buckets : List (Option bucket) → List Event
  | [] => []
  | none :: rest => destroy_buckets rest
  | some b :: rest => destroy_bucket b.el ++ destroy_buckets rest

/-- The function `cilkred_map_destroy_map`: the state is the trace of the
callbacks made; the map itself is freed. -/
def cilkred_map_destroy_map (w : Option __cilkrts_worker) (h : cilkred_map) :
    Res (List Event) Unit :=
  if !g_ok w h then Res.fatal Fault.assertion []
  else Res.ok () (destroy_buckets (h.buckets.take h.nbuckets))

/-- The function `__cilkrts_set_leftmost_reducer_map`. -/
def __cilkrts_set_leftmost_reducer_map (h : cilkred_map) (is_leftmost : Bool) : cilkred_map :=
  { h with is_leftmost := is_leftmost }

/-! ## The merge engine -/

/-- State threaded through the loop of `cilkred_map_merge`: the surviving map
and the callbacks made so far. -/
structure merge_state where
  this_map : cilkred_map
  trace : List Event
deriving DecidableEq, Repr

/-- A call on the surviving map inside the merge loop. -/
def in_merge {α : Type} (tr : List Event) : Res cilkred_map α → Res merge_state α
  | Res.ok a m => Res.ok a ⟨m, tr⟩
  | Res.fatal why m => Res.fatal why ⟨m, tr⟩

/-- The case `MERGE_INTO_LEFT` of the switch in `cilkred_map_merge` (also the
target of the fall-through): the assertion `current_sf->worker == w` and the
call of `reduce_fn` on `this_el->view` and `other_el->view`.  The callback
leaves the scheduler state alone, so that `w = current_sf->worker` assigns `w`
its own value and the assertion `w->current_stack_frame == current_sf`, which
compares the frame fetched on entry with itself, always holds. -/
def merge_reduce (env : sched_env) (w : __cilkrts_worker) (key hb : Nat) (this_el : Nat × Nat)
    (other_el : elem) (s : merge_state) : Res merge_state elem :=
  if env.sf_worker w.current_stack_frame ≠ w.self then Res.fatal Fault.assertion s
  else
    Res.ok other_el
      ⟨s.this_map, s.trace ++ [Event.reduce key hb (get_slot s.this_map this_el).view other_el.view]⟩

/-- The body of the loop of `cilkred_map_merge` for one live slot `other_el` of
the other map; the value is that slot afterwards. -/
def merge_elem (env : sched_env) (w : __cilkrts_worker) (kind : merge_kind)
    (merge_to_leftmost : Bool) (other_el : elem) (s : merge_state) : Res merge_state elem :=
  let other_view := other_el.view
  if other_view = 0 then Res.fatal Fault.assertion s
  else
    let key := other_el.key
    let hb := other_el.hb
    (in_merge s.trace (cilkred_map_lookup s.this_map key)).bind (fun this_el s1 =>
      (if this_el = none ∧ merge_to_leftmost = true then
          let leftmost := get_leftmost_view key
          if leftmost ≠ other_view then
            (in_merge s1.trace
              (cilkred_map_rehash_and_insert s1.this_map (some w) key hb leftmost)).bind
              (fun p s2 => Res.ok (some p) s2)
          else Res.ok this_el s1
        else Res.ok this_el s1).bind (fun this_el s2 =>
        match this_el with
        | none =>
          (in_merge s2.trace
            (cilkred_map_rehash_and_insert s2.this_map (some w) key hb other_view)).bind
            (fun _ s3 => Res.ok { other_el with view := 0 } s3)
        | some p =>
          match kind with
          | merge_kind.MERGE_UNORDERED => Res.fatal Fault.reducer_race s2
          | merge_kind.MERGE_INTO_RIGHT =>
            let this_slot := get_slot s2.this_map p
            let other_el1 : elem := { other_el with view := this_slot.view }
            let m := set_slot s2.this_map p { this_slot with view := other_view }
            merge_reduce env w key hb p other_el1 ⟨m, s2.trace⟩
          | merge_kind.MERGE_INTO_LEFT => merge_reduce env w key hb p other_el s2))

/-- The inner loop of `cilkred_map_merge` over the slots of one bucket of the
other map; the value is the slot array of that bucket afterwards. -/
def merge_bucket (env : sched_env) (w : __cilkrts_worker) (kind : merge_kind)
    (merge_to_leftmost : Bool) : List elem → merge_state → Res merge_state (List elem)
  | [], s => Res.ok [] s
  | other_el :: rest, s =>
    if other_el.key = 0 then Res.ok (other_el :: rest) s
    else (merge_elem env w kind merge_to_leftmost other_el s).bind (fun e1 s1 =>
      (merge_bucket env w kind merge_to_leftmost rest s1).bind (fun rest1 s2 =>
        Res.ok (e1 :: rest1) s2))

/-- The outer loop of `cilkred_map_merge`; the value is the bucket array of the
other map afterwards. -/
def merge_buckets (env : sched_env) (w : __cilkrts_worker) (kind : merge_kind)
    (merge_to_leftmost : Bool) :
    List (Option bucket) → merge_state → Res merge_state (List (Option bucket))
  | [], s => Res.ok [] s
  | none :: rest, s =>
    (merge_buckets env w kind merge_to_leftmost rest s).bind (fun rest1 s1 =>
      Res.ok (none :: rest1) s1)
  | some b :: rest, s =>
    (merge_bucket env w kind merge_to_leftmost b.el s).bind (fun el1 s1 =>
      (merge_buckets env w kind merge_to_leftmost rest s1).bind (fun rest1 s2 =>
        Res.ok (some { nmax := b.nmax, el := el1 } :: rest1) s2))

/-- The function `cilkred_map_merge`.  The state of the outcome is the
surviving map with the trace of all callbacks, those of the final
`cilkred_map_destroy_map(w, other_map)` included; the value is the worker. -/
def cilkred_map_merge (env : sched_env) (this_map : cilkred_map) (w : __cilkrts_worker)
    (other_map : cilkred_map) (kind : merge_kind) : Res merge_state __cilkrts_worker :=
  let this_map := { this_map with merging := true }
  let other_map := { other_map with merging := true }
  if other_map.is_leftmost then Res.fatal Fault.assertion ⟨this_map, []⟩
  else
    let merge_to_leftmost := this_map.is_leftmost
    (merge_buckets env w kind merge_to_leftmost (other_map.buckets.take other_map.nbuckets)
      ⟨this_map, []⟩).bind (fun obuckets s =>
      let other_map1 :=
        { other_map with buckets := obuckets ++ other_map.buckets.drop other_map.nbuckets }
      let this_map1 :=
        { s.this_map with
          is_leftmost := s.this_map.is_leftmost || other_map1.is_leftmost, merging := false }
      let other_map2 := { other_map1 with merging := false }
      if w.self ≠ env.tls_worker then Res.fatal Fault.assertion ⟨this_map1, s.trace⟩
      else
        match cilkred_map_destroy_map (some w) other_map2 with
        | Res.ok _ tr => Res.ok w ⟨this_map1, s.trace ++ tr⟩
        | Res.fatal why tr => Res.fatal why ⟨this_map1, s.trace ++ tr⟩)

/-! ## Lifecycle API (`reducer_impl_hash.c`) -/

/-- The function `__cilkrts_internal_merge_two_rmaps`: the value is the map
returned, the state is the trace of the callbacks made. -/
def __cilkrts_internal_merge_two_rmaps (env : sched_env) (ws : __cilkrts_worker)
    (left_map right_map : Option cilkred_map) : Res (List Event) (Option cilkred_map) :=
  match left_map, right_map with
  | none, _ => Res.ok right_map []
  | some l, none => Res.ok (some l) []
  | some l, some r =>
    if l.is_leftmost = true ∨ l.nelem > r.nelem then
      match cilkred_map_merge env l ws r merge_kind.MERGE_INTO_LEFT with
      | Res.ok _ s => Res.ok (some s.this_map) s.trace
      | Res.fatal why s => Res.fatal why s.trace
    else
      match cilkred_map_merge env r ws l merge_kind.MERGE_INTO_RIGHT with
      | Res.ok _ s => Res.ok (some s.this_map) s.trace
      | Res.fatal why s => Res.fatal why s.trace

/-- The function `install_new_reducer_map`: the value is the new map `h`, the
state is the worker with `reducer_map = h`. -/
def install_new_reducer_map (w : __cilkrts_worker) : Res __cilkrts_worker cilkred_map :=
  match cilkred_map_make_map w with
  | Res.ok _ h => Res.ok h { w with reducer_map := some h }
  | Res.fatal why _ => Res.fatal why w

/-- The loop `do { el[0] = el[1]; ++el; } while (el->key);` on the slots from
`el` on. -/
def shift_down : List elem → List elem
  | [] => []
  | [e0] => [e0]
  | _ :: e1 :: rest => e1 :: (if e1.key ≠ 0 then shift_down (e1 :: rest) else e1 :: rest)

/-- The shift loop applied at a slot pointer. -/
def shift_down_at (m : cilkred_map) (p : Nat × Nat) : cilkred_map :=
  match m.buckets.getD p.1 none with
  | none => m
  | some b =>
    { m with buckets :=
        m.buckets.set p.1 (some { nmax := b.nmax, el := b.el.take p.2 ++ shift_down (b.el.drop p.2) }) }

/-- State of the lifecycle calls: the worker they run on (resolved from the
thread-local worker, or the default worker when there is none) and the trace
of the callbacks made. -/
structure worker_state where
  w : __cilkrts_worker
  trace : List Event
deriving DecidableEq, Repr

/-- The function `__cilkrts_hyper_destroy`; `tls` is the result of
`__cilkrts_get_tls_worker()` and `dflt` the worker
`default_cilkrts->workers[default_cilkrts->exiting_worker]`. -/
def __cilkrts_hyper_destroy (tls : Option __cilkrts_worker) (dflt : __cilkrts_worker)
    (hb : __cilkrts_hyperobject_base) : Res worker_state Unit :=
  let w := match tls with
    | some w => w
    | none => dflt
  match w.reducer_map with
  | none => Res.fatal Fault.unsynced_reducer ⟨w, []⟩
  | some h =>
    if h.merging then
      (if tls.isNone then Res.fatal Fault.assertion ⟨w, []⟩
       else Res.fatal Fault.hyperobject_in_use ⟨w, []⟩)
    else
      let key := get_hyperobject_key hb
      match cilkred_map_lookup h key with
      | Res.fatal why h1 => Res.fatal why ⟨{ w with reducer_map := some h1 }, []⟩
      | Res.ok none h1 => Res.fatal Fault.unsynced_reducer ⟨{ w with reducer_map := some h1 }, []⟩
      | Res.ok (some el) h1 =>
        if !elem_is_leftmost (get_slot h1 el) then
          Res.fatal Fault.unsynced_reducer ⟨{ w with reducer_map := some h1 }, []⟩
        else
          let d := elem_destroy (get_slot h1 el)
          let h2 := set_slot h1 el d.1
          let h3 := shift_down_at h2 el
          let h4 := { h3 with nelem := if h3.nelem = 0 then 2 ^ 64 - 1 else h3.nelem - 1 }
          Res.ok () ⟨{ w with reducer_map := some h4 }, d.2⟩

/-- The function `__cilkrts_hyper_create`.  The assertion
`w->reducer_map == h` compares a pointer with itself and is left out. -/
def __cilkrts_hyper_create (tls : Option __cilkrts_worker) (dflt : __cilkrts_worker)
    (hb : __cilkrts_hyperobject_base) : Res __cilkrts_worker Unit :=
  let w := match tls with
    | some w => w
    | none => dflt
  let key := get_hyperobject_key hb
  let view := get_leftmost_view key
  (match w.reducer_map with
    | none => install_new_reducer_map w
    | some h => Res.ok h w).bind (fun h w1 =>
    match cilkred_map_lookup h key with
    | Res.fatal why h1 => Res.fatal why { w1 with reducer_map := some h1 }
    | Res.ok (some _) h1 => Res.fatal Fault.assertion { w1 with reducer_map := some h1 }
    | Res.ok none h1 =>
      if h1.merging then Res.fatal Fault.hyperobject_in_use { w1 with reducer_map := some h1 }
      else
        match cilkred_map_rehash_and_insert h1 (some w1) view hb.addr view with
        | Res.ok _ h2 => Res.ok () { w1 with reducer_map := some h2 }
        | Res.fatal why h2 => Res.fatal why { w1 with reducer_map := some h2 })

/-- State of `__cilkrts_hyper_lookup`: the thread-local worker (none outside a
parallel region) and the trace of the callbacks made. -/
structure tls_state where
  w : Option __cilkrts_worker
  trace : List Event
deriving DecidableEq, Repr

/-- Modelled from the spec: the build option `PRUNE_BRANCHES`, which is set
outside the files at hand.  The spec has the lookup fast path fail fast on a
map that is mid-merge, so the guarded branches are compiled in. -/
def PRUNE_BRANCHES : Bool := false

/-- The function `__cilkrts_hyper_lookup` of `hyperlookup_hash.c`; the value is
the view returned.  `tls` is the result of `__cilkrts_get_tls_worker()` and
`storage` the pointer `allocate_fn` returns if it is called.  The debug option
`force_reduce`, which hands over to the scheduler (`promote_own_deque`), is
off.  The inlined scan selected by `INLINE_MAP_LOOKUP` is the loop of
`cilkred_map_lookup`. -/
def __cilkrts_hyper_lookup (tls : Option __cilkrts_worker) (storage : Nat)
    (hb : __cilkrts_hyperobject_base) : Res tls_state Nat :=
  let key := get_hyperobject_key hb
  match tls with
  | none => Res.ok (get_leftmost_view key) ⟨none, []⟩
  | some w =>
    match (match w.reducer_map with
      | none => install_new_reducer_map w
      | some h => Res.ok h w) with
    | Res.fatal why w1 => Res.fatal why ⟨some w1, []⟩
    | Res.ok h w1 =>
      if !PRUNE_BRANCHES && h.merging then Res.fatal Fault.hyperobject_in_use ⟨some w1, []⟩
      else
        match cilkred_map_lookup h key with
        | Res.fatal why h1 => Res.fatal why ⟨some { w1 with reducer_map := some h1 }, []⟩
        | Res.ok (some el) h1 =>
          Res.ok (get_slot h1 el).view ⟨some { w1 with reducer_map := some h1 }, []⟩
        | Res.ok none h1 =>
          let rep := if h1.is_leftmost then get_leftmost_view key else storage
          let evs :=
            if h1.is_leftmost then []
            else [Event.allocate hb.addr hb.__view_size, Event.identity hb.addr storage]
          match cilkred_map_rehash_and_insert h1 (some w1) key hb.addr rep with
          | Res.ok el h2 =>
            Res.ok (get_slot h2 el).view ⟨some { w1 with reducer_map := some h2 }, evs⟩
          | Res.fatal why h2 => Res.fatal why ⟨some { w1 with reducer_map := some h2 }, evs⟩

/-! ## Specification vocabulary -/

/-- The slots a scan `for (el = b->el; el->key; ++el)` visits: those before the
first zero key. -/
def live (el : List elem) : List elem := el.takeWhile (fun e => e.key != 0)

/-- The live slots of a bucket pointer (none for a null bucket). -/
def blive : Option bucket → List elem
  | none => []
  | some b => live b.el

/-- The bucket pointer `buckets[i]`. -/
def bkt (m : cilkred_map) (i : Nat) : Option bucket := m.buckets.getD i none

/-- The element a key is mapped to: the first live slot with that key in the
bucket the key hashes to. -/
def find (m : cilkred_map) (key : Nat) : Option elem :=
  (blive (bkt m (hashfun m key))).find? (fun e => e.key == key)

/-- Shape of a bucket: `nmax + 1` slots, the non-zero keys form a prefix of at
most `nmax` slots and every slot after it, the sentinel included, has key zero. -/
def bucket_ok (b : bucket) : Prop :=
  b.el.length = b.nmax + 1 ∧ (live b.el).length ≤ b.nmax ∧
    ∀ e ∈ b.el.dropWhile (fun e => e.key != 0), e.key = 0

/-- Shape of a bucket pointer: null, or a well-shaped bucket. -/
def opt_bucket_ok : Option bucket → Prop
  | none => True
  | some b => bucket_ok b

/-- Well-formed map: a positive power-of-two number of buckets, all of them
allocated with the right shape, every live element stored in the bucket its
key hashes to with a non-null view, no key twice, and `nelem` the number of
live elements. -/
def WF (m : cilkred_map) : Prop :=
  0 < m.nbuckets ∧ is_power_of_2 m.nbuckets = true ∧ m.buckets.length = m.nbuckets ∧
  (∀ i < m.nbuckets, opt_bucket_ok (bkt m i)) ∧
  (∀ i < m.nbuckets, ∀ e ∈ blive (bkt m i), hashfun m e.key = i ∧ e.view ≠ 0) ∧
  (∀ i < m.nbuckets, ((blive (bkt m i)).map elem.key).Nodup) ∧
  m.nelem = (m.buckets.map (fun ob => (blive ob).length)).sum

instance (b : bucket) : Decidable (bucket_ok b) := by
  unfold bucket_ok; infer_instance

instance (ob : Option bucket) : Decidable (opt_bucket_ok ob) := by
  cases ob <;> unfold opt_bucket_ok <;> infer_instance

instance (m : cilkred_map) : Decidable (WF m) := by
  unfold WF; infer_instance

/-- Insert the elements of a list one after another with
`cilkred_map_rehash_and_insert`. -/
def insert_all (w : Option __cilkrts_worker) : List elem → cilkred_map → Res cilkred_map Unit
  | [], m => Res.ok () m
  | e :: rest, m =>
    (cilkred_map_rehash_and_insert m w e.key e.hb e.view).bind (fun _ m1 => insert_all w rest m1)

/-- The fields of a map that no map operation but merge and make_map writes. -/
def same_frame (m m1 : cilkred_map) : Prop :=
  m1.g = m.g ∧ m1.merging = m.merging ∧ m1.is_leftmost = m.is_leftmost

/-- The map after the last three statements of `__cilkrts_hyper_destroy` on the
slot `p`: the store of `e0` (the slot with its view nulled), the shift loop and
the decrement of `nelem`. -/
def unlink_slot (h : cilkred_map) (p : Nat × Nat) (e0 : elem) : cilkred_map :=
  { shift_down_at (set_slot h p e0) p with
    nelem := if (shift_down_at (set_slot h p e0) p).nelem = 0 then 2 ^ 64 - 1
      else (shift_down_at (set_slot h p e0) p).nelem - 1 }

/-- A call of the lifecycle API or of the lookup fast path on a descriptor;
`storage` is the pointer `allocate_fn` returns if the lookup calls it. -/
inductive api_call where
  | create (hb : __cilkrts_hyperobject_base)
  | lookup (hb : __cilkrts_hyperobject_base) (storage : Nat)
  | destroy (hb : __cilkrts_hyperobject_base)
deriving DecidableEq, Repr

/-- The descriptor a call is made on. -/
def api_call.hb : api_call → __cilkrts_hyperobject_base
  | api_call.create hb => hb
  | api_call.lookup hb _ => hb
  | api_call.destroy hb => hb

/-- Is the call a `__cilkrts_hyper_destroy`? -/
def api_call.isDestroy : api_call → Bool
  | api_call.destroy _ => true
  | _ => false

/-- One call made by the worker `s.w` as the thread-local worker; the callbacks
are appended to the trace. -/
def run_call (c : api_call) (s : worker_state) : Res worker_state Unit :=
  match c with
  | api_call.create hb =>
    match __cilkrts_hyper_create (some s.w) s.w hb with
    | Res.ok _ w1 => Res.ok () ⟨w1, s.trace⟩
    | Res.fatal why w1 => Res.fatal why ⟨w1, s.trace⟩
  | api_call.lookup hb storage =>
    match __cilkrts_hyper_lookup (some s.w) storage hb with
    | Res.ok _ st => Res.ok () ⟨st.w.getD s.w, s.trace ++ st.trace⟩
    | Res.fatal why st => Res.fatal why ⟨st.w.getD s.w, s.trace ++ st.trace⟩
  | api_call.destroy hb =>
    match __cilkrts_hyper_destroy (some s.w) s.w hb with
    | Res.ok _ st => Res.ok () ⟨st.w, s.trace ++ st.trace⟩
    | Res.fatal why st => Res.fatal why ⟨st.w, s.trace ++ st.trace⟩

/-- A sequence of calls made one after another by the same worker. -/
def run_calls : List api_call → worker_state → Res worker_state Unit
  | [], s => Res.ok () s
  | c :: rest, s => (run_call c s).bind (fun _ s1 => run_calls rest s1)

/-! ## Specification vocabulary for the merge -/

/-- The element of the surviving map the body of the merge loop reduces with,
given the element `cur` the surviving map holds for the key of `oe`: the
element found or, when merging to the leftmost map and the incoming view is not
the leftmost view itself, the materialised leftmost element; none when the
incoming element is moved. -/
def merge_target (mtl : Bool) (cur : Option elem) (oe : elem) : Option elem :=
  match cur with
  | some t => some t
  | none => if mtl = true ∧ oe.key ≠ oe.view then some ⟨oe.key, oe.hb, oe.key⟩ else none

/-- The element the surviving map holds for the key of `oe` after the loop body. -/
def surv_elem (kind : merge_kind) (mtl : Bool) (cur : Option elem) (oe : elem) : elem :=
  match merge_target mtl cur oe with
  | none => oe
  | some t =>
    match kind with
    | merge_kind.MERGE_INTO_RIGHT => ⟨t.key, t.hb, oe.view⟩
    | _ => t

/-- The slot of the other map after the loop body. -/
def other_after (kind : merge_kind) (mtl : Bool) (cur : Option elem) (oe : elem) : elem :=
  match merge_target mtl cur oe with
  | none => ⟨oe.key, oe.hb, 0⟩
  | some t =>
    match kind with
    | merge_kind.MERGE_INTO_RIGHT => ⟨oe.key, oe.hb, t.view⟩
    | _ => oe

/-- The callbacks the loop body makes. -/
def loop_events (kind : merge_kind) (mtl : Bool) (cur : Option elem) (oe : elem) : List Event :=
  match merge_target mtl cur oe with
  | none => []
  | some t =>
    match kind with
    | merge_kind.MERGE_INTO_RIGHT => [Event.reduce oe.key oe.hb oe.view t.view]
    | _ => [Event.reduce oe.key oe.hb t.view oe.view]

/-- The callbacks `cilkred_map_destroy_map` makes for one live slot. -/
def dealloc_of (el : elem) : List Event :=
  if el.view ≠ 0 then (elem_destroy el).2 else []

/-- The live elements of a map in the order the loops visit them. -/
def entries (m : cilkred_map) : List elem := (m.buckets.take m.nbuckets).flatMap blive

/-- The body of the merge loop run over a list of elements of the other map;
the value is the list of those slots afterwards. -/
def merge_list (env : sched_env) (w : __cilkrts_worker) (kind : merge_kind)
    (merge_to_leftmost : Bool) : List elem → merge_state → Res merge_state (List elem)
  | [], s => Res.ok [] s
  | oe :: rest, s =>
    (merge_elem env w kind merge_to_leftmost oe s).bind (fun e1 s1 =>
      (merge_list env w kind merge_to_leftmost rest s1).bind (fun rest1 s2 =>
        Res.ok (e1 :: rest1) s2))

/-- The element a callback is made for. -/
def Event.key? : Event → Option Nat
  | Event.reduce key _ _ _ => some key
  | Event.deallocate key _ _ => some key
  | Event.allocate _ _ => none
  | Event.identity _ _ => none

/-- The callbacks of a trace made for the element of key `K`. -/
def events_of (K : Nat) (tr : List Event) : List Event :=
  tr.filter (fun ev => ev.key? == some K)

/-- Is the event a call of `reduce_fn`? -/
def Event.isReduce : Event → Bool
  | Event.reduce _ _ _ _ => true
  | _ => false

/-- No two live elements of the map have the same key. -/
def no_dup_keys (m : cilkred_map) : Prop := ((entries m).map elem.key).Nodup

instance (m : cilkred_map) : Decidable (no_dup_keys m) := by
  unfold no_dup_keys; infer_instance

/-- The shape of a map apart from the absence of duplicate keys: a positive
power-of-two number of buckets, all of them allocated with the right shape,
every live element stored in the bucket its key hashes to with a non-null
view, and `nelem` the number of live elements. -/
def shaped (m : cilkred_map) : Prop :=
  0 < m.nbuckets ∧ is_power_of_2 m.nbuckets = true ∧ m.buckets.length = m.nbuckets ∧
  (∀ i < m.nbuckets, opt_bucket_ok (bkt m i)) ∧
  (∀ i < m.nbuckets, ∀ e ∈ blive (bkt m i), hashfun m e.key = i ∧ e.view ≠ 0) ∧
  m.nelem = (m.buckets.map (fun ob => (blive ob).length)).sum

instance (m : cilkred_map) : Decidable (shaped m) := by
  unfold shaped; infer_instance

/-- The maps reached from the map `cilkred_map_make_map` returns by returning
calls of `cilkred_map_rehash`, `cilkred_map_rehash_and_insert` and
`cilkred_map_merge` (as the surviving map, whatever the other map is), and by
`__cilkrts_set_leftmost_reducer_map`. -/
inductive reachable : cilkred_map → Prop where
  | make (w : __cilkrts_worker) (m : cilkred_map) :
    cilkred_map_make_map w = Res.ok () m → reachable m
  | rehash (m m1 : cilkred_map) (w : Option __cilkrts_worker) :
    reachable m → cilkred_map_rehash m w = Res.ok () m1 → reachable m1
  | insert (m m1 : cilkred_map) (w : Option __cilkrts_worker) (key hb view : Nat) (p : Nat × Nat) :
    reachable m → cilkred_map_rehash_and_insert m w key hb view = Res.ok p m1 → reachable m1
  | set_leftmost (m : cilkred_map) (is_leftmost : Bool) :
    reachable m → reachable (__cilkrts_set_leftmost_reducer_map m is_leftmost)
  | merge (env : sched_env) (m other_map : cilkred_map) (w w1 : __cilkrts_worker)
      (kind : merge_kind) (st : merge_state) :
    reachable m → cilkred_map_merge env m w other_map kind = Res.ok w1 st →
    reachable st.this_map

/-- The maps reached from the map `cilkred_map_make_map` returns by returning
calls of `cilkred_map_rehash_and_insert` on keys that `cilkred_map_lookup` does
not find (as all its callers ensure) and by the removals of returning
`__cilkrts_hyper_destroy` calls. -/
inductive load_reachable : cilkred_map → Prop where
  | make (w : __cilkrts_worker) (m : cilkred_map) :
    cilkred_map_make_map w = Res.ok () m → load_reachable m
  | insert (m m1 : cilkred_map) (w : Option __cilkrts_worker) (key hb view : Nat) (p : Nat × Nat) :
    load_reachable m → cilkred_map_lookup m key = Res.ok none m →
    cilkred_map_rehash_and_insert m w key hb view = Res.ok p m1 → load_reachable m1
  | destroy (m m1 : cilkred_map) (tls : Option __cilkrts_worker) (dflt : __cilkrts_worker)
      (hb : __cilkrts_hyperobject_base) (st : worker_state) :
    load_reachable m → (tls.getD dflt).reducer_map = some m →
    __cilkrts_hyper_destroy tls dflt hb = Res.ok () st → st.w.reducer_map = some m1 →
    load_reachable m1

/-- The bucket shape in terms of slot indices: `nmax + 1` slots are allocated,
the slot at index `nmax` has key zero, and for some `n <= nmax` the slots
`el[0..n)` have non-zero keys and the slots `el[n..nmax]` have key zero. -/
def bucket_shape (b : bucket) : Prop :=
  b.el.length = b.nmax + 1 ∧ (b.el.getD b.nmax null_elem).key = 0 ∧
  ∃ n, n ≤ b.nmax ∧ (∀ i, i < n → (b.el.getD i null_elem).key ≠ 0) ∧
    ∀ i, n ≤ i → i ≤ b.nmax → (b.el.getD i null_elem).key = 0

/-- The number of iterations of the loop
`do { el[0] = el[1]; ++el; } while (el->key);` on the slots from `el` on:
iteration `i` (counted from 0) writes the slot `el[i]` and reads the slot
`el[i + 1]`, so the last slot the loop touches is `el[steps]`. -/
def shift_down_steps : List elem → Nat
  | [] => 0
  | [_] => 1
  | _ :: e1 :: rest => 1 + (if e1.key ≠ 0 then shift_down_steps (e1 :: rest) else 0)

/-- The search for the least power of two that is at least `sz`: the powers
`p`, `2 * p`, `4 * p`, ... are tried in turn, at most `fuel` doublings. -/
def pow2_search : Nat → Nat → Nat → Nat
  | 0, p, _ => p
  | fuel + 1, p, sz => if sz ≤ p then p else pow2_search fuel (2 * p) sz

/-- The least power of two that is at least `sz`. -/
def least_pow2_ge (sz : Nat) : Nat := pow2_search sz 1 sz

/-- The bucket capacity rounding in the words of the specification, on the
LP64 layout: the byte size `sz = 32 + 24 * n` of a bucket of capacity `n` is
rounded up to `S`, which is 64 below 64 bytes, the least power of two that is
at least `sz` from 64 bytes up to 2047, and `sz` itself from 2048 bytes on; the
capacity is the number of whole elements that fit into `S` bytes after the
bucket header. -/
def roundup_spec (n : Nat) : Nat :=
  let sz := 32 + 24 * n
  let S := if sz < 64 then 64 else if sz < 2048 then least_pow2_ge sz else sz
  (S - 32) / 24

/-! ## Sample inputs -/

/-- A worker at address 100 with global state 7 and no reducer map. -/
def sample_worker : __cilkrts_worker := ⟨100, 7, 200, none⟩

/-- Five elements with distinct keys; the fourth key hashes like the first in small tables. -/
def sample_elems : List elem :=
  [⟨8, 1, 8⟩, ⟨16, 2, 17⟩, ⟨24, 3, 25⟩, ⟨2097160, 4, 33⟩, ⟨40, 5, 41⟩]

/-- The map reached from `cilkred_map_make_map` by inserting the keys 8 (with
its leftmost view), 40 and 24 with `cilkred_map_rehash_and_insert`: four
buckets, the keys 8 and 40 share bucket 1. -/
def sample_map : cilkred_map :=
  ⟨7, 3, 4,
    [none,
     some ⟨4, [⟨8, 1, 8⟩, ⟨40, 5, 41⟩, ⟨0, 0, 0⟩, ⟨0, 0, 0⟩, ⟨0, 0, 0⟩]⟩,
     none,
     some ⟨1, [⟨24, 3, 25⟩, ⟨0, 0, 0⟩]⟩],
    false, false⟩

/-- The sample worker owning the sample map. -/
def sample_owner : __cilkrts_worker := ⟨100, 7, 200, some sample_map⟩

/-- A descriptor at address 8 whose leftmost view is the descriptor itself (key 8). -/
def sample_hb : __cilkrts_hyperobject_base := ⟨8, 0, 4⟩

/-- A descriptor at address 10 whose leftmost view lies 6 bytes further (key 16). -/
def sample_hb2 : __cilkrts_hyperobject_base := ⟨10, 6, 4⟩

/-- Scheduler state in which the sample worker is the thread-local worker and
owns every frame. -/
def sample_env : sched_env := ⟨100, fun _ => 100⟩

/-- A one-bucket map holding the key 8 with the private view 9. -/
def map_8_9 : cilkred_map := ⟨7, 1, 1, [some ⟨1, [⟨8, 1, 9⟩, ⟨0, 0, 0⟩]⟩], false, false⟩

/-- A one-bucket map holding the key 8 with the private view 10. -/
def map_8_10 : cilkred_map := ⟨7, 1, 1, [some ⟨1, [⟨8, 1, 10⟩, ⟨0, 0, 0⟩]⟩], false, false⟩

/-- A one-bucket map holding the key 8 with its leftmost view. -/
def map_8_8 : cilkred_map := ⟨7, 1, 1, [some ⟨1, [⟨8, 1, 8⟩, ⟨0, 0, 0⟩]⟩], false, false⟩

/-- A one-bucket map holding the key 24 with the private view 25. -/
def map_24_25 : cilkred_map := ⟨7, 1, 1, [some ⟨1, [⟨24, 3, 25⟩, ⟨0, 0, 0⟩]⟩], false, false⟩

/-- The empty leftmost map: `cilkred_map_make_map` followed by
`__cilkrts_set_leftmost_reducer_map(h, 1)`. -/
def empty_leftmost_map : cilkred_map := ⟨7, 0, 1, [none], false, true⟩

/-- The sample worker owning the empty leftmost map. -/
def leftmost_owner : __cilkrts_worker := ⟨100, 7, 200, some empty_leftmost_map⟩

/-- A descriptor at address 24 whose leftmost view is the descriptor itself (key 24). -/
def hb_24 : __cilkrts_hyperobject_base := ⟨24, 0, 4⟩

/-- A descriptor at address 40 whose leftmost view is the descriptor itself (key 40). -/
def hb_40 : __cilkrts_hyperobject_base := ⟨40, 0, 4⟩

/-- The map of the sample worker after its first lookup of the reducer of key 8
on the storage 9. -/
def lookup_map_1 : cilkred_map := ⟨7, 1, 1, [some ⟨1, [⟨8, 8, 9⟩, ⟨0, 0, 0⟩]⟩], false, false⟩

/-- The map of the sample worker after it has also registered the reducer of
key 40 and looked up the reducer of key 24 on the storage 25. -/
def lookup_map_3 : cilkred_map :=
  ⟨7, 3, 4,
    [none,
     some ⟨4, [⟨8, 8, 9⟩, ⟨40, 40, 40⟩, ⟨0, 0, 0⟩, ⟨0, 0, 0⟩, ⟨0, 0, 0⟩]⟩,
     none,
     some ⟨1, [⟨24, 24, 25⟩, ⟨0, 0, 0⟩]⟩],
    false, false⟩

/-- The sample worker owning `lookup_map_1`. -/
def lookup_owner_1 : __cilkrts_worker := ⟨100, 7, 200, some lookup_map_1⟩

/-- The sample worker owning `lookup_map_3`. -/
def lookup_owner_3 : __cilkrts_worker := ⟨100, 7, 200, some lookup_map_3⟩

/-- The map `cilkred_map_make_map` returns to the sample worker. -/
def fresh_map : cilkred_map := ⟨7, 0, 1, [none], false, false⟩

/-- The map reached from `fresh_map` by inserting the five sample elements. -/
def five_map : cilkred_map :=
  ⟨7, 5, 8,
    [some ⟨1, [⟨2097160, 4, 33⟩, ⟨0, 0, 0⟩]⟩,
     some ⟨1, [⟨8, 1, 8⟩, ⟨0, 0, 0⟩]⟩,
     some ⟨1, [⟨16, 2, 17⟩, ⟨0, 0, 0⟩]⟩,
     some ⟨1, [⟨24, 3, 25⟩, ⟨0, 0, 0⟩]⟩,
     none,
     some ⟨1, [⟨40, 5, 41⟩, ⟨0, 0, 0⟩]⟩,
     none,
     none],
    false, false⟩

/-- The map the sample worker reaches from `fresh_map` by registering the
reducer of key 8, looking up the reducers of keys 40 and 24 and destroying the
reducer of key 8. -/
def after_calls_map : cilkred_map :=
  ⟨7, 2, 4,
    [none,
     some ⟨4, [⟨40, 40, 41⟩, ⟨0, 0, 0⟩, ⟨0, 0, 0⟩, ⟨0, 0, 0⟩, ⟨0, 0, 0⟩]⟩,
     none,
     some ⟨1, [⟨24, 24, 25⟩, ⟨0, 0, 0⟩]⟩],
    false, false⟩

/-- The map `map_8_9` after a rehash. -/
def map_8_9_rehashed : cilkred_map :=
  ⟨7, 1, 2, [none, some ⟨1, [⟨8, 1, 9⟩, ⟨0, 0, 0⟩]⟩], false, false⟩

/-- The map `map_8_8` made the leftmost map. -/
def leftmost_map_8_8 : cilkred_map := __cilkrts_set_leftmost_reducer_map map_8_8 true

/-- A one-bucket map as `cilkred_map_destroy_map` may find it at the end of a
merge: a leftmost element (key 8), an element whose view was moved away and
nulled (key 16) and an element with a private view (key 24). -/
def teardown_map : cilkred_map :=
  ⟨7, 3, 1,
    [some ⟨4, [⟨8, 1, 8⟩, ⟨16, 2, 0⟩, ⟨24, 3, 25⟩, ⟨0, 0, 0⟩, ⟨0, 0, 0⟩]⟩],
    false, false⟩

/-- The sample map while a merge is running on it. -/
def merging_map : cilkred_map := { sample_map with merging := true }

/-- The sample worker owning the merging map. -/
def merging_owner : __cilkrts_worker := ⟨100, 7, 200, some merging_map⟩

/-- The one-bucket map of the scenario of bucket growth: global state `g`, a
bucket of capacity `nmax` whose first slots hold the elements `els`, all other
slots zeroed. -/
def one_bucket_map (g nmax : Nat) (els : List elem) : cilkred_map :=
  ⟨g, els.length, 1, [some ⟨nmax, els ++ List.replicate (nmax + 1 - els.length) null_elem⟩],
    false, false⟩

/-- The survivor of the merge of `map_24_25` into `map_8_9`: the table was
rehashed to two buckets and both keys share bucket 1. -/
def merged_8_24 : cilkred_map :=
  ⟨7, 2, 2,
    [none, some ⟨4, [⟨8, 1, 9⟩, ⟨24, 3, 25⟩, ⟨0, 0, 0⟩, ⟨0, 0, 0⟩, ⟨0, 0, 0⟩]⟩],
    false, false⟩

/-- The sample worker owning `map_8_8`. -/
def owner_8_8 : __cilkrts_worker := ⟨100, 7, 200, some map_8_8⟩

/-- The map `map_8_8` after the reducer of key 8 has been destroyed. -/
def emptied_map : cilkred_map :=
  ⟨7, 0, 1, [some ⟨1, [⟨0, 0, 0⟩, ⟨0, 0, 0⟩]⟩], false, false⟩

/-! ## Lists, bits and buckets: auxiliary facts -/

theorem getD_set_eq {α : Type} (l : List α) (i j : Nat) (x d : α) :
    (l.set i x).getD j d = if i = j ∧ i < l.length then x else l.getD j d := by
  simp only [List.getD_eq_getElem?_getD, List.getElem?_set]
  by_cases h : i = j
  · subst h
    by_cases h2 : i < l.length
    · simp [h2]
    · simp [h2, List.getElem?_eq_none (Nat.le_of_not_lt h2)]
  · simp [h]

theorem sum_map_set {α : Type} (f : α → Nat) (l : List α) (i : Nat) (x d : α)
    (h : i < l.length) :
    ((l.set i x).map f).sum + f (l.getD i d) = (l.map f).sum + f x := by
  induction l generalizing i with
  | nil => simp at h
  | cons a t ih =>
    cases i with
    | zero => simp; omega
    | succ i =>
      have := ih i (by simpa using h)
      simp only [List.set_cons_succ, List.map_cons, List.sum_cons, List.getD_cons_succ]
      omega

theorem live_append_zero (L Z : List elem) (hL : ∀ e ∈ L, e.key ≠ 0)
    (hZ : ∀ e ∈ Z, e.key = 0) : live (L ++ Z) = L := by
  unfold live
  rw [List.takeWhile_append_of_pos (by intro a ha; simpa using hL a ha)]
  cases Z with
  | nil => simp
  | cons z Z =>
    have : z.key = 0 := hZ z (by simp)
    simp [List.takeWhile_cons, this]

theorem live_keys_ne (el : List elem) : ∀ e ∈ live el, e.key ≠ 0 := by
  intro e he
  have := List.mem_takeWhile_imp he
  simpa using this

/-- Normal form of a well-shaped bucket. -/
theorem bucket_ok_split (b : bucket) (h : bucket_ok b) :
    ∃ z Z, b.el = live b.el ++ z :: Z ∧ z.key = 0 ∧ (∀ e ∈ Z, e.key = 0) ∧
      (live b.el).length + Z.length = b.nmax := by
  obtain ⟨hlen, hlive, hz⟩ := h
  have hsplit := List.takeWhile_append_dropWhile (fun e : elem => e.key != 0) b.el
  cases hd : b.el.dropWhile (fun e => e.key != 0) with
  | nil =>
    rw [hd] at hsplit
    have : (live b.el).length = b.el.length := by
      unfold live; rw [List.append_nil] at hsplit; rw [hsplit]
    omega
  | cons z Z =>
    rw [hd] at hsplit hz
    refine ⟨z, Z, ?_, hz z (by simp), fun e he => hz e (by simp [he]), ?_⟩
    · exact hsplit.symm
    · have h1 : b.el.length = (live b.el).length + (Z.length + 1) := by
        conv_lhs => rw [← hsplit]
        simp [live]
      omega

/-- A bucket in normal form is well shaped. -/
theorem bucket_ok_of_split (nmax : Nat) (L Z : List elem) (z : elem)
    (hL : ∀ e ∈ L, e.key ≠ 0) (hz : z.key = 0) (hZ : ∀ e ∈ Z, e.key = 0)
    (hlen : L.length + Z.length = nmax) :
    bucket_ok ⟨nmax, L ++ z :: Z⟩ ∧ live (L ++ z :: Z) = L := by
  have hlive : live (L ++ z :: Z) = L :=
    live_append_zero L (z :: Z) hL (by intro e he; simp at he; rcases he with rfl | he; exact hz; exact hZ e he)
  refine ⟨⟨?_, ?_, ?_⟩, hlive⟩
  · simp; omega
  · show (live (L ++ z :: Z)).length ≤ nmax
    rw [hlive]; omega
  · show ∀ e ∈ (L ++ z :: Z).dropWhile (fun e => e.key != 0), e.key = 0
    have h1 : (L ++ z :: Z).dropWhile (fun e => e.key != 0) = z :: Z := by
      have h2 := List.takeWhile_append_dropWhile (fun e : elem => e.key != 0) (L ++ z :: Z)
      have h3 : List.takeWhile (fun e : elem => e.key != 0) (L ++ z :: Z) = L := hlive
      rw [h3] at h2
      exact List.append_cancel_left h2
    rw [h1]
    intro e he
    simp at he
    rcases he with rfl | he
    · exact hz
    · exact hZ e he

theorem find_empty_spec (L Z : List elem) (z : elem) (n i : Nat)
    (hL : ∀ e ∈ L, e.key ≠ 0) (hz : z.key = 0) :
    find_empty (L ++ z :: Z) n i = if L.length < n then some (i + L.length) else none := by
  induction L generalizing n i with
  | nil =>
    simp only [List.nil_append, find_empty, List.length_nil, Nat.add_zero]
    by_cases hn : n = 0
    · simp [hn]
    · simp [hn, hz, Nat.pos_of_ne_zero hn]
  | cons a L ih =>
    have ha : a.key ≠ 0 := hL a (by simp)
    have hstep : find_empty (a :: L ++ z :: Z) n i =
        if n = 0 then none else if a.key = 0 then some i
          else find_empty (L ++ z :: Z) (n - 1) (i + 1) := rfl
    rw [hstep, List.length_cons]
    by_cases hn : n = 0
    · simp [hn]
    · rw [if_neg hn, if_neg ha, ih (n - 1) (i + 1) (fun e he => hL e (by simp [he]))]
      by_cases h1 : L.length < n - 1
      · rw [if_pos h1, if_pos (by omega)]; congr 1; omega
      · rw [if_neg h1, if_neg (by omega)]

theorem roundup_small : ∀ n < 84, n ≤ roundup n ∧ 0 < roundup n := by
  decide

theorem roundup_ge (n : Nat) : n ≤ roundup n := by
  by_cases h : n < 84
  · exact (roundup_small n h).1
  · have h1 : ¬ (32 + n * 24 < 64) := by omega
    have h2 : ¬ (32 + n * 24 < 2048) := by omega
    simp only [roundup, sizeof_bucket, if_neg h1, if_neg h2]
    omega

theorem roundup_double_gt (n : Nat) : n < roundup (2 * n) := by
  rcases Nat.eq_zero_or_pos n with h | h
  · subst h; decide
  · have := roundup_ge (2 * n)
    omega

/-- What `cilkred_map_grow` followed by the write of a new element does to a
well-shaped bucket pointer: the new element is appended to the live slots. -/
theorem grow_spec (ob : Option bucket) (hok : opt_bucket_ok ob) (e : elem) (he : e.key ≠ 0) :
    let r := cilkred_map_grow ob
    let nb : bucket := ⟨r.1.nmax, r.1.el.set r.2 e⟩
    bucket_ok nb ∧ live nb.el = blive ob ++ [e] ∧ r.2 = (blive ob).length ∧
      nb.el.getD r.2 null_elem = e := by
  have realloc : ∀ (old : List elem) (nmax : Nat) (L : List elem), old.take nmax = L →
      L.length = nmax → (∀ x ∈ L, x.key ≠ 0) →
      let r := grow_realloc old nmax
      let nb : bucket := ⟨r.1.nmax, r.1.el.set r.2 e⟩
      bucket_ok nb ∧ live nb.el = L ++ [e] ∧ r.2 = L.length ∧ nb.el.getD r.2 null_elem = e := by
    intro old nmax L hL hlen hnz
    have hgt := roundup_double_gt nmax
    obtain ⟨c, hc⟩ : ∃ c, roundup (2 * nmax) + 1 - nmax = c + 2 := ⟨roundup (2 * nmax) - nmax - 1, by omega⟩
    have hset : (L ++ List.replicate (c + 2) null_elem).set nmax e =
        (L ++ [e]) ++ null_elem :: List.replicate c null_elem := by
      rw [List.set_append, if_neg (by omega), hlen, Nat.sub_self]
      simp [List.replicate_succ]
    have hk := bucket_ok_of_split (roundup (2 * nmax)) (L ++ [e]) (List.replicate c null_elem)
      null_elem (by intro x hx; simp at hx; rcases hx with hx | rfl; exact hnz x hx; exact he)
      rfl (by intro x hx; rw [List.eq_of_mem_replicate hx]; rfl) (by simp; omega)
    simp only [grow_realloc, hL, hc, hset]
    refine ⟨hk.1, hk.2, hlen.symm, ?_⟩
    rw [List.getD_eq_getElem?_getD, List.getElem?_append_left (by simp; omega),
      List.getElem?_append_right (by omega)]
    simp [hlen]
  cases ob with
  | none =>
    have := realloc [] 0 [] rfl rfl (by simp)
    simpa [cilkred_map_grow, blive] using this
  | some b =>
    obtain ⟨z, Z, hsplit, hz, hZ, hlen⟩ := bucket_ok_split b hok
    have hnz := live_keys_ne b.el
    simp only [cilkred_map_grow, blive]
    generalize live b.el = L at hsplit hlen hnz
    have hfe := find_empty_spec L Z z b.nmax 0 hnz hz
    rw [← hsplit] at hfe
    by_cases hfull : L.length < b.nmax
    · rw [if_pos hfull] at hfe
      simp only [hfe, Nat.zero_add]
      cases Z with
      | nil => simp at hlen; omega
      | cons z2 Z2 =>
        have hset : b.el.set L.length e = (L ++ [e]) ++ z2 :: Z2 := by
          rw [hsplit, List.set_append, if_neg (by omega), Nat.sub_self]
          simp
        have hk := bucket_ok_of_split b.nmax (L ++ [e]) Z2 z2
          (by intro x hx; simp at hx; rcases hx with hx | rfl; exact hnz x hx; exact he)
          (hZ z2 (by simp)) (fun x hx => hZ x (by simp [hx])) (by simp at hlen ⊢; omega)
        rw [hset]
        refine ⟨hk.1, hk.2, trivial, ?_⟩
        rw [List.getD_eq_getElem?_getD, List.getElem?_append_left (by simp),
          List.getElem?_append_right (by omega)]
        simp
    · rw [if_neg hfull] at hfe
      simp only [hfe]
      have hZ0 : Z = [] := by
        cases Z with
        | nil => rfl
        | cons _ _ => simp at hlen; omega
      subst hZ0
      simp at hlen
      have htake : b.el.take b.nmax = L := by
        rw [hsplit, ← hlen]; simp
      exact realloc b.el b.nmax L htake hlen hnz

theorem hashfun_lt (m : cilkred_map) (key : Nat) (h : 0 < m.nbuckets) :
    hashfun m key < m.nbuckets := by
  unfold hashfun
  rw [if_neg (by omega)]
  have := @Nat.and_le_right (((key ^^^ key >>> 21) ^^^ (key ^^^ key >>> 21) >>> 8) ^^^
    ((key ^^^ key >>> 21) ^^^ (key ^^^ key >>> 21) >>> 8) >>> 3) (m.nbuckets - 1)
  simp only []
  omega

/-- The hash of a key depends on the map through `nbuckets` only. -/
theorem hashfun_congr (m m1 : cilkred_map) (key : Nat) (h : m1.nbuckets = m.nbuckets) :
    hashfun m1 key = hashfun m key := by
  unfold hashfun; rw [h]

theorem live_getElem (el : List elem) (p : Nat) (e : elem) (h : (live el)[p]? = some e) :
    el[p]? = some e := by
  induction el generalizing p with
  | nil => simp [live] at h
  | cons a t ih =>
    unfold live at h
    rw [List.takeWhile_cons] at h
    by_cases ha : (a.key != 0) = true
    · rw [if_pos ha] at h
      cases p with
      | zero => simpa using h
      | succ p => simpa using ih p (by simpa using h)
    · rw [if_neg ha] at h; simp at h

/-- The scan of `cilkred_map_lookup` finds the first live slot with the key. -/
theorem lookup_scan_spec (key : Nat) (el : List elem) (j : Nat)
    (hv : ∀ e ∈ live el, e.view ≠ 0) :
    (((live el).find? (fun e => e.key == key) = none ∧ lookup_scan key el j = Res.ok none ()) ∨
     (∃ p e, (live el).find? (fun e => e.key == key) = some e ∧
        lookup_scan key el j = Res.ok (some (j + p)) () ∧ (live el)[p]? = some e)) := by
  induction el generalizing j with
  | nil => left; simp [live, lookup_scan]
  | cons a t ih =>
    by_cases ha : a.key = 0
    · left; simp [live, lookup_scan, ha]
    · have hlive : live (a :: t) = a :: live t := by simp [live, List.takeWhile_cons, ha]
      rw [hlive] at hv ⊢
      by_cases hk : a.key = key
      · right
        refine ⟨0, a, by simp [hk], ?_, by simp⟩
        have : a.view ≠ 0 := hv a (by simp)
        rw [lookup_scan, if_neg ha, if_pos hk, if_neg this]; rfl
      · have hstep : lookup_scan key (a :: t) j = lookup_scan key t (j + 1) := by
          simp [lookup_scan, ha, hk]
        rw [hstep]
        rcases ih (j + 1) (fun e he => hv e (by simp [he])) with ⟨h1, h2⟩ | ⟨p, e, h1, h2, h3⟩
        · left; exact ⟨by simp [hk, h1], h2⟩
        · right
          refine ⟨p + 1, e, by simp [hk, h1], ?_, by simpa using h3⟩
          rw [h2, Nat.add_assoc, Nat.add_comm 1 p]

/-- Membership in a bucket's live slots, read off `find`. -/
theorem find_some_mem (m : cilkred_map) (key : Nat) (e : elem) (h : find m key = some e) :
    e ∈ blive (bkt m (hashfun m key)) ∧ e.key = key := by
  unfold find at h
  exact ⟨List.mem_of_find?_eq_some h, by simpa using List.find?_some h⟩

theorem nodup_find (L : List elem) (hnd : (L.map elem.key).Nodup) (e : elem) (he : e ∈ L) :
    L.find? (fun x => x.key == e.key) = some e := by
  induction L with
  | nil => simp at he
  | cons a t ih =>
    simp only [List.map_cons, List.nodup_cons] at hnd
    rw [List.find?_cons]
    rcases List.mem_cons.1 he with rfl | h
    · simp
    · have hne : a.key ≠ e.key := by
        intro heq
        exact hnd.1 (heq ▸ List.mem_map_of_mem elem.key h)
      have hb : (a.key == e.key) = false := by simpa using hne
      rw [hb]; exact ih hnd.2 h

/-- In a well-formed map every live element is what its key is mapped to. -/
theorem find_of_mem (m : cilkred_map) (hwf : WF m) (i : Nat) (hi : i < m.nbuckets) (e : elem)
    (he : e ∈ blive (bkt m i)) : find m e.key = some e := by
  obtain ⟨_, _, _, _, hpl, hnd, _⟩ := hwf
  have hh := (hpl i hi e he).1
  unfold find
  rw [hh]
  exact nodup_find _ (hnd i hi) e he

theorem find_view_ne (m : cilkred_map) (hwf : WF m) (key : Nat) (e : elem)
    (h : find m key = some e) : e.view ≠ 0 ∧ e.key ≠ 0 ∧ e.key = key := by
  obtain ⟨hm, hk⟩ := find_some_mem m key e h
  have hlt := hashfun_lt m key hwf.1
  refine ⟨(hwf.2.2.2.2.1 _ hlt e hm).2, ?_, hk⟩
  cases hb : bkt m (hashfun m key) with
  | none => rw [hb] at hm; simp [blive] at hm
  | some b => rw [hb] at hm; exact live_keys_ne b.el e hm

/-- The function `cilkred_map_lookup` on a well-formed map: it returns, leaves
the map alone, and the slot it points to is the element the key is mapped to. -/
theorem lookup_spec (m : cilkred_map) (hwf : WF m) (key : Nat) :
    ∃ r, cilkred_map_lookup m key = Res.ok r m ∧ r.map (get_slot m) = find m key ∧
      (∀ p, r = some p → p.1 = hashfun m key ∧
        (blive (bkt m (hashfun m key)))[p.2]? = find m key) := by
  have hlt := hashfun_lt m key hwf.1
  have hv := hwf.2.2.2.2.1 _ hlt
  unfold cilkred_map_lookup find
  simp only []
  cases hb : bkt m (hashfun m key) with
  | none =>
    have hb2 : m.buckets.getD (hashfun m key) none = none := hb
    rw [hb2]
    exact ⟨none, rfl, by simp [blive], by simp⟩
  | some b =>
    have hb2 : m.buckets.getD (hashfun m key) none = some b := hb
    rw [hb2]
    rw [hb] at hv
    simp only [blive] at hv ⊢
    rcases lookup_scan_spec key b.el 0 (fun e he => (hv e he).2) with ⟨h1, h2⟩ | ⟨p, e, h1, h2, h3⟩
    · rw [h2, h1]; exact ⟨none, rfl, rfl, by simp⟩
    · rw [h2, h1]
      refine ⟨some (hashfun m key, 0 + p), rfl, ?_, ?_⟩
      · simp only [Option.map_some', get_slot, hb2, Nat.zero_add]
        rw [List.getD_eq_getElem?_getD, live_getElem b.el p e h3]; rfl
      · intro q hq
        cases hq
        simp [h3]

theorem same_frame_refl (m : cilkred_map) : same_frame m m := ⟨rfl, rfl, rfl⟩

theorem same_frame_trans {a b c : cilkred_map} (h1 : same_frame a b) (h2 : same_frame b c) :
    same_frame a c :=
  ⟨h2.1.trans h1.1, h2.2.1.trans h1.2.1, h2.2.2.trans h1.2.2⟩

theorem g_ok_congr (w : Option __cilkrts_worker) (m m1 : cilkred_map) (h : m1.g = m.g) :
    g_ok w m1 = g_ok w m := by
  cases w <;> simp [g_ok, h]

/-- The function `cilkred_map_insert_no_rehash` on a well-formed map that does
not hold the key: it returns a pointer to a slot holding the new element, the
element is appended to the live slots of its bucket and nothing else changes. -/
theorem insert_no_rehash_spec (m : cilkred_map) (hwf : WF m) (w : Option __cilkrts_worker)
    (hg : g_ok w m = true) (key hb view : Nat) (hk : key ≠ 0) (hv : view ≠ 0)
    (hnew : find m key = none) :
    ∃ p m1, cilkred_map_insert_no_rehash m w key hb view = Res.ok p m1 ∧ WF m1 ∧
      get_slot m1 p = ⟨key, hb, view⟩ ∧
      (p.1 = hashfun m key ∧ p.2 = (blive (bkt m (hashfun m key))).length) ∧
      m1.nbuckets = m.nbuckets ∧ m1.nelem = m.nelem + 1 ∧ same_frame m m1 ∧
      (∀ i, blive (bkt m1 i) =
        if i = hashfun m key then blive (bkt m i) ++ [⟨key, hb, view⟩] else blive (bkt m i)) := by
  obtain ⟨hpos, hpow, hlen, hshape, hplace, hnodup, hcount⟩ := hwf
  have hlt := hashfun_lt m key hpos
  have hgs := grow_spec (bkt m (hashfun m key)) (hshape _ hlt) ⟨key, hb, view⟩ hk
  simp only [] at hgs
  obtain ⟨hg1, hg2, hg3, hg4⟩ := hgs
  unfold cilkred_map_insert_no_rehash
  rw [hg]
  simp only [Bool.not_true, Bool.false_eq_true, if_false, if_neg hk, if_neg hv]
  refine ⟨_, _, rfl, ?_⟩
  have hbkt : ∀ i, bkt
      { m with
        buckets := m.buckets.set (hashfun m key)
          (some ⟨(cilkred_map_grow (m.buckets.getD (hashfun m key) none)).1.nmax,
            (cilkred_map_grow (m.buckets.getD (hashfun m key) none)).1.el.set
              (cilkred_map_grow (m.buckets.getD (hashfun m key) none)).2 ⟨key, hb, view⟩⟩),
        nelem := m.nelem + 1 } i =
      if i = hashfun m key then
        some ⟨(cilkred_map_grow (bkt m (hashfun m key))).1.nmax,
          (cilkred_map_grow (bkt m (hashfun m key))).1.el.set
            (cilkred_map_grow (bkt m (hashfun m key))).2 ⟨key, hb, view⟩⟩
      else bkt m i := by
    intro i
    simp only [bkt]
    rw [getD_set_eq]
    by_cases hi : i = hashfun m key
    · subst hi; simp [hlen, hlt]
    · rw [if_neg (by intro h; exact hi h.1.symm), if_neg hi]
  have hlive : ∀ i, blive (bkt
      { m with
        buckets := m.buckets.set (hashfun m key)
          (some ⟨(cilkred_map_grow (m.buckets.getD (hashfun m key) none)).1.nmax,
            (cilkred_map_grow (m.buckets.getD (hashfun m key) none)).1.el.set
              (cilkred_map_grow (m.buckets.getD (hashfun m key) none)).2 ⟨key, hb, view⟩⟩),
        nelem := m.nelem + 1 } i) =
      if i = hashfun m key then blive (bkt m i) ++ [⟨key, hb, view⟩] else blive (bkt m i) := by
    intro i
    rw [hbkt i]
    by_cases hi : i = hashfun m key
    · rw [if_pos hi, if_pos hi, hi]; exact hg2
    · rw [if_neg hi, if_neg hi]
  have hhash : ∀ k, hashfun
      { m with
        buckets := m.buckets.set (hashfun m key)
          (some ⟨(cilkred_map_grow (m.buckets.getD (hashfun m key) none)).1.nmax,
            (cilkred_map_grow (m.buckets.getD (hashfun m key) none)).1.el.set
              (cilkred_map_grow (m.buckets.getD (hashfun m key) none)).2 ⟨key, hb, view⟩⟩),
        nelem := m.nelem + 1 } k = hashfun m k := fun k => hashfun_congr _ _ k rfl
  have hfresh : ∀ x ∈ blive (bkt m (hashfun m key)), x.key ≠ key := by
    intro x hx
    unfold find at hnew
    have := List.find?_eq_none.1 hnew x hx
    simpa using this
  refine ⟨⟨hpos, hpow, by simpa using hlen, ?_, ?_, ?_, ?_⟩, ?_, ⟨rfl, hg3⟩, rfl, rfl,
    ⟨rfl, rfl, rfl⟩, hlive⟩
  · intro i hi
    rw [hbkt i]
    by_cases h : i = hashfun m key
    · rw [if_pos h]; exact hg1
    · rw [if_neg h]; exact hshape i hi
  · intro i hi e he
    rw [hlive i] at he
    rw [hhash]
    by_cases h : i = hashfun m key
    · rw [if_pos h] at he
      rcases List.mem_append.1 he with he | he
      · exact hplace i hi e he
      · simp at he; subst he; exact ⟨h.symm, hv⟩
    · rw [if_neg h] at he; exact hplace i hi e he
  · intro i hi
    rw [hlive i]
    by_cases h : i = hashfun m key
    · rw [if_pos h, List.map_append, List.nodup_append]
      refine ⟨hnodup i hi, by simp, ?_⟩
      intro a ha hb2
      simp at hb2
      obtain ⟨x, hx, hxa⟩ := List.mem_map.1 ha
      rw [h] at hx
      exact hfresh x hx (hxa.trans hb2)
    · rw [if_neg h]; exact hnodup i hi
  · show m.nelem + 1 = ((m.buckets.set (hashfun m key) _).map (fun ob => (blive ob).length)).sum
    have hs := sum_map_set (fun ob => (blive ob).length) m.buckets (hashfun m key)
      (some ⟨(cilkred_map_grow (m.buckets.getD (hashfun m key) none)).1.nmax,
        (cilkred_map_grow (m.buckets.getD (hashfun m key) none)).1.el.set
          (cilkred_map_grow (m.buckets.getD (hashfun m key) none)).2 ⟨key, hb, view⟩⟩) none
      (by omega)
    have hl : (blive (some ⟨(cilkred_map_grow (m.buckets.getD (hashfun m key) none)).1.nmax,
        (cilkred_map_grow (m.buckets.getD (hashfun m key) none)).1.el.set
          (cilkred_map_grow (m.buckets.getD (hashfun m key) none)).2 ⟨key, hb, view⟩⟩)).length =
        (blive (m.buckets.getD (hashfun m key) none)).length + 1 := by
      have := congrArg List.length hg2
      simpa [blive, bkt] using this
    simp only [] at hs
    rw [hl] at hs
    omega
  · simp only [get_slot]
    have := hbkt (hashfun m key)
    simp only [bkt, if_true] at this
    rw [this]
    exact hg4

/-- Where the slot of a freshly inserted element lies. -/
theorem insert_pos (m m1 : cilkred_map) (p : Nat × Nat) (e : elem)
    (hnb : m1.nbuckets = m.nbuckets)
    (hp : p.1 = hashfun m e.key ∧ p.2 = (blive (bkt m (hashfun m e.key))).length)
    (hlive : ∀ i, blive (bkt m1 i) =
      if i = hashfun m e.key then blive (bkt m i) ++ [e] else blive (bkt m i)) :
    p.1 = hashfun m1 e.key ∧ (blive (bkt m1 (hashfun m1 e.key)))[p.2]? = some e := by
  rw [hashfun_congr m m1 e.key hnb, hlive, if_pos rfl, hp.2]
  exact ⟨hp.1, by simp⟩

/-- The map a key is sent to after an insertion. -/
theorem find_after_insert (m m1 : cilkred_map) (e : elem)
    (hnb : m1.nbuckets = m.nbuckets)
    (hlive : ∀ i, blive (bkt m1 i) =
      if i = hashfun m e.key then blive (bkt m i) ++ [e] else blive (bkt m i))
    (hnew : find m e.key = none) (k : Nat) :
    find m1 k = if k = e.key then some e else find m k := by
  unfold find at hnew ⊢
  rw [hashfun_congr m m1 k hnb, hlive]
  by_cases hk : k = e.key
  · subst hk
    simp [List.find?_append, hnew]
  · rw [if_neg hk]
    by_cases hi : hashfun m k = hashfun m e.key
    · rw [if_pos hi, List.find?_append]
      have hb : (e.key == k) = false := by simpa using fun h : e.key = k => hk h.symm
      have : List.find? (fun x => x.key == k) [e] = none := by
        simp [List.find?_cons, hb]
      rw [this]; simp
    · rw [if_neg hi]

theorem is_power_of_2_double (n : Nat) (hpos : 0 < n) (h : is_power_of_2 n = true) :
    is_power_of_2 (2 * n) = true := by
  unfold is_power_of_2 at h ⊢
  rw [if_neg (by omega)] at h ⊢
  have h0 : n &&& (n - 1) = 0 := by simpa using h
  have h1 : 2 * n = Nat.bit false n := by simp [Nat.bit]
  have h2 : 2 * n - 1 = Nat.bit true (n - 1) := by simp [Nat.bit]; omega
  rw [h2, h1, Nat.land_bit, h0]
  simp [Nat.bit]

/-- The inner loop of `cilkred_map_rehash` re-inserts the live slots of one old bucket. -/
theorem rehash_bucket_spec (w : Option __cilkrts_worker) (el : List elem) (m : cilkred_map)
    (hwf : WF m) (hg : g_ok w m = true)
    (hnd : ((live el).map elem.key).Nodup) (hv : ∀ e ∈ live el, e.view ≠ 0)
    (hnew : ∀ e ∈ live el, find m e.key = none) :
    ∃ m1, rehash_bucket w el m = Res.ok () m1 ∧ WF m1 ∧ m1.nbuckets = m.nbuckets ∧
      same_frame m m1 ∧ m1.nelem = m.nelem + (live el).length ∧
      ∀ k, find m1 k = ((live el).find? (fun e => e.key == k)).or (find m k) := by
  induction el generalizing m with
  | nil => exact ⟨m, rfl, hwf, rfl, same_frame_refl m, by simp [live], by simp [live]⟩
  | cons a t ih =>
    by_cases ha : a.key = 0
    · refine ⟨m, by simp [rehash_bucket, ha], hwf, rfl, same_frame_refl m, ?_, ?_⟩ <;>
        simp [live, ha]
    · have hlive : live (a :: t) = a :: live t := by simp [live, List.takeWhile_cons, ha]
      rw [hlive] at hnd hv hnew ⊢
      simp only [List.map_cons, List.nodup_cons] at hnd
      obtain ⟨p, m1, h1, hwf1, -, -, hnb1, hne1, hfr1, hl1⟩ :=
        insert_no_rehash_spec m hwf w hg a.key a.hb a.view ha (hv a (by simp))
          (hnew a (by simp))
      have hf1 := find_after_insert m m1 a hnb1 hl1 (hnew a (by simp))
      have hg1 : g_ok w m1 = true := by rw [g_ok_congr w m m1 hfr1.1]; exact hg
      have hnew1 : ∀ e ∈ live t, find m1 e.key = none := by
        intro e he
        rw [hf1, if_neg]
        · exact hnew e (by simp [he])
        · intro heq
          exact hnd.1 (heq ▸ List.mem_map_of_mem elem.key he)
      obtain ⟨m2, h2, hwf2, hnb2, hfr2, hne2, hf2⟩ :=
        ih m1 hwf1 hg1 hnd.2 (fun e he => hv e (by simp [he])) hnew1
      refine ⟨m2, ?_, hwf2, hnb2.trans hnb1, same_frame_trans hfr1 hfr2, ?_, ?_⟩
      · rw [rehash_bucket, if_neg ha, h1]; exact h2
      · rw [hne2, hne1, List.length_cons]; omega
      · intro k
        rw [hf2, hf1, List.find?_cons]
        by_cases hk : k = a.key
        · subst hk
          have : List.find? (fun e => e.key == a.key) (live t) = none := by
            rw [List.find?_eq_none]
            intro x hx hxa
            exact hnd.1 ((by simpa using hxa : x.key = a.key) ▸ List.mem_map_of_mem elem.key hx)
          simp [this]
        · have hb : (a.key == k) = false := by simpa using fun h : a.key = k => hk h.symm
          rw [if_neg hk, hb]

/-- The outer loop of `cilkred_map_rehash`, started at old bucket `i`: once it
is done, the new table maps every key as the old map `mo` did. -/
theorem rehash_buckets_spec (w : Option __cilkrts_worker) (mo : cilkred_map) (hwfo : WF mo)
    (rest : List (Option bucket)) (i : Nat) (m : cilkred_map)
    (hrest : ∀ j, j < rest.length → rest.getD j none = bkt mo (i + j))
    (hi : i + rest.length = mo.nbuckets)
    (hwf : WF m) (hg : g_ok w m = true)
    (hinv : ∀ k, find m k = if hashfun mo k < i then find mo k else none) :
    ∃ m1, rehash_buckets w rest m = Res.ok () m1 ∧ WF m1 ∧ m1.nbuckets = m.nbuckets ∧
      same_frame m m1 ∧
      m1.nelem = m.nelem + (rest.map (fun ob => (blive ob).length)).sum ∧
      ∀ k, find m1 k = find mo k := by
  induction rest generalizing i m with
  | nil =>
    refine ⟨m, rfl, hwf, rfl, same_frame_refl m, by simp, ?_⟩
    intro k
    rw [hinv k, if_pos]
    have := hashfun_lt mo k hwfo.1
    simp at hi; omega
  | cons ob rest ih =>
    have hhead : ob = bkt mo i := by simpa using hrest 0 (by simp)
    have hilt : i < mo.nbuckets := by simp at hi; omega
    have hstep : ∀ m1, WF m1 → g_ok w m1 = true →
        (∀ k, find m1 k = ((blive ob).find? (fun e => e.key == k)).or (find m k)) →
        ∀ k, find m1 k = if hashfun mo k < i + 1 then find mo k else none := by
      intro m1 _ _ hf1 k
      rw [hf1, hinv k]
      by_cases hlt : hashfun mo k < i
      · rw [if_pos hlt, if_pos (by omega)]
        have : (blive ob).find? (fun e => e.key == k) = none := by
          rw [List.find?_eq_none]
          intro x hx hxk
          have := (hwfo.2.2.2.2.1 i hilt x (hhead ▸ hx)).1
          rw [(by simpa using hxk : x.key = k)] at this
          omega
        rw [this]; rfl
      · rw [if_neg hlt]
        by_cases heq : hashfun mo k = i
        · rw [if_pos (by omega)]
          unfold find
          rw [heq, ← hhead]; simp
        · rw [if_neg (by omega)]
          have : (blive ob).find? (fun e => e.key == k) = none := by
            rw [List.find?_eq_none]
            intro x hx hxk
            have := (hwfo.2.2.2.2.1 i hilt x (hhead ▸ hx)).1
            rw [(by simpa using hxk : x.key = k)] at this
            exact heq this
          rw [this]; rfl
    have htail : ∀ j, j < rest.length → rest.getD j none = bkt mo (i + 1 + j) := by
      intro j hj
      have := hrest (j + 1) (by simpa using hj)
      rw [List.getD_cons_succ] at this
      rw [this]; congr 1; omega
    have hi2 : i + 1 + rest.length = mo.nbuckets := by simp at hi; omega
    cases ob with
    | none =>
      have hinv1 := hstep m hwf hg (by intro k; simp [blive])
      obtain ⟨m2, h2, hwf2, hnb2, hfr2, hne2, hf2⟩ := ih (i + 1) m htail hi2 hwf hg hinv1
      exact ⟨m2, by rw [rehash_buckets]; exact h2, hwf2, hnb2, hfr2, by simpa [blive] using hne2, hf2⟩
    | some b =>
      have hbl : blive (some b) = live b.el := rfl
      have hnd := hwfo.2.2.2.2.2.1 i hilt
      rw [← hhead, hbl] at hnd
      have hv : ∀ e ∈ live b.el, e.view ≠ 0 := fun e he =>
        (hwfo.2.2.2.2.1 i hilt e (by rw [← hhead]; exact he)).2
      have hnew : ∀ e ∈ live b.el, find m e.key = none := by
        intro e he
        rw [hinv, if_neg]
        have := (hwfo.2.2.2.2.1 i hilt e (by rw [← hhead]; exact he)).1
        omega
      obtain ⟨m1, h1, hwf1, hnb1, hfr1, hne1, hf1⟩ :=
        rehash_bucket_spec w b.el m hwf hg hnd hv hnew
      have hg1 : g_ok w m1 = true := by rw [g_ok_congr w m m1 hfr1.1]; exact hg
      have hinv1 := hstep m1 hwf1 hg1 hf1
      obtain ⟨m2, h2, hwf2, hnb2, hfr2, hne2, hf2⟩ := ih (i + 1) m1 htail hi2 hwf1 hg1 hinv1
      refine ⟨m2, ?_, hwf2, hnb2.trans hnb1, same_frame_trans hfr1 hfr2, ?_, hf2⟩
      · rw [rehash_buckets, h1]; exact h2
      · rw [hne2, hne1]; simp [blive]; omega

theorem bkt_replicate_none (m : cilkred_map) (n : Nat) (h : m.buckets = List.replicate n none)
    (i : Nat) : bkt m i = none := by
  unfold bkt
  rw [h, List.getD_eq_getElem?_getD]
  rw [List.getElem?_replicate]
  by_cases hi : i < n
  · rw [if_pos hi]; rfl
  · rw [if_neg hi]; rfl

theorem sum_map_replicate_none (n : Nat) :
    ((List.replicate n (none : Option bucket)).map (fun ob => (blive ob).length)).sum = 0 := by
  induction n with
  | zero => rfl
  | succ n ih => simp [List.replicate_succ, blive]

/-- A table of null buckets is a well-formed empty map. -/
theorem WF_empty (m : cilkred_map) (hpos : 0 < m.nbuckets) (hpow : is_power_of_2 m.nbuckets = true)
    (hb : m.buckets = List.replicate m.nbuckets none) (hn : m.nelem = 0) :
    WF m ∧ ∀ k, find m k = none := by
  have hnone := bkt_replicate_none m m.nbuckets hb
  refine ⟨⟨hpos, hpow, by rw [hb]; simp, ?_, ?_, ?_, ?_⟩, ?_⟩
  · intro i _; rw [hnone]; trivial
  · intro i _ e he; rw [hnone] at he; simp [blive] at he
  · intro i _; rw [hnone]; simp [blive]
  · rw [hn, hb, sum_map_replicate_none]
  · intro k; unfold find; rw [hnone]; rfl

/-- The function `cilkred_map_rehash` on a well-formed map: it returns, doubles
`nbuckets`, keeps `nelem` and maps every key to the same element as before. -/
theorem rehash_spec (m : cilkred_map) (hwf : WF m) (w : Option __cilkrts_worker)
    (hg : g_ok w m = true) :
    ∃ m1, cilkred_map_rehash m w = Res.ok () m1 ∧ WF m1 ∧ m1.nbuckets = 2 * m.nbuckets ∧
      m1.nelem = m.nelem ∧ same_frame m m1 ∧ ∀ k, find m1 k = find m k := by
  have hpow2 := is_power_of_2_double m.nbuckets hwf.1 hwf.2.1
  obtain ⟨hwf0, hf0⟩ := WF_empty
    { m with nbuckets := 2 * m.nbuckets, buckets := List.replicate (2 * m.nbuckets) none, nelem := 0 }
    (by show 0 < 2 * m.nbuckets; have := hwf.1; omega) hpow2 rfl rfl
  have htake : m.buckets.take m.nbuckets = m.buckets := by
    rw [← hwf.2.2.1]; simp
  obtain ⟨m1, h1, hwf1, hnb1, hfr1, hne1, hf1⟩ := rehash_buckets_spec w m hwf m.buckets 0
    { m with nbuckets := 2 * m.nbuckets, buckets := List.replicate (2 * m.nbuckets) none, nelem := 0 }
    (by intro j _; simp [bkt]) (by simpa using hwf.2.2.1) hwf0
    ((g_ok_congr w m _ rfl).trans hg) (by intro k; rw [hf0]; simp)
  refine ⟨m1, ?_, hwf1, hnb1, ?_, hfr1, hf1⟩
  · unfold cilkred_map_rehash cilkred_map_make_buckets nextsz
    rw [hg]
    simp only [Bool.not_true, Bool.false_eq_true, if_false, hpow2, Res.bind, htake, h1]
    rw [if_neg]
    rw [hne1, ← hwf.2.2.2.2.2.2]; simp
  · rw [hne1, ← hwf.2.2.2.2.2.2]; simp

/-- The function `cilkred_map_rehash_and_insert` on a well-formed map that does
not hold the key. -/
theorem rehash_and_insert_spec (m : cilkred_map) (hwf : WF m) (w : Option __cilkrts_worker)
    (hg : g_ok w m = true) (key hb view : Nat) (hk : key ≠ 0) (hv : view ≠ 0)
    (hnew : find m key = none) :
    ∃ p m1, cilkred_map_rehash_and_insert m w key hb view = Res.ok p m1 ∧ WF m1 ∧
      (get_slot m1 p = ⟨key, hb, view⟩ ∧ p.1 = hashfun m1 key ∧
        (blive (bkt m1 (hashfun m1 key)))[p.2]? = some ⟨key, hb, view⟩) ∧
      m1.nelem = m.nelem + 1 ∧ same_frame m m1 ∧
      (m1.nbuckets = m.nbuckets ∨ m1.nbuckets = 2 * m.nbuckets) ∧
      ∀ k, find m1 k = if k = key then some ⟨key, hb, view⟩ else find m k := by
  unfold cilkred_map_rehash_and_insert
  by_cases hr : cilkred_map_need_rehash_p m = true
  · rw [if_pos hr]
    obtain ⟨m1, h1, hwf1, hnb1, hne1, hfr1, hf1⟩ := rehash_spec m hwf w hg
    have hg1 : g_ok w m1 = true := by rw [g_ok_congr w m m1 hfr1.1]; exact hg
    obtain ⟨p, m2, h2, hwf2, hsl, hpos2, hnb2, hne2, hfr2, hl2⟩ :=
      insert_no_rehash_spec m1 hwf1 w hg1 key hb view hk hv (by rw [hf1]; exact hnew)
    have hf2 := find_after_insert m1 m2 ⟨key, hb, view⟩ hnb2 hl2 (by rw [hf1]; exact hnew)
    refine ⟨p, m2, by rw [h1]; exact h2, hwf2,
      ⟨hsl, insert_pos m1 m2 p ⟨key, hb, view⟩ hnb2 hpos2 hl2⟩, by rw [hne2, hne1],
      same_frame_trans hfr1 hfr2, Or.inr (hnb2.trans hnb1), ?_⟩
    intro k; rw [hf2, hf1]
  · rw [if_neg hr]
    obtain ⟨p, m2, h2, hwf2, hsl, hpos2, hnb2, hne2, hfr2, hl2⟩ :=
      insert_no_rehash_spec m hwf w hg key hb view hk hv hnew
    have hf2 := find_after_insert m m2 ⟨key, hb, view⟩ hnb2 hl2 hnew
    exact ⟨p, m2, h2, hwf2, ⟨hsl, insert_pos m m2 p ⟨key, hb, view⟩ hnb2 hpos2 hl2⟩, hne2, hfr2,
      Or.inl hnb2, hf2⟩

/-- The function `cilkred_map_make_map` returns a well-formed empty map. -/
theorem make_map_spec (w : __cilkrts_worker) :
    ∃ m, cilkred_map_make_map w = Res.ok () m ∧ WF m ∧ (∀ k, find m k = none) ∧
      m.nelem = 0 ∧ m.nbuckets = 1 ∧ m.g = w.g ∧ m.merging = false ∧ m.is_leftmost = false := by
  have hp : is_power_of_2 1 = true := by decide
  refine ⟨⟨w.g, 0, 1, [none], false, false⟩, ?_, ?_⟩
  · simp [cilkred_map_make_map, cilkred_map_make_buckets, Res.bind, hp]
  · obtain ⟨h1, h2⟩ := WF_empty ⟨w.g, 0, 1, [none], false, false⟩ Nat.one_pos hp rfl rfl
    exact ⟨h1, h2, rfl, rfl, rfl, rfl, rfl⟩

/-- Inserting a list of fresh, pairwise distinct keys one after another. -/
theorem insert_all_spec (w : Option __cilkrts_worker) (l : List elem) (m : cilkred_map)
    (hwf : WF m) (hg : g_ok w m = true) (hnd : (l.map elem.key).Nodup)
    (hnz : ∀ e ∈ l, e.key ≠ 0 ∧ e.view ≠ 0) (hnew : ∀ e ∈ l, find m e.key = none) :
    ∃ m1, insert_all w l m = Res.ok () m1 ∧ WF m1 ∧ same_frame m m1 ∧
      m1.nelem = m.nelem + l.length ∧
      ∀ k, find m1 k = (l.find? (fun e => e.key == k)).or (find m k) := by
  induction l generalizing m with
  | nil => exact ⟨m, rfl, hwf, same_frame_refl m, rfl, by simp⟩
  | cons a t ih =>
    simp only [List.map_cons, List.nodup_cons] at hnd
    obtain ⟨p, m1, h1, hwf1, -, hne1, hfr1, -, hf1⟩ :=
      rehash_and_insert_spec m hwf w hg a.key a.hb a.view (hnz a (by simp)).1
        (hnz a (by simp)).2 (hnew a (by simp))
    have hg1 : g_ok w m1 = true := by rw [g_ok_congr w m m1 hfr1.1]; exact hg
    have hnew1 : ∀ e ∈ t, find m1 e.key = none := by
      intro e he
      rw [hf1, if_neg]
      · exact hnew e (by simp [he])
      · intro heq
        exact hnd.1 (heq ▸ List.mem_map_of_mem elem.key he)
    obtain ⟨m2, h2, hwf2, hfr2, hne2, hf2⟩ :=
      ih m1 hwf1 hg1 hnd.2 (fun e he => hnz e (by simp [he])) hnew1
    refine ⟨m2, ?_, hwf2, same_frame_trans hfr1 hfr2, ?_, ?_⟩
    · rw [insert_all, h1]; exact h2
    · rw [hne2, hne1, List.length_cons]; omega
    · intro k
      rw [hf2, hf1, List.find?_cons]
      by_cases hk : k = a.key
      · subst hk
        have : List.find? (fun e => e.key == a.key) t = none := by
          rw [List.find?_eq_none]
          intro x hx hxa
          exact hnd.1 ((by simpa using hxa : x.key = a.key) ▸ List.mem_map_of_mem elem.key hx)
        simp [this]
      · have hb : (a.key == k) = false := by simpa using fun h : a.key = k => hk h.symm
        rw [if_neg hk, hb]

theorem lookup_of_find_some (m : cilkred_map) (hwf : WF m) (k : Nat) (e : elem)
    (h : find m k = some e) :
    ∃ p, cilkred_map_lookup m k = Res.ok (some p) m ∧ get_slot m p = e ∧
      p.1 = hashfun m k ∧ (blive (bkt m (hashfun m k)))[p.2]? = some e := by
  obtain ⟨r, h1, h2, h3⟩ := lookup_spec m hwf k
  cases r with
  | none => rw [h] at h2; simp at h2
  | some p =>
    rw [h] at h2 h3
    exact ⟨p, h1, by simpa using h2, (h3 p rfl).1, (h3 p rfl).2⟩

theorem lookup_of_find_none (m : cilkred_map) (hwf : WF m) (k : Nat) (h : find m k = none) :
    cilkred_map_lookup m k = Res.ok none m := by
  obtain ⟨r, h1, h2, -⟩ := lookup_spec m hwf k
  cases r with
  | none => exact h1
  | some p => rw [h] at h2; simp at h2

theorem find_of_lookup_some (m m1 : cilkred_map) (hwf : WF m) (k : Nat) (p : Nat × Nat)
    (h : cilkred_map_lookup m k = Res.ok (some p) m1) : find m k = some (get_slot m p) := by
  obtain ⟨r, h1, h2, -⟩ := lookup_spec m hwf k
  rw [h1] at h
  injection h with hr _
  subst hr
  simpa using h2.symm

theorem find_of_lookup_none (m m1 : cilkred_map) (hwf : WF m) (k : Nat)
    (h : cilkred_map_lookup m k = Res.ok none m1) : find m k = none := by
  obtain ⟨r, h1, h2, -⟩ := lookup_spec m hwf k
  rw [h1] at h
  injection h with hr _
  subst hr
  simpa using h2.symm

/-- The scan of `cilkred_map_lookup` on any slot list: it stops at the first
live slot with the key and asserts that its view is not null. -/
theorem lookup_scan_gen (key : Nat) (el : List elem) (j : Nat) :
    ((live el).find? (fun e => e.key == key) = none → lookup_scan key el j = Res.ok none ()) ∧
    (∀ e, (live el).find? (fun e => e.key == key) = some e → e.view = 0 →
      lookup_scan key el j = Res.fatal Fault.assertion ()) ∧
    (∀ e, (live el).find? (fun e => e.key == key) = some e → e.view ≠ 0 →
      ∃ p, lookup_scan key el j = Res.ok (some (j + p)) () ∧ (live el)[p]? = some e) := by
  induction el generalizing j with
  | nil => simp [live, lookup_scan]
  | cons a t ih =>
    by_cases ha : a.key = 0
    · simp [live, lookup_scan, ha]
    · have hlive : live (a :: t) = a :: live t := by simp [live, List.takeWhile_cons, ha]
      rw [hlive]
      by_cases hk : a.key = key
      · have hf : List.find? (fun e => e.key == key) (a :: live t) = some a := by simp [hk]
        rw [hf]
        refine ⟨by simp, ?_, ?_⟩
        · intro e he hv
          cases he
          rw [lookup_scan, if_neg ha, if_pos hk, if_pos hv]
        · intro e he hv
          cases he
          refine ⟨0, ?_, by simp⟩
          rw [lookup_scan, if_neg ha, if_pos hk, if_neg hv]; rfl
      · have hb : (a.key == key) = false := by simpa using hk
        have hf : List.find? (fun e => e.key == key) (a :: live t) =
            List.find? (fun e => e.key == key) (live t) := by
          rw [List.find?_cons, hb]
        have hstep : lookup_scan key (a :: t) j = lookup_scan key t (j + 1) := by
          rw [lookup_scan, if_neg ha, if_neg hk]
        rw [hf, hstep]
        obtain ⟨i1, i2, i3⟩ := ih (j + 1)
        refine ⟨i1, i2, ?_⟩
        intro e he hv
        obtain ⟨p, hp1, hp2⟩ := i3 e he hv
        refine ⟨p + 1, ?_, by simpa using hp2⟩
        rw [hp1, Nat.add_assoc, Nat.add_comm 1 p]

/-- The function `cilkred_map_lookup` on any map, in terms of `find`. -/
theorem lookup_gen (m : cilkred_map) (key : Nat) :
    (find m key = none → cilkred_map_lookup m key = Res.ok none m) ∧
    (∀ e, find m key = some e → e.view = 0 →
      cilkred_map_lookup m key = Res.fatal Fault.assertion m) ∧
    (∀ e, find m key = some e → e.view ≠ 0 →
      ∃ p, cilkred_map_lookup m key = Res.ok (some p) m ∧ get_slot m p = e ∧
        p.1 = hashfun m key ∧ (blive (bkt m (hashfun m key)))[p.2]? = some e) := by
  unfold cilkred_map_lookup find
  simp only []
  cases hb : bkt m (hashfun m key) with
  | none =>
    have hb2 : m.buckets.getD (hashfun m key) none = none := hb
    rw [hb2]
    simp [blive]
  | some b =>
    have hb2 : m.buckets.getD (hashfun m key) none = some b := hb
    rw [hb2]
    simp only [blive]
    obtain ⟨i1, i2, i3⟩ := lookup_scan_gen key b.el 0
    refine ⟨?_, ?_, ?_⟩
    · intro h; rw [i1 h]; rfl
    · intro e he hv; rw [i2 e he hv]
    · intro e he hv
      obtain ⟨p, hp1, hp2⟩ := i3 e he hv
      rw [hp1]
      refine ⟨(hashfun m key, 0 + p), rfl, ?_, rfl, by simpa using hp2⟩
      simp only [get_slot, hb2, Nat.zero_add]
      rw [List.getD_eq_getElem?_getD, live_getElem b.el p e hp2]; rfl

theorem shift_down_spec (X Z : List elem) (e z : elem) (hX : ∀ x ∈ X, x.key ≠ 0)
    (hz : z.key = 0) : shift_down (e :: X ++ z :: Z) = X ++ z :: z :: Z := by
  induction X generalizing e with
  | nil => simp [shift_down, hz]
  | cons a X ih =>
    have ha : a.key ≠ 0 := hX a (by simp)
    have := ih a (fun x hx => hX x (by simp [hx]))
    simp only [List.cons_append] at this ⊢
    rw [shift_down, if_pos ha, this]

theorem split_at_getElem {α : Type} (l : List α) (j : Nat) (e : α) (h : l[j]? = some e) :
    ∃ l1 l2, l = l1 ++ e :: l2 ∧ l1.length = j := by
  induction l generalizing j with
  | nil => simp at h
  | cons a t ih =>
    cases j with
    | zero => exact ⟨[], t, by simp at h; simp [h], rfl⟩
    | succ j =>
      obtain ⟨l1, l2, h1, h2⟩ := ih j (by simpa using h)
      exact ⟨a :: l1, l2, by simp [h1], by simp [h2]⟩

/-- Removing the live slot `p` of a well-formed map by the shift loop of
`__cilkrts_hyper_destroy` (after any write `e0` to that slot) and decrementing
`nelem`: the key of the slot is unmapped and nothing else changes. -/
theorem remove_spec (h : cilkred_map) (hwf : WF h) (key : Nat) (e : elem)
    (hf : find h key = some e) (p : Nat × Nat) (hp1 : p.1 = hashfun h key)
    (hp2 : (blive (bkt h (hashfun h key)))[p.2]? = some e) (e0 : elem) :
    ∃ h4, h4 = unlink_slot h p e0 ∧
      WF h4 ∧ h4.nelem + 1 = h.nelem ∧ same_frame h h4 ∧ h4.nbuckets = h.nbuckets ∧
      ∀ k, find h4 k = if k = key then none else find h k := by
  obtain ⟨hpos, hpow, hlen, hshape, hplace, hnodup, hcount⟩ := hwf
  have hlt := hashfun_lt h key hpos
  unfold unlink_slot
  obtain ⟨i, j⟩ := p
  simp only at hp1 hp2
  subst hp1
  obtain ⟨hmem, hekey⟩ := find_some_mem h key e hf
  cases hb : bkt h (hashfun h key) with
  | none => rw [hb] at hmem; simp [blive] at hmem
  | some b =>
    have hb2 : h.buckets.getD (hashfun h key) none = some b := hb
    have hbok : bucket_ok b := by have := hshape _ hlt; rw [hb] at this; exact this
    obtain ⟨z, Z, hsplit, hz, hZ, hlenb⟩ := bucket_ok_split b hbok
    have hnz := live_keys_ne b.el
    have hpl := hplace _ hlt
    have hnd := hnodup _ hlt
    rw [hb] at hp2 hpl hnd
    simp only [blive] at hp2 hpl hnd
    generalize live b.el = L at hsplit hlenb hnz hp2 hpl hnd
    obtain ⟨L1, L2, hL, hL1⟩ := split_at_getElem L j e hp2
    subst hL
    have hset : b.el.set j e0 = L1 ++ e0 :: (L2 ++ z :: Z) := by
      rw [hsplit, List.append_assoc, List.set_append, if_neg (by omega), hL1, Nat.sub_self]
      simp
    have h2 : set_slot h (hashfun h key, j) e0 =
        { h with buckets := h.buckets.set (hashfun h key) (some ⟨b.nmax, L1 ++ e0 :: (L2 ++ z :: Z)⟩) } := by
      simp only [set_slot, hb2, hset]
    have hget2 : (h.buckets.set (hashfun h key)
        (some ⟨b.nmax, L1 ++ e0 :: (L2 ++ z :: Z)⟩)).getD (hashfun h key) none =
        some ⟨b.nmax, L1 ++ e0 :: (L2 ++ z :: Z)⟩ := by
      rw [getD_set_eq, if_pos ⟨rfl, by omega⟩]
    have htake : (L1 ++ e0 :: (L2 ++ z :: Z)).take j = L1 := by
      rw [← hL1]; simp
    have hdrop : (L1 ++ e0 :: (L2 ++ z :: Z)).drop j = e0 :: L2 ++ z :: Z := by
      rw [← hL1]; simp
    have hL2nz : ∀ x ∈ L2, x.key ≠ 0 := fun x hx => hnz x (by simp [hx])
    have h3 : shift_down_at (set_slot h (hashfun h key, j) e0) (hashfun h key, j) =
        { h with
          buckets := h.buckets.set (hashfun h key) (some ⟨b.nmax, (L1 ++ L2) ++ z :: (z :: Z)⟩) } := by
      rw [h2]
      simp only [shift_down_at, hget2, htake, hdrop, shift_down_spec L2 Z e0 z hL2nz hz,
        List.set_set, List.append_assoc]
    have hk := bucket_ok_of_split b.nmax (L1 ++ L2) (z :: Z) z
      (by intro x hx; apply hnz; simp at hx ⊢; tauto) hz
      (by intro x hx; simp at hx; rcases hx with rfl | hx; exact hz; exact hZ x hx)
      (by simp at hlenb ⊢; omega)
    have hsum := sum_map_set (fun ob => (blive ob).length) h.buckets (hashfun h key)
      (some ⟨b.nmax, (L1 ++ L2) ++ z :: (z :: Z)⟩) none (by omega)
    have hl1 : (blive (some ⟨b.nmax, (L1 ++ L2) ++ z :: (z :: Z)⟩)).length =
        L1.length + L2.length := by
      show (live _).length = _
      rw [hk.2]; simp
    have hl0 : (blive (h.buckets.getD (hashfun h key) none)).length =
        L1.length + L2.length + 1 := by
      rw [hb2]
      show (live b.el).length = _
      rw [hsplit, live_append_zero _ (z :: Z) hnz
        (by intro x hx; simp at hx; rcases hx with rfl | hx; exact hz; exact hZ x hx)]
      simp; omega
    simp only [] at hsum
    rw [hl1, hl0] at hsum
    rw [h3]
    have hne3 : h.nelem ≠ 0 := by rw [hcount]; omega
    refine ⟨_, rfl, ?_⟩
    simp only [if_neg hne3]
    have hbkt : ∀ i, bkt
        { g := h.g, nelem := h.nelem - 1, nbuckets := h.nbuckets,
          buckets := h.buckets.set (hashfun h key) (some ⟨b.nmax, (L1 ++ L2) ++ z :: (z :: Z)⟩),
          merging := h.merging, is_leftmost := h.is_leftmost } i =
        if i = hashfun h key then some ⟨b.nmax, (L1 ++ L2) ++ z :: (z :: Z)⟩ else bkt h i := by
      intro i
      simp only [bkt]
      rw [getD_set_eq]
      by_cases hi : i = hashfun h key
      · subst hi; simp [hlen, hlt]
      · rw [if_neg (by intro hh; exact hi hh.1.symm), if_neg hi]
    have hlive : ∀ i, blive (bkt
        { g := h.g, nelem := h.nelem - 1, nbuckets := h.nbuckets,
          buckets := h.buckets.set (hashfun h key) (some ⟨b.nmax, (L1 ++ L2) ++ z :: (z :: Z)⟩),
          merging := h.merging, is_leftmost := h.is_leftmost } i) =
        if i = hashfun h key then L1 ++ L2 else blive (bkt h i) := by
      intro i
      rw [hbkt i]
      by_cases hi : i = hashfun h key
      · rw [if_pos hi, if_pos hi]; exact hk.2
      · rw [if_neg hi, if_neg hi]
    have hhash : ∀ k, hashfun
        { g := h.g, nelem := h.nelem - 1, nbuckets := h.nbuckets,
          buckets := h.buckets.set (hashfun h key) (some ⟨b.nmax, (L1 ++ L2) ++ z :: (z :: Z)⟩),
          merging := h.merging, is_leftmost := h.is_leftmost } k = hashfun h k :=
      fun k => hashfun_congr _ _ k rfl
    refine ⟨⟨hpos, hpow, by simpa using hlen, ?_, ?_, ?_, ?_⟩, ?_, ?_, ?_, ?_⟩
    · intro i hi
      rw [hbkt i]
      by_cases hh : i = hashfun h key
      · rw [if_pos hh]; exact hk.1
      · rw [if_neg hh]; exact hshape i hi
    · intro i hi x hx
      rw [hlive i] at hx
      rw [hhash]
      by_cases hh : i = hashfun h key
      · rw [if_pos hh] at hx
        rw [hh]
        apply hpl
        simp at hx ⊢; tauto
      · rw [if_neg hh] at hx; exact hplace i hi x hx
    · intro i hi
      rw [hlive i]
      by_cases hh : i = hashfun h key
      · rw [if_pos hh]
        have hsub : List.Sublist (L1 ++ L2) (L1 ++ e :: L2) :=
          List.Sublist.append_left (List.sublist_cons_self e L2) L1
        exact List.Nodup.sublist (List.Sublist.map elem.key hsub) hnd
      · rw [if_neg hh]; exact hnodup i hi
    · show h.nelem - 1 = ((h.buckets.set (hashfun h key) _).map (fun ob => (blive ob).length)).sum
      omega
    · show h.nelem - 1 + 1 = h.nelem
      omega
    · exact ⟨rfl, rfl, rfl⟩
    · trivial
    · intro k
      unfold find
      rw [hhash, hlive]
      by_cases hkk : k = key
      · subst hkk
        rw [if_pos rfl, if_pos rfl, List.find?_eq_none]
        intro x hx hxk
        have hxk2 : x.key = e.key := by rw [hekey]; simpa using hxk
        simp only [List.map_append, List.map_cons] at hnd
        have hnd2 := List.nodup_middle.1 hnd
        rw [List.nodup_cons] at hnd2
        apply hnd2.1
        rw [← hxk2, ← List.map_append]
        exact List.mem_map_of_mem elem.key hx
      · rw [if_neg hkk]
        by_cases hi : hashfun h k = hashfun h key
        · rw [if_pos hi, hi, hb]
          show _ = List.find? _ (live b.el)
          have hlv : live b.el = L1 ++ e :: L2 := by
            rw [hsplit]
            exact live_append_zero _ (z :: Z) hnz
              (by intro x hx; simp at hx; rcases hx with rfl | hx; exact hz; exact hZ x hx)
          have hbe : (e.key == k) = false := by
            rw [hekey]; simpa using fun hh : key = k => hkk hh.symm
          rw [hlv, List.find?_append, List.find?_append, List.find?_cons, hbe]
        · rw [if_neg hi]

theorem worker_map_eta (w : __cilkrts_worker) (h : cilkred_map) (hw : w.reducer_map = some h) :
    ({ w with reducer_map := some h } : __cilkrts_worker) = w := by
  cases w; simp at hw; simp [hw]

theorem find_key_ne_zero (m : cilkred_map) (key : Nat) (e : elem) (h : find m key = some e) :
    e.key ≠ 0 ∧ e.key = key := by
  obtain ⟨hm, hk⟩ := find_some_mem m key e h
  refine ⟨?_, hk⟩
  cases hb : bkt m (hashfun m key) with
  | none => rw [hb] at hm; simp [blive] at hm
  | some b => rw [hb] at hm; exact live_keys_ne b.el e hm

theorem resolve_worker (tls : Option __cilkrts_worker) (dflt : __cilkrts_worker) :
    (match tls with | some w => w | none => dflt) = tls.getD dflt := by
  cases tls <;> rfl

theorem hyper_destroy_no_map (tls : Option __cilkrts_worker) (dflt : __cilkrts_worker)
    (hb : __cilkrts_hyperobject_base) (hm : (tls.getD dflt).reducer_map = none) :
    __cilkrts_hyper_destroy tls dflt hb =
      Res.fatal Fault.unsynced_reducer ⟨tls.getD dflt, []⟩ := by
  unfold __cilkrts_hyper_destroy
  simp only [resolve_worker, hm]

theorem hyper_destroy_merging (tls : Option __cilkrts_worker) (dflt : __cilkrts_worker)
    (hb : __cilkrts_hyperobject_base) (h : cilkred_map)
    (hm : (tls.getD dflt).reducer_map = some h) (hmg : h.merging = true) :
    __cilkrts_hyper_destroy tls dflt hb =
      Res.fatal (if tls.isNone then Fault.assertion else Fault.hyperobject_in_use)
        ⟨tls.getD dflt, []⟩ := by
  unfold __cilkrts_hyper_destroy
  simp only [resolve_worker, hm, hmg, if_true]
  cases tls <;> simp

theorem hyper_destroy_absent (tls : Option __cilkrts_worker) (dflt : __cilkrts_worker)
    (hb : __cilkrts_hyperobject_base) (h : cilkred_map)
    (hm : (tls.getD dflt).reducer_map = some h) (hmg : h.merging = false)
    (hf : find h (get_hyperobject_key hb) = none) :
    __cilkrts_hyper_destroy tls dflt hb =
      Res.fatal Fault.unsynced_reducer ⟨tls.getD dflt, []⟩ := by
  unfold __cilkrts_hyper_destroy
  simp only [resolve_worker, hm, hmg, Bool.false_eq_true, if_false,
    (lookup_gen h (get_hyperobject_key hb)).1 hf, worker_map_eta _ h hm]

theorem hyper_destroy_null_view (tls : Option __cilkrts_worker) (dflt : __cilkrts_worker)
    (hb : __cilkrts_hyperobject_base) (h : cilkred_map)
    (hm : (tls.getD dflt).reducer_map = some h) (hmg : h.merging = false) (e : elem)
    (hf : find h (get_hyperobject_key hb) = some e) (hv : e.view = 0) :
    __cilkrts_hyper_destroy tls dflt hb = Res.fatal Fault.assertion ⟨tls.getD dflt, []⟩ := by
  unfold __cilkrts_hyper_destroy
  simp only [resolve_worker, hm, hmg, Bool.false_eq_true, if_false,
    (lookup_gen h (get_hyperobject_key hb)).2.1 e hf hv, worker_map_eta _ h hm]

theorem hyper_destroy_not_leftmost (tls : Option __cilkrts_worker) (dflt : __cilkrts_worker)
    (hb : __cilkrts_hyperobject_base) (h : cilkred_map)
    (hm : (tls.getD dflt).reducer_map = some h) (hmg : h.merging = false) (e : elem)
    (hf : find h (get_hyperobject_key hb) = some e) (hv : e.view ≠ 0) (hl : e.key ≠ e.view) :
    __cilkrts_hyper_destroy tls dflt hb =
      Res.fatal Fault.unsynced_reducer ⟨tls.getD dflt, []⟩ := by
  obtain ⟨p, hp1, hp2, -, -⟩ := (lookup_gen h (get_hyperobject_key hb)).2.2 e hf hv
  have hl2 : elem_is_leftmost e = false := by simp [elem_is_leftmost, hl]
  unfold __cilkrts_hyper_destroy
  simp only [resolve_worker, hm, hmg, Bool.false_eq_true, if_false, hp1, hp2, hl2,
    Bool.not_false, if_true, worker_map_eta _ h hm]

theorem hyper_destroy_leftmost (tls : Option __cilkrts_worker) (dflt : __cilkrts_worker)
    (hb : __cilkrts_hyperobject_base) (h : cilkred_map)
    (hm : (tls.getD dflt).reducer_map = some h) (hmg : h.merging = false) (e : elem)
    (hf : find h (get_hyperobject_key hb) = some e) (hl : e.view = e.key) :
    ∃ p, p.1 = hashfun h (get_hyperobject_key hb) ∧
      (blive (bkt h (hashfun h (get_hyperobject_key hb))))[p.2]? = some e ∧
      __cilkrts_hyper_destroy tls dflt hb = Res.ok ()
        ⟨{ tls.getD dflt with reducer_map := some (unlink_slot h p ⟨e.key, e.hb, 0⟩) }, []⟩ := by
  have hv : e.view ≠ 0 := by rw [hl]; exact (find_key_ne_zero h _ e hf).1
  obtain ⟨p, hp1, hp2, hp3, hp4⟩ := (lookup_gen h (get_hyperobject_key hb)).2.2 e hf hv
  have hl2 : elem_is_leftmost e = true := by simp [elem_is_leftmost, hl]
  refine ⟨p, hp3, hp4, ?_⟩
  unfold __cilkrts_hyper_destroy
  simp only [resolve_worker, hm, hmg, Bool.false_eq_true, if_false, hp1, hp2, hl2,
    Bool.not_true, elem_destroy, unlink_slot]

/-- The function `__cilkrts_hyper_create` on a worker that has a map. -/
theorem hyper_create_with_map (tls : Option __cilkrts_worker) (dflt : __cilkrts_worker)
    (hb : __cilkrts_hyperobject_base) (h : cilkred_map)
    (hm : (tls.getD dflt).reducer_map = some h) :
    __cilkrts_hyper_create tls dflt hb =
      match cilkred_map_lookup h (get_hyperobject_key hb) with
      | Res.fatal why h1 => Res.fatal why { tls.getD dflt with reducer_map := some h1 }
      | Res.ok (some _) h1 => Res.fatal Fault.assertion { tls.getD dflt with reducer_map := some h1 }
      | Res.ok none h1 =>
        if h1.merging then
          Res.fatal Fault.hyperobject_in_use { tls.getD dflt with reducer_map := some h1 }
        else
          match cilkred_map_rehash_and_insert h1 (some (tls.getD dflt))
              (get_hyperobject_key hb) hb.addr (get_hyperobject_key hb) with
          | Res.ok _ h2 => Res.ok () { tls.getD dflt with reducer_map := some h2 }
          | Res.fatal why h2 => Res.fatal why { tls.getD dflt with reducer_map := some h2 } := by
  unfold __cilkrts_hyper_create
  simp only [resolve_worker, hm, Res.bind, get_leftmost_view]

/-- The function `__cilkrts_hyper_create` on a worker that has no map. -/
theorem hyper_create_without_map (tls : Option __cilkrts_worker) (dflt : __cilkrts_worker)
    (hb : __cilkrts_hyperobject_base) (hm : (tls.getD dflt).reducer_map = none) :
    ∃ h0, cilkred_map_make_map (tls.getD dflt) = Res.ok () h0 ∧
      __cilkrts_hyper_create tls dflt hb =
        match cilkred_map_rehash_and_insert h0
            (some { tls.getD dflt with reducer_map := some h0 })
            (get_hyperobject_key hb) hb.addr (get_hyperobject_key hb) with
        | Res.ok _ h2 => Res.ok () { tls.getD dflt with reducer_map := some h2 }
        | Res.fatal why h2 => Res.fatal why { tls.getD dflt with reducer_map := some h2 } := by
  obtain ⟨h0, hmk, hwf0, hf0, -, -, -, hmg0, -⟩ := make_map_spec (tls.getD dflt)
  refine ⟨h0, hmk, ?_⟩
  unfold __cilkrts_hyper_create
  simp only [resolve_worker, hm, install_new_reducer_map, hmk, Res.bind, get_leftmost_view,
    lookup_of_find_none h0 hwf0 _ (hf0 _), hmg0, Bool.false_eq_true, if_false]

/-- Overwriting the view of the live slot `p` that holds the element of key
`K` with a non-null view: the key is remapped and nothing else changes. -/
theorem set_view_spec (m : cilkred_map) (hwf : WF m) (K : Nat) (t : elem)
    (hf : find m K = some t) (p : Nat × Nat) (hp1 : p.1 = hashfun m K)
    (hp2 : (blive (bkt m (hashfun m K)))[p.2]? = some t) (V : Nat) (hV : V ≠ 0) :
    WF (set_slot m p ⟨t.key, t.hb, V⟩) ∧
      (set_slot m p ⟨t.key, t.hb, V⟩).nelem = m.nelem ∧
      (set_slot m p ⟨t.key, t.hb, V⟩).nbuckets = m.nbuckets ∧
      same_frame m (set_slot m p ⟨t.key, t.hb, V⟩) ∧
      ∀ k, find (set_slot m p ⟨t.key, t.hb, V⟩) k =
        if k = K then some ⟨t.key, t.hb, V⟩ else find m k := by
  obtain ⟨hpos, hpow, hlen, hshape, hplace, hnodup, hcount⟩ := hwf
  have hlt := hashfun_lt m K hpos
  obtain ⟨i, j⟩ := p
  simp only at hp1 hp2
  subst hp1
  obtain ⟨hmem, hekey⟩ := find_some_mem m K t hf
  cases hb : bkt m (hashfun m K) with
  | none => rw [hb] at hmem; simp [blive] at hmem
  | some b =>
    have hb2 : m.buckets.getD (hashfun m K) none = some b := hb
    have hbok : bucket_ok b := by have := hshape _ hlt; rw [hb] at this; exact this
    obtain ⟨z, Z, hsplit, hz, hZ, hlenb⟩ := bucket_ok_split b hbok
    have hnz := live_keys_ne b.el
    have hpl := hplace _ hlt
    have hnd := hnodup _ hlt
    rw [hb] at hp2 hpl hnd
    simp only [blive] at hp2 hpl hnd
    generalize live b.el = L at hsplit hlenb hnz hp2 hpl hnd
    obtain ⟨L1, L2, hL, hL1⟩ := split_at_getElem L j t hp2
    subst hL
    have hlv0 : live b.el = L1 ++ t :: L2 := by
      rw [hsplit]
      exact live_append_zero _ (z :: Z) hnz
        (by intro x hx; simp at hx; rcases hx with rfl | hx; exact hz; exact hZ x hx)
    have hset : b.el.set j ⟨t.key, t.hb, V⟩ = (L1 ++ ⟨t.key, t.hb, V⟩ :: L2) ++ z :: Z := by
      rw [hsplit, List.append_assoc, List.set_append, if_neg (by omega), hL1, Nat.sub_self]
      simp
    have h2 : set_slot m (hashfun m K, j) ⟨t.key, t.hb, V⟩ =
        { m with
          buckets := m.buckets.set (hashfun m K) (some ⟨b.nmax, (L1 ++ ⟨t.key, t.hb, V⟩ :: L2) ++ z :: Z⟩) } := by
      simp only [set_slot, hb2, hset]
    have hk := bucket_ok_of_split b.nmax (L1 ++ ⟨t.key, t.hb, V⟩ :: L2) Z z
      (by
        intro x hx
        simp at hx
        rcases hx with hx | rfl | hx
        · exact hnz x (by simp [hx])
        · exact hnz t (by simp)
        · exact hnz x (by simp [hx]))
      hz hZ (by simp at hlenb ⊢; omega)
    have hsum := sum_map_set (fun ob => (blive ob).length) m.buckets (hashfun m K)
      (some ⟨b.nmax, (L1 ++ ⟨t.key, t.hb, V⟩ :: L2) ++ z :: Z⟩) none (by omega)
    have hl1 : (blive (some ⟨b.nmax, (L1 ++ ⟨t.key, t.hb, V⟩ :: L2) ++ z :: Z⟩)).length =
        L1.length + L2.length + 1 := by
      show (live _).length = _
      rw [hk.2]; simp; omega
    have hl0 : (blive (m.buckets.getD (hashfun m K) none)).length =
        L1.length + L2.length + 1 := by
      rw [hb2]
      show (live b.el).length = _
      rw [hlv0]; simp; omega
    simp only [] at hsum
    rw [hl1, hl0] at hsum
    rw [h2]
    have hbkt : ∀ i, bkt
        { g := m.g, nelem := m.nelem, nbuckets := m.nbuckets,
          buckets := m.buckets.set (hashfun m K) (some ⟨b.nmax, (L1 ++ ⟨t.key, t.hb, V⟩ :: L2) ++ z :: Z⟩),
          merging := m.merging, is_leftmost := m.is_leftmost } i =
        if i = hashfun m K then some ⟨b.nmax, (L1 ++ ⟨t.key, t.hb, V⟩ :: L2) ++ z :: Z⟩
        else bkt m i := by
      intro i
      simp only [bkt]
      rw [getD_set_eq]
      by_cases hi : i = hashfun m K
      · subst hi; simp [hlen, hlt]
      · rw [if_neg (by intro hh; exact hi hh.1.symm), if_neg hi]
    have hlive : ∀ i, blive (bkt
        { g := m.g, nelem := m.nelem, nbuckets := m.nbuckets,
          buckets := m.buckets.set (hashfun m K) (some ⟨b.nmax, (L1 ++ ⟨t.key, t.hb, V⟩ :: L2) ++ z :: Z⟩),
          merging := m.merging, is_leftmost := m.is_leftmost } i) =
        if i = hashfun m K then L1 ++ ⟨t.key, t.hb, V⟩ :: L2 else blive (bkt m i) := by
      intro i
      rw [hbkt i]
      by_cases hi : i = hashfun m K
      · rw [if_pos hi, if_pos hi]; exact hk.2
      · rw [if_neg hi, if_neg hi]
    have hhash : ∀ k, hashfun
        { g := m.g, nelem := m.nelem, nbuckets := m.nbuckets,
          buckets := m.buckets.set (hashfun m K) (some ⟨b.nmax, (L1 ++ ⟨t.key, t.hb, V⟩ :: L2) ++ z :: Z⟩),
          merging := m.merging, is_leftmost := m.is_leftmost } k = hashfun m k :=
      fun k => hashfun_congr _ _ k rfl
    have hkeys : (L1 ++ (⟨t.key, t.hb, V⟩ : elem) :: L2).map elem.key =
        (L1 ++ t :: L2).map elem.key := by simp
    refine ⟨⟨hpos, hpow, by simpa using hlen, ?_, ?_, ?_, ?_⟩, rfl, rfl, ⟨rfl, rfl, rfl⟩, ?_⟩
    · intro i hi
      rw [hbkt i]
      by_cases hh : i = hashfun m K
      · rw [if_pos hh]; exact hk.1
      · rw [if_neg hh]; exact hshape i hi
    · intro i hi x hx
      rw [hlive i] at hx
      rw [hhash]
      by_cases hh : i = hashfun m K
      · rw [if_pos hh] at hx
        rw [hh]
        simp at hx
        rcases hx with hx | rfl | hx
        · exact hpl x (by simp [hx])
        · exact ⟨(hpl t (by simp)).1, hV⟩
        · exact hpl x (by simp [hx])
      · rw [if_neg hh] at hx; exact hplace i hi x hx
    · intro i hi
      rw [hlive i]
      by_cases hh : i = hashfun m K
      · rw [if_pos hh, hkeys]; exact hnd
      · rw [if_neg hh]; exact hnodup i hi
    · show m.nelem = ((m.buckets.set (hashfun m K) _).map (fun ob => (blive ob).length)).sum
      omega
    · intro k
      unfold find
      rw [hhash, hlive]
      simp only [List.map_append, List.map_cons] at hnd
      have hnd2 := List.nodup_middle.1 hnd
      rw [List.nodup_cons] at hnd2
      have hL1k : ∀ x ∈ L1, (x.key == k) = true → k ≠ t.key := by
        intro x hx hxk hkt
        apply hnd2.1
        rw [← hkt, ← (by simpa using hxk : x.key = k)]
        exact List.mem_append_left _ (List.mem_map_of_mem elem.key hx)
      by_cases hkk : k = K
      · subst hkk
        rw [if_pos rfl, if_pos rfl, List.find?_append]
        have h1 : List.find? (fun e => e.key == k) L1 = none := by
          rw [List.find?_eq_none]
          intro x hx hxk
          exact hL1k x hx hxk hekey.symm
        rw [h1]
        simp [List.find?_cons, hekey]
      · rw [if_neg hkk]
        by_cases hi : hashfun m k = hashfun m K
        · rw [if_pos hi, hi, hb]
          show _ = List.find? _ (live b.el)
          have hbe : (t.key == k) = false := by
            rw [hekey]; simpa using fun hh : K = k => hkk hh.symm
          rw [hlv0, List.find?_append, List.find?_append, List.find?_cons, List.find?_cons]
          simp only [hbe]
        · rw [if_neg hi]

theorem get_slot_of_pos (m : cilkred_map) (i j : Nat) (t : elem)
    (h : (blive (bkt m i))[j]? = some t) : get_slot m (i, j) = t := by
  cases hb : bkt m i with
  | none => rw [hb] at h; simp [blive] at h
  | some b =>
    rw [hb] at h
    have hb2 : m.buckets.getD i none = some b := hb
    simp only [get_slot, hb2]
    rw [List.getD_eq_getElem?_getD, live_getElem b.el j t h]; rfl

theorem get_set_slot (m : cilkred_map) (i j : Nat) (t e : elem)
    (h : (blive (bkt m i))[j]? = some t) : get_slot (set_slot m (i, j) e) (i, j) = e := by
  cases hb : bkt m i with
  | none => rw [hb] at h; simp [blive] at h
  | some b =>
    rw [hb] at h
    have hb2 : m.buckets.getD i none = some b := hb
    have hj : j < b.el.length := by
      have := live_getElem b.el j t h
      exact (List.getElem?_eq_some.1 this).1
    have hi : i < m.buckets.length := by
      by_contra hc
      rw [List.getD_eq_getElem?_getD, List.getElem?_eq_none (Nat.le_of_not_lt hc)] at hb2
      simp at hb2
    simp only [get_slot, set_slot, hb2]
    rw [getD_set_eq, if_pos ⟨rfl, hi⟩]
    simp only []
    rw [getD_set_eq, if_pos ⟨rfl, hj⟩]

/-- The switch of the merge loop on a key held by both maps (or materialised). -/
theorem merge_switch_spec (env : sched_env) (w : __cilkrts_worker) (m : cilkred_map)
    (hwf : WF m) (hfr : env.sf_worker w.current_stack_frame = w.self) (tr : List Event)
    (oe t : elem) (hv : oe.view ≠ 0) (hf : find m oe.key = some t) (p : Nat × Nat)
    (hp1 : p.1 = hashfun m oe.key) (hp2 : (blive (bkt m (hashfun m oe.key)))[p.2]? = some t) :
    (merge_reduce env w oe.key oe.hb p oe ⟨m, tr⟩ =
        Res.ok oe ⟨m, tr ++ [Event.reduce oe.key oe.hb t.view oe.view]⟩) ∧
    (∃ m1, merge_reduce env w oe.key oe.hb p ⟨oe.key, oe.hb, (get_slot m p).view⟩
          ⟨set_slot m p { get_slot m p with view := oe.view }, tr⟩ =
        Res.ok ⟨oe.key, oe.hb, t.view⟩ ⟨m1, tr ++ [Event.reduce oe.key oe.hb oe.view t.view]⟩ ∧
      WF m1 ∧ same_frame m m1 ∧
      ∀ k, find m1 k = if k = oe.key then some ⟨t.key, t.hb, oe.view⟩ else find m k) := by
  obtain ⟨i, j⟩ := p
  simp only at hp1 hp2
  subst hp1
  have hsl := get_slot_of_pos m _ j t hp2
  refine ⟨?_, ?_⟩
  · simp only [merge_reduce, hfr, ne_eq, not_true_eq_false, if_false, hsl]
  · obtain ⟨hwf1, -, -, hfr1, hf1⟩ :=
      set_view_spec m hwf oe.key t hf (hashfun m oe.key, j) rfl hp2 oe.view hv
    refine ⟨_, ?_, hwf1, hfr1, hf1⟩
    simp only [merge_reduce, hfr, ne_eq, not_true_eq_false, if_false, hsl]
    rw [get_set_slot m _ j t _ hp2]

/-- The body of the merge loop on one element of the other map. -/
theorem merge_elem_spec (env : sched_env) (w : __cilkrts_worker) (kind : merge_kind)
    (mtl : Bool) (oe : elem) (s : merge_state)
    (hwf : WF s.this_map) (hg : g_ok (some w) s.this_map = true)
    (hfr : env.sf_worker w.current_stack_frame = w.self)
    (hk : oe.key ≠ 0) (hv : oe.view ≠ 0) :
    (kind ≠ merge_kind.MERGE_UNORDERED ∨ merge_target mtl (find s.this_map oe.key) oe = none →
      ∃ m1, merge_elem env w kind mtl oe s =
          Res.ok (other_after kind mtl (find s.this_map oe.key) oe)
            ⟨m1, s.trace ++ loop_events kind mtl (find s.this_map oe.key) oe⟩ ∧
        WF m1 ∧ same_frame s.this_map m1 ∧
        ∀ k, find m1 k =
          if k = oe.key then some (surv_elem kind mtl (find s.this_map oe.key) oe)
          else find s.this_map k) ∧
    (kind = merge_kind.MERGE_UNORDERED →
      merge_target mtl (find s.this_map oe.key) oe ≠ none →
      ∃ st, merge_elem env w kind mtl oe s = Res.fatal Fault.reducer_race st) := by
  obtain ⟨m, tr⟩ := s
  simp only at hwf hg ⊢
  have collide : ∀ (m0 : cilkred_map) (t : elem) (p : Nat × Nat), WF m0 →
      find m0 oe.key = some t → p.1 = hashfun m0 oe.key →
      (blive (bkt m0 (hashfun m0 oe.key)))[p.2]? = some t →
      (kind ≠ merge_kind.MERGE_UNORDERED →
        ∃ m1, (match kind with
            | merge_kind.MERGE_UNORDERED => Res.fatal Fault.reducer_race ⟨m0, tr⟩
            | merge_kind.MERGE_INTO_RIGHT =>
              merge_reduce env w oe.key oe.hb p ⟨oe.key, oe.hb, (get_slot m0 p).view⟩
                ⟨set_slot m0 p { get_slot m0 p with view := oe.view }, tr⟩
            | merge_kind.MERGE_INTO_LEFT => merge_reduce env w oe.key oe.hb p oe ⟨m0, tr⟩) =
          Res.ok (match kind with
              | merge_kind.MERGE_INTO_RIGHT => ⟨oe.key, oe.hb, t.view⟩
              | _ => oe)
            ⟨m1, tr ++ (match kind with
              | merge_kind.MERGE_INTO_RIGHT => [Event.reduce oe.key oe.hb oe.view t.view]
              | _ => [Event.reduce oe.key oe.hb t.view oe.view])⟩ ∧
          WF m1 ∧ same_frame m0 m1 ∧
          ∀ k, find m1 k = if k = oe.key then some (match kind with
              | merge_kind.MERGE_INTO_RIGHT => ⟨t.key, t.hb, oe.view⟩
              | _ => t) else find m0 k) := by
    intro m0 t p hwf0 hf0 hp1 hp2 hkind
    obtain ⟨sw1, m1, sw2, hwf1, hfr1, hf1⟩ :=
      merge_switch_spec env w m0 hwf0 hfr tr oe t hv hf0 p hp1 hp2
    cases kind with
    | MERGE_UNORDERED => exact absurd rfl hkind
    | MERGE_INTO_LEFT =>
      refine ⟨m0, sw1, hwf0, same_frame_refl m0, ?_⟩
      intro k
      by_cases hkk : k = oe.key
      · rw [if_pos hkk, hkk]; exact hf0
      · rw [if_neg hkk]
    | MERGE_INTO_RIGHT => exact ⟨m1, sw2, hwf1, hfr1, hf1⟩
  unfold merge_elem
  simp only [if_neg hv]
  cases hf : find m oe.key with
  | some t =>
    obtain ⟨p, hp1, hp2, hp3, hp4⟩ := lookup_of_find_some m hwf oe.key t hf
    rw [hp1]
    simp only [in_merge, Res.bind, reduceCtorEq, false_and, if_false]
    refine ⟨?_, ?_⟩
    · intro hcase
      have hkind : kind ≠ merge_kind.MERGE_UNORDERED := by
        rcases hcase with h | h
        · exact h
        · simp [merge_target] at h
      obtain ⟨m1, h1, h2, h3, h4⟩ := collide m t p hwf hf hp3 hp4 hkind
      exact ⟨m1, by simpa [other_after, loop_events, merge_target] using h1, h2, h3,
        by simpa [surv_elem, merge_target] using h4⟩
    · intro hkind _
      subst hkind
      exact ⟨_, rfl⟩
  | none =>
    have hlk := lookup_of_find_none m hwf oe.key hf
    rw [hlk]
    simp only [in_merge, Res.bind, true_and, get_leftmost_view]
    by_cases hc : mtl = true ∧ oe.key ≠ oe.view
    · have htgt : merge_target mtl none oe = some ⟨oe.key, oe.hb, oe.key⟩ := by
        simp only [merge_target, if_pos hc]
      obtain ⟨p, m1, hri, hwf1, ⟨-, hpa, hpb⟩, -, hfr1, -, hf1⟩ :=
        rehash_and_insert_spec m hwf (some w) hg oe.key oe.hb oe.key hk hk hf
      simp only [if_pos hc.1, if_pos hc.2, hri, in_merge, Res.bind]
      refine ⟨?_, ?_⟩
      · intro hcase
        have hkind : kind ≠ merge_kind.MERGE_UNORDERED := by
          rcases hcase with h | h
          · exact h
          · rw [htgt] at h; cases h
        obtain ⟨m2, h1, h2, h3, h4⟩ := collide m1 ⟨oe.key, oe.hb, oe.key⟩ p hwf1
          (by rw [hf1, if_pos rfl]) hpa hpb hkind
        refine ⟨m2, by simpa [other_after, loop_events, htgt] using h1, h2,
          same_frame_trans hfr1 h3, ?_⟩
        intro k
        rw [h4, hf1]
        by_cases hkk : k = oe.key
        · simp [hkk, surv_elem, htgt]
        · simp [hkk]
      · intro hkind _
        subst hkind
        exact ⟨_, rfl⟩
    · have htgt : merge_target mtl none oe = none := by
        simp only [merge_target, if_neg hc]
      obtain ⟨p, m1, hri, hwf1, -, -, hfr1, -, hf1⟩ :=
        rehash_and_insert_spec m hwf (some w) hg oe.key oe.hb oe.view hk hv hf
      have hstep : ∀ (X : Res merge_state (Option (Nat × Nat))),
          (if mtl = true then (if oe.key ≠ oe.view then X else Res.ok none ⟨m, tr⟩)
            else Res.ok none ⟨m, tr⟩) = Res.ok none ⟨m, tr⟩ := by
        intro X
        by_cases h1 : mtl = true
        · rw [if_pos h1, if_neg (fun h2 => hc ⟨h1, h2⟩)]
        · rw [if_neg h1]
      refine ⟨?_, ?_⟩
      · intro _
        refine ⟨m1, ?_, hwf1, hfr1, ?_⟩
        · rw [hstep]
          simp only [hri, other_after, loop_events, htgt, List.append_nil]
        · intro k
          rw [hf1]
          simp [surv_elem, htgt]
      · intro _ h2
        exact absurd htgt h2

/-- The body of the merge loop run over a list of elements with distinct keys. -/
theorem merge_list_spec (env : sched_env) (w : __cilkrts_worker) (kind : merge_kind)
    (mtl : Bool) (L : List elem) (s : merge_state)
    (hwf : WF s.this_map) (hg : g_ok (some w) s.this_map = true)
    (hfr : env.sf_worker w.current_stack_frame = w.self)
    (hnd : (L.map elem.key).Nodup) (hnz : ∀ oe ∈ L, oe.key ≠ 0 ∧ oe.view ≠ 0) :
    ((kind ≠ merge_kind.MERGE_UNORDERED ∨
        ∀ oe ∈ L, merge_target mtl (find s.this_map oe.key) oe = none) →
      ∃ m1, merge_list env w kind mtl L s =
          Res.ok (L.map (fun oe => other_after kind mtl (find s.this_map oe.key) oe))
            ⟨m1, s.trace ++
              L.flatMap (fun oe => loop_events kind mtl (find s.this_map oe.key) oe)⟩ ∧
        WF m1 ∧ same_frame s.this_map m1 ∧
        ∀ k, find m1 k =
          ((L.find? (fun oe => oe.key == k)).map
            (fun oe => surv_elem kind mtl (find s.this_map oe.key) oe)).or (find s.this_map k)) ∧
    (kind = merge_kind.MERGE_UNORDERED →
      (∃ oe ∈ L, merge_target mtl (find s.this_map oe.key) oe ≠ none) →
      ∃ f st, merge_list env w kind mtl L s = Res.fatal f st) := by
  induction L generalizing s with
  | nil =>
    refine ⟨fun _ => ⟨s.this_map, ?_, hwf, same_frame_refl _, by simp⟩, ?_⟩
    · simp [merge_list]
    · rintro _ ⟨oe, hoe, -⟩; simp at hoe
  | cons a t ih =>
    simp only [List.map_cons, List.nodup_cons] at hnd
    obtain ⟨e1, e2⟩ := merge_elem_spec env w kind mtl a s hwf hg hfr (hnz a (by simp)).1
      (hnz a (by simp)).2
    have hrest : ∀ m1, (∀ k, find m1 k =
          if k = a.key then some (surv_elem kind mtl (find s.this_map a.key) a)
          else find s.this_map k) →
        ∀ oe ∈ t, find m1 oe.key = find s.this_map oe.key := by
      intro m1 hf1 oe hoe
      rw [hf1, if_neg]
      intro heq
      exact hnd.1 (heq ▸ List.mem_map_of_mem elem.key hoe)
    refine ⟨?_, ?_⟩
    · intro hcase
      obtain ⟨m1, h1, hwf1, hfr1, hf1⟩ := e1 (by
        rcases hcase with h | h
        · exact Or.inl h
        · exact Or.inr (h a (by simp)))
      have hr := hrest m1 hf1
      obtain ⟨i1, -⟩ := ih ⟨m1, s.trace ++ loop_events kind mtl (find s.this_map a.key) a⟩
        hwf1 (by rw [g_ok_congr (some w) s.this_map m1 hfr1.1]; exact hg) hnd.2
        (fun oe hoe => hnz oe (by simp [hoe]))
      obtain ⟨m2, h2, hwf2, hfr2, hf2⟩ := i1 (by
        rcases hcase with h | h
        · exact Or.inl h
        · right
          intro oe hoe
          show merge_target mtl (find m1 oe.key) oe = none
          rw [hr oe hoe]; exact h oe (by simp [hoe]))
      simp only at h2 hf2 hfr2
      have hmap : t.map (fun oe => other_after kind mtl (find m1 oe.key) oe) =
          t.map (fun oe => other_after kind mtl (find s.this_map oe.key) oe) :=
        List.map_congr_left (fun oe hoe => by rw [hr oe hoe])
      have hfm : t.flatMap (fun oe => loop_events kind mtl (find m1 oe.key) oe) =
          t.flatMap (fun oe => loop_events kind mtl (find s.this_map oe.key) oe) := by
        simp only [List.flatMap]
        rw [List.map_congr_left (fun oe hoe => by rw [hr oe hoe])]
      refine ⟨m2, ?_, hwf2, same_frame_trans hfr1 hfr2, ?_⟩
      · rw [merge_list, h1]
        simp only [Res.bind, h2, hmap, hfm, List.map_cons, List.flatMap_cons, List.append_assoc]
      · intro k
        rw [hf2, hf1, List.find?_cons]
        by_cases hkk : k = a.key
        · subst hkk
          have : List.find? (fun oe => oe.key == a.key) t = none := by
            rw [List.find?_eq_none]
            intro x hx hxa
            exact hnd.1 ((by simpa using hxa : x.key = a.key) ▸ List.mem_map_of_mem elem.key hx)
          simp [this]
        · have hb : (a.key == k) = false := by simpa using fun h : a.key = k => hkk h.symm
          rw [if_neg hkk, hb]
          cases hft : List.find? (fun oe => oe.key == k) t with
          | none => simp
          | some oe =>
            have hoe := List.mem_of_find?_eq_some hft
            simp [hr oe hoe]
    · intro hkind hex
      by_cases hhead : merge_target mtl (find s.this_map a.key) a = none
      · obtain ⟨m1, h1, hwf1, hfr1, hf1⟩ := e1 (Or.inr hhead)
        have hr := hrest m1 hf1
        obtain ⟨-, i2⟩ := ih ⟨m1, s.trace ++ loop_events kind mtl (find s.this_map a.key) a⟩
          hwf1 (by rw [g_ok_congr (some w) s.this_map m1 hfr1.1]; exact hg) hnd.2
          (fun oe hoe => hnz oe (by simp [hoe]))
        obtain ⟨oe, hoe, htg⟩ := hex
        have hoet : oe ∈ t := by
          rcases List.mem_cons.1 hoe with rfl | h
          · exact absurd hhead htg
          · exact h
        obtain ⟨f, st, h2⟩ := i2 hkind ⟨oe, hoet, by
          show merge_target mtl (find m1 oe.key) oe ≠ none
          rw [hr oe hoet]; exact htg⟩
        exact ⟨f, st, by rw [merge_list, h1]; simp only [Res.bind, h2]⟩
      · obtain ⟨st, h1⟩ := e2 hkind hhead
        exact ⟨_, st, by rw [merge_list, h1]; rfl⟩

theorem in_merge_ok {α : Type} (tr : List Event) (r : Res cilkred_map α) (a : α) (s : merge_state)
    (h : in_merge tr r = Res.ok a s) : ∃ m, r = Res.ok a m ∧ s = ⟨m, tr⟩ := by
  cases r with
  | ok a' m => simp [in_merge] at h; exact ⟨m, by rw [h.1], h.2.symm⟩
  | fatal f m => simp [in_merge] at h

theorem bind_ok {σ α β : Type} (r : Res σ α) (f : α → σ → Res σ β) (b : β) (s : σ)
    (h : r.bind f = Res.ok b s) : ∃ a s1, r = Res.ok a s1 ∧ f a s1 = Res.ok b s := by
  cases r with
  | ok a s1 => exact ⟨a, s1, rfl, h⟩
  | fatal w s1 => simp [Res.bind] at h

theorem merge_reduce_key (env : sched_env) (w : __cilkrts_worker) (key hb : Nat) (p : Nat × Nat)
    (oe e1 : elem) (s s1 : merge_state) (h : merge_reduce env w key hb p oe s = Res.ok e1 s1) :
    e1 = oe := by
  unfold merge_reduce at h
  split at h
  · cases h
  · injection h with h1 _; exact h1.symm

theorem merge_elem_key (env : sched_env) (w : __cilkrts_worker) (kind : merge_kind)
    (mtl : Bool) (oe e1 : elem) (s s1 : merge_state)
    (h : merge_elem env w kind mtl oe s = Res.ok e1 s1) : e1.key = oe.key := by
  unfold merge_elem at h
  simp only at h
  split at h
  · cases h
  · obtain ⟨a, sa, -, h2⟩ := bind_ok _ _ _ _ h
    obtain ⟨b, sb, -, h3⟩ := bind_ok _ _ _ _ h2
    cases b with
    | none =>
      simp only at h3
      obtain ⟨c, sc, -, h4⟩ := bind_ok _ _ _ _ h3
      injection h4 with h5 _
      rw [← h5]
    | some p =>
      simp only at h3
      cases kind with
      | MERGE_UNORDERED => cases h3
      | MERGE_INTO_LEFT => rw [merge_reduce_key _ _ _ _ _ _ _ _ _ h3]
      | MERGE_INTO_RIGHT => rw [merge_reduce_key _ _ _ _ _ _ _ _ _ h3]

theorem merge_list_keys (env : sched_env) (w : __cilkrts_worker) (kind : merge_kind)
    (mtl : Bool) (L r : List elem) (s s1 : merge_state)
    (h : merge_list env w kind mtl L s = Res.ok r s1) : r.map elem.key = L.map elem.key := by
  induction L generalizing s s1 r with
  | nil => simp [merge_list] at h; simp [h.1.symm]
  | cons a t ih =>
    rw [merge_list] at h
    obtain ⟨e1, sa, h1, h2⟩ := bind_ok _ _ _ _ h
    obtain ⟨r1, sb, h3, h4⟩ := bind_ok _ _ _ _ h2
    injection h4 with h5 _
    rw [← h5, List.map_cons, List.map_cons, ih r1 sa sb h3, merge_elem_key _ _ _ _ _ _ _ _ h1]

theorem merge_list_append (env : sched_env) (w : __cilkrts_worker) (kind : merge_kind)
    (mtl : Bool) (A B : List elem) (s : merge_state) :
    merge_list env w kind mtl (A ++ B) s =
      (merge_list env w kind mtl A s).bind (fun r1 s1 =>
        (merge_list env w kind mtl B s1).bind (fun r2 s2 => Res.ok (r1 ++ r2) s2)) := by
  induction A generalizing s with
  | nil =>
    simp only [List.nil_append, merge_list, Res.bind]
    cases merge_list env w kind mtl B s <;> rfl
  | cons a t ih =>
    simp only [List.cons_append, merge_list, List.append_eq]
    cases h1 : merge_elem env w kind mtl a s with
    | fatal f st => rfl
    | ok e1 sa =>
      simp only [Res.bind]
      rw [ih sa]
      cases h2 : merge_list env w kind mtl t sa with
      | fatal f st => rfl
      | ok r1 sb =>
        simp only [Res.bind]
        cases h3 : merge_list env w kind mtl B sb with
        | fatal f st => rfl
        | ok r2 sc => rfl

/-- The inner loop of `cilkred_map_merge` on a well-shaped slot array is the
loop body run over its live slots. -/
theorem merge_bucket_eq (env : sched_env) (w : __cilkrts_worker) (kind : merge_kind)
    (mtl : Bool) (L Z : List elem) (z : elem) (s : merge_state)
    (hL : ∀ e ∈ L, e.key ≠ 0) (hz : z.key = 0) :
    merge_bucket env w kind mtl (L ++ z :: Z) s =
      (merge_list env w kind mtl L s).bind (fun r s1 => Res.ok (r ++ z :: Z) s1) := by
  induction L generalizing s with
  | nil => simp [merge_bucket, merge_list, Res.bind, hz]
  | cons a t ih =>
    have ha : a.key ≠ 0 := hL a (by simp)
    simp only [List.cons_append, merge_bucket, merge_list, if_neg ha, List.append_eq]
    cases h1 : merge_elem env w kind mtl a s with
    | fatal f st => rfl
    | ok e1 sa =>
      simp only [Res.bind]
      rw [ih sa (fun e he => hL e (by simp [he]))]
      cases h2 : merge_list env w kind mtl t sa with
      | fatal f st => rfl
      | ok r1 sb => rfl

theorem destroy_bucket_eq (r Z : List elem) (z : elem) (hr : ∀ e ∈ r, e.key ≠ 0)
    (hz : z.key = 0) : destroy_bucket (r ++ z :: Z) = r.flatMap dealloc_of := by
  induction r with
  | nil => simp [destroy_bucket, hz]
  | cons a t ih =>
    have ha : a.key ≠ 0 := hr a (by simp)
    simp only [List.cons_append, destroy_bucket, if_neg ha, List.flatMap_cons, List.append_eq]
    rw [ih (fun e he => hr e (by simp [he]))]
    rfl

/-- The outer loop of `cilkred_map_merge` on well-shaped buckets is the loop
body run over the live slots of all of them; the final
`cilkred_map_destroy_map` walks the slots the loop left behind. -/
theorem merge_buckets_eq (env : sched_env) (w : __cilkrts_worker) (kind : merge_kind)
    (mtl : Bool) (bs : List (Option bucket)) (s : merge_state)
    (hok : ∀ ob ∈ bs, opt_bucket_ok ob) :
    match merge_list env w kind mtl (bs.flatMap blive) s with
    | Res.ok r s1 => ∃ bs1, merge_buckets env w kind mtl bs s = Res.ok bs1 s1 ∧
        destroy_buckets bs1 = r.flatMap dealloc_of
    | Res.fatal f s1 => merge_buckets env w kind mtl bs s = Res.fatal f s1 := by
  induction bs generalizing s with
  | nil => exact ⟨[], rfl, rfl⟩
  | cons ob rest ih =>
    have ihr := fun s => ih s (fun ob hob => hok ob (by simp [hob]))
    cases ob with
    | none =>
      simp only [List.flatMap_cons, blive, List.nil_append, merge_buckets]
      have := ihr s
      cases h1 : merge_list env w kind mtl (rest.flatMap blive) s with
      | fatal f st => rw [h1] at this; simp only [this, Res.bind]
      | ok r s1 =>
        rw [h1] at this
        obtain ⟨bs1, hb1, hb2⟩ := this
        exact ⟨none :: bs1, by simp only [hb1, Res.bind], by simp only [destroy_buckets, hb2]⟩
    | some b =>
      have hbok : bucket_ok b := hok (some b) (by simp)
      obtain ⟨z, Z, hsplit, hz, hZ, -⟩ := bucket_ok_split b hbok
      have hnz := live_keys_ne b.el
      have hblive : blive (some b) = live b.el := rfl
      simp only [List.flatMap_cons, hblive, merge_buckets]
      generalize live b.el = L at hsplit hnz
      rw [hsplit, merge_bucket_eq env w kind mtl L Z z s hnz hz, merge_list_append]
      cases h1 : merge_list env w kind mtl L s with
      | fatal f st => rfl
      | ok r1 sa =>
        simp only [Res.bind]
        have hk1 := merge_list_keys env w kind mtl L r1 s sa h1
        have hr1 : ∀ e ∈ r1, e.key ≠ 0 := by
          intro e he
          have : e.key ∈ L.map elem.key := hk1 ▸ List.mem_map_of_mem elem.key he
          obtain ⟨x, hx, hxe⟩ := List.mem_map.1 this
          rw [← hxe]; exact hnz x hx
        have := ihr sa
        cases h2 : merge_list env w kind mtl (rest.flatMap blive) sa with
        | fatal f st => rw [h2] at this; simp only [this]
        | ok r2 sb =>
          rw [h2] at this
          obtain ⟨bs1, hb1, hb2⟩ := this
          refine ⟨some ⟨b.nmax, r1 ++ z :: Z⟩ :: bs1, by simp only [hb1], ?_⟩
          simp only [destroy_buckets, hb2, destroy_bucket_eq r1 Z z hr1 hz, List.flatMap_append]

/-- The live elements of the buckets from index `i` on, in a well-formed map. -/
theorem entries_suffix (m : cilkred_map) (hwf : WF m) (rest : List (Option bucket)) (i : Nat)
    (hrest : ∀ j, j < rest.length → rest.getD j none = bkt m (i + j))
    (hi : i + rest.length = m.nbuckets) :
    ((rest.flatMap blive).map elem.key).Nodup ∧
    (∀ e ∈ rest.flatMap blive, i ≤ hashfun m e.key ∧ e.key ≠ 0 ∧ e.view ≠ 0) ∧
    ∀ k, (rest.flatMap blive).find? (fun e => e.key == k) =
      if i ≤ hashfun m k then find m k else none := by
  induction rest generalizing i with
  | nil =>
    refine ⟨by simp, by simp, ?_⟩
    intro k
    have := hashfun_lt m k hwf.1
    simp at hi
    rw [if_neg (by omega)]; rfl
  | cons ob rest ih =>
    have hhead : ob = bkt m i := by simpa using hrest 0 (by simp)
    have hilt : i < m.nbuckets := by simp at hi; omega
    have htail : ∀ j, j < rest.length → rest.getD j none = bkt m (i + 1 + j) := by
      intro j hj
      have := hrest (j + 1) (by simpa using hj)
      rw [List.getD_cons_succ] at this
      rw [this]; congr 1; omega
    obtain ⟨ih1, ih2, ih3⟩ := ih (i + 1) htail (by simp at hi; omega)
    have hpl : ∀ e ∈ blive ob, hashfun m e.key = i ∧ e.view ≠ 0 := by
      intro e he; exact hwf.2.2.2.2.1 i hilt e (hhead ▸ he)
    have hnz : ∀ e ∈ blive ob, e.key ≠ 0 := by
      intro e he
      cases ob with
      | none => simp [blive] at he
      | some b => exact live_keys_ne b.el e he
    rw [List.flatMap_cons]
    refine ⟨?_, ?_, ?_⟩
    · rw [List.map_append, List.nodup_append]
      refine ⟨by rw [hhead]; exact hwf.2.2.2.2.2.1 i hilt, ih1, ?_⟩
      intro a ha hb
      obtain ⟨x, hx, hxa⟩ := List.mem_map.1 ha
      obtain ⟨y, hy, hya⟩ := List.mem_map.1 hb
      have h1 := (hpl x hx).1
      have h2 := (ih2 y hy).1
      rw [hxa] at h1
      rw [hya] at h2
      omega
    · intro e he
      rcases List.mem_append.1 he with h | h
      · exact ⟨by rw [(hpl e h).1], hnz e h, (hpl e h).2⟩
      · obtain ⟨h1, h2, h3⟩ := ih2 e h
        exact ⟨by omega, h2, h3⟩
    · intro k
      rw [List.find?_append, ih3 k]
      by_cases hk : hashfun m k = i
      · rw [if_neg (by omega), if_pos (by omega)]
        unfold find
        rw [hk, ← hhead]; simp
      · have hnone : (blive ob).find? (fun e => e.key == k) = none := by
          rw [List.find?_eq_none]
          intro x hx hxk
          have := (hpl x hx).1
          rw [(by simpa using hxk : x.key = k)] at this
          exact hk this
        rw [hnone]
        by_cases hlt : i ≤ hashfun m k
        · rw [if_pos (by omega), if_pos hlt]; rfl
        · rw [if_neg (by omega), if_neg hlt]; rfl

theorem entries_eq (m : cilkred_map) (hwf : WF m) : entries m = m.buckets.flatMap blive := by
  unfold entries
  rw [← hwf.2.2.1, List.take_length]

/-- The live elements of a well-formed map: distinct non-null keys, non-null
views, and `find` is the search for a key among them. -/
theorem entries_spec (m : cilkred_map) (hwf : WF m) :
    ((entries m).map elem.key).Nodup ∧
    (∀ e ∈ entries m, e.key ≠ 0 ∧ e.view ≠ 0) ∧
    (∀ k, (entries m).find? (fun e => e.key == k) = find m k) ∧
    (∀ e, e ∈ entries m ↔ find m e.key = some e) := by
  have h := entries_suffix m hwf m.buckets 0 (by intro j _; simp [bkt])
    (by simpa using hwf.2.2.1)
  rw [← entries_eq m hwf] at h
  obtain ⟨h1, h2, h3⟩ := h
  have h3' : ∀ k, (entries m).find? (fun e => e.key == k) = find m k := by
    intro k; rw [h3 k, if_pos (Nat.zero_le _)]
  refine ⟨h1, fun e he => (h2 e he).2, h3', ?_⟩
  intro e
  constructor
  · intro he
    rw [← h3', nodup_find _ h1 e he]
  · intro he
    rw [← h3'] at he
    exact List.mem_of_find?_eq_some he

theorem merge_bucket_length (env : sched_env) (w : __cilkrts_worker) (kind : merge_kind)
    (mtl : Bool) (el r : List elem) (s s1 : merge_state)
    (h : merge_bucket env w kind mtl el s = Res.ok r s1) : r.length = el.length := by
  induction el generalizing s s1 r with
  | nil => simp [merge_bucket] at h; simp [h.1.symm]
  | cons a t ih =>
    rw [merge_bucket] at h
    split at h
    · injection h with h1 _; rw [← h1]
    · obtain ⟨e1, sa, -, h2⟩ := bind_ok _ _ _ _ h
      obtain ⟨r1, sb, h3, h4⟩ := bind_ok _ _ _ _ h2
      injection h4 with h5 _
      rw [← h5, List.length_cons, List.length_cons, ih r1 sa sb h3]

theorem merge_buckets_length (env : sched_env) (w : __cilkrts_worker) (kind : merge_kind)
    (mtl : Bool) (bs r : List (Option bucket)) (s s1 : merge_state)
    (h : merge_buckets env w kind mtl bs s = Res.ok r s1) : r.length = bs.length := by
  induction bs generalizing s s1 r with
  | nil => simp [merge_buckets] at h; simp [h.1.symm]
  | cons ob rest ih =>
    cases ob with
    | none =>
      rw [merge_buckets] at h
      obtain ⟨r1, sa, h1, h2⟩ := bind_ok _ _ _ _ h
      injection h2 with h3 _
      rw [← h3, List.length_cons, List.length_cons, ih r1 s sa h1]
    | some b =>
      rw [merge_buckets] at h
      obtain ⟨el1, sa, -, h2⟩ := bind_ok _ _ _ _ h
      obtain ⟨r1, sb, h3, h4⟩ := bind_ok _ _ _ _ h2
      injection h4 with h5 _
      rw [← h5, List.length_cons, List.length_cons, ih r1 sa sb h3]

/-- The function `cilkred_map_merge` on two well-formed maps, called by the
thread-local worker on its own frame with a non-leftmost other map: when it is
not an unordered merge with a collision it returns, the surviving map is
well-formed and maps the keys of the other map as the loop body left them and
all other keys as before, and the trace consists of the callbacks of the loop
followed by those of the destruction of the other map; an unordered merge with
a collision is fatal. -/
theorem merge_spec (env : sched_env) (this_map : cilkred_map) (w : __cilkrts_worker)
    (other_map : cilkred_map) (kind : merge_kind)
    (hwf : WF this_map) (hwfo : WF other_map)
    (hg : g_ok (some w) this_map = true) (hgo : g_ok (some w) other_map = true)
    (hfr : env.sf_worker w.current_stack_frame = w.self) (htls : w.self = env.tls_worker)
    (hol : other_map.is_leftmost = false) :
    ((kind ≠ merge_kind.MERGE_UNORDERED ∨ ∀ oe ∈ entries other_map,
        merge_target this_map.is_leftmost (find this_map oe.key) oe = none) →
      ∃ m1, cilkred_map_merge env this_map w other_map kind =
          Res.ok w ⟨m1,
            (entries other_map).flatMap
                (fun oe => loop_events kind this_map.is_leftmost (find this_map oe.key) oe) ++
              ((entries other_map).map
                (fun oe => other_after kind this_map.is_leftmost (find this_map oe.key) oe)).flatMap
                dealloc_of⟩ ∧
        WF m1 ∧ m1.g = this_map.g ∧ m1.merging = false ∧
        m1.is_leftmost = this_map.is_leftmost ∧
        ∀ k, find m1 k =
          ((find other_map k).map
            (fun oe => surv_elem kind this_map.is_leftmost (find this_map oe.key) oe)).or
            (find this_map k)) ∧
    (kind = merge_kind.MERGE_UNORDERED →
      (∃ oe ∈ entries other_map,
        merge_target this_map.is_leftmost (find this_map oe.key) oe ≠ none) →
      ∃ f st, cilkred_map_merge env this_map w other_map kind = Res.fatal f st) := by
  obtain ⟨hnd, hnz, hfind, -⟩ := entries_spec other_map hwfo
  have hwf1 : WF { this_map with merging := true } := hwf
  have hg1 : g_ok (some w) { this_map with merging := true } = true := hg
  obtain ⟨la, lb⟩ := merge_list_spec env w kind this_map.is_leftmost (entries other_map)
    ⟨{ this_map with merging := true }, []⟩ hwf1 hg1 hfr hnd hnz
  have htake : other_map.buckets.take other_map.nbuckets = other_map.buckets := by
    rw [← hwfo.2.2.1, List.take_length]
  have hdrop : other_map.buckets.drop other_map.nbuckets = [] := by
    rw [← hwfo.2.2.1, List.drop_length]
  have hshape : ∀ ob ∈ other_map.buckets, opt_bucket_ok ob := by
    intro ob hob
    obtain ⟨i, hi, hget⟩ := List.getElem_of_mem hob
    have := hwfo.2.2.2.1 i (by rw [← hwfo.2.2.1]; exact hi)
    simp only [bkt, List.getD_eq_getElem?_getD, List.getElem?_eq_getElem hi, Option.getD_some,
      hget] at this
    exact this
  have hmb := merge_buckets_eq env w kind this_map.is_leftmost other_map.buckets
    ⟨{ this_map with merging := true }, []⟩ hshape
  rw [← entries_eq other_map hwfo] at hmb
  unfold cilkred_map_merge
  simp only [hol, Bool.false_eq_true, if_false, htake, hdrop, List.append_nil]
  refine ⟨?_, ?_⟩
  · intro hcase
    obtain ⟨m1, h1, hwfm, hfrm, hfm⟩ := la hcase
    have h1' : merge_list env w kind this_map.is_leftmost (entries other_map)
        ⟨{ this_map with merging := true }, []⟩ =
        Res.ok ((entries other_map).map
            (fun oe => other_after kind this_map.is_leftmost (find this_map oe.key) oe))
          ⟨m1, (entries other_map).flatMap
            (fun oe => loop_events kind this_map.is_leftmost (find this_map oe.key) oe)⟩ := h1
    rw [h1'] at hmb
    obtain ⟨bs1, hb1, hb2⟩ := hmb
    have hlen := merge_buckets_length _ _ _ _ _ _ _ _ hb1
    have htake1 : bs1.take other_map.nbuckets = bs1 := by
      rw [← hwfo.2.2.1, ← hlen, List.take_length]
    have hgo1 : g_ok (some w)
        { g := other_map.g, nelem := other_map.nelem, nbuckets := other_map.nbuckets,
          buckets := bs1, merging := false, is_leftmost := false } = true := hgo
    refine ⟨{ m1 with is_leftmost := m1.is_leftmost || false, merging := false }, ?_, hwfm,
      hfrm.1, rfl, ?_, ?_⟩
    · simp only [hb1, Res.bind, htls, ne_eq, not_true_eq_false, if_false,
        cilkred_map_destroy_map, hgo1, Bool.not_true, Bool.false_eq_true, htake1, hb2,
        Bool.or_false]
    · show (m1.is_leftmost || false) = this_map.is_leftmost
      rw [Bool.or_false]; exact hfrm.2.2
    · intro k
      show find m1 k = _
      rw [hfm k, hfind k]
      rfl
  · intro hkind hex
    obtain ⟨f, st, h2⟩ := lb hkind hex
    rw [h2] at hmb
    exact ⟨f, st, by simp only [hmb, Res.bind]⟩

theorem merge_other_leftmost (env : sched_env) (this_map : cilkred_map) (w : __cilkrts_worker)
    (other_map : cilkred_map) (kind : merge_kind) (h : other_map.is_leftmost = true) :
    cilkred_map_merge env this_map w other_map kind =
      Res.fatal Fault.assertion ⟨{ this_map with merging := true }, []⟩ := by
  unfold cilkred_map_merge
  simp only [h, if_true]

/-- A merge that returns: the conclusions of `merge_spec` for its outcome. -/
theorem merge_ok_spec (env : sched_env) (this_map : cilkred_map) (w : __cilkrts_worker)
    (other_map : cilkred_map) (kind : merge_kind)
    (hwf : WF this_map) (hwfo : WF other_map)
    (hg : g_ok (some w) this_map = true) (hgo : g_ok (some w) other_map = true)
    (hfr : env.sf_worker w.current_stack_frame = w.self) (htls : w.self = env.tls_worker)
    (w1 : __cilkrts_worker) (st : merge_state)
    (hok : cilkred_map_merge env this_map w other_map kind = Res.ok w1 st) :
    other_map.is_leftmost = false ∧
    st.trace =
      (entries other_map).flatMap
          (fun oe => loop_events kind this_map.is_leftmost (find this_map oe.key) oe) ++
        ((entries other_map).map
          (fun oe => other_after kind this_map.is_leftmost (find this_map oe.key) oe)).flatMap
          dealloc_of ∧
    WF st.this_map ∧ st.this_map.g = this_map.g ∧ st.this_map.merging = false ∧
    st.this_map.is_leftmost = this_map.is_leftmost ∧
    (∀ k, find st.this_map k =
      ((find other_map k).map
        (fun oe => surv_elem kind this_map.is_leftmost (find this_map oe.key) oe)).or
        (find this_map k)) ∧
    (kind ≠ merge_kind.MERGE_UNORDERED ∨ ∀ oe ∈ entries other_map,
      merge_target this_map.is_leftmost (find this_map oe.key) oe = none) := by
  have hol : other_map.is_leftmost = false := by
    cases h : other_map.is_leftmost with
    | false => rfl
    | true => rw [merge_other_leftmost env this_map w other_map kind h] at hok; cases hok
  obtain ⟨sa, sb⟩ := merge_spec env this_map w other_map kind hwf hwfo hg hgo hfr htls hol
  have hcase : kind ≠ merge_kind.MERGE_UNORDERED ∨ ∀ oe ∈ entries other_map,
      merge_target this_map.is_leftmost (find this_map oe.key) oe = none := by
    by_cases hk : kind = merge_kind.MERGE_UNORDERED
    · right
      by_contra hc
      push_neg at hc
      obtain ⟨f, st1, h1⟩ := sb hk hc
      rw [h1] at hok; cases hok
    · exact Or.inl hk
  obtain ⟨m1, h1, h2, h3, h4, h5, h6⟩ := sa hcase
  rw [h1] at hok
  injection hok with _ hst
  subst hst
  exact ⟨hol, rfl, h2, h3, h4, h5, h6, hcase⟩

theorem loop_events_key (kind : merge_kind) (mtl : Bool) (cur : Option elem) (oe : elem) :
    ∀ ev ∈ loop_events kind mtl cur oe, ev.key? = some oe.key := by
  intro ev hev
  unfold loop_events at hev
  generalize merge_target mtl cur oe = tg at hev
  cases tg with
  | none => simp at hev
  | some t =>
    cases kind <;> simp at hev <;> subst hev <;> rfl

theorem other_after_key (kind : merge_kind) (mtl : Bool) (cur : Option elem) (oe : elem) :
    (other_after kind mtl cur oe).key = oe.key ∧ (other_after kind mtl cur oe).hb = oe.hb := by
  unfold other_after
  generalize merge_target mtl cur oe = tg
  cases tg with
  | none => exact ⟨rfl, rfl⟩
  | some t => cases kind <;> exact ⟨rfl, rfl⟩

theorem dealloc_of_key (el : elem) : ∀ ev ∈ dealloc_of el, ev.key? = some el.key := by
  intro ev hev
  unfold dealloc_of elem_destroy at hev
  split at hev
  · simp only at hev
    split at hev
    · simp at hev; subst hev; rfl
    · simp at hev
  · simp at hev

/-- The callbacks made for one key among those made for a list of elements
with distinct keys. -/
theorem events_of_flatMap (K : Nat) (L : List elem) (f : elem → List Event)
    (hnd : (L.map elem.key).Nodup) (hf : ∀ oe, ∀ ev ∈ f oe, ev.key? = some oe.key) :
    events_of K (L.flatMap f) = ((L.find? (fun oe => oe.key == K)).map f).getD [] := by
  induction L with
  | nil => rfl
  | cons a t ih =>
    simp only [List.map_cons, List.nodup_cons] at hnd
    rw [List.flatMap_cons, List.find?_cons]
    unfold events_of at ih ⊢
    rw [List.filter_append, ih hnd.2]
    by_cases hk : a.key = K
    · have hb : (a.key == K) = true := by simpa using hk
      rw [hb]
      have h1 : (f a).filter (fun ev => ev.key? == some K) = f a := by
        rw [List.filter_eq_self]
        intro ev hev
        rw [hf a ev hev, hk]; simp
      have h2 : List.find? (fun oe => oe.key == K) t = none := by
        rw [List.find?_eq_none]
        intro x hx hxk
        exact hnd.1 ((by rw [hk]; simpa using hxk : x.key = a.key) ▸
          List.mem_map_of_mem elem.key hx)
      rw [h1, h2]; simp
    · have hb : (a.key == K) = false := by simpa using hk
      rw [hb]
      have h1 : (f a).filter (fun ev => ev.key? == some K) = [] := by
        rw [List.filter_eq_nil_iff]
        intro ev hev
        rw [hf a ev hev]
        simpa using hk
      rw [h1]; rfl

/-- The callbacks a merge makes for one key of the other map. -/
theorem merge_trace_of (kind : merge_kind) (mtl : Bool) (this_map other_map : cilkred_map)
    (hwfo : WF other_map) (K : Nat) :
    events_of K
      ((entries other_map).flatMap
          (fun oe => loop_events kind mtl (find this_map oe.key) oe) ++
        ((entries other_map).map
          (fun oe => other_after kind mtl (find this_map oe.key) oe)).flatMap dealloc_of) =
      ((find other_map K).map (fun oe =>
        loop_events kind mtl (find this_map oe.key) oe ++
          dealloc_of (other_after kind mtl (find this_map oe.key) oe))).getD [] := by
  obtain ⟨hnd, -, hfind, -⟩ := entries_spec other_map hwfo
  have hsplit : ∀ a b : List Event, events_of K (a ++ b) = events_of K a ++ events_of K b := by
    intro a b; unfold events_of; rw [List.filter_append]
  rw [hsplit, List.flatMap_map,
    events_of_flatMap K _ _ hnd (fun oe => loop_events_key kind mtl _ oe),
    events_of_flatMap K _ _ hnd (fun oe ev hev => by
      rw [dealloc_of_key _ ev hev, (other_after_key kind mtl _ oe).1]),
    hfind K]
  cases find other_map K <;> rfl

theorem loop_events_reduce (kind : merge_kind) (mtl : Bool) (cur : Option elem) (oe : elem) :
    (loop_events kind mtl cur oe).filter Event.isReduce = loop_events kind mtl cur oe := by
  unfold loop_events
  generalize merge_target mtl cur oe = tg
  cases tg with
  | none => rfl
  | some t => cases kind <;> rfl

theorem dealloc_of_reduce (el : elem) : (dealloc_of el).filter Event.isReduce = [] := by
  unfold dealloc_of elem_destroy
  split
  · simp only
    split <;> rfl
  · rfl

theorem nodup_filter_key (L : List elem) (hnd : (L.map elem.key).Nodup) (e : elem)
    (he : e ∈ L) : L.filter (fun x => x.key == e.key) = [e] := by
  induction L with
  | nil => simp at he
  | cons a t ih =>
    simp only [List.map_cons, List.nodup_cons] at hnd
    rw [List.filter_cons]
    rcases List.mem_cons.1 he with rfl | h
    · have : t.filter (fun x => x.key == e.key) = [] := by
        rw [List.filter_eq_nil_iff]
        intro x hx hxe
        exact hnd.1 ((by simpa using hxe : x.key = e.key) ▸ List.mem_map_of_mem elem.key hx)
      simp [this]
    · have hne : a.key ≠ e.key := by
        intro heq
        exact hnd.1 (heq ▸ List.mem_map_of_mem elem.key h)
      have hb : (a.key == e.key) = false := by simpa using hne
      rw [hb]
      exact ih hnd.2 h

theorem flatMap_nil_of {α β : Type} (L : List α) (f : α → List β) (h : ∀ x ∈ L, f x = []) :
    L.flatMap f = [] := by
  induction L with
  | nil => rfl
  | cons a t ih =>
    rw [List.flatMap_cons, h a (by simp), ih (fun x hx => h x (by simp [hx]))]
    rfl

theorem lookup_some_iff_find (m : cilkred_map) (hwf : WF m) (k : Nat) :
    (∃ p, cilkred_map_lookup m k = Res.ok (some p) m) ↔ (find m k).isSome = true := by
  constructor
  · rintro ⟨p, hp⟩
    rw [find_of_lookup_some m m hwf k p hp]; rfl
  · intro h
    cases hf : find m k with
    | none => rw [hf] at h; cases h
    | some e =>
      obtain ⟨p, hp, -⟩ := lookup_of_find_some m hwf k e hf
      exact ⟨p, hp⟩

theorem dealloc_of_eq (k hb v : Nat) (hv : v ≠ 0) :
    dealloc_of ⟨k, hb, v⟩ = if v = k then [] else [Event.deallocate k hb v] := by
  unfold dealloc_of elem_destroy elem_is_leftmost
  simp only [ne_eq, hv, not_false_eq_true, if_true]
  by_cases h : v = k
  · subst h; simp
  · have : (k == v) = false := by simpa using fun hh : k = v => h hh.symm
    simp [this, h]

theorem dealloc_of_mem (el : elem) (k hb v : Nat)
    (h : Event.deallocate k hb v ∈ dealloc_of el) :
    k = el.key ∧ v = el.view ∧ v ≠ 0 ∧ el.key ≠ el.view := by
  by_cases hv : el.view = 0
  · simp [dealloc_of, hv] at h
  · by_cases hl : el.key = el.view
    · simp [dealloc_of, elem_destroy, elem_is_leftmost, hv, hl] at h
    · simp [dealloc_of, elem_destroy, elem_is_leftmost, hv, hl] at h
      obtain ⟨h1, -, h3⟩ := h
      exact ⟨h1, h3, by rw [h3]; exact hv, hl⟩

theorem other_after_view (kind : merge_kind) (mtl : Bool) (cur : Option elem) (oe : elem) :
    (other_after kind mtl cur oe).view = 0 ∨ (other_after kind mtl cur oe).view = oe.view ∨
      (∃ t, cur = some t ∧ (other_after kind mtl cur oe).view = t.view) ∨
      (other_after kind mtl cur oe).view = oe.key := by
  unfold other_after merge_target
  cases cur with
  | some t =>
    cases kind
    · right; left; rfl
    · right; left; rfl
    · right; right; left; exact ⟨t, rfl, rfl⟩
  | none =>
    by_cases hc : mtl = true ∧ oe.key ≠ oe.view
    · simp only [if_pos hc]
      cases kind
      · right; left; rfl
      · right; left; rfl
      · right; right; right; rfl
    · simp only [if_neg hc]
      left; trivial

/-- A call of `deallocate_fn` made when the losing map is destroyed is made on
the view the other map held for the key or on the view the surviving map held
for it. -/
theorem dealloc_view_origin (kind : merge_kind) (mtl : Bool) (cur : Option elem) (oe : elem)
    (k hb v : Nat) (h : Event.deallocate k hb v ∈ dealloc_of (other_after kind mtl cur oe)) :
    k = oe.key ∧ v ≠ k ∧ (v = oe.view ∨ ∃ t, cur = some t ∧ v = t.view) := by
  obtain ⟨h1, h2, h3, h4⟩ := dealloc_of_mem _ k hb v h
  have hkey := (other_after_key kind mtl cur oe).1
  rw [hkey] at h1 h4
  refine ⟨h1, by rw [h1, h2]; exact fun hh => h4 hh.symm, ?_⟩
  rcases other_after_view kind mtl cur oe with hv | hv | ⟨t, ht, hv⟩ | hv
  · rw [h2] at h3; exact absurd hv h3
  · left; rw [h2, hv]
  · right; exact ⟨t, ht, by rw [h2, hv]⟩
  · exact absurd hv.symm h4

/-- The sample map is the map reached by three insertions into a fresh map. -/
theorem sample_map_reached :
    (cilkred_map_make_map sample_worker).bind (fun _ m0 =>
      insert_all (some sample_worker) [⟨8, 1, 8⟩, ⟨40, 5, 41⟩, ⟨24, 3, 25⟩] m0) =
      Res.ok () sample_map := by
  decide

/-- The one-element sample maps are reached by one insertion into a fresh map. -/
theorem one_element_maps_reached :
    (cilkred_map_make_map sample_worker).bind (fun _ m0 =>
      cilkred_map_rehash_and_insert m0 (some sample_worker) 8 1 9) = Res.ok (0, 0) map_8_9 ∧
    (cilkred_map_make_map sample_worker).bind (fun _ m0 =>
      cilkred_map_rehash_and_insert m0 (some sample_worker) 8 1 10) = Res.ok (0, 0) map_8_10 ∧
    (cilkred_map_make_map sample_worker).bind (fun _ m0 =>
      cilkred_map_rehash_and_insert m0 (some sample_worker) 8 1 8) = Res.ok (0, 0) map_8_8 ∧
    (cilkred_map_make_map sample_worker).bind (fun _ m0 =>
      cilkred_map_rehash_and_insert m0 (some sample_worker) 24 3 25) = Res.ok (0, 0) map_24_25 ∧
    (cilkred_map_make_map sample_worker).bind (fun _ m0 =>
      Res.ok () (__cilkrts_set_leftmost_reducer_map m0 true)) = Res.ok () empty_leftmost_map := by
  decide

/-- The loop of `cilkred_map_merge` alone, before the other map is destroyed:
when it runs to its end it has made calls of `reduce_fn` only. -/
theorem merge_loop_spec (env : sched_env) (this_map : cilkred_map) (w : __cilkrts_worker)
    (other_map : cilkred_map) (kind : merge_kind)
    (hwf : WF this_map) (hwfo : WF other_map)
    (hg : g_ok (some w) this_map = true)
    (hfr : env.sf_worker w.current_stack_frame = w.self)
    (hcase : kind ≠ merge_kind.MERGE_UNORDERED ∨ ∀ oe ∈ entries other_map,
      merge_target this_map.is_leftmost (find this_map oe.key) oe = none) :
    ∃ bs s, merge_buckets env w kind this_map.is_leftmost
          (other_map.buckets.take other_map.nbuckets) ⟨{ this_map with merging := true }, []⟩ =
        Res.ok bs s ∧
      ∀ ev ∈ s.trace, ev.isReduce = true := by
  obtain ⟨hnd, hnz, -, -⟩ := entries_spec other_map hwfo
  have hwf1 : WF { this_map with merging := true } := hwf
  have hg1 : g_ok (some w) { this_map with merging := true } = true := hg
  obtain ⟨la, -⟩ := merge_list_spec env w kind this_map.is_leftmost (entries other_map)
    ⟨{ this_map with merging := true }, []⟩ hwf1 hg1 hfr hnd hnz
  have htake : other_map.buckets.take other_map.nbuckets = other_map.buckets := by
    rw [← hwfo.2.2.1, List.take_length]
  have hshape : ∀ ob ∈ other_map.buckets, opt_bucket_ok ob := by
    intro ob hob
    obtain ⟨i, hi, hget⟩ := List.getElem_of_mem hob
    have := hwfo.2.2.2.1 i (by rw [← hwfo.2.2.1]; exact hi)
    simp only [bkt, List.getD_eq_getElem?_getD, List.getElem?_eq_getElem hi, Option.getD_some,
      hget] at this
    exact this
  have hmb := merge_buckets_eq env w kind this_map.is_leftmost other_map.buckets
    ⟨{ this_map with merging := true }, []⟩ hshape
  rw [← entries_eq other_map hwfo] at hmb
  obtain ⟨m1, h1, -⟩ := la hcase
  rw [h1] at hmb
  obtain ⟨bs1, hb1, -⟩ := hmb
  rw [htake]
  refine ⟨bs1, _, hb1, ?_⟩
  intro ev hev
  simp only [List.nil_append] at hev
  obtain ⟨oe, -, hoe⟩ := List.mem_flatMap.1 hev
  have hr := loop_events_reduce kind this_map.is_leftmost
    (find ({ this_map with merging := true } : cilkred_map) oe.key) oe
  simpa using (List.filter_eq_self.1 hr) _ hoe

/-- The function `__cilkrts_hyper_lookup` on a worker that has a map. -/
theorem hyper_lookup_with_map (w : __cilkrts_worker) (storage : Nat)
    (hb : __cilkrts_hyperobject_base) (h : cilkred_map) (hm : w.reducer_map = some h) :
    __cilkrts_hyper_lookup (some w) storage hb =
      if h.merging then Res.fatal Fault.hyperobject_in_use ⟨some w, []⟩
      else
        match cilkred_map_lookup h (get_hyperobject_key hb) with
        | Res.fatal why h1 => Res.fatal why ⟨some { w with reducer_map := some h1 }, []⟩
        | Res.ok (some el) h1 =>
          Res.ok (get_slot h1 el).view ⟨some { w with reducer_map := some h1 }, []⟩
        | Res.ok none h1 =>
          match cilkred_map_rehash_and_insert h1 (some w) (get_hyperobject_key hb) hb.addr
              (if h1.is_leftmost then get_hyperobject_key hb else storage) with
          | Res.ok el h2 =>
            Res.ok (get_slot h2 el).view ⟨some { w with reducer_map := some h2 },
              if h1.is_leftmost then []
              else [Event.allocate hb.addr hb.__view_size, Event.identity hb.addr storage]⟩
          | Res.fatal why h2 =>
            Res.fatal why ⟨some { w with reducer_map := some h2 },
              if h1.is_leftmost then []
              else [Event.allocate hb.addr hb.__view_size, Event.identity hb.addr storage]⟩ := by
  unfold __cilkrts_hyper_lookup
  simp only [hm, get_leftmost_view, PRUNE_BRANCHES, Bool.not_false, Bool.true_and]

/-- On a worker without a map, `__cilkrts_hyper_lookup` installs the map of
`cilkred_map_make_map` and goes on as if the worker had owned it. -/
theorem hyper_lookup_install (w : __cilkrts_worker) (storage : Nat)
    (hb : __cilkrts_hyperobject_base) (hm : w.reducer_map = none) :
    ∃ h0, cilkred_map_make_map w = Res.ok () h0 ∧
      __cilkrts_hyper_lookup (some w) storage hb =
        __cilkrts_hyper_lookup (some { w with reducer_map := some h0 }) storage hb := by
  obtain ⟨h0, hmk, -⟩ := make_map_spec w
  refine ⟨h0, hmk, ?_⟩
  unfold __cilkrts_hyper_lookup
  simp only [hm, install_new_reducer_map, hmk]

/-- The function `__cilkrts_hyper_lookup` on a merging map. -/
theorem hyper_lookup_merging (w : __cilkrts_worker) (storage : Nat)
    (hb : __cilkrts_hyperobject_base) (h : cilkred_map) (hm : w.reducer_map = some h)
    (hmg : h.merging = true) :
    __cilkrts_hyper_lookup (some w) storage hb =
      Res.fatal Fault.hyperobject_in_use ⟨some w, []⟩ := by
  rw [hyper_lookup_with_map w storage hb h hm, if_pos hmg]

/-- The function `__cilkrts_hyper_lookup` when the key is found. -/
theorem hyper_lookup_hit (w : __cilkrts_worker) (storage : Nat)
    (hb : __cilkrts_hyperobject_base) (h : cilkred_map) (hm : w.reducer_map = some h)
    (hmg : h.merging = false) (e : elem) (hf : find h (get_hyperobject_key hb) = some e)
    (hv : e.view ≠ 0) :
    __cilkrts_hyper_lookup (some w) storage hb = Res.ok e.view ⟨some w, []⟩ := by
  obtain ⟨p, hp, hsl, -⟩ := (lookup_gen h (get_hyperobject_key hb)).2.2 e hf hv
  rw [hyper_lookup_with_map w storage hb h hm, if_neg (by simp [hmg]), hp]
  simp only [hsl, worker_map_eta w h hm]

/-- The function `__cilkrts_hyper_lookup` when the key is not found. -/
theorem hyper_lookup_miss (w : __cilkrts_worker) (storage : Nat)
    (hb : __cilkrts_hyperobject_base) (h : cilkred_map) (hm : w.reducer_map = some h)
    (hmg : h.merging = false) (hf : find h (get_hyperobject_key hb) = none) :
    __cilkrts_hyper_lookup (some w) storage hb =
      match cilkred_map_rehash_and_insert h (some w) (get_hyperobject_key hb) hb.addr
          (if h.is_leftmost then get_hyperobject_key hb else storage) with
      | Res.ok el h2 =>
        Res.ok (get_slot h2 el).view ⟨some { w with reducer_map := some h2 },
          if h.is_leftmost then []
          else [Event.allocate hb.addr hb.__view_size, Event.identity hb.addr storage]⟩
      | Res.fatal why h2 =>
        Res.fatal why ⟨some { w with reducer_map := some h2 },
          if h.is_leftmost then []
          else [Event.allocate hb.addr hb.__view_size, Event.identity hb.addr storage]⟩ := by
  rw [hyper_lookup_with_map w storage hb h hm, if_neg (by simp [hmg]),
    (lookup_gen h (get_hyperobject_key hb)).1 hf]

/-- The function `__cilkrts_hyper_lookup` when the element found has a null view. -/
theorem hyper_lookup_null_view (w : __cilkrts_worker) (storage : Nat)
    (hb : __cilkrts_hyperobject_base) (h : cilkred_map) (hm : w.reducer_map = some h)
    (hmg : h.merging = false) (e : elem) (hf : find h (get_hyperobject_key hb) = some e)
    (hv : e.view = 0) :
    __cilkrts_hyper_lookup (some w) storage hb = Res.fatal Fault.assertion ⟨some w, []⟩ := by
  rw [hyper_lookup_with_map w storage hb h hm, if_neg (by simp [hmg]),
    (lookup_gen h (get_hyperobject_key hb)).2.1 e hf hv]
  simp only [worker_map_eta w h hm]

/-- A returning `cilkred_map_insert_no_rehash` passed its three assertions,
kept `nbuckets` and added one to `nelem`. -/
theorem insert_no_rehash_ok (m m1 : cilkred_map) (w : Option __cilkrts_worker)
    (key hb view : Nat) (p : Nat × Nat)
    (h : cilkred_map_insert_no_rehash m w key hb view = Res.ok p m1) :
    g_ok w m = true ∧ key ≠ 0 ∧ view ≠ 0 ∧ m1.nbuckets = m.nbuckets ∧
      m1.nelem = m.nelem + 1 ∧ same_frame m m1 := by
  unfold cilkred_map_insert_no_rehash at h
  by_cases hg : g_ok w m = true
  · by_cases hk : key = 0
    · simp [hg, hk] at h
    · by_cases hv : view = 0
      · simp [hg, hk, hv] at h
      · simp only [hg, hk, hv, Bool.not_true, Bool.false_eq_true, if_false] at h
        injection h with _ h2
        subst h2
        exact ⟨hg, hk, hv, rfl, rfl, rfl, rfl, rfl⟩
  · simp [hg] at h

/-- A returning inner loop of `cilkred_map_rehash` keeps `nbuckets`. -/
theorem rehash_bucket_ok (w : Option __cilkrts_worker) (el : List elem) (m m1 : cilkred_map)
    (h : rehash_bucket w el m = Res.ok () m1) : m1.nbuckets = m.nbuckets := by
  induction el generalizing m with
  | nil => simp only [rehash_bucket] at h; injection h with _ h2; rw [h2]
  | cons oel rest ih =>
    simp only [rehash_bucket] at h
    by_cases hk : oel.key = 0
    · rw [if_pos hk] at h; injection h with _ h2; rw [h2]
    · rw [if_neg hk] at h
      obtain ⟨p, m2, h1, h2⟩ := bind_ok _ _ _ _ h
      rw [ih m2 h2, (insert_no_rehash_ok m m2 w _ _ _ p h1).2.2.2.1]

/-- A returning outer loop of `cilkred_map_rehash` keeps `nbuckets`. -/
theorem rehash_buckets_ok (w : Option __cilkrts_worker) (bs : List (Option bucket))
    (m m1 : cilkred_map) (h : rehash_buckets w bs m = Res.ok () m1) :
    m1.nbuckets = m.nbuckets := by
  induction bs generalizing m with
  | nil => simp only [rehash_buckets] at h; injection h with _ h2; rw [h2]
  | cons ob rest ih =>
    cases ob with
    | none => simp only [rehash_buckets] at h; exact ih m h
    | some b =>
      simp only [rehash_buckets] at h
      obtain ⟨u, m2, h1, h2⟩ := bind_ok _ _ _ _ h
      rw [ih m2 h2, rehash_bucket_ok w b.el m m2 h1]

/-- A returning `cilkred_map_rehash` passed its assertions: it doubled
`nbuckets` and kept `nelem`. -/
theorem rehash_ok (m m1 : cilkred_map) (w : Option __cilkrts_worker)
    (h : cilkred_map_rehash m w = Res.ok () m1) :
    g_ok w m = true ∧ m1.nbuckets = 2 * m.nbuckets ∧ m1.nelem = m.nelem := by
  unfold cilkred_map_rehash at h
  by_cases hg : g_ok w m = true
  · simp only [hg, Bool.not_true, Bool.false_eq_true, if_false] at h
    obtain ⟨u, m2, h1, h2⟩ := bind_ok _ _ _ _ h
    obtain ⟨u3, m3, h3, h4⟩ := bind_ok _ _ _ _ h2
    have hnb := rehash_buckets_ok w _ m2 m3 h3
    unfold cilkred_map_make_buckets at h1
    by_cases hp : is_power_of_2 (nextsz m.nbuckets) = true
    · simp only [hp, Bool.not_true, Bool.false_eq_true, if_false] at h1
      injection h1 with _ h5
      by_cases hne : m3.nelem = m.nelem
      · simp only [hne, ne_eq, not_true_eq_false, if_false] at h4
        injection h4 with _ h6
        subst h6
        refine ⟨hg, ?_, hne⟩
        rw [hnb, ← h5]
        rfl
      · simp [hne] at h4
    · simp [hp] at h1
  · simp [hg] at h

/-- A returning `cilkred_map_rehash_and_insert` passed its assertions, added
one to `nelem`, and doubled `nbuckets` exactly when a rehash was needed. -/
theorem rehash_and_insert_ok (m m1 : cilkred_map) (w : Option __cilkrts_worker)
    (key hb view : Nat) (p : Nat × Nat)
    (h : cilkred_map_rehash_and_insert m w key hb view = Res.ok p m1) :
    g_ok w m = true ∧ key ≠ 0 ∧ view ≠ 0 ∧ m1.nelem = m.nelem + 1 ∧
      m1.nbuckets = if cilkred_map_need_rehash_p m then 2 * m.nbuckets else m.nbuckets := by
  unfold cilkred_map_rehash_and_insert at h
  by_cases hr : cilkred_map_need_rehash_p m = true
  · rw [if_pos hr] at h
    obtain ⟨u, m2, h1, h2⟩ := bind_ok _ _ _ _ h
    obtain ⟨hg, hnb, hne⟩ := rehash_ok m m2 w h1
    obtain ⟨-, hk, hv, hnb2, hne2, -⟩ := insert_no_rehash_ok m2 m1 w key hb view p h2
    refine ⟨hg, hk, hv, by rw [hne2, hne], ?_⟩
    rw [if_pos hr, hnb2, hnb]
  · rw [if_neg hr] at h
    obtain ⟨hg, hk, hv, hnb2, hne2, -⟩ := insert_no_rehash_ok m m1 w key hb view p h
    refine ⟨hg, hk, hv, hne2, ?_⟩
    rw [if_neg hr, hnb2]

/-- A returning `__cilkrts_hyper_create` on a worker with a well-formed map:
the map was not merging and did not hold the key, and now maps it to the
leftmost element. -/
theorem hyper_create_ok_inv (tls : Option __cilkrts_worker) (dflt : __cilkrts_worker)
    (hb : __cilkrts_hyperobject_base) (h : cilkred_map)
    (hm : (tls.getD dflt).reducer_map = some h) (hwf : WF h) (w1 : __cilkrts_worker)
    (hok : __cilkrts_hyper_create tls dflt hb = Res.ok () w1) :
    ∃ h1, w1 = { tls.getD dflt with reducer_map := some h1 } ∧ WF h1 ∧ same_frame h h1 ∧
      h.merging = false ∧ find h (get_hyperobject_key hb) = none ∧ h1.nelem = h.nelem + 1 ∧
      ∀ k, find h1 k =
        if k = get_hyperobject_key hb then
          some ⟨get_hyperobject_key hb, hb.addr, get_hyperobject_key hb⟩
        else find h k := by
  rw [hyper_create_with_map tls dflt hb h hm] at hok
  cases hf : find h (get_hyperobject_key hb) with
  | some e =>
    obtain ⟨p, hp, -⟩ := lookup_of_find_some h hwf _ e hf
    rw [hp] at hok
    cases hok
  | none =>
    rw [lookup_of_find_none h hwf _ hf] at hok
    by_cases hmg : h.merging = true
    · simp only [hmg, if_true] at hok
      cases hok
    · simp only [hmg, Bool.false_eq_true, if_false] at hok
      cases hri : cilkred_map_rehash_and_insert h (some (tls.getD dflt))
          (get_hyperobject_key hb) hb.addr (get_hyperobject_key hb) with
      | fatal why h2 => rw [hri] at hok; cases hok
      | ok p h2 =>
        rw [hri] at hok
        obtain ⟨hg, hk, -, -, -⟩ := rehash_and_insert_ok h h2 _ _ _ _ p hri
        obtain ⟨p', h2', hri', hwf2, -, hne, hsf, -, hf2⟩ :=
          rehash_and_insert_spec h hwf (some (tls.getD dflt)) hg
            (get_hyperobject_key hb) hb.addr (get_hyperobject_key hb) hk hk hf
        rw [hri] at hri'
        injection hri' with _ hh
        subst hh
        injection hok with _ hw
        exact ⟨h2, hw.symm, hwf2, hsf, by simpa using hmg, rfl, hne, hf2⟩

/-- A returning `__cilkrts_hyper_lookup` on a worker with a well-formed map:
the map was not merging and now maps the key to an element with the view
returned; a key that was present leaves the map as it was and makes no
callback. -/
theorem hyper_lookup_ok_inv (w : __cilkrts_worker) (storage : Nat)
    (hb : __cilkrts_hyperobject_base) (h : cilkred_map)
    (hm : w.reducer_map = some h) (hwf : WF h) (v : Nat) (st : tls_state)
    (hok : __cilkrts_hyper_lookup (some w) storage hb = Res.ok v st) :
    ∃ h1, st.w = some { w with reducer_map := some h1 } ∧ WF h1 ∧ same_frame h h1 ∧
      h.merging = false ∧
      (∃ e, find h1 (get_hyperobject_key hb) = some e ∧ e.view = v) ∧
      (∀ k, k ≠ get_hyperobject_key hb → find h1 k = find h k) ∧
      (∀ e, find h (get_hyperobject_key hb) = some e → h1 = h ∧ st.trace = []) ∧
      (find h (get_hyperobject_key hb) = none → h1.nelem = h.nelem + 1) := by
  by_cases hmg : h.merging = true
  · rw [hyper_lookup_merging w storage hb h hm hmg] at hok
    cases hok
  · have hmg2 : h.merging = false := by simpa using hmg
    cases hf : find h (get_hyperobject_key hb) with
    | some e =>
      have hv := (find_view_ne h hwf _ e hf).1
      rw [hyper_lookup_hit w storage hb h hm hmg2 e hf hv] at hok
      injection hok with hv1 hst
      subst hst
      refine ⟨h, by rw [worker_map_eta w h hm], hwf, same_frame_refl h, hmg2,
        ⟨e, hf, hv1⟩, fun _ _ => rfl, fun _ _ => ⟨rfl, rfl⟩, fun hn => by cases hn⟩
    | none =>
      rw [hyper_lookup_miss w storage hb h hm hmg2 hf] at hok
      cases hri : cilkred_map_rehash_and_insert h (some w) (get_hyperobject_key hb) hb.addr
          (if h.is_leftmost then get_hyperobject_key hb else storage) with
      | fatal why h2 => rw [hri] at hok; cases hok
      | ok p h2 =>
        rw [hri] at hok
        obtain ⟨hg, hk, hv, -, -⟩ := rehash_and_insert_ok h h2 _ _ _ _ p hri
        obtain ⟨p', h2', hri', hwf2, ⟨hsl, -, -⟩, hne, hsf, -, hf2⟩ :=
          rehash_and_insert_spec h hwf (some w) hg
            (get_hyperobject_key hb) hb.addr _ hk hv hf
        rw [hri] at hri'
        injection hri' with hpp hh
        subst hh
        subst hpp
        injection hok with hv1 hst
        subst hst
        refine ⟨h2, rfl, hwf2, hsf, hmg2, ⟨_, by rw [hf2, if_pos rfl], ?_⟩, ?_, ?_, fun _ => hne⟩
        · rw [← hv1, hsl]
        · intro k hk2
          rw [hf2, if_neg hk2]
        · intro e he
          cases he

/-- A returning `__cilkrts_hyper_destroy` on a worker with a well-formed map:
the key was mapped to a leftmost element, which is gone; no callback ran. -/
theorem hyper_destroy_ok_inv (tls : Option __cilkrts_worker) (dflt : __cilkrts_worker)
    (hb : __cilkrts_hyperobject_base) (h : cilkred_map)
    (hm : (tls.getD dflt).reducer_map = some h) (hwf : WF h) (st : worker_state)
    (hok : __cilkrts_hyper_destroy tls dflt hb = Res.ok () st) :
    ∃ h1, st = ⟨{ tls.getD dflt with reducer_map := some h1 }, []⟩ ∧ WF h1 ∧ same_frame h h1 ∧
      h.merging = false ∧ h1.nelem + 1 = h.nelem ∧
      ∀ k, find h1 k = if k = get_hyperobject_key hb then none else find h k := by
  by_cases hmg : h.merging = true
  · rw [hyper_destroy_merging tls dflt hb h hm hmg] at hok
    cases hok
  · have hmg2 : h.merging = false := by simpa using hmg
    cases hf : find h (get_hyperobject_key hb) with
    | none =>
      rw [hyper_destroy_absent tls dflt hb h hm hmg2 hf] at hok
      cases hok
    | some e =>
      have hv := (find_view_ne h hwf _ e hf).1
      by_cases hl : e.view = e.key
      · obtain ⟨p, hp1, hp2, hp3⟩ := hyper_destroy_leftmost tls dflt hb h hm hmg2 e hf hl
        obtain ⟨h4, h4def, hwf4, hne4, hsf4, -, hf4⟩ :=
          remove_spec h hwf (get_hyperobject_key hb) e hf p hp1 hp2 ⟨e.key, e.hb, 0⟩
        rw [hp3] at hok
        injection hok with _ hst
        exact ⟨h4, by rw [← hst, h4def], hwf4, hsf4, hmg2, hne4, hf4⟩
      · rw [hyper_destroy_not_leftmost tls dflt hb h hm hmg2 e hf hv
          (fun hh => hl hh.symm)] at hok
        cases hok

/-- One returning call keeps the worker's map well-formed, changes at most the
entry of its own key, and removes nothing unless it is a destroy. -/
theorem run_call_inv (c : api_call) (s s1 : worker_state) (h : cilkred_map)
    (hm : s.w.reducer_map = some h) (hwf : WF h) (hrun : run_call c s = Res.ok () s1) :
    ∃ h1, s1.w = { s.w with reducer_map := some h1 } ∧ WF h1 ∧ same_frame h h1 ∧
      h.merging = false ∧
      (∀ k, k ≠ get_hyperobject_key c.hb → find h1 k = find h k) ∧
      (c.isDestroy = false → ∀ k e, find h k = some e → find h1 k = some e) := by
  cases c with
  | create hb =>
    simp only [run_call] at hrun
    cases hc : __cilkrts_hyper_create (some s.w) s.w hb with
    | fatal why w1 => rw [hc] at hrun; cases hrun
    | ok u w1 =>
      rw [hc] at hrun
      injection hrun with _ hs
      subst hs
      obtain ⟨h1, hw1, hwf1, hsf, hmg, hnone, -, hf1⟩ :=
        hyper_create_ok_inv (some s.w) s.w hb h hm hwf w1 hc
      refine ⟨h1, hw1, hwf1, hsf, hmg, ?_, ?_⟩
      · intro k hk
        rw [hf1]
        exact if_neg hk
      · intro _ k e hke
        have hk : k ≠ get_hyperobject_key hb := by
          intro hh; rw [hh, hnone] at hke; cases hke
        rw [hf1, if_neg hk, hke]
  | lookup hb storage =>
    simp only [run_call] at hrun
    cases hc : __cilkrts_hyper_lookup (some s.w) storage hb with
    | fatal why st => rw [hc] at hrun; cases hrun
    | ok v st =>
      rw [hc] at hrun
      injection hrun with _ hs
      subst hs
      obtain ⟨h1, hw1, hwf1, hsf, hmg, -, hoth, hhit, -⟩ :=
        hyper_lookup_ok_inv s.w storage hb h hm hwf v st hc
      refine ⟨h1, by simp only [hw1, Option.getD_some], hwf1, hsf, hmg, hoth, ?_⟩
      intro _ k e hke
      by_cases hk : k = get_hyperobject_key hb
      · subst hk
        rw [(hhit e hke).1, hke]
      · rw [hoth k hk, hke]
  | destroy hb =>
    simp only [run_call] at hrun
    cases hc : __cilkrts_hyper_destroy (some s.w) s.w hb with
    | fatal why st => rw [hc] at hrun; cases hrun
    | ok u st =>
      rw [hc] at hrun
      injection hrun with _ hs
      subst hs
      obtain ⟨h1, hst, hwf1, hsf, hmg, -, hf1⟩ :=
        hyper_destroy_ok_inv (some s.w) s.w hb h hm hwf st hc
      refine ⟨h1, by rw [hst]; rfl, hwf1, hsf, hmg, ?_, ?_⟩
      · intro k hk
        rw [hf1]
        exact if_neg hk
      · intro hd
        cases hd

/-- A returning sequence of calls keeps the worker's map well-formed; without
a destroy among the calls every element present at the start is still there. -/
theorem run_calls_inv (calls : List api_call) (s s1 : worker_state) (h : cilkred_map)
    (hm : s.w.reducer_map = some h) (hwf : WF h) (hrun : run_calls calls s = Res.ok () s1) :
    ∃ h1, s1.w = { s.w with reducer_map := some h1 } ∧ WF h1 ∧ same_frame h h1 ∧
      ((∀ c ∈ calls, c.isDestroy = false) → ∀ k e, find h k = some e → find h1 k = some e) := by
  induction calls generalizing s h with
  | nil =>
    simp only [run_calls] at hrun
    injection hrun with _ hs
    subst hs
    exact ⟨h, (worker_map_eta s.w h hm).symm, hwf, same_frame_refl h, fun _ _ _ he => he⟩
  | cons c rest ih =>
    simp only [run_calls] at hrun
    obtain ⟨u, s2, h1, h2⟩ := bind_ok _ _ _ _ hrun
    obtain ⟨hA, hwA, hwfA, hsfA, -, -, hkeepA⟩ := run_call_inv c s s2 h hm hwf h1
    obtain ⟨hB, hwB, hwfB, hsfB, hkeepB⟩ := ih s2 hA (by rw [hwA]) hwfA h2
    refine ⟨hB, by rw [hwB, hwA], hwfB, same_frame_trans hsfA hsfB, ?_⟩
    intro hnd k e hke
    exact hkeepB (fun c hc => hnd c (List.mem_cons_of_mem _ hc)) k e
      (hkeepA (hnd c (List.mem_cons_self _ _)) k e hke)

/-- The inner loop of `cilkred_map_check` counts the live slots of a bucket. -/
theorem check_bucket_spec (allow : Bool) (el : List elem) (c : Nat)
    (hv : ∀ e ∈ live el, allow = true ∨ e.view ≠ 0) :
    check_bucket allow el c = Res.ok () (c + (live el).length) := by
  induction el generalizing c with
  | nil => simp [check_bucket, live]
  | cons e rest ih =>
    by_cases hk : e.key = 0
    · simp [check_bucket, live, hk]
    · have hl : live (e :: rest) = e :: live rest := by simp [live, hk]
      have hve := hv e (by rw [hl]; exact List.mem_cons_self _ _)
      have hcond : (!(allow || e.view != 0)) = false := by
        rcases hve with ha | hb
        · simp [ha]
        · simp [hb]
      rw [check_bucket, if_neg hk, hcond]
      simp only [Bool.false_eq_true, if_false]
      rw [ih (c + 1) (fun x hx => hv x (by rw [hl]; exact List.mem_cons_of_mem _ hx)), hl,
        List.length_cons]
      congr 1
      omega

/-- The outer loop of `cilkred_map_check` counts the live slots of all buckets. -/
theorem check_buckets_spec (allow : Bool) (bs : List (Option bucket)) (c : Nat)
    (hv : ∀ ob ∈ bs, ∀ e ∈ blive ob, allow = true ∨ e.view ≠ 0) :
    check_buckets allow bs c = Res.ok () (c + (bs.map (fun ob => (blive ob).length)).sum) := by
  induction bs generalizing c with
  | nil => simp [check_buckets]
  | cons ob rest ih =>
    have hrest := fun c1 => ih c1 (fun x hx => hv x (List.mem_cons_of_mem _ hx))
    cases ob with
    | none =>
      rw [check_buckets, hrest]
      simp [blive]
    | some b =>
      rw [check_buckets, check_bucket_spec allow b.el c (hv (some b) (List.mem_cons_self _ _)),
        Res.bind, hrest]
      simp only [List.map_cons, List.sum_cons, blive]
      congr 1
      omega

/-- On a well-formed map both modes of `cilkred_map_check` pass with
`count = nelem`, the number of live elements. -/
theorem check_spec (m : cilkred_map) (hwf : WF m) (allow : Bool) :
    cilkred_map_check m allow = Res.ok () m.nelem ∧ m.nelem = (entries m).length := by
  obtain ⟨hpos, -, hlen, -, hpl, -, hne⟩ := hwf
  have htake : m.buckets.take m.nbuckets = m.buckets := by
    rw [← hlen]; exact List.take_length _
  have hv : ∀ ob ∈ m.buckets, ∀ e ∈ blive ob, allow = true ∨ e.view ≠ 0 := by
    intro ob hob e he
    obtain ⟨i, hi, hget⟩ := List.getElem_of_mem hob
    have hb : bkt m i = ob := by
      unfold bkt
      rw [List.getD_eq_getElem?_getD, List.getElem?_eq_getElem hi, hget]
      rfl
    exact Or.inr (hpl i (by rw [← hlen]; exact hi) e (by rw [hb]; exact he)).2
  refine ⟨?_, ?_⟩
  · unfold cilkred_map_check
    rw [htake, check_buckets_spec allow m.buckets 0 hv, Res.bind, Nat.zero_add, ← hne]
    simp
  · unfold entries
    rw [htake, hne, List.length_flatMap]
    rfl

/-- One returning `cilkred_map_rehash_and_insert` on a map whose table had room
for the count before its last insert: after the conditional rehash the table
has room for the current count, which the insert then raises by one. -/
theorem load_bound_step (m m1 : cilkred_map) (w : Option __cilkrts_worker)
    (key hb view : Nat) (p : Nat × Nat)
    (hinv : minsz (m.nelem - 1) ≤ m.nbuckets)
    (h : cilkred_map_rehash_and_insert m w key hb view = Res.ok p m1) :
    minsz m.nelem ≤ m1.nbuckets ∧ m1.nelem = m.nelem + 1 := by
  obtain ⟨-, -, -, hne, hnb⟩ := rehash_and_insert_ok m m1 w key hb view p h
  refine ⟨?_, hne⟩
  rw [hnb]
  unfold cilkred_map_need_rehash_p
  unfold minsz at hinv ⊢
  by_cases hr : 1 + m.nelem + m.nelem / 8 > m.nbuckets
  · simp only [minsz, hr, decide_True, if_true]
    omega
  · simp only [minsz, hr, decide_False, Bool.false_eq_true, if_false]
    omega

/-- The bound of `load_bound_step` along a sequence of inserts. -/
theorem insert_all_load (w : Option __cilkrts_worker) (l : List elem) (m m1 : cilkred_map)
    (hinv : minsz (m.nelem - 1) ≤ m.nbuckets)
    (hrun : insert_all w l m = Res.ok () m1) :
    minsz (m1.nelem - 1) ≤ m1.nbuckets ∧ m1.nelem = m.nelem + l.length := by
  induction l generalizing m with
  | nil =>
    simp only [insert_all] at hrun
    injection hrun with _ hh
    subst hh
    exact ⟨hinv, rfl⟩
  | cons e rest ih =>
    simp only [insert_all] at hrun
    obtain ⟨p, m2, h1, h2⟩ := bind_ok _ _ _ _ hrun
    obtain ⟨hb2, hn2⟩ := load_bound_step m m2 w _ _ _ p hinv h1
    obtain ⟨hb3, hn3⟩ := ih m2 (by rw [hn2, Nat.add_sub_cancel]; exact hb2) h2
    refine ⟨hb3, ?_⟩
    rw [hn3, hn2, List.length_cons]
    omega

theorem pow2_mul_trans {a b c : Nat} (h1 : ∃ j, b = 2 ^ j * a) (h2 : ∃ j, c = 2 ^ j * b) :
    ∃ j, c = 2 ^ j * a := by
  obtain ⟨i, hi⟩ := h1
  obtain ⟨j, hj⟩ := h2
  exact ⟨j + i, by rw [hj, hi, pow_add, Nat.mul_assoc]⟩

/-- The function `cilkred_map_lookup` does not write to the map. -/
theorem lookup_state (m : cilkred_map) (key : Nat) : (cilkred_map_lookup m key).state = m := by
  unfold cilkred_map_lookup
  simp only
  cases m.buckets.getD (hashfun m key) none with
  | none => rfl
  | some b =>
    simp only
    cases lookup_scan key b.el 0 <;> rfl

theorem set_slot_nbuckets (m : cilkred_map) (p : Nat × Nat) (e : elem) :
    (set_slot m p e).nbuckets = m.nbuckets := by
  unfold set_slot
  cases m.buckets.getD p.1 none <;> rfl

/-- A returning `cilkred_map_rehash_and_insert` multiplies `nbuckets` by one or two. -/
theorem rehash_and_insert_nbuckets (m m1 : cilkred_map) (w : Option __cilkrts_worker)
    (key hb view : Nat) (p : Nat × Nat)
    (h : cilkred_map_rehash_and_insert m w key hb view = Res.ok p m1) :
    ∃ j, m1.nbuckets = 2 ^ j * m.nbuckets := by
  obtain ⟨-, -, -, -, hnb⟩ := rehash_and_insert_ok m m1 w key hb view p h
  by_cases hr : cilkred_map_need_rehash_p m = true
  · exact ⟨1, by rw [hnb, if_pos hr]; simp⟩
  · exact ⟨0, by rw [hnb, if_neg hr]; simp⟩

theorem merge_reduce_map (env : sched_env) (w : __cilkrts_worker) (key hb : Nat) (p : Nat × Nat)
    (oe e1 : elem) (s s1 : merge_state) (h : merge_reduce env w key hb p oe s = Res.ok e1 s1) :
    s1.this_map = s.this_map := by
  unfold merge_reduce at h
  split at h
  · cases h
  · injection h with _ h2; rw [← h2]

/-- The body of the merge loop multiplies `nbuckets` of the surviving map by a
power of two. -/
theorem merge_elem_nbuckets (env : sched_env) (w : __cilkrts_worker) (kind : merge_kind)
    (mtl : Bool) (oe e1 : elem) (s s1 : merge_state)
    (h : merge_elem env w kind mtl oe s = Res.ok e1 s1) :
    ∃ j, s1.this_map.nbuckets = 2 ^ j * s.this_map.nbuckets := by
  unfold merge_elem at h
  simp only at h
  split at h
  · cases h
  · obtain ⟨a, sa, h1, h2⟩ := bind_ok _ _ _ _ h
    obtain ⟨ma, hla, hsa⟩ := in_merge_ok _ _ _ _ h1
    have hma : ma = s.this_map := by
      have := lookup_state s.this_map oe.key
      rw [hla] at this
      exact this
    have hA : sa.this_map = s.this_map := by rw [hsa, hma]
    obtain ⟨b, sb, h3, h4⟩ := bind_ok _ _ _ _ h2
    have hB : ∃ j, sb.this_map.nbuckets = 2 ^ j * s.this_map.nbuckets := by
      rw [← hA]
      split at h3
      · split at h3
        · obtain ⟨p, sp, h5, h6⟩ := bind_ok _ _ _ _ h3
          obtain ⟨mp, hri, hsp⟩ := in_merge_ok _ _ _ _ h5
          injection h6 with _ h7
          rw [← h7, hsp]
          exact rehash_and_insert_nbuckets _ _ _ _ _ _ _ hri
        · injection h3 with _ h7
          rw [← h7]
          exact ⟨0, by simp⟩
      · injection h3 with _ h7
        rw [← h7]
        exact ⟨0, by simp⟩
    refine pow2_mul_trans hB ?_
    cases b with
    | none =>
      simp only at h4
      obtain ⟨c, sc, h5, h6⟩ := bind_ok _ _ _ _ h4
      obtain ⟨mc, hri, hsc⟩ := in_merge_ok _ _ _ _ h5
      injection h6 with _ h7
      rw [← h7, hsc]
      exact rehash_and_insert_nbuckets _ _ _ _ _ _ _ hri
    | some p =>
      simp only at h4
      cases kind with
      | MERGE_UNORDERED => cases h4
      | MERGE_INTO_LEFT =>
        rw [merge_reduce_map _ _ _ _ _ _ _ _ _ h4]
        exact ⟨0, by simp⟩
      | MERGE_INTO_RIGHT =>
        rw [merge_reduce_map _ _ _ _ _ _ _ _ _ h4]
        exact ⟨0, by simp [set_slot_nbuckets]⟩

theorem merge_bucket_nbuckets (env : sched_env) (w : __cilkrts_worker) (kind : merge_kind)
    (mtl : Bool) (el r : List elem) (s s1 : merge_state)
    (h : merge_bucket env w kind mtl el s = Res.ok r s1) :
    ∃ j, s1.this_map.nbuckets = 2 ^ j * s.this_map.nbuckets := by
  induction el generalizing s s1 r with
  | nil =>
    simp only [merge_bucket] at h
    injection h with _ h2
    exact ⟨0, by rw [h2]; simp⟩
  | cons oe rest ih =>
    simp only [merge_bucket] at h
    split at h
    · injection h with _ h2
      exact ⟨0, by rw [h2]; simp⟩
    · obtain ⟨e1, sa, h1, h2⟩ := bind_ok _ _ _ _ h
      obtain ⟨r1, sb, h3, h4⟩ := bind_ok _ _ _ _ h2
      injection h4 with _ h5
      rw [← h5]
      exact pow2_mul_trans (merge_elem_nbuckets _ _ _ _ _ _ _ _ h1) (ih r1 sa sb h3)

theorem merge_buckets_nbuckets (env : sched_env) (w : __cilkrts_worker) (kind : merge_kind)
    (mtl : Bool) (bs r : List (Option bucket)) (s s1 : merge_state)
    (h : merge_buckets env w kind mtl bs s = Res.ok r s1) :
    ∃ j, s1.this_map.nbuckets = 2 ^ j * s.this_map.nbuckets := by
  induction bs generalizing s s1 r with
  | nil =>
    simp only [merge_buckets] at h
    injection h with _ h2
    exact ⟨0, by rw [h2]; simp⟩
  | cons ob rest ih =>
    cases ob with
    | none =>
      simp only [merge_buckets] at h
      obtain ⟨r1, sa, h1, h2⟩ := bind_ok _ _ _ _ h
      injection h2 with _ h3
      rw [← h3]
      exact ih r1 s sa h1
    | some b =>
      simp only [merge_buckets] at h
      obtain ⟨el1, sa, h1, h2⟩ := bind_ok _ _ _ _ h
      obtain ⟨r1, sb, h3, h4⟩ := bind_ok _ _ _ _ h2
      injection h4 with _ h5
      rw [← h5]
      exact pow2_mul_trans (merge_bucket_nbuckets _ _ _ _ _ _ _ _ h1) (ih r1 sa sb h3)

/-- A returning `cilkred_map_merge` multiplies `nbuckets` of the surviving map
by a power of two, whatever the two maps are. -/
theorem merge_nbuckets (env : sched_env) (this_map : cilkred_map) (w : __cilkrts_worker)
    (other_map : cilkred_map) (kind : merge_kind) (w1 : __cilkrts_worker) (st : merge_state)
    (h : cilkred_map_merge env this_map w other_map kind = Res.ok w1 st) :
    ∃ j, st.this_map.nbuckets = 2 ^ j * this_map.nbuckets := by
  unfold cilkred_map_merge at h
  simp only at h
  split at h
  · cases h
  · obtain ⟨bs, s, h1, h2⟩ := bind_ok _ _ _ _ h
    have hs := merge_buckets_nbuckets _ _ _ _ _ _ _ _ h1
    split at h2
    · cases h2
    · split at h2
      · injection h2 with _ h3
        rw [← h3]
        exact hs
      · cases h2

/-- A positive power of two passes the test `is_power_of_2`. -/
theorem is_power_of_2_pow (k : Nat) : is_power_of_2 (2 ^ k) = true := by
  induction k with
  | zero => decide
  | succ k ih =>
    rw [pow_succ, Nat.mul_comm]
    exact is_power_of_2_double _ (by positivity) ih

/-- The callbacks `cilkred_map_destroy_map` makes for one live slot, spelt out. -/
theorem dealloc_of_cases (el : elem) :
    dealloc_of el =
      if el.view ≠ 0 ∧ el.view ≠ el.key then [Event.deallocate el.key el.hb el.view] else [] := by
  unfold dealloc_of elem_destroy elem_is_leftmost
  by_cases hv : el.view = 0
  · simp [hv]
  · by_cases hk : el.key = el.view
    · simp [hv, hk]
    · have hk2 : ¬ el.view = el.key := fun h => hk h.symm
      simp [hv, hk, hk2]

/-- The inner loop of `cilkred_map_destroy_map` on any slot array. -/
theorem destroy_bucket_live (el : List elem) :
    destroy_bucket el = (live el).flatMap dealloc_of := by
  induction el with
  | nil => rfl
  | cons e rest ih =>
    by_cases hk : e.key = 0
    · simp [destroy_bucket, live, hk]
    · have hl : live (e :: rest) = e :: live rest := by simp [live, hk]
      rw [destroy_bucket, if_neg hk, ih, hl, List.flatMap_cons]
      rfl

/-- The outer loop of `cilkred_map_destroy_map` on any bucket array. -/
theorem destroy_buckets_live (bs : List (Option bucket)) :
    destroy_buckets bs = (bs.flatMap blive).flatMap dealloc_of := by
  induction bs with
  | nil => rfl
  | cons ob rest ih =>
    cases ob with
    | none => rw [destroy_buckets, ih]; rfl
    | some b =>
      rw [destroy_buckets, ih, destroy_bucket_live, List.flatMap_cons, List.flatMap_append]
      rfl

theorem flatMap_dealloc_of (L : List elem) :
    L.flatMap dealloc_of =
      (L.filter (fun e => decide (e.view ≠ 0 ∧ e.view ≠ e.key))).map
        (fun e => Event.deallocate e.key e.hb e.view) := by
  induction L with
  | nil => rfl
  | cons e rest ih =>
    rw [List.flatMap_cons, ih, dealloc_of_cases, List.filter_cons]
    by_cases h : e.view ≠ 0 ∧ e.view ≠ e.key
    · simp only [h, and_self, not_false_eq_true, decide_True, if_true, ne_eq, List.map_cons,
        List.singleton_append]
    · simp only [h, decide_False, if_false, List.nil_append, Bool.false_eq_true]

/-- The function `__cilkrts_hyper_create` on a merging map: the assertion that
the key is absent comes first, the test of `merging` second. -/
theorem hyper_create_merging (tls : Option __cilkrts_worker) (dflt : __cilkrts_worker)
    (hb : __cilkrts_hyperobject_base) (h : cilkred_map)
    (hm : (tls.getD dflt).reducer_map = some h) (hmg : h.merging = true) :
    __cilkrts_hyper_create tls dflt hb =
      Res.fatal (if find h (get_hyperobject_key hb) = none then Fault.hyperobject_in_use
        else Fault.assertion) (tls.getD dflt) := by
  rw [hyper_create_with_map tls dflt hb h hm]
  cases hf : find h (get_hyperobject_key hb) with
  | none =>
    rw [(lookup_gen h _).1 hf]
    simp only [hmg, if_true, worker_map_eta _ h hm]
  | some e =>
    by_cases hv : e.view = 0
    · rw [(lookup_gen h _).2.1 e hf hv]
      simp only [worker_map_eta _ h hm, reduceCtorEq, if_false]
    · obtain ⟨p, hp, -⟩ := (lookup_gen h _).2.2 e hf hv
      rw [hp]
      simp only [worker_map_eta _ h hm, reduceCtorEq, if_false]

theorem nodup_of_flatMap (bs : List (Option bucket))
    (h : ((bs.flatMap blive).map elem.key).Nodup) :
    ∀ ob ∈ bs, ((blive ob).map elem.key).Nodup := by
  induction bs with
  | nil => intro ob hob; cases hob
  | cons b rest ih =>
    rw [List.flatMap_cons, List.map_append, List.nodup_append] at h
    intro ob hob
    rcases List.mem_cons.1 hob with hb | hr
    · rw [hb]; exact h.1
    · exact ih h.2.1 ob hr

/-- A map is well-formed exactly when it is shaped and no two of its live
elements have the same key. -/
theorem WF_iff_shaped (m : cilkred_map) : WF m ↔ shaped m ∧ no_dup_keys m := by
  constructor
  · intro hwf
    have hnd := (entries_spec m hwf).1
    obtain ⟨h1, h2, h3, h4, h5, -, h7⟩ := hwf
    exact ⟨⟨h1, h2, h3, h4, h5, h7⟩, hnd⟩
  · rintro ⟨⟨h1, h2, h3, h4, h5, h7⟩, hnd⟩
    refine ⟨h1, h2, h3, h4, h5, ?_, h7⟩
    intro i hi
    unfold no_dup_keys entries at hnd
    rw [← h3, List.take_length] at hnd
    have hil : i < m.buckets.length := by rw [h3]; exact hi
    have hmem : bkt m i ∈ m.buckets := by
      unfold bkt
      rw [List.getD_eq_getElem?_getD, List.getElem?_eq_getElem hil]
      exact List.getElem_mem _
    exact nodup_of_flatMap m.buckets hnd _ hmem

theorem hashfun_one (m : cilkred_map) (key : Nat) (h : m.nbuckets = 1) : hashfun m key = 0 := by
  unfold hashfun
  simp [h]

/-- The body of the merge loop on a key the leftmost surviving map does not
hold, the incoming view not being the leftmost view: the leftmost element is
inserted first, and the key is then treated as present in both maps. -/
theorem merge_elem_materialize (env : sched_env) (w : __cilkrts_worker) (kind : merge_kind)
    (oe : elem) (s : merge_state) (hwf : WF s.this_map) (hg : g_ok (some w) s.this_map = true)
    (hk : oe.key ≠ 0) (hv : oe.view ≠ 0) (hne : oe.view ≠ oe.key)
    (hf : find s.this_map oe.key = none) :
    ∃ p m1, cilkred_map_rehash_and_insert s.this_map (some w) oe.key oe.hb oe.key =
        Res.ok p m1 ∧
      get_slot m1 p = ⟨oe.key, oe.hb, oe.key⟩ ∧
      merge_elem env w kind true oe s =
        match kind with
        | merge_kind.MERGE_UNORDERED => Res.fatal Fault.reducer_race ⟨m1, s.trace⟩
        | merge_kind.MERGE_INTO_RIGHT =>
          merge_reduce env w oe.key oe.hb p { oe with view := (get_slot m1 p).view }
            ⟨set_slot m1 p { get_slot m1 p with view := oe.view }, s.trace⟩
        | merge_kind.MERGE_INTO_LEFT => merge_reduce env w oe.key oe.hb p oe ⟨m1, s.trace⟩ := by
  obtain ⟨p, m1, hri, -, ⟨hsl, -, -⟩, -⟩ :=
    rehash_and_insert_spec s.this_map hwf (some w) hg oe.key oe.hb oe.key hk hk hf
  refine ⟨p, m1, hri, hsl, ?_⟩
  have hne2 : ¬ oe.key = oe.view := fun h => hne h.symm
  unfold merge_elem
  simp only [hv, if_false, lookup_of_find_none s.this_map hwf oe.key hf, in_merge, Res.bind,
    and_self, if_true, get_leftmost_view, ne_eq, hne2, not_false_eq_true, hri]

theorem getD_append_left_lt (L R : List elem) (i : Nat) (h : i < L.length) :
    (L ++ R).getD i null_elem ∈ L := by
  rw [List.getD_eq_getElem?_getD, List.getElem?_append_left h, List.getElem?_eq_getElem h]
  exact List.getElem_mem _

theorem getD_append_right_ge (L R : List elem) (i : Nat) (h : L.length ≤ i)
    (h2 : i < L.length + R.length) : (L ++ R).getD i null_elem ∈ R := by
  have h3 : i - L.length < R.length := by omega
  rw [List.getD_eq_getElem?_getD, List.getElem?_append_right h, List.getElem?_eq_getElem h3]
  exact List.getElem_mem _

/-- A well-shaped bucket in terms of slot indices: the live slots are exactly
the slots before index `(live b.el).length`, which is at most `nmax`. -/
theorem bucket_ok_index (b : bucket) (h : bucket_ok b) :
    (live b.el).length ≤ b.nmax ∧
    (∀ i, i < (live b.el).length → (b.el.getD i null_elem).key ≠ 0) ∧
    (∀ i, (live b.el).length ≤ i → i ≤ b.nmax → (b.el.getD i null_elem).key = 0) := by
  obtain ⟨z, Z, hsplit, hz, hZ, hlen⟩ := bucket_ok_split b h
  have hnz := live_keys_ne b.el
  generalize live b.el = L at hsplit hlen hnz
  refine ⟨by omega, ?_, ?_⟩
  · intro i hi
    rw [hsplit]
    exact hnz _ (getD_append_left_lt L (z :: Z) i hi)
  · intro i hi1 hi2
    rw [hsplit]
    have hm := getD_append_right_ge L (z :: Z) i hi1 (by simp; omega)
    rcases List.mem_cons.1 hm with h1 | h1
    · rw [h1]; exact hz
    · exact hZ _ h1

/-- The shape `bucket_ok` is the shape stated on slot indices. -/
theorem bucket_ok_iff_shape (b : bucket) : bucket_ok b ↔ bucket_shape b := by
  constructor
  · intro h
    obtain ⟨h1, h2, h3⟩ := bucket_ok_index b h
    exact ⟨h.1, h3 b.nmax h1 (Nat.le_refl _), (live b.el).length, h1, h2, h3⟩
  · rintro ⟨hlen, -, n, hn, hpre, hpost⟩
    have hsplit : b.el = b.el.take n ++ b.el.drop n := (List.take_append_drop n b.el).symm
    have htl : (b.el.take n).length = n := by rw [List.length_take]; omega
    have hL : ∀ e ∈ b.el.take n, e.key ≠ 0 := by
      intro e he
      obtain ⟨i, hi, hget⟩ := List.getElem_of_mem he
      rw [htl] at hi
      have := hpre i hi
      rw [List.getD_eq_getElem?_getD, List.getElem?_eq_getElem (by omega)] at this
      rw [← hget, List.getElem_take]
      exact this
    have hR : ∀ e ∈ b.el.drop n, e.key = 0 := by
      intro e he
      obtain ⟨i, hi, hget⟩ := List.getElem_of_mem he
      rw [List.length_drop] at hi
      have := hpost (n + i) (by omega) (by omega)
      rw [List.getD_eq_getElem?_getD, List.getElem?_eq_getElem (by omega)] at this
      rw [← hget, List.getElem_drop]
      exact this
    have hlive : live b.el = b.el.take n := by
      conv_lhs => rw [hsplit]
      exact live_append_zero _ _ hL hR
    refine ⟨hlen, by rw [hlive, htl]; exact hn, ?_⟩
    have h2 := List.takeWhile_append_dropWhile (fun e : elem => e.key != 0) b.el
    have h3 : List.takeWhile (fun e : elem => e.key != 0) b.el = b.el.take n := hlive
    rw [h3] at h2
    have h4 : b.el.dropWhile (fun e => e.key != 0) = b.el.drop n := by
      have h5 : b.el.take n ++ b.el.dropWhile (fun e => e.key != 0) =
          b.el.take n ++ b.el.drop n := by rw [h2, List.take_append_drop]
      exact List.append_cancel_left h5
    rw [h4]
    exact hR

/-- What `cilkred_map_grow` returns on a well-shaped bucket pointer: a
well-shaped bucket with the same live slots, and the index of its first slot
with key zero, which is below the capacity.  The bucket is the old one, or a
new one of capacity `roundup(2 * nmax)`, larger than the old capacity `nmax`
(0 for a null pointer). -/
theorem grow_slot_spec (ob : Option bucket) (hok : opt_bucket_ok ob) :
    bucket_ok (cilkred_map_grow ob).1 ∧ live (cilkred_map_grow ob).1.el = blive ob ∧
      (cilkred_map_grow ob).2 = (blive ob).length ∧
      (cilkred_map_grow ob).2 < (cilkred_map_grow ob).1.nmax ∧
      (ob = none → (cilkred_map_grow ob).1.nmax = roundup (2 * 0)) ∧
      (∀ b, ob = some b → (cilkred_map_grow ob).1 = b ∨
        (b.nmax < (cilkred_map_grow ob).1.nmax ∧
          (cilkred_map_grow ob).1.nmax = roundup (2 * b.nmax))) := by
  have realloc : ∀ (old : List elem) (nmax : Nat) (L : List elem), old.take nmax = L →
      L.length = nmax → (∀ x ∈ L, x.key ≠ 0) →
      bucket_ok (grow_realloc old nmax).1 ∧ live (grow_realloc old nmax).1.el = L ∧
        (grow_realloc old nmax).2 = L.length ∧
        (grow_realloc old nmax).2 < (grow_realloc old nmax).1.nmax ∧
        (grow_realloc old nmax).1.nmax = roundup (2 * nmax) := by
    intro old nmax L hL hlen hnz
    have hgt := roundup_double_gt nmax
    obtain ⟨c, hc⟩ : ∃ c, roundup (2 * nmax) + 1 - nmax = c + 1 :=
      ⟨roundup (2 * nmax) - nmax, by omega⟩
    have hk := bucket_ok_of_split (roundup (2 * nmax)) L (List.replicate c null_elem)
      null_elem hnz rfl (by intro x hx; rw [List.eq_of_mem_replicate hx]; rfl)
      (by simp; omega)
    simp only [grow_realloc, hL, hc, List.replicate_succ]
    exact ⟨hk.1, hk.2, hlen.symm, by omega, trivial⟩
  cases ob with
  | none =>
    obtain ⟨h1, h2, h3, h4, h5⟩ := realloc [] 0 [] rfl rfl (by simp)
    refine ⟨h1, h2, h3, h4, fun _ => h5, ?_⟩
    intro b hb
    cases hb
  | some b =>
    obtain ⟨z, Z, hsplit, hz, hZ, hlen⟩ := bucket_ok_split b hok
    have hnz := live_keys_ne b.el
    have hlive : blive (some b) = live b.el := rfl
    rw [hlive]
    have hfe := find_empty_spec (live b.el) Z z b.nmax 0 hnz hz
    rw [← hsplit] at hfe
    by_cases hfull : (live b.el).length < b.nmax
    · rw [if_pos hfull] at hfe
      have hgr : cilkred_map_grow (some b) = (b, (live b.el).length) := by
        simp only [cilkred_map_grow, hfe, Nat.zero_add]
      rw [hgr]
      refine ⟨hok, rfl, rfl, hfull, ?_, ?_⟩
      · intro h; cases h
      · intro b' hb'
        injection hb' with hb'
        exact Or.inl hb'
    · rw [if_neg hfull] at hfe
      have hgr : cilkred_map_grow (some b) = grow_realloc b.el b.nmax := by
        simp only [cilkred_map_grow, hfe]
      rw [hgr]
      have hZ0 : Z = [] := by
        cases Z with
        | nil => rfl
        | cons _ _ => simp at hlen; omega
      subst hZ0
      simp at hlen
      have htake : b.el.take b.nmax = live b.el := by
        conv_lhs => rw [hsplit, ← hlen]
        simp
      obtain ⟨h1, h2, h3, h4, h5⟩ := realloc b.el b.nmax (live b.el) htake hlen hnz
      refine ⟨h1, h2, h3, h4, ?_, ?_⟩
      · intro h; cases h
      · intro b' hb'
        injection hb' with hb'
        subst hb'
        exact Or.inr ⟨by rw [h5]; exact roundup_double_gt b.nmax, h5⟩

theorem shift_down_steps_spec (X Z : List elem) (e z : elem) (hX : ∀ x ∈ X, x.key ≠ 0)
    (hz : z.key = 0) : shift_down_steps (e :: X ++ z :: Z) = X.length + 1 := by
  induction X generalizing e with
  | nil => simp [shift_down_steps, hz]
  | cons a X ih =>
    have ha : a.key ≠ 0 := hX a (by simp)
    have := ih a (fun x hx => hX x (by simp [hx]))
    simp only [List.cons_append] at this ⊢
    rw [shift_down_steps, if_pos ha, this, List.length_cons]
    omega

/-- The shift loop of `__cilkrts_hyper_destroy` at a live slot `p` of a
well-shaped bucket, whatever was stored into the slot before: the bucket stays
well-shaped with one live slot less, and the last slot the loop touches is the
first slot with key zero. -/
theorem shift_bucket_spec (b : bucket) (hok : bucket_ok b) (p : Nat)
    (hp : p < (live b.el).length) (e0 : elem) :
    bucket_ok ⟨b.nmax, (b.el.set p e0).take p ++ shift_down ((b.el.set p e0).drop p)⟩ ∧
      (live ((b.el.set p e0).take p ++ shift_down ((b.el.set p e0).drop p))).length + 1 =
        (live b.el).length ∧
      p + shift_down_steps ((b.el.set p e0).drop p) = (live b.el).length := by
  obtain ⟨z, Z, hsplit, hz, hZ, hlen⟩ := bucket_ok_split b hok
  have hnz := live_keys_ne b.el
  generalize live b.el = L at hsplit hlen hnz hp
  obtain ⟨e, he⟩ : ∃ e, L[p]? = some e := ⟨L[p], List.getElem?_eq_getElem hp⟩
  obtain ⟨L1, X, hL, hL1⟩ := split_at_getElem L p e he
  subst hL
  have hel : b.el.set p e0 = L1 ++ e0 :: (X ++ z :: Z) := by
    rw [hsplit, List.append_assoc, List.set_append, if_neg (by omega), hL1, Nat.sub_self]
    rfl
  have htake : (b.el.set p e0).take p = L1 := by
    rw [hel, ← hL1]; simp
  have hdrop : (b.el.set p e0).drop p = e0 :: X ++ z :: Z := by
    rw [hel, ← hL1]; simp
  have hX : ∀ x ∈ X, x.key ≠ 0 := fun x hx => hnz x (by simp [hx])
  rw [htake, hdrop, shift_down_spec X Z e0 z hX hz, shift_down_steps_spec X Z e0 z hX hz]
  have hk := bucket_ok_of_split b.nmax (L1 ++ X) (z :: Z) z
    (by intro x hx; exact hnz x (by simp at hx ⊢; tauto)) hz
    (by intro x hx; simp at hx; rcases hx with rfl | hx; exact hz; exact hZ x hx)
    (by simp at hlen ⊢; omega)
  rw [← List.append_assoc]
  refine ⟨hk.1, ?_, ?_⟩
  · rw [hk.2]; simp; omega
  · simp; omega

theorem bkt_some_lt (m : cilkred_map) (i : Nat) (b : bucket) (h : bkt m i = some b) :
    i < m.buckets.length := by
  by_contra hge
  unfold bkt at h
  rw [List.getD_eq_getElem?_getD, List.getElem?_eq_none (by omega)] at h
  cases h

/-- The buckets of a map after the last three statements of
`__cilkrts_hyper_destroy` on a slot of the allocated bucket `b`. -/
theorem unlink_bkt (h : cilkred_map) (p : Nat × Nat) (e0 : elem) (b : bucket)
    (hb : bkt h p.1 = some b) (j : Nat) :
    bkt (unlink_slot h p e0) j =
      if p.1 = j then
        some ⟨b.nmax, (b.el.set p.2 e0).take p.2 ++ shift_down ((b.el.set p.2 e0).drop p.2)⟩
      else bkt h j := by
  have hlt := bkt_some_lt h p.1 b hb
  have hb2 : h.buckets.getD p.1 none = some b := hb
  have h1 : (set_slot h p e0).buckets = h.buckets.set p.1 (some ⟨b.nmax, b.el.set p.2 e0⟩) := by
    unfold set_slot
    rw [hb2]
  have h2 : (set_slot h p e0).buckets.getD p.1 none = some ⟨b.nmax, b.el.set p.2 e0⟩ := by
    rw [h1, getD_set_eq, if_pos ⟨rfl, hlt⟩]
  have h3 : (shift_down_at (set_slot h p e0) p).buckets =
      (set_slot h p e0).buckets.set p.1
        (some ⟨b.nmax, (b.el.set p.2 e0).take p.2 ++ shift_down ((b.el.set p.2 e0).drop p.2)⟩) := by
    unfold shift_down_at
    rw [h2]
  show (unlink_slot h p e0).buckets.getD j none = _
  have h4 : (unlink_slot h p e0).buckets = (shift_down_at (set_slot h p e0) p).buckets := rfl
  rw [h4, h3, h1, getD_set_eq, List.length_set]
  by_cases hj : p.1 = j
  · rw [if_pos ⟨hj, hlt⟩, if_pos hj]
  · rw [if_neg (fun hh => hj hh.1), if_neg hj, getD_set_eq, if_neg (fun hh => hj hh.1)]
    rfl

/-- A returning `cilkred_map_insert_no_rehash` keeps all buckets well-shaped. -/
theorem insert_no_rehash_shape (m m1 : cilkred_map) (w : Option __cilkrts_worker)
    (key hb view : Nat) (p : Nat × Nat)
    (hs : ∀ i b, bkt m i = some b → bucket_shape b)
    (h : cilkred_map_insert_no_rehash m w key hb view = Res.ok p m1) :
    ∀ i b, bkt m1 i = some b → bucket_shape b := by
  obtain ⟨hg, hk, hv, -⟩ := insert_no_rehash_ok m m1 w key hb view p h
  unfold cilkred_map_insert_no_rehash at h
  simp only [hg, hk, hv, Bool.not_true, Bool.false_eq_true, if_false] at h
  injection h with _ h2
  subst h2
  have hok : opt_bucket_ok (bkt m (hashfun m key)) := by
    cases hb1 : bkt m (hashfun m key) with
    | none => trivial
    | some b => exact (bucket_ok_iff_shape b).2 (hs _ b hb1)
  have hgs := (grow_spec (bkt m (hashfun m key)) hok ⟨key, hb, view⟩ hk).1
  intro i b hb1
  have hb2 : (m.buckets.set (hashfun m key) (some
      ⟨(cilkred_map_grow (m.buckets.getD (hashfun m key) none)).1.nmax,
        (cilkred_map_grow (m.buckets.getD (hashfun m key) none)).1.el.set
          (cilkred_map_grow (m.buckets.getD (hashfun m key) none)).2 ⟨key, hb, view⟩⟩)).getD i
      none = some b := hb1
  rw [getD_set_eq] at hb2
  by_cases hi : hashfun m key = i ∧ hashfun m key < m.buckets.length
  · rw [if_pos hi] at hb2
    injection hb2 with hb2
    rw [← hb2]
    exact (bucket_ok_iff_shape _).1 hgs
  · rw [if_neg hi] at hb2
    exact hs i b hb2

/-- All buckets of a well-formed map have the bucket shape. -/
theorem WF_buckets_shape (m : cilkred_map) (hwf : WF m) :
    ∀ i b, bkt m i = some b → bucket_shape b := by
  intro i b hb
  have hlt := bkt_some_lt m i b hb
  have := hwf.2.2.2.1 i (by rw [← hwf.2.2.1]; exact hlt)
  rw [hb] at this
  exact (bucket_ok_iff_shape b).1 this

/-- A returning `__cilkrts_hyper_destroy` on a worker with a well-formed map
keeps `nbuckets` and takes one from `nelem`. -/
theorem hyper_destroy_ok_sizes (tls : Option __cilkrts_worker) (dflt : __cilkrts_worker)
    (hb : __cilkrts_hyperobject_base) (h : cilkred_map)
    (hm : (tls.getD dflt).reducer_map = some h) (hwf : WF h) (st : worker_state)
    (hok : __cilkrts_hyper_destroy tls dflt hb = Res.ok () st) :
    ∃ h1, st.w.reducer_map = some h1 ∧ WF h1 ∧ h1.nelem + 1 = h.nelem ∧
      h1.nbuckets = h.nbuckets := by
  by_cases hmg : h.merging = true
  · rw [hyper_destroy_merging tls dflt hb h hm hmg] at hok
    cases hok
  · have hmg2 : h.merging = false := by simpa using hmg
    cases hf : find h (get_hyperobject_key hb) with
    | none =>
      rw [hyper_destroy_absent tls dflt hb h hm hmg2 hf] at hok
      cases hok
    | some e =>
      have hv := (find_view_ne h hwf _ e hf).1
      by_cases hl : e.view = e.key
      · obtain ⟨p, hp1, hp2, hp3⟩ := hyper_destroy_leftmost tls dflt hb h hm hmg2 e hf hl
        obtain ⟨h4, h4def, hwf4, hne4, -, hnb4, -⟩ :=
          remove_spec h hwf (get_hyperobject_key hb) e hf p hp1 hp2 ⟨e.key, e.hb, 0⟩
        rw [hp3] at hok
        injection hok with _ hst
        exact ⟨h4, by rw [← hst, h4def], hwf4, hne4, hnb4⟩
      · rw [hyper_destroy_not_leftmost tls dflt hb h hm hmg2 e hf hv
          (fun hh => hl hh.symm)] at hok
        cases hok

/-- Every map of `load_reachable` is well-formed and its table has room for
the count before the last insert. -/
theorem load_reachable_inv (m : cilkred_map) (hr : load_reachable m) :
    WF m ∧ minsz (m.nelem - 1) ≤ m.nbuckets := by
  induction hr with
  | make w m hmk =>
    obtain ⟨m', hmk', hwf, -, hn, hnb, -⟩ := make_map_spec w
    rw [hmk] at hmk'
    injection hmk' with _ hh
    subst hh
    exact ⟨hwf, by rw [hn, hnb]; decide⟩
  | insert m m1 w key hb view p _ hl hok ih =>
    obtain ⟨hwf, hinv⟩ := ih
    obtain ⟨hg, hk, hv, -, -⟩ := rehash_and_insert_ok m m1 w key hb view p hok
    obtain ⟨p', m1', hri, hwf1, -⟩ :=
      rehash_and_insert_spec m hwf w hg key hb view hk hv (find_of_lookup_none m m hwf key hl)
    rw [hok] at hri
    injection hri with _ hh
    subst hh
    obtain ⟨hb2, hn2⟩ := load_bound_step m m1 w key hb view p hinv hok
    exact ⟨hwf1, by rw [hn2, Nat.add_sub_cancel]; exact hb2⟩
  | destroy m m1 tls dflt hb st _ hm hok hst ih =>
    obtain ⟨hwf, hinv⟩ := ih
    obtain ⟨h1, hst1, hwf1, hne, hnb⟩ := hyper_destroy_ok_sizes tls dflt hb m hm hwf st hok
    rw [hst] at hst1
    injection hst1 with hh
    subst hh
    refine ⟨hwf1, ?_⟩
    unfold minsz at hinv ⊢
    omega

theorem pow2_search_spec (fuel p sz i : Nat) (hp : p = 2 ^ i) (hlow : i = 0 ∨ 2 ^ (i - 1) < sz)
    (hfuel : sz ≤ p + fuel) :
    ∃ k, pow2_search fuel p sz = 2 ^ k ∧ sz ≤ 2 ^ k ∧ (k = 0 ∨ 2 ^ (k - 1) < sz) := by
  induction fuel generalizing p i with
  | zero => exact ⟨i, by rw [pow2_search, hp], by rw [← hp]; omega, hlow⟩
  | succ fuel ih =>
    rw [pow2_search]
    by_cases h : sz ≤ p
    · rw [if_pos h]
      exact ⟨i, hp, by rw [← hp]; exact h, hlow⟩
    · rw [if_neg h]
      have hpos : 0 < p := by rw [hp]; positivity
      refine ih (2 * p) (i + 1) (by rw [hp, pow_succ, Nat.mul_comm]) (Or.inr ?_) (by omega)
      rw [Nat.add_sub_cancel, ← hp]
      omega

/-- The value `least_pow2_ge sz` is a power of two, at least `sz`, and no
power of two that is at least `sz` is smaller. -/
theorem least_pow2_ge_spec (sz : Nat) :
    (∃ k, least_pow2_ge sz = 2 ^ k) ∧ sz ≤ least_pow2_ge sz ∧
      ∀ j, sz ≤ 2 ^ j → least_pow2_ge sz ≤ 2 ^ j := by
  obtain ⟨k, hk, hge, hlow⟩ := pow2_search_spec sz 1 sz 0 rfl (Or.inl rfl) (by omega)
  unfold least_pow2_ge
  rw [hk]
  refine ⟨⟨k, rfl⟩, hge, ?_⟩
  intro j hj
  apply Nat.pow_le_pow_right (by decide)
  rcases hlow with h0 | hlt
  · omega
  · have h1 : 2 ^ (k - 1) < 2 ^ j := Nat.lt_of_lt_of_le hlt hj
    have h2 : k - 1 < j := (Nat.pow_lt_pow_iff_right (by decide)).1 h1
    omega

theorem roundup_eq_spec_small : ∀ n < 84, roundup n = roundup_spec n := by
  decide

/-- The function `roundup` computes what the specification states. -/
theorem roundup_eq_spec (n : Nat) : roundup n = roundup_spec n := by
  by_cases h : n < 84
  · exact roundup_eq_spec_small n h
  · have h1 : ¬ (32 + n * 24 < 64) := by omega
    have h2 : ¬ (32 + n * 24 < 2048) := by omega
    have h3 : ¬ (32 + 24 * n < 64) := by omega
    have h4 : ¬ (32 + 24 * n < 2048) := by omega
    simp only [roundup, roundup_spec, sizeof_bucket, if_neg h1, if_neg h2, if_neg h3, if_neg h4]
    rw [Nat.mul_comm]

/-- The keys of the survivor of a returning merge are those of the two maps. -/
theorem merge_keys_union (env : sched_env) (this_map : cilkred_map)
    (w : __cilkrts_worker) (other_map : cilkred_map) (kind : merge_kind)
    (hwf : WF this_map) (hwfo : WF other_map)
    (hg : g_ok (some w) this_map = true) (hgo : g_ok (some w) other_map = true)
    (hfr : env.sf_worker w.current_stack_frame = w.self) (htls : w.self = env.tls_worker)
    (w1 : __cilkrts_worker) (st : merge_state)
    (hok : cilkred_map_merge env this_map w other_map kind = Res.ok w1 st) (K : Nat) :
    (∃ p, cilkred_map_lookup st.this_map K = Res.ok (some p) st.this_map) ↔
      ((∃ p, cilkred_map_lookup this_map K = Res.ok (some p) this_map) ∨
        (∃ p, cilkred_map_lookup other_map K = Res.ok (some p) other_map)) := by
  obtain ⟨-, -, hwf1, -, -, -, hf1, -⟩ :=
    merge_ok_spec env this_map w other_map kind hwf hwfo hg hgo hfr htls w1 st hok
  rw [lookup_some_iff_find _ hwf1, lookup_some_iff_find _ hwf, lookup_some_iff_find _ hwfo,
    hf1 K]
  cases hO : find other_map K with
  | none => simp
  | some oe => simp

/-- What the survivor of a returning merge holds when it is not the leftmost
map: the elements of the two maps, and for a key of both maps the element of
the survivor with, for `MERGE_INTO_RIGHT`, the view of the other map. -/
theorem merge_survivor_holds (env : sched_env) (this_map : cilkred_map)
    (w : __cilkrts_worker) (other_map : cilkred_map) (kind : merge_kind)
    (hwf : WF this_map) (hwfo : WF other_map)
    (hg : g_ok (some w) this_map = true) (hgo : g_ok (some w) other_map = true)
    (hfr : env.sf_worker w.current_stack_frame = w.self) (htls : w.self = env.tls_worker)
    (hnl : this_map.is_leftmost = false)
    (w1 : __cilkrts_worker) (st : merge_state)
    (hok : cilkred_map_merge env this_map w other_map kind = Res.ok w1 st) :
    (∀ K pT, cilkred_map_lookup this_map K = Res.ok (some pT) this_map →
      cilkred_map_lookup other_map K = Res.ok none other_map →
      events_of K st.trace = [] ∧
      ∃ p, cilkred_map_lookup st.this_map K = Res.ok (some p) st.this_map ∧
        get_slot st.this_map p = get_slot this_map pT) ∧
    (∀ K pO, cilkred_map_lookup other_map K = Res.ok (some pO) other_map →
      cilkred_map_lookup this_map K = Res.ok none this_map →
      events_of K st.trace = [] ∧
      ∃ p, cilkred_map_lookup st.this_map K = Res.ok (some p) st.this_map ∧
        get_slot st.this_map p = get_slot other_map pO) ∧
    (∀ K pT pO, cilkred_map_lookup this_map K = Res.ok (some pT) this_map →
      cilkred_map_lookup other_map K = Res.ok (some pO) other_map →
      (events_of K st.trace).filter Event.isReduce =
        (if kind = merge_kind.MERGE_INTO_RIGHT then
            [Event.reduce K (get_slot other_map pO).hb (get_slot other_map pO).view
              (get_slot this_map pT).view]
          else
            [Event.reduce K (get_slot other_map pO).hb (get_slot this_map pT).view
              (get_slot other_map pO).view]) ∧
      ∃ p, cilkred_map_lookup st.this_map K = Res.ok (some p) st.this_map ∧
        get_slot st.this_map p =
          (if kind = merge_kind.MERGE_INTO_RIGHT then
              ⟨K, (get_slot this_map pT).hb, (get_slot other_map pO).view⟩
            else get_slot this_map pT)) := by
  obtain ⟨-, htr, hwf1, -, -, -, hf1, -⟩ :=
    merge_ok_spec env this_map w other_map kind hwf hwfo hg hgo hfr htls w1 st hok
  refine ⟨?_, ?_, ?_⟩
  · intro K pT hT hO
    have hfT := find_of_lookup_some this_map this_map hwf K pT hT
    have hfO := find_of_lookup_none other_map other_map hwfo K hO
    refine ⟨?_, ?_⟩
    · rw [htr, merge_trace_of kind this_map.is_leftmost this_map other_map hwfo K, hfO]
      rfl
    · have hfS : find st.this_map K = some (get_slot this_map pT) := by
        rw [hf1 K, hfO, hfT]
        rfl
      obtain ⟨p, hp1, hp2, -⟩ := lookup_of_find_some st.this_map hwf1 K _ hfS
      exact ⟨p, hp1, hp2⟩
  · intro K pO hO hT
    have hfO := find_of_lookup_some other_map other_map hwfo K pO hO
    have hfT := find_of_lookup_none this_map this_map hwf K hT
    have hkey : (get_slot other_map pO).key = K := (find_key_ne_zero other_map K _ hfO).2
    generalize get_slot other_map pO = oe at hfO hkey ⊢
    have htarget : merge_target this_map.is_leftmost (find this_map oe.key) oe = none := by
      rw [hkey, hfT, hnl]
      simp [merge_target]
    refine ⟨?_, ?_⟩
    · rw [htr, merge_trace_of kind this_map.is_leftmost this_map other_map hwfo K, hfO]
      simp only [Option.map_some', Option.getD_some, loop_events, other_after, htarget,
        dealloc_of, ne_eq, not_true_eq_false, if_false, List.append_nil]
    · have hfS : find st.this_map K = some oe := by
        rw [hf1 K, hfO]
        simp only [Option.map_some', surv_elem, htarget, Option.or_some]
      obtain ⟨p, hp1, hp2, -⟩ := lookup_of_find_some st.this_map hwf1 K oe hfS
      exact ⟨p, hp1, hp2⟩
  · intro K pT pO hT hO
    have hfT := find_of_lookup_some this_map this_map hwf K pT hT
    have hfO := find_of_lookup_some other_map other_map hwfo K pO hO
    have hkO : (get_slot other_map pO).key = K := (find_key_ne_zero other_map K _ hfO).2
    have hkT : (get_slot this_map pT).key = K := (find_key_ne_zero this_map K _ hfT).2
    generalize get_slot other_map pO = oe at hfO hkO ⊢
    generalize get_slot this_map pT = t at hfT hkT ⊢
    have htarget : merge_target this_map.is_leftmost (find this_map oe.key) oe = some t := by
      rw [hkO, hfT]
      rfl
    refine ⟨?_, ?_⟩
    · rw [htr, merge_trace_of kind this_map.is_leftmost this_map other_map hwfo K, hfO]
      simp only [Option.map_some', Option.getD_some]
      rw [List.filter_append, loop_events_reduce, dealloc_of_reduce, List.append_nil]
      unfold loop_events
      rw [htarget, ← hkO]
      cases kind <;> rfl
    · have hfS : find st.this_map K = some (if kind = merge_kind.MERGE_INTO_RIGHT then
          ⟨K, t.hb, oe.view⟩ else t) := by
        rw [hf1 K, hfO]
        simp only [Option.map_some']
        unfold surv_elem
        rw [htarget, ← hkT]
        cases kind <;> rfl
      obtain ⟨p, hp1, hp2, -⟩ := lookup_of_find_some st.this_map hwf1 K _ hfS
      exact ⟨p, hp1, hp2⟩

theorem mem_entries_keys (m : cilkred_map) (hwf : WF m) (k : Nat) :
    k ∈ (entries m).map elem.key ↔ (find m k).isSome = true := by
  obtain ⟨-, -, -, h4⟩ := entries_spec m hwf
  rw [List.mem_map]
  constructor
  · rintro ⟨e, he, hk⟩
    rw [← hk, (h4 e).1 he]
    rfl
  · intro h
    cases hf : find m k with
    | none => rw [hf] at h; cases h
    | some e =>
      have hk := (find_key_ne_zero m k e hf).2
      refine ⟨e, (h4 e).2 (by rw [hk]; exact hf), hk⟩

/-- The element count of the survivor of a returning merge: at least that of
each of the two maps, at most their sum. -/
theorem merge_nelem_bounds (env : sched_env) (this_map : cilkred_map)
    (w : __cilkrts_worker) (other_map : cilkred_map) (kind : merge_kind)
    (hwf : WF this_map) (hwfo : WF other_map)
    (hg : g_ok (some w) this_map = true) (hgo : g_ok (some w) other_map = true)
    (hfr : env.sf_worker w.current_stack_frame = w.self) (htls : w.self = env.tls_worker)
    (w1 : __cilkrts_worker) (st : merge_state)
    (hok : cilkred_map_merge env this_map w other_map kind = Res.ok w1 st) :
    this_map.nelem ≤ st.this_map.nelem ∧ other_map.nelem ≤ st.this_map.nelem ∧
      st.this_map.nelem ≤ this_map.nelem + other_map.nelem := by
  obtain ⟨-, -, hwf1, -, -, -, hf1, -⟩ :=
    merge_ok_spec env this_map w other_map kind hwf hwfo hg hgo hfr htls w1 st hok
  have hmem : ∀ k, (find st.this_map k).isSome = true ↔
      ((find this_map k).isSome = true ∨ (find other_map k).isSome = true) := by
    intro k
    rw [hf1 k]
    cases hO : find other_map k with
    | none => simp
    | some oe => simp
  rw [(check_spec this_map hwf true).2, (check_spec other_map hwfo true).2,
    (check_spec st.this_map hwf1 true).2]
  have hl : ∀ m : cilkred_map, (entries m).length = ((entries m).map elem.key).length := by
    intro m; rw [List.length_map]
  rw [hl this_map, hl other_map, hl st.this_map, ← List.length_append]
  refine ⟨?_, ?_, ?_⟩
  · apply (List.subperm_of_subset (entries_spec this_map hwf).1 _).length_le
    intro k hk
    rw [mem_entries_keys _ hwf1, hmem]
    exact Or.inl ((mem_entries_keys _ hwf k).1 hk)
  · apply (List.subperm_of_subset (entries_spec other_map hwfo).1 _).length_le
    intro k hk
    rw [mem_entries_keys _ hwf1, hmem]
    exact Or.inr ((mem_entries_keys _ hwfo k).1 hk)
  · apply (List.subperm_of_subset (entries_spec st.this_map hwf1).1 _).length_le
    intro k hk
    rw [List.mem_append, mem_entries_keys _ hwf, mem_entries_keys _ hwfo]
    exact (hmem k).1 ((mem_entries_keys _ hwf1 k).1 hk)

/-! ## The claims -/

/-- C1: for every list of elements with pairwise distinct non-null keys and
non-null views, inserted one after another with `cilkred_map_rehash_and_insert`
into the map built by `cilkred_map_make_map`, all calls return; afterwards
`cilkred_map_lookup` of every inserted key returns a slot holding exactly that
key, its descriptor and its view, and `cilkred_map_lookup` of every other key
returns null. -/
theorem C1_insert_all_lookup (w : __cilkrts_worker) (l : List elem)
    (hnd : (l.map elem.key).Nodup) (hnz : ∀ e ∈ l, e.key ≠ 0 ∧ e.view ≠ 0) :
    ∃ m0 m, cilkred_map_make_map w = Res.ok () m0 ∧ insert_all (some w) l m0 = Res.ok () m ∧
      (∀ e ∈ l, ∃ p, cilkred_map_lookup m e.key = Res.ok (some p) m ∧ get_slot m p = e) ∧
      (∀ k, k ∉ l.map elem.key → cilkred_map_lookup m k = Res.ok none m) := by
  obtain ⟨m0, h0, hwf0, hf0, -, -, hg0, -, -⟩ := make_map_spec w
  obtain ⟨m, h1, hwf1, -, -, hf1⟩ := insert_all_spec (some w) l m0 hwf0
    (by simp [g_ok, hg0]) hnd hnz (fun e _ => hf0 e.key)
  refine ⟨m0, m, h0, h1, ?_, ?_⟩
  · intro e he
    have hfe : find m e.key = some e := by
      rw [hf1, nodup_find l hnd e he]; rfl
    obtain ⟨p, hp1, hp2, -⟩ := lookup_of_find_some m hwf1 e.key e hfe
    exact ⟨p, hp1, hp2⟩
  · intro k hk
    apply lookup_of_find_none m hwf1
    rw [hf1, hf0]
    have : l.find? (fun e => e.key == k) = none := by
      rw [List.find?_eq_none]
      intro x hx hxk
      exact hk ((by simpa using hxk : x.key = k) ▸ List.mem_map_of_mem elem.key hx)
    rw [this]; rfl

/-- C2: on every well-formed map `cilkred_map_rehash` returns, leaves `nelem`
unchanged, and leaves the result of `cilkred_map_lookup` unchanged for every
key: a key found before is found after in a slot with the same key, descriptor
and view, and a key absent before is absent after. -/
theorem C2_rehash_preserves_lookup (m : cilkred_map) (w : Option __cilkrts_worker)
    (hwf : WF m) (hg : g_ok w m = true) :
    ∃ m1, cilkred_map_rehash m w = Res.ok () m1 ∧ m1.nelem = m.nelem ∧
      ∀ k,
        (∀ p, cilkred_map_lookup m k = Res.ok (some p) m →
          ∃ p1, cilkred_map_lookup m1 k = Res.ok (some p1) m1 ∧ get_slot m1 p1 = get_slot m p) ∧
        (cilkred_map_lookup m k = Res.ok none m → cilkred_map_lookup m1 k = Res.ok none m1) := by
  obtain ⟨m1, h1, hwf1, -, hne, -, hf⟩ := rehash_spec m hwf w hg
  refine ⟨m1, h1, hne, fun k => ⟨?_, ?_⟩⟩
  · intro p hp
    have := find_of_lookup_some m m hwf k p hp
    obtain ⟨p1, hp1, hp2, -⟩ := lookup_of_find_some m1 hwf1 k _ ((hf k).trans this)
    exact ⟨p1, hp1, hp2⟩
  · intro hp
    exact lookup_of_find_none m1 hwf1 k ((hf k).trans (find_of_lookup_none m m hwf k hp))

/-- Witness of C1 on five elements. -/
theorem C1_insert_all_lookup_witness :
    ((sample_elems.map elem.key).Nodup ∧ ∀ e ∈ sample_elems, e.key ≠ 0 ∧ e.view ≠ 0) ∧
    ∃ m0 m, cilkred_map_make_map sample_worker = Res.ok () m0 ∧
      insert_all (some sample_worker) sample_elems m0 = Res.ok () m ∧
      (∀ e ∈ sample_elems, ∃ p, cilkred_map_lookup m e.key = Res.ok (some p) m ∧
        get_slot m p = e) ∧
      (∀ k, k ∉ sample_elems.map elem.key → cilkred_map_lookup m k = Res.ok none m) :=
  ⟨⟨by decide, by decide⟩,
    C1_insert_all_lookup sample_worker sample_elems (by decide) (by decide)⟩

/-- Witness of C2 on the sample map of four buckets and three elements. -/
theorem C2_rehash_preserves_lookup_witness :
    (WF sample_map ∧ g_ok (some sample_worker) sample_map = true) ∧
    ∃ m1, cilkred_map_rehash sample_map (some sample_worker) = Res.ok () m1 ∧
      m1.nelem = sample_map.nelem ∧
      ∀ k,
        (∀ p, cilkred_map_lookup sample_map k = Res.ok (some p) sample_map →
          ∃ p1, cilkred_map_lookup m1 k = Res.ok (some p1) m1 ∧
            get_slot m1 p1 = get_slot sample_map p) ∧
        (cilkred_map_lookup sample_map k = Res.ok none sample_map →
          cilkred_map_lookup m1 k = Res.ok none m1) :=
  ⟨⟨by decide, by decide⟩,
    C2_rehash_preserves_lookup sample_map (some sample_worker) (by decide) (by decide)⟩

/-- C3: let `left` and `right` be well-formed maps merged by
`__cilkrts_internal_merge_two_rmaps` on the thread-local worker, the call
returning, and let `K` be a key both hold, with view `L` in `left` and view `R`
in `right`.  Then the call returns a map, the calls of `reduce_fn` made for `K`
are exactly one, with the arguments `(L, R)` in that order (on the descriptor
stored by the map that is merged in), and `cilkred_map_lookup(K)` on the
returned map finds a slot whose view is `L`, whichever map survives. -/
theorem C3_merge_two_rmaps_reduce_order (env : sched_env) (ws : __cilkrts_worker)
    (left right : cilkred_map) (hwfl : WF left) (hwfr : WF right)
    (hgl : g_ok (some ws) left = true) (hgr : g_ok (some ws) right = true)
    (hfr : env.sf_worker ws.current_stack_frame = ws.self) (htls : ws.self = env.tls_worker)
    (K : Nat) (pL pR : Nat × Nat)
    (hL : cilkred_map_lookup left K = Res.ok (some pL) left)
    (hR : cilkred_map_lookup right K = Res.ok (some pR) right)
    (res : Option cilkred_map) (tr : List Event)
    (hok : __cilkrts_internal_merge_two_rmaps env ws (some left) (some right) = Res.ok res tr) :
    ∃ m hb p, res = some m ∧
      (hb = (get_slot left pL).hb ∨ hb = (get_slot right pR).hb) ∧
      (events_of K tr).filter Event.isReduce =
        [Event.reduce K hb (get_slot left pL).view (get_slot right pR).view] ∧
      cilkred_map_lookup m K = Res.ok (some p) m ∧
      (get_slot m p).view = (get_slot left pL).view := by
  have hfL := find_of_lookup_some left left hwfl K pL hL
  have hfR := find_of_lookup_some right right hwfr K pR hR
  generalize get_slot left pL = eL at hfL ⊢
  generalize get_slot right pR = eR at hfR ⊢
  have hkL := (find_key_ne_zero left K eL hfL).2
  have hkR := (find_key_ne_zero right K eR hfR).2
  simp only [__cilkrts_internal_merge_two_rmaps] at hok
  by_cases hc : left.is_leftmost = true ∨ left.nelem > right.nelem
  · rw [if_pos hc] at hok
    cases hm : cilkred_map_merge env left ws right merge_kind.MERGE_INTO_LEFT with
    | fatal f st => rw [hm] at hok; cases hok
    | ok w1 st =>
      rw [hm] at hok
      injection hok with hres htr
      obtain ⟨-, htrace, hwfm, -, -, -, hfm, -⟩ :=
        merge_ok_spec env left ws right _ hwfl hwfr hgl hgr hfr htls w1 st hm
      have hfK : find st.this_map K = some eL := by
        rw [hfm K, hfR]
        simp only [Option.map_some', hkR, hfL, surv_elem, merge_target]
        rfl
      obtain ⟨p, hp1, hp2, -⟩ := lookup_of_find_some st.this_map hwfm K eL hfK
      refine ⟨st.this_map, eR.hb, p, hres.symm, Or.inr rfl, ?_, hp1, by rw [hp2]⟩
      rw [← htr, htrace, merge_trace_of _ _ left right hwfr K, hfR]
      simp only [Option.map_some', Option.getD_some, List.filter_append, loop_events_reduce,
        dealloc_of_reduce, List.append_nil, hkR, hfL, loop_events, merge_target]
      rfl
  · rw [if_neg hc] at hok
    cases hm : cilkred_map_merge env right ws left merge_kind.MERGE_INTO_RIGHT with
    | fatal f st => rw [hm] at hok; cases hok
    | ok w1 st =>
      rw [hm] at hok
      injection hok with hres htr
      obtain ⟨-, htrace, hwfm, -, -, -, hfm, -⟩ :=
        merge_ok_spec env right ws left _ hwfr hwfl hgr hgl hfr htls w1 st hm
      have hfK : find st.this_map K = some ⟨eR.key, eR.hb, eL.view⟩ := by
        rw [hfm K, hfL]
        simp only [Option.map_some', hkL, hfR, surv_elem, merge_target]
        rfl
      obtain ⟨p, hp1, hp2, -⟩ := lookup_of_find_some st.this_map hwfm K _ hfK
      refine ⟨st.this_map, eL.hb, p, hres.symm, Or.inl rfl, ?_, hp1, by rw [hp2]⟩
      rw [← htr, htrace, merge_trace_of _ _ right left hwfl K, hfL]
      simp only [Option.map_some', Option.getD_some, List.filter_append, loop_events_reduce,
        dealloc_of_reduce, List.append_nil, hkL, hfR, loop_events, merge_target]
      rfl

/-- Witness of C3: two maps of one element each, so that the right map
survives and the views are swapped before the reduction. -/
theorem C3_merge_two_rmaps_reduce_order_witness :
    (WF map_8_9 ∧ WF map_8_10 ∧ g_ok (some sample_worker) map_8_9 = true ∧
      g_ok (some sample_worker) map_8_10 = true ∧
      sample_env.sf_worker sample_worker.current_stack_frame = sample_worker.self ∧
      sample_worker.self = sample_env.tls_worker ∧
      cilkred_map_lookup map_8_9 8 = Res.ok (some (0, 0)) map_8_9 ∧
      cilkred_map_lookup map_8_10 8 = Res.ok (some (0, 0)) map_8_10 ∧
      __cilkrts_internal_merge_two_rmaps sample_env sample_worker (some map_8_9) (some map_8_10) =
        Res.ok (some map_8_9) [Event.reduce 8 1 9 10, Event.deallocate 8 1 10]) ∧
    ∃ m hb p, some map_8_9 = some m ∧
      (hb = (get_slot map_8_9 (0, 0)).hb ∨ hb = (get_slot map_8_10 (0, 0)).hb) ∧
      (events_of 8 [Event.reduce 8 1 9 10, Event.deallocate 8 1 10]).filter Event.isReduce =
        [Event.reduce 8 hb (get_slot map_8_9 (0, 0)).view (get_slot map_8_10 (0, 0)).view] ∧
      cilkred_map_lookup m 8 = Res.ok (some p) m ∧
      (get_slot m p).view = (get_slot map_8_9 (0, 0)).view :=
  ⟨⟨by decide, by decide, by decide, by decide, rfl, rfl, by decide, by decide, by decide⟩,
    C3_merge_two_rmaps_reduce_order sample_env sample_worker map_8_9 map_8_10 (by decide)
      (by decide) (by decide) (by decide) rfl rfl 8 (0, 0) (0, 0) (by decide) (by decide)
      (some map_8_9) [Event.reduce 8 1 9 10, Event.deallocate 8 1 10] (by decide)⟩

/-- C4, as stated, fails: merging the map holding key 8 with view `A = 10`
(`other_map`) into the map holding key 8 with view `B = 9` (`this_map`) with
`MERGE_INTO_LEFT` calls `reduce_fn(hb, 9, 10)`, that is `reduce(B, A)`, and not
`reduce(A, B)`. -/
theorem C4_counterexample :
    (cilkred_map_lookup map_8_10 8 = Res.ok (some (0, 0)) map_8_10 ∧
      (get_slot map_8_10 (0, 0)).view = 10) ∧
    (cilkred_map_lookup map_8_9 8 = Res.ok (some (0, 0)) map_8_9 ∧
      (get_slot map_8_9 (0, 0)).view = 9) ∧
    cilkred_map_merge sample_env map_8_9 sample_worker map_8_10 merge_kind.MERGE_INTO_LEFT =
      Res.ok sample_worker ⟨map_8_9, [Event.reduce 8 1 9 10, Event.deallocate 8 1 10]⟩ ∧
    (events_of 8 [Event.reduce 8 1 9 10, Event.deallocate 8 1 10]).filter Event.isReduce ≠
      [Event.reduce 8 1 10 9] := by
  decide

/-- C4, amended: merging a well-formed map holding key `K` with view `A`
(`other_map`, not leftmost) into a well-formed map holding `K` with view `B`
(`this_map`) with `MERGE_INTO_LEFT` returns, calls `reduce_fn` exactly once for
`K`, as `reduce(B, A)` on the descriptor stored in `other_map`, and the
surviving map has exactly one live element with key `K`, the element `this_map`
held. -/
theorem C4_merge_into_left_collision (env : sched_env) (this_map : cilkred_map)
    (w : __cilkrts_worker) (other_map : cilkred_map)
    (hwf : WF this_map) (hwfo : WF other_map)
    (hg : g_ok (some w) this_map = true) (hgo : g_ok (some w) other_map = true)
    (hfr : env.sf_worker w.current_stack_frame = w.self) (htls : w.self = env.tls_worker)
    (hol : other_map.is_leftmost = false) (K : Nat) (pA pB : Nat × Nat)
    (hA : cilkred_map_lookup other_map K = Res.ok (some pA) other_map)
    (hB : cilkred_map_lookup this_map K = Res.ok (some pB) this_map) :
    ∃ m1 tr, cilkred_map_merge env this_map w other_map merge_kind.MERGE_INTO_LEFT =
        Res.ok w ⟨m1, tr⟩ ∧
      (events_of K tr).filter Event.isReduce =
        [Event.reduce K (get_slot other_map pA).hb (get_slot this_map pB).view
          (get_slot other_map pA).view] ∧
      (entries m1).filter (fun e => e.key == K) = [get_slot this_map pB] := by
  have hfA := find_of_lookup_some other_map other_map hwfo K pA hA
  have hfB := find_of_lookup_some this_map this_map hwf K pB hB
  generalize get_slot other_map pA = eA at hfA ⊢
  generalize get_slot this_map pB = eB at hfB ⊢
  have hkA := (find_key_ne_zero other_map K eA hfA).2
  have hkB := (find_key_ne_zero this_map K eB hfB).2
  obtain ⟨m1, hm, hwfm, -, -, -, hfm⟩ :=
    (merge_spec env this_map w other_map merge_kind.MERGE_INTO_LEFT hwf hwfo hg hgo hfr htls
      hol).1 (Or.inl (by decide))
  refine ⟨m1, _, hm, ?_, ?_⟩
  · rw [merge_trace_of _ _ this_map other_map hwfo K, hfA]
    simp only [Option.map_some', Option.getD_some, List.filter_append, loop_events_reduce,
      dealloc_of_reduce, List.append_nil, hkA, hfB, loop_events, merge_target]
    rfl
  · have hfK : find m1 K = some eB := by
      rw [hfm K, hfA]
      simp only [Option.map_some', hkA, hfB, surv_elem, merge_target]
      rfl
    obtain ⟨hnd, -, -, hmem⟩ := entries_spec m1 hwfm
    have := nodup_filter_key (entries m1) hnd eB ((hmem eB).2 (by rw [hkB]; exact hfK))
    rw [hkB] at this
    exact this

/-- Witness of the amended C4 on the two one-element maps. -/
theorem C4_merge_into_left_collision_witness :
    (WF map_8_9 ∧ WF map_8_10 ∧ g_ok (some sample_worker) map_8_9 = true ∧
      g_ok (some sample_worker) map_8_10 = true ∧
      sample_env.sf_worker sample_worker.current_stack_frame = sample_worker.self ∧
      sample_worker.self = sample_env.tls_worker ∧ map_8_10.is_leftmost = false ∧
      cilkred_map_lookup map_8_10 8 = Res.ok (some (0, 0)) map_8_10 ∧
      cilkred_map_lookup map_8_9 8 = Res.ok (some (0, 0)) map_8_9) ∧
    ∃ m1 tr, cilkred_map_merge sample_env map_8_9 sample_worker map_8_10
          merge_kind.MERGE_INTO_LEFT = Res.ok sample_worker ⟨m1, tr⟩ ∧
      (events_of 8 tr).filter Event.isReduce =
        [Event.reduce 8 (get_slot map_8_10 (0, 0)).hb (get_slot map_8_9 (0, 0)).view
          (get_slot map_8_10 (0, 0)).view] ∧
      (entries m1).filter (fun e => e.key == 8) = [get_slot map_8_9 (0, 0)] :=
  ⟨⟨by decide, by decide, by decide, by decide, rfl, rfl, rfl, by decide, by decide⟩,
    C4_merge_into_left_collision sample_env map_8_9 sample_worker map_8_10 (by decide)
      (by decide) (by decide) (by decide) rfl rfl rfl 8 (0, 0) (0, 0) (by decide) (by decide)⟩

/-- C5, as stated, fails when the surviving map is the leftmost map: the empty
leftmost map and the map holding key 8 with the private view 10 have disjoint
key sets, yet `cilkred_map_merge` materialises the leftmost view 8 and calls
`reduce_fn(hb, 8, 10)` once (and with `MERGE_UNORDERED` it does not return). -/
theorem C5_counterexample :
    (WF empty_leftmost_map ∧ WF map_8_10 ∧ map_8_10.is_leftmost = false ∧
      entries empty_leftmost_map = [] ∧ entries map_8_10 = [⟨8, 1, 10⟩]) ∧
    cilkred_map_merge sample_env empty_leftmost_map sample_worker map_8_10
        merge_kind.MERGE_INTO_LEFT =
      Res.ok sample_worker
        ⟨⟨7, 1, 1, [some ⟨1, [⟨8, 1, 8⟩, ⟨0, 0, 0⟩]⟩], false, true⟩,
          [Event.reduce 8 1 8 10, Event.deallocate 8 1 10]⟩ ∧
    (cilkred_map_merge sample_env empty_leftmost_map sample_worker map_8_10
        merge_kind.MERGE_UNORDERED).isOk = false := by
  decide

/-- C5, amended: for two well-formed maps with disjoint key sets, the other
map not leftmost, and the surviving map not leftmost (or every view of the
other map pointer-identical to its key), `cilkred_map_merge` of every kind
returns, makes no callback at all (in particular no `reduce_fn` call), and the
keys found in the surviving map are exactly those found in one of the two
maps. -/
theorem C5_merge_disjoint (env : sched_env) (this_map : cilkred_map)
    (w : __cilkrts_worker) (other_map : cilkred_map) (kind : merge_kind)
    (hwf : WF this_map) (hwfo : WF other_map)
    (hg : g_ok (some w) this_map = true) (hgo : g_ok (some w) other_map = true)
    (hfr : env.sf_worker w.current_stack_frame = w.self) (htls : w.self = env.tls_worker)
    (hol : other_map.is_leftmost = false)
    (hdisj : ∀ k p, cilkred_map_lookup other_map k = Res.ok (some p) other_map →
      cilkred_map_lookup this_map k = Res.ok none this_map)
    (hlm : this_map.is_leftmost = false ∨
      ∀ k p, cilkred_map_lookup other_map k = Res.ok (some p) other_map →
        (get_slot other_map p).view = k) :
    ∃ m1, cilkred_map_merge env this_map w other_map kind = Res.ok w ⟨m1, []⟩ ∧
      ∀ k, (∃ p, cilkred_map_lookup m1 k = Res.ok (some p) m1) ↔
        ((∃ p, cilkred_map_lookup this_map k = Res.ok (some p) this_map) ∨
          (∃ p, cilkred_map_lookup other_map k = Res.ok (some p) other_map)) := by
  obtain ⟨-, -, -, hmem⟩ := entries_spec other_map hwfo
  have htarget : ∀ oe ∈ entries other_map,
      merge_target this_map.is_leftmost (find this_map oe.key) oe = none := by
    intro oe hoe
    have hfo := (hmem oe).1 hoe
    obtain ⟨p, hp1, hp2, -⟩ := lookup_of_find_some other_map hwfo oe.key oe hfo
    have hft := find_of_lookup_none this_map this_map hwf oe.key (hdisj oe.key p hp1)
    rw [hft]
    unfold merge_target
    simp only
    rw [if_neg]
    rintro ⟨h1, h2⟩
    rcases hlm with h | h
    · rw [h] at h1; cases h1
    · have := h oe.key p hp1
      rw [hp2] at this
      exact h2 this.symm
  obtain ⟨m1, hm, hwfm, -, -, -, hfm⟩ :=
    (merge_spec env this_map w other_map kind hwf hwfo hg hgo hfr htls hol).1 (Or.inr htarget)
  have htr : (entries other_map).flatMap
        (fun oe => loop_events kind this_map.is_leftmost (find this_map oe.key) oe) ++
      ((entries other_map).map
        (fun oe => other_after kind this_map.is_leftmost (find this_map oe.key) oe)).flatMap
        dealloc_of = [] := by
    rw [List.flatMap_map,
      flatMap_nil_of _ _ (fun oe hoe => by simp only [loop_events, htarget oe hoe]),
      flatMap_nil_of _ _ (fun oe hoe => by
        simp only [other_after, htarget oe hoe, dealloc_of, ne_eq, not_true_eq_false, if_false])]
    rfl
  rw [htr] at hm
  refine ⟨m1, hm, ?_⟩
  intro k
  rw [lookup_some_iff_find m1 hwfm, lookup_some_iff_find this_map hwf,
    lookup_some_iff_find other_map hwfo, hfm k]
  cases hfo : find other_map k with
  | none => simp
  | some oe => simp

/-- Witness of the amended C5: an unordered merge of two disjoint maps. -/
theorem C5_merge_disjoint_witness :
    (WF map_8_9 ∧ WF map_24_25 ∧ g_ok (some sample_worker) map_8_9 = true ∧
      g_ok (some sample_worker) map_24_25 = true ∧
      sample_env.sf_worker sample_worker.current_stack_frame = sample_worker.self ∧
      sample_worker.self = sample_env.tls_worker ∧ map_24_25.is_leftmost = false ∧
      map_8_9.is_leftmost = false) ∧
    ∃ m1, cilkred_map_merge sample_env map_8_9 sample_worker map_24_25
          merge_kind.MERGE_UNORDERED = Res.ok sample_worker ⟨m1, []⟩ ∧
      ∀ k, (∃ p, cilkred_map_lookup m1 k = Res.ok (some p) m1) ↔
        ((∃ p, cilkred_map_lookup map_8_9 k = Res.ok (some p) map_8_9) ∨
          (∃ p, cilkred_map_lookup map_24_25 k = Res.ok (some p) map_24_25)) :=
  ⟨⟨by decide, by decide, by decide, by decide, rfl, rfl, rfl, rfl⟩,
    C5_merge_disjoint sample_env map_8_9 sample_worker map_24_25 merge_kind.MERGE_UNORDERED
      (by decide) (by decide) (by decide) (by decide) rfl rfl rfl
      (by
        intro k p hk
        have h1 := find_of_lookup_some map_24_25 map_24_25 (by decide) k p hk
        have h2 := (find_key_ne_zero map_24_25 k _ h1).2
        have h3 : get_slot map_24_25 p ∈ entries map_24_25 :=
          ((entries_spec map_24_25 (by decide)).2.2.2 _).2 (by rw [h2]; exact h1)
        have h4 : entries map_24_25 = [⟨24, 3, 25⟩] := by decide
        rw [h4, List.mem_singleton] at h3
        rw [h3] at h2
        subst h2
        decide)
      (Or.inl rfl)⟩

/-- C6, as stated, fails: merging the map holding key 8 with view 9 into the
map holding key 8 with view 10 with `MERGE_INTO_RIGHT` calls
`reduce_fn(hb, 9, 10)` once, and then `cilkred_map_destroy_map` on the losing
map calls `deallocate_fn(hb, 10)` on the consumed (right) operand. -/
theorem C6_counterexample :
    (WF map_8_10 ∧ WF map_8_9 ∧ map_8_9.is_leftmost = false ∧
      entries map_8_10 = [⟨8, 1, 10⟩] ∧ entries map_8_9 = [⟨8, 1, 9⟩]) ∧
    cilkred_map_merge sample_env map_8_10 sample_worker map_8_9 merge_kind.MERGE_INTO_RIGHT =
      Res.ok sample_worker ⟨map_8_9, [Event.reduce 8 1 9 10, Event.deallocate 8 1 10]⟩ ∧
    Event.deallocate 8 1 10 ∈ [Event.reduce 8 1 9 10, Event.deallocate 8 1 10] := by
  decide

/-- C6, amended: for a key `K` held by both well-formed maps (view `T` in the
surviving map, view `V` in the other map, which is not leftmost),
`cilkred_map_merge` of kind `MERGE_INTO_LEFT` or `MERGE_INTO_RIGHT` returns and
the callbacks it makes for `K` are: exactly one call of `reduce_fn`, as
`reduce(T, V)` resp. `reduce(V, T)`, followed, when the losing map is
destroyed, by exactly one call of `deallocate_fn` on the right operand of that
reduction, unless this operand is the leftmost view (equal to `K`), in which
case nothing is deallocated.  The loop of the merge, run up to its end, makes
calls of `reduce_fn` only: every `deallocate_fn` call is made by the final
`cilkred_map_destroy_map`. -/
theorem C6_merge_collision_callbacks (env : sched_env) (this_map : cilkred_map)
    (w : __cilkrts_worker) (other_map : cilkred_map)
    (hwf : WF this_map) (hwfo : WF other_map)
    (hg : g_ok (some w) this_map = true) (hgo : g_ok (some w) other_map = true)
    (hfr : env.sf_worker w.current_stack_frame = w.self) (htls : w.self = env.tls_worker)
    (hol : other_map.is_leftmost = false) (K : Nat) (pT pO : Nat × Nat)
    (hT : cilkred_map_lookup this_map K = Res.ok (some pT) this_map)
    (hO : cilkred_map_lookup other_map K = Res.ok (some pO) other_map) :
    (∃ m1 tr, cilkred_map_merge env this_map w other_map merge_kind.MERGE_INTO_LEFT =
        Res.ok w ⟨m1, tr⟩ ∧
      events_of K tr =
        Event.reduce K (get_slot other_map pO).hb (get_slot this_map pT).view
            (get_slot other_map pO).view ::
          (if (get_slot other_map pO).view = K then []
            else [Event.deallocate K (get_slot other_map pO).hb (get_slot other_map pO).view])) ∧
    (∃ m1 tr, cilkred_map_merge env this_map w other_map merge_kind.MERGE_INTO_RIGHT =
        Res.ok w ⟨m1, tr⟩ ∧
      events_of K tr =
        Event.reduce K (get_slot other_map pO).hb (get_slot other_map pO).view
            (get_slot this_map pT).view ::
          (if (get_slot this_map pT).view = K then []
            else [Event.deallocate K (get_slot other_map pO).hb (get_slot this_map pT).view])) ∧
    (∀ kind, kind ≠ merge_kind.MERGE_UNORDERED →
      ∃ bs s, merge_buckets env w kind this_map.is_leftmost
            (other_map.buckets.take other_map.nbuckets)
            ⟨{ this_map with merging := true }, []⟩ = Res.ok bs s ∧
        ∀ ev ∈ s.trace, ev.isReduce = true) := by
  have hfO := find_of_lookup_some other_map other_map hwfo K pO hO
  have hfT := find_of_lookup_some this_map this_map hwf K pT hT
  generalize get_slot other_map pO = eO at hfO ⊢
  generalize get_slot this_map pT = eT at hfT ⊢
  obtain ⟨hvO, -, hkO⟩ := find_view_ne other_map hwfo K eO hfO
  obtain ⟨hvT, -, hkT⟩ := find_view_ne this_map hwf K eT hfT
  refine ⟨?_, ?_, ?_⟩
  · obtain ⟨m1, hm, -⟩ :=
      (merge_spec env this_map w other_map merge_kind.MERGE_INTO_LEFT hwf hwfo hg hgo hfr htls
        hol).1 (Or.inl (by decide))
    refine ⟨m1, _, hm, ?_⟩
    rw [merge_trace_of _ _ this_map other_map hwfo K, hfO]
    simp only [Option.map_some', Option.getD_some, hkO, hfT, loop_events, other_after,
      merge_target]
    have : eO = ⟨K, eO.hb, eO.view⟩ := by rw [← hkO]
    rw [this, dealloc_of_eq K eO.hb eO.view hvO]
    rfl
  · obtain ⟨m1, hm, -⟩ :=
      (merge_spec env this_map w other_map merge_kind.MERGE_INTO_RIGHT hwf hwfo hg hgo hfr htls
        hol).1 (Or.inl (by decide))
    refine ⟨m1, _, hm, ?_⟩
    rw [merge_trace_of _ _ this_map other_map hwfo K, hfO]
    simp only [Option.map_some', Option.getD_some, hkO, hfT, loop_events, other_after,
      merge_target]
    rw [dealloc_of_eq K eO.hb eT.view hvT]
    rfl
  · intro kind hkind
    exact merge_loop_spec env this_map w other_map kind hwf hwfo hg hfr (Or.inl hkind)

/-- Witness of the amended C6 on the two one-element maps. -/
theorem C6_merge_collision_callbacks_witness :
    (WF map_8_10 ∧ WF map_8_9 ∧ g_ok (some sample_worker) map_8_10 = true ∧
      g_ok (some sample_worker) map_8_9 = true ∧
      sample_env.sf_worker sample_worker.current_stack_frame = sample_worker.self ∧
      sample_worker.self = sample_env.tls_worker ∧ map_8_9.is_leftmost = false ∧
      cilkred_map_lookup map_8_10 8 = Res.ok (some (0, 0)) map_8_10 ∧
      cilkred_map_lookup map_8_9 8 = Res.ok (some (0, 0)) map_8_9) ∧
    ((∃ m1 tr, cilkred_map_merge sample_env map_8_10 sample_worker map_8_9
          merge_kind.MERGE_INTO_LEFT = Res.ok sample_worker ⟨m1, tr⟩ ∧
        events_of 8 tr =
          Event.reduce 8 (get_slot map_8_9 (0, 0)).hb (get_slot map_8_10 (0, 0)).view
              (get_slot map_8_9 (0, 0)).view ::
            (if (get_slot map_8_9 (0, 0)).view = 8 then []
              else [Event.deallocate 8 (get_slot map_8_9 (0, 0)).hb
                (get_slot map_8_9 (0, 0)).view])) ∧
      (∃ m1 tr, cilkred_map_merge sample_env map_8_10 sample_worker map_8_9
          merge_kind.MERGE_INTO_RIGHT = Res.ok sample_worker ⟨m1, tr⟩ ∧
        events_of 8 tr =
          Event.reduce 8 (get_slot map_8_9 (0, 0)).hb (get_slot map_8_9 (0, 0)).view
              (get_slot map_8_10 (0, 0)).view ::
            (if (get_slot map_8_10 (0, 0)).view = 8 then []
              else [Event.deallocate 8 (get_slot map_8_9 (0, 0)).hb
                (get_slot map_8_10 (0, 0)).view])) ∧
      (∀ kind, kind ≠ merge_kind.MERGE_UNORDERED →
        ∃ bs s, merge_buckets sample_env sample_worker kind map_8_10.is_leftmost
              (map_8_9.buckets.take map_8_9.nbuckets)
              ⟨{ map_8_10 with merging := true }, []⟩ = Res.ok bs s ∧
          ∀ ev ∈ s.trace, ev.isReduce = true)) :=
  ⟨⟨by decide, by decide, by decide, by decide, rfl, rfl, rfl, by decide, by decide⟩,
    C6_merge_collision_callbacks sample_env map_8_10 sample_worker map_8_9 (by decide)
      (by decide) (by decide) (by decide) rfl rfl rfl 8 (0, 0) (0, 0) (by decide) (by decide)⟩

/-- C7: self-merge guard.  Let the surviving map be the leftmost map, both maps
well-formed, and let the other map hold a key `K` with the view `K` itself
while the surviving map does not hold `K`.  If `cilkred_map_merge` (of any
kind) returns, then it has made no callback for `K`, neither a `reduce_fn` call
nor a `deallocate_fn` call, neither in the loop nor when destroying the losing
map, and afterwards the surviving map is still the leftmost map and
`cilkred_map_lookup(K)` on it finds the element `(K, hb, K)`.  If moreover no other element of either map has `K` as
its view, no `deallocate_fn` call at all is made on the view `K`. -/
theorem C7_self_merge_guard (env : sched_env) (this_map : cilkred_map)
    (w : __cilkrts_worker) (other_map : cilkred_map) (kind : merge_kind)
    (hwf : WF this_map) (hwfo : WF other_map)
    (hg : g_ok (some w) this_map = true) (hgo : g_ok (some w) other_map = true)
    (hfr : env.sf_worker w.current_stack_frame = w.self) (htls : w.self = env.tls_worker)
    (hlm : this_map.is_leftmost = true) (K : Nat) (pO : Nat × Nat)
    (hO : cilkred_map_lookup other_map K = Res.ok (some pO) other_map)
    (hview : (get_slot other_map pO).view = K)
    (hT : cilkred_map_lookup this_map K = Res.ok none this_map)
    (w1 : __cilkrts_worker) (st : merge_state)
    (hok : cilkred_map_merge env this_map w other_map kind = Res.ok w1 st) :
    events_of K st.trace = [] ∧
    (st.this_map.is_leftmost = true ∧
      ∃ p, cilkred_map_lookup st.this_map K = Res.ok (some p) st.this_map ∧
        get_slot st.this_map p = ⟨K, (get_slot other_map pO).hb, K⟩) ∧
    ((∀ k p, cilkred_map_lookup other_map k = Res.ok (some p) other_map →
        (get_slot other_map p).view = K → k = K) →
      (∀ k p, cilkred_map_lookup this_map k = Res.ok (some p) this_map →
        (get_slot this_map p).view ≠ K) →
      ∀ ev ∈ st.trace, ∀ k hb, ev ≠ Event.deallocate k hb K) := by
  have hfO := find_of_lookup_some other_map other_map hwfo K pO hO
  have hfT := find_of_lookup_none this_map this_map hwf K hT
  generalize get_slot other_map pO = eO at hfO hview ⊢
  have hkO := (find_key_ne_zero other_map K eO hfO).2
  obtain ⟨-, htrace, hwfm, -, -, hlm1, hfm, -⟩ :=
    merge_ok_spec env this_map w other_map kind hwf hwfo hg hgo hfr htls w1 st hok
  have htarget : merge_target this_map.is_leftmost (find this_map eO.key) eO = none := by
    rw [hkO, hfT]
    unfold merge_target
    simp only
    rw [if_neg]
    rintro ⟨-, h2⟩
    exact h2 (by rw [hkO, hview])
  refine ⟨?_, ?_, ?_⟩
  · rw [htrace, merge_trace_of _ _ this_map other_map hwfo K, hfO]
    simp only [Option.map_some', Option.getD_some, loop_events, other_after, htarget,
      dealloc_of, ne_eq, not_true_eq_false, if_false, List.append_nil]
  · have hfK : find st.this_map K = some ⟨K, eO.hb, K⟩ := by
      rw [hfm K, hfO]
      simp only [Option.map_some', surv_elem, htarget]
      have : eO = ⟨K, eO.hb, K⟩ := by
        cases eO; simp at hkO hview; simp [hkO, hview]
      rw [← this]; rfl
    obtain ⟨p, hp1, hp2, -⟩ := lookup_of_find_some st.this_map hwfm K _ hfK
    exact ⟨hlm1.trans hlm, p, hp1, hp2⟩
  · intro h1 h2 ev hev k hb heq
    subst heq
    rw [htrace] at hev
    rcases List.mem_append.1 hev with hA | hB
    · obtain ⟨oe, -, hoe⟩ := List.mem_flatMap.1 hA
      have hr := loop_events_reduce kind this_map.is_leftmost (find this_map oe.key) oe
      have := (List.filter_eq_self.1 hr) _ hoe
      cases this
    · rw [List.flatMap_map] at hB
      obtain ⟨oe, hoeE, hoe⟩ := List.mem_flatMap.1 hB
      obtain ⟨d1, d2, d3⟩ := dealloc_view_origin _ _ _ oe k hb K hoe
      have hfoe := ((entries_spec other_map hwfo).2.2.2 oe).1 hoeE
      rcases d3 with d3 | ⟨t, ht, d3⟩
      · obtain ⟨p, hp1, hp2, -⟩ := lookup_of_find_some other_map hwfo oe.key oe hfoe
        have := h1 oe.key p hp1 (by rw [hp2]; exact d3.symm)
        exact d2 (by rw [d1, this])
      · obtain ⟨p, hp1, hp2, -⟩ := lookup_of_find_some this_map hwf oe.key t ht
        exact h2 oe.key p hp1 (by rw [hp2]; exact d3.symm)

/-- Witness of C7: the map holding key 8 with its leftmost view 8 is merged
into the empty leftmost map. -/
theorem C7_self_merge_guard_witness :
    (WF empty_leftmost_map ∧ WF map_8_8 ∧ g_ok (some sample_worker) empty_leftmost_map = true ∧
      g_ok (some sample_worker) map_8_8 = true ∧
      sample_env.sf_worker sample_worker.current_stack_frame = sample_worker.self ∧
      sample_worker.self = sample_env.tls_worker ∧ empty_leftmost_map.is_leftmost = true ∧
      cilkred_map_lookup map_8_8 8 = Res.ok (some (0, 0)) map_8_8 ∧
      (get_slot map_8_8 (0, 0)).view = 8 ∧
      cilkred_map_lookup empty_leftmost_map 8 = Res.ok none empty_leftmost_map ∧
      cilkred_map_merge sample_env empty_leftmost_map sample_worker map_8_8
          merge_kind.MERGE_INTO_LEFT =
        Res.ok sample_worker
          ⟨⟨7, 1, 1, [some ⟨1, [⟨8, 1, 8⟩, ⟨0, 0, 0⟩]⟩], false, true⟩, []⟩) ∧
    events_of 8 ([] : List Event) = [] ∧
    ((⟨7, 1, 1, [some ⟨1, [⟨8, 1, 8⟩, ⟨0, 0, 0⟩]⟩], false, true⟩ : cilkred_map).is_leftmost = true ∧
      ∃ p, cilkred_map_lookup
          (⟨7, 1, 1, [some ⟨1, [⟨8, 1, 8⟩, ⟨0, 0, 0⟩]⟩], false, true⟩ : cilkred_map) 8 =
        Res.ok (some p) ⟨7, 1, 1, [some ⟨1, [⟨8, 1, 8⟩, ⟨0, 0, 0⟩]⟩], false, true⟩ ∧
      get_slot (⟨7, 1, 1, [some ⟨1, [⟨8, 1, 8⟩, ⟨0, 0, 0⟩]⟩], false, true⟩ : cilkred_map) p =
        ⟨8, (get_slot map_8_8 (0, 0)).hb, 8⟩) :=
  ⟨⟨by decide, by decide, by decide, by decide, rfl, rfl, rfl, by decide, by decide, by decide,
      by decide⟩,
    (C7_self_merge_guard sample_env empty_leftmost_map sample_worker map_8_8
      merge_kind.MERGE_INTO_LEFT (by decide) (by decide) (by decide) (by decide) rfl rfl rfl
      8 (0, 0) (by decide) (by decide) (by decide) sample_worker
      ⟨⟨7, 1, 1, [some ⟨1, [⟨8, 1, 8⟩, ⟨0, 0, 0⟩]⟩], false, true⟩, []⟩ (by decide)).1,
    (C7_self_merge_guard sample_env empty_leftmost_map sample_worker map_8_8
      merge_kind.MERGE_INTO_LEFT (by decide) (by decide) (by decide) (by decide) rfl rfl rfl
      8 (0, 0) (by decide) (by decide) (by decide) sample_worker
      ⟨⟨7, 1, 1, [some ⟨1, [⟨8, 1, 8⟩, ⟨0, 0, 0⟩]⟩], false, true⟩, []⟩ (by decide)).2.1⟩

/-- C8: `__cilkrts_hyper_destroy` returns if and only if the worker has a
reducer map, the map is not merging and the first live slot with the
descriptor's key in the bucket the key hashes to (`find`) is a leftmost element
(view == key).  Whenever the element found has key != view the call is fatal;
with a map that is not merging and a non-null view it is the call
`cilkrts_bug(w, UNSYNCED_REDUCER_MSG)`.  On every fatal path the worker, its
map included, is as before and no callback has run. -/
theorem C8_hyper_destroy_fatal_iff (tls : Option __cilkrts_worker) (dflt : __cilkrts_worker)
    (hb : __cilkrts_hyperobject_base) :
    ((__cilkrts_hyper_destroy tls dflt hb).isOk = true ↔
      ∃ h e, (tls.getD dflt).reducer_map = some h ∧ h.merging = false ∧
        find h (get_hyperobject_key hb) = some e ∧ elem_is_leftmost e = true) ∧
    (∀ h e, (tls.getD dflt).reducer_map = some h →
      find h (get_hyperobject_key hb) = some e → elem_is_leftmost e = false →
      (__cilkrts_hyper_destroy tls dflt hb).isOk = false ∧
      (h.merging = false → e.view ≠ 0 →
        __cilkrts_hyper_destroy tls dflt hb =
          Res.fatal Fault.unsynced_reducer ⟨tls.getD dflt, []⟩)) ∧
    (∀ why st, __cilkrts_hyper_destroy tls dflt hb = Res.fatal why st →
      st = ⟨tls.getD dflt, []⟩) := by
  have key_facts : ∀ e : elem, (elem_is_leftmost e = true ↔ e.view = e.key) := by
    intro e; unfold elem_is_leftmost; rw [beq_iff_eq]; exact eq_comm
  have main : (∀ why st, __cilkrts_hyper_destroy tls dflt hb = Res.fatal why st →
        st = ⟨tls.getD dflt, []⟩) ∧
      ((__cilkrts_hyper_destroy tls dflt hb).isOk = true ↔
        ∃ h e, (tls.getD dflt).reducer_map = some h ∧ h.merging = false ∧
          find h (get_hyperobject_key hb) = some e ∧ elem_is_leftmost e = true) := by
    cases hm : (tls.getD dflt).reducer_map with
    | none =>
      rw [hyper_destroy_no_map tls dflt hb hm]
      exact ⟨by intro why st h1; cases h1; rfl, by simp [Res.isOk]⟩
    | some h =>
      by_cases hmg : h.merging = true
      · rw [hyper_destroy_merging tls dflt hb h hm hmg]
        refine ⟨by intro why st h1; cases h1; rfl, ?_⟩
        simp only [Res.isOk, Bool.false_eq_true, false_iff]
        rintro ⟨h', e, hh, hmg', -, -⟩
        cases hh
        rw [hmg] at hmg'; cases hmg'
      · have hmg2 : h.merging = false := by simpa using hmg
        cases hf : find h (get_hyperobject_key hb) with
        | none =>
          rw [hyper_destroy_absent tls dflt hb h hm hmg2 hf]
          refine ⟨by intro why st h1; cases h1; rfl, ?_⟩
          simp only [Res.isOk, Bool.false_eq_true, false_iff]
          rintro ⟨h', e, hh, -, hf', -⟩
          cases hh
          rw [hf] at hf'; cases hf'
        | some e =>
          by_cases hl : e.view = e.key
          · obtain ⟨p, -, -, hp⟩ := hyper_destroy_leftmost tls dflt hb h hm hmg2 e hf hl
            rw [hp]
            refine ⟨(by intro why st h1; cases h1), ?_⟩
            simp only [Res.isOk, true_iff]
            exact ⟨h, e, rfl, hmg2, hf, (key_facts e).2 hl⟩
          · have hnot : ¬ ∃ h' e', some h = some h' ∧ h'.merging = false ∧
                find h' (get_hyperobject_key hb) = some e' ∧ elem_is_leftmost e' = true := by
              rintro ⟨h', e', hh, -, hf', hl'⟩
              cases hh
              rw [hf] at hf'; cases hf'
              exact hl ((key_facts e).1 hl')
            by_cases hv : e.view = 0
            · rw [hyper_destroy_null_view tls dflt hb h hm hmg2 e hf hv]
              refine ⟨by intro why st h1; cases h1; rfl, ?_⟩
              simp only [Res.isOk, Bool.false_eq_true, false_iff]
              exact hnot
            · rw [hyper_destroy_not_leftmost tls dflt hb h hm hmg2 e hf hv
                (fun hh => hl hh.symm)]
              refine ⟨by intro why st h1; cases h1; rfl, ?_⟩
              simp only [Res.isOk, Bool.false_eq_true, false_iff]
              exact hnot
  refine ⟨main.2, ?_, main.1⟩
  intro h e hm hf hl
  have hl2 : e.key ≠ e.view := by simpa [elem_is_leftmost] using hl
  refine ⟨?_, fun hmg hv => hyper_destroy_not_leftmost tls dflt hb h hm hmg e hf hv hl2⟩
  cases hok : (__cilkrts_hyper_destroy tls dflt hb).isOk with
  | false => rfl
  | true =>
    obtain ⟨h', e', hh, -, hf', hl'⟩ := main.2.1 hok
    rw [hm] at hh; cases hh
    rw [hf] at hf'; cases hf'
    rw [hl] at hl'; cases hl'

/-- C9: on a well-formed, non-merging map in which the descriptor's key `K` is
mapped to a leftmost element, `__cilkrts_hyper_destroy` returns without having
made any callback; afterwards `cilkred_map_lookup(K)` finds nothing,
`cilkred_map_lookup` of every other key returns a slot with the same key,
descriptor and view as before (or null as before), and `nelem` has decreased
by one. -/
theorem C9_hyper_destroy_removes (tls : Option __cilkrts_worker) (dflt : __cilkrts_worker)
    (hb : __cilkrts_hyperobject_base) (h : cilkred_map) (e : elem)
    (hm : (tls.getD dflt).reducer_map = some h) (hwf : WF h) (hmg : h.merging = false)
    (hf : find h (get_hyperobject_key hb) = some e) (hl : elem_is_leftmost e = true) :
    ∃ h1, __cilkrts_hyper_destroy tls dflt hb =
        Res.ok () ⟨{ tls.getD dflt with reducer_map := some h1 }, []⟩ ∧
      cilkred_map_lookup h1 (get_hyperobject_key hb) = Res.ok none h1 ∧
      (∀ k, k ≠ get_hyperobject_key hb →
        (∀ p, cilkred_map_lookup h k = Res.ok (some p) h →
          ∃ p1, cilkred_map_lookup h1 k = Res.ok (some p1) h1 ∧ get_slot h1 p1 = get_slot h p) ∧
        (cilkred_map_lookup h k = Res.ok none h → cilkred_map_lookup h1 k = Res.ok none h1)) ∧
      h1.nelem + 1 = h.nelem := by
  have hl2 : e.view = e.key := by
    unfold elem_is_leftmost at hl; rw [beq_iff_eq] at hl; exact hl.symm
  obtain ⟨p, hp1, hp2, hp3⟩ := hyper_destroy_leftmost tls dflt hb h hm hmg e hf hl2
  obtain ⟨h4, h4def, hwf4, hne4, -, -, hf4⟩ :=
    remove_spec h hwf (get_hyperobject_key hb) e hf p hp1 hp2 ⟨e.key, e.hb, 0⟩
  refine ⟨h4, by rw [hp3, h4def], ?_, ?_, hne4⟩
  · exact lookup_of_find_none h4 hwf4 _ (by rw [hf4, if_pos rfl])
  · intro k hk
    have hfk : find h4 k = find h k := by rw [hf4, if_neg hk]
    refine ⟨?_, ?_⟩
    · intro q hq
      have := find_of_lookup_some h h hwf k q hq
      obtain ⟨p1, hp1, hp2, -⟩ := lookup_of_find_some h4 hwf4 k _ (hfk.trans this)
      exact ⟨p1, hp1, hp2⟩
    · intro hq
      exact lookup_of_find_none h4 hwf4 k (hfk.trans (find_of_lookup_none h h hwf k hq))

/-- Witness of C9: destroying the reducer with key 8 in the sample map. -/
theorem C9_hyper_destroy_removes_witness :
    (((some sample_owner).getD sample_worker).reducer_map = some sample_map ∧ WF sample_map ∧
      sample_map.merging = false ∧
      find sample_map (get_hyperobject_key sample_hb) = some ⟨8, 1, 8⟩ ∧
      elem_is_leftmost ⟨8, 1, 8⟩ = true) ∧
    ∃ h1, __cilkrts_hyper_destroy (some sample_owner) sample_worker sample_hb =
        Res.ok () ⟨{ (some sample_owner).getD sample_worker with reducer_map := some h1 }, []⟩ ∧
      cilkred_map_lookup h1 (get_hyperobject_key sample_hb) = Res.ok none h1 ∧
      (∀ k, k ≠ get_hyperobject_key sample_hb →
        (∀ p, cilkred_map_lookup sample_map k = Res.ok (some p) sample_map →
          ∃ p1, cilkred_map_lookup h1 k = Res.ok (some p1) h1 ∧
            get_slot h1 p1 = get_slot sample_map p) ∧
        (cilkred_map_lookup sample_map k = Res.ok none sample_map →
          cilkred_map_lookup h1 k = Res.ok none h1)) ∧
      h1.nelem + 1 = sample_map.nelem :=
  ⟨⟨rfl, by decide, rfl, by decide, rfl⟩,
    C9_hyper_destroy_removes (some sample_owner) sample_worker sample_hb sample_map ⟨8, 1, 8⟩
      rfl (by decide) rfl (by decide) rfl⟩

/-- C10: let `K` be the key of the descriptor (non-null, being the address of
its leftmost view).  If the worker's map is well-formed, belongs to the
worker's global state, is not merging and does not hold `K`, then
`__cilkrts_hyper_create` returns, `cilkred_map_lookup(K)` then finds the
element `(K, hb, K)`, which is leftmost, `nelem` has grown by one and every
other key is looked up as before.  If the worker has no map, a fresh map is
installed and afterwards holds exactly that element.  If `K` is already found
in the map, the call ends in the failed assertion and the worker is unchanged. -/
theorem C10_hyper_create_registers (tls : Option __cilkrts_worker) (dflt : __cilkrts_worker)
    (hb : __cilkrts_hyperobject_base) (hk : get_hyperobject_key hb ≠ 0) :
    (∀ h, (tls.getD dflt).reducer_map = some h → WF h → h.g = (tls.getD dflt).g →
      h.merging = false →
      cilkred_map_lookup h (get_hyperobject_key hb) = Res.ok none h →
      ∃ h1 p, __cilkrts_hyper_create tls dflt hb =
          Res.ok () { tls.getD dflt with reducer_map := some h1 } ∧
        cilkred_map_lookup h1 (get_hyperobject_key hb) = Res.ok (some p) h1 ∧
        get_slot h1 p = ⟨get_hyperobject_key hb, hb.addr, get_hyperobject_key hb⟩ ∧
        elem_is_leftmost (get_slot h1 p) = true ∧
        h1.nelem = h.nelem + 1 ∧
        ∀ k, k ≠ get_hyperobject_key hb →
          (∀ q, cilkred_map_lookup h k = Res.ok (some q) h →
            ∃ q1, cilkred_map_lookup h1 k = Res.ok (some q1) h1 ∧
              get_slot h1 q1 = get_slot h q) ∧
          (cilkred_map_lookup h k = Res.ok none h → cilkred_map_lookup h1 k = Res.ok none h1)) ∧
    ((tls.getD dflt).reducer_map = none →
      ∃ h1 p, __cilkrts_hyper_create tls dflt hb =
          Res.ok () { tls.getD dflt with reducer_map := some h1 } ∧
        cilkred_map_lookup h1 (get_hyperobject_key hb) = Res.ok (some p) h1 ∧
        get_slot h1 p = ⟨get_hyperobject_key hb, hb.addr, get_hyperobject_key hb⟩ ∧
        elem_is_leftmost (get_slot h1 p) = true ∧
        h1.nelem = 1 ∧
        ∀ k, k ≠ get_hyperobject_key hb → cilkred_map_lookup h1 k = Res.ok none h1) ∧
    (∀ h p, (tls.getD dflt).reducer_map = some h →
      cilkred_map_lookup h (get_hyperobject_key hb) = Res.ok (some p) h →
      __cilkrts_hyper_create tls dflt hb = Res.fatal Fault.assertion (tls.getD dflt)) := by
  refine ⟨?_, ?_, ?_⟩
  · intro h hm hwf hg hmg hl
    have hf := find_of_lookup_none h h hwf _ hl
    obtain ⟨p, h1, hri, hwf1, hsl, hne, -, -, hf1⟩ :=
      rehash_and_insert_spec h hwf (some (tls.getD dflt)) (by simp [g_ok, hg])
        (get_hyperobject_key hb) hb.addr (get_hyperobject_key hb) hk hk hf
    obtain ⟨p1, hp1, hp2, -⟩ := lookup_of_find_some h1 hwf1 (get_hyperobject_key hb) _
      (by rw [hf1, if_pos rfl])
    refine ⟨h1, p1, ?_, hp1, hp2, by rw [hp2]; simp [elem_is_leftmost], hne, ?_⟩
    · rw [hyper_create_with_map tls dflt hb h hm, hl]
      simp only [hmg, Bool.false_eq_true, if_false, hri]
    · intro k hkk
      have hfk : find h1 k = find h k := by rw [hf1, if_neg hkk]
      refine ⟨?_, ?_⟩
      · intro q hq
        have := find_of_lookup_some h h hwf k q hq
        obtain ⟨q1, hq1, hq2, -⟩ := lookup_of_find_some h1 hwf1 k _ (hfk.trans this)
        exact ⟨q1, hq1, hq2⟩
      · intro hq
        exact lookup_of_find_none h1 hwf1 k (hfk.trans (find_of_lookup_none h h hwf k hq))
  · intro hm
    obtain ⟨h0, hmk, hcr⟩ := hyper_create_without_map tls dflt hb hm
    obtain ⟨h0', hmk', hwf0, hf0, hne0, -, hg0, -, -⟩ := make_map_spec (tls.getD dflt)
    rw [hmk] at hmk'
    injection hmk' with _ hh
    subst hh
    obtain ⟨p, h1, hri, hwf1, hsl, hne, -, -, hf1⟩ :=
      rehash_and_insert_spec h0 hwf0 (some { tls.getD dflt with reducer_map := some h0 })
        (by simp [g_ok, hg0]) (get_hyperobject_key hb) hb.addr (get_hyperobject_key hb) hk hk
        (hf0 _)
    obtain ⟨p1, hp1, hp2, -⟩ := lookup_of_find_some h1 hwf1 (get_hyperobject_key hb) _
      (by rw [hf1, if_pos rfl])
    refine ⟨h1, p1, ?_, hp1, hp2, by rw [hp2]; simp [elem_is_leftmost], by rw [hne, hne0], ?_⟩
    · rw [hcr, hri]
    · intro k hkk
      exact lookup_of_find_none h1 hwf1 k (by rw [hf1, if_neg hkk]; exact hf0 k)
  · intro h p hm hl
    rw [hyper_create_with_map tls dflt hb h hm, hl]
    simp only [worker_map_eta _ h hm]

/-- Witness of C10: registering the reducer with key 16 in the sample map. -/
theorem C10_hyper_create_registers_witness :
    (get_hyperobject_key sample_hb2 ≠ 0 ∧
      ((some sample_owner).getD sample_worker).reducer_map = some sample_map ∧ WF sample_map ∧
      sample_map.g = ((some sample_owner).getD sample_worker).g ∧ sample_map.merging = false ∧
      cilkred_map_lookup sample_map (get_hyperobject_key sample_hb2) = Res.ok none sample_map) ∧
    ∃ h1 p, __cilkrts_hyper_create (some sample_owner) sample_worker sample_hb2 =
        Res.ok () { (some sample_owner).getD sample_worker with reducer_map := some h1 } ∧
      cilkred_map_lookup h1 (get_hyperobject_key sample_hb2) = Res.ok (some p) h1 ∧
      get_slot h1 p =
        ⟨get_hyperobject_key sample_hb2, sample_hb2.addr, get_hyperobject_key sample_hb2⟩ ∧
      elem_is_leftmost (get_slot h1 p) = true ∧
      h1.nelem = sample_map.nelem + 1 ∧
      ∀ k, k ≠ get_hyperobject_key sample_hb2 →
        (∀ q, cilkred_map_lookup sample_map k = Res.ok (some q) sample_map →
          ∃ q1, cilkred_map_lookup h1 k = Res.ok (some q1) h1 ∧
            get_slot h1 q1 = get_slot sample_map q) ∧
        (cilkred_map_lookup sample_map k = Res.ok none sample_map →
          cilkred_map_lookup h1 k = Res.ok none h1) :=
  ⟨⟨by decide, rfl, by decide, rfl, rfl, by decide⟩,
    (C10_hyper_create_registers (some sample_owner) sample_worker sample_hb2 (by decide)).1
      sample_map rfl (by decide) rfl rfl (by decide)⟩

/-- C11: `__cilkrts_hyper_lookup` called by a current worker whose map is
well-formed and not merging, `K` being the key of the descriptor.  If
`cilkred_map_lookup(K)` finds a slot, the call returns the view stored there,
makes no callback and leaves the worker and its map as they were.  If `K` is
absent (and non-null, the map being that of the worker's global state) and the
map is the leftmost map, the call makes no callback, inserts `(K, hb, K)` with
`cilkred_map_rehash_and_insert` and returns `K`.  If `K` is absent and the map
is not leftmost, the trace is exactly `allocate_fn(hb, view_size)` followed by
`identity_fn(hb, storage)` on the storage returned (non-null), the element
`(K, hb, storage)` is inserted with `cilkred_map_rehash_and_insert` and the
call returns that storage.  In both cases of a miss `cilkred_map_lookup(K)`
afterwards finds the inserted element. -/
theorem C11_hyper_lookup_contract (w : __cilkrts_worker) (storage : Nat)
    (hb : __cilkrts_hyperobject_base) (h : cilkred_map)
    (hm : w.reducer_map = some h) (hwf : WF h) (hmg : h.merging = false) :
    (∀ p, cilkred_map_lookup h (get_hyperobject_key hb) = Res.ok (some p) h →
      __cilkrts_hyper_lookup (some w) storage hb =
        Res.ok (get_slot h p).view ⟨some w, []⟩) ∧
    (cilkred_map_lookup h (get_hyperobject_key hb) = Res.ok none h →
      get_hyperobject_key hb ≠ 0 → h.g = w.g → h.is_leftmost = true →
      ∃ p h1 p1,
        cilkred_map_rehash_and_insert h (some w) (get_hyperobject_key hb) hb.addr
          (get_hyperobject_key hb) = Res.ok p h1 ∧
        __cilkrts_hyper_lookup (some w) storage hb =
          Res.ok (get_hyperobject_key hb) ⟨some { w with reducer_map := some h1 }, []⟩ ∧
        cilkred_map_lookup h1 (get_hyperobject_key hb) = Res.ok (some p1) h1 ∧
        get_slot h1 p1 = ⟨get_hyperobject_key hb, hb.addr, get_hyperobject_key hb⟩) ∧
    (cilkred_map_lookup h (get_hyperobject_key hb) = Res.ok none h →
      get_hyperobject_key hb ≠ 0 → h.g = w.g → h.is_leftmost = false → storage ≠ 0 →
      ∃ p h1 p1,
        cilkred_map_rehash_and_insert h (some w) (get_hyperobject_key hb) hb.addr storage =
          Res.ok p h1 ∧
        __cilkrts_hyper_lookup (some w) storage hb =
          Res.ok storage ⟨some { w with reducer_map := some h1 },
            [Event.allocate hb.addr hb.__view_size, Event.identity hb.addr storage]⟩ ∧
        cilkred_map_lookup h1 (get_hyperobject_key hb) = Res.ok (some p1) h1 ∧
        get_slot h1 p1 = ⟨get_hyperobject_key hb, hb.addr, storage⟩) := by
  refine ⟨?_, ?_, ?_⟩
  · intro p hp
    have hf := find_of_lookup_some h h hwf _ p hp
    rw [hyper_lookup_hit w storage hb h hm hmg _ hf (find_view_ne h hwf _ _ hf).1]
  · intro hl hk hg hlm
    have hf := find_of_lookup_none h h hwf _ hl
    obtain ⟨p, h1, hri, hwf1, ⟨hsl, -, -⟩, -, -, -, hf1⟩ :=
      rehash_and_insert_spec h hwf (some w) (by simp [g_ok, hg])
        (get_hyperobject_key hb) hb.addr (get_hyperobject_key hb) hk hk hf
    obtain ⟨p1, hp1, hp2, -⟩ := lookup_of_find_some h1 hwf1 (get_hyperobject_key hb) _
      (by rw [hf1, if_pos rfl])
    refine ⟨p, h1, p1, hri, ?_, hp1, hp2⟩
    rw [hyper_lookup_miss w storage hb h hm hmg hf]
    simp only [hlm, if_true, hri, hsl]
  · intro hl hk hg hlm hs
    have hf := find_of_lookup_none h h hwf _ hl
    obtain ⟨p, h1, hri, hwf1, ⟨hsl, -, -⟩, -, -, -, hf1⟩ :=
      rehash_and_insert_spec h hwf (some w) (by simp [g_ok, hg])
        (get_hyperobject_key hb) hb.addr storage hk hs hf
    obtain ⟨p1, hp1, hp2, -⟩ := lookup_of_find_some h1 hwf1 (get_hyperobject_key hb) _
      (by rw [hf1, if_pos rfl])
    refine ⟨p, h1, p1, hri, ?_, hp1, hp2⟩
    rw [hyper_lookup_miss w storage hb h hm hmg hf]
    simp only [hlm, Bool.false_eq_true, if_false, hri, hsl]

/-- Witness of C11: on the sample map, the lookup of key 8 (present) and of key
16 (absent, storage 77 allocated); on the empty leftmost map, the lookup of
key 16. -/
theorem C11_hyper_lookup_contract_witness :
    (sample_owner.reducer_map = some sample_map ∧ WF sample_map ∧ sample_map.merging = false ∧
      cilkred_map_lookup sample_map (get_hyperobject_key sample_hb) =
        Res.ok (some (1, 0)) sample_map ∧
      cilkred_map_lookup sample_map (get_hyperobject_key sample_hb2) = Res.ok none sample_map ∧
      get_hyperobject_key sample_hb2 ≠ 0 ∧ sample_map.g = sample_owner.g ∧
      sample_map.is_leftmost = false ∧ 77 ≠ 0 ∧
      leftmost_owner.reducer_map = some empty_leftmost_map ∧ WF empty_leftmost_map ∧
      empty_leftmost_map.merging = false ∧
      cilkred_map_lookup empty_leftmost_map (get_hyperobject_key sample_hb2) =
        Res.ok none empty_leftmost_map ∧
      empty_leftmost_map.g = leftmost_owner.g ∧ empty_leftmost_map.is_leftmost = true) ∧
    __cilkrts_hyper_lookup (some sample_owner) 77 sample_hb =
      Res.ok (get_slot sample_map (1, 0)).view ⟨some sample_owner, []⟩ ∧
    (∃ p h1 p1,
      cilkred_map_rehash_and_insert sample_map (some sample_owner)
        (get_hyperobject_key sample_hb2) sample_hb2.addr 77 = Res.ok p h1 ∧
      __cilkrts_hyper_lookup (some sample_owner) 77 sample_hb2 =
        Res.ok 77 ⟨some { sample_owner with reducer_map := some h1 },
          [Event.allocate sample_hb2.addr sample_hb2.__view_size,
            Event.identity sample_hb2.addr 77]⟩ ∧
      cilkred_map_lookup h1 (get_hyperobject_key sample_hb2) = Res.ok (some p1) h1 ∧
      get_slot h1 p1 = ⟨get_hyperobject_key sample_hb2, sample_hb2.addr, 77⟩) ∧
    (∃ p h1 p1,
      cilkred_map_rehash_and_insert empty_leftmost_map (some leftmost_owner)
        (get_hyperobject_key sample_hb2) sample_hb2.addr (get_hyperobject_key sample_hb2) =
          Res.ok p h1 ∧
      __cilkrts_hyper_lookup (some leftmost_owner) 77 sample_hb2 =
        Res.ok (get_hyperobject_key sample_hb2)
          ⟨some { leftmost_owner with reducer_map := some h1 }, []⟩ ∧
      cilkred_map_lookup h1 (get_hyperobject_key sample_hb2) = Res.ok (some p1) h1 ∧
      get_slot h1 p1 =
        ⟨get_hyperobject_key sample_hb2, sample_hb2.addr, get_hyperobject_key sample_hb2⟩) :=
  ⟨⟨rfl, by decide, rfl, by decide, by decide, by decide, rfl, rfl, by decide, rfl, by decide,
      rfl, by decide, rfl, rfl⟩,
    (C11_hyper_lookup_contract sample_owner 77 sample_hb sample_map rfl (by decide) rfl).1
      (1, 0) (by decide),
    (C11_hyper_lookup_contract sample_owner 77 sample_hb2 sample_map rfl (by decide) rfl).2.2
      (by decide) (by decide) rfl rfl (by decide),
    (C11_hyper_lookup_contract leftmost_owner 77 sample_hb2 empty_leftmost_map rfl (by decide)
      rfl).2.1 (by decide) (by decide) rfl rfl⟩

/-- C12: let a worker have no map or a well-formed one, and let
`__cilkrts_hyper_lookup(hb)` return the view `v`.  After any returning sequence
of `__cilkrts_hyper_lookup` and `__cilkrts_hyper_create` calls made by the same
worker, on whatever descriptors (no destroy, no merge), with all the rehashes
and bucket reallocations their inserts cause, a second
`__cilkrts_hyper_lookup(hb)` returns the same view `v`, makes no callback (no
allocate, no identity) and leaves the worker as it is. -/
theorem C12_lookup_view_stable (w : __cilkrts_worker) (hb : __cilkrts_hyperobject_base)
    (storage storage2 : Nat) (calls : List api_call)
    (hw : w.reducer_map = none ∨ ∃ h, w.reducer_map = some h ∧ WF h)
    (hcalls : ∀ c ∈ calls, c.isDestroy = false)
    (v : Nat) (w1 : __cilkrts_worker) (tr : List Event)
    (h1 : __cilkrts_hyper_lookup (some w) storage hb = Res.ok v ⟨some w1, tr⟩)
    (s2 : worker_state) (h2 : run_calls calls ⟨w1, []⟩ = Res.ok () s2) :
    __cilkrts_hyper_lookup (some s2.w) storage2 hb = Res.ok v ⟨some s2.w, []⟩ := by
  have key : ∀ (w0 : __cilkrts_worker) (h0 : cilkred_map), w0.reducer_map = some h0 → WF h0 →
      __cilkrts_hyper_lookup (some w0) storage hb = Res.ok v ⟨some w1, tr⟩ →
      __cilkrts_hyper_lookup (some s2.w) storage2 hb = Res.ok v ⟨some s2.w, []⟩ := by
    intro w0 h0 hm0 hwf0 hl
    obtain ⟨hA, hwA, hwfA, hsfA, hmg0, ⟨e, hfe, hev⟩, -, -, -⟩ :=
      hyper_lookup_ok_inv w0 storage hb h0 hm0 hwf0 v _ hl
    have hw1 : w1 = { w0 with reducer_map := some hA } := by
      injection hwA with hh
    have hm1 : w1.reducer_map = some hA := by rw [hw1]
    obtain ⟨hB, hwB, hwfB, hsfB, hkeep⟩ := run_calls_inv calls ⟨w1, []⟩ s2 hA hm1 hwfA h2
    have hmB : s2.w.reducer_map = some hB := by rw [hwB]
    have hfB := hkeep hcalls _ e hfe
    have hmgB : hB.merging = false := by rw [hsfB.2.1, hsfA.2.1, hmg0]
    rw [hyper_lookup_hit s2.w storage2 hb hB hmB hmgB e hfB (find_view_ne hB hwfB _ e hfB).1,
      hev]
  rcases hw with hnone | ⟨h, hm, hwf⟩
  · obtain ⟨h0, hmk, hinst⟩ := hyper_lookup_install w storage hb hnone
    obtain ⟨h0', hmk', hwf0, -⟩ := make_map_spec w
    rw [hmk] at hmk'
    injection hmk' with _ hh
    subst hh
    exact key { w with reducer_map := some h0 } h0 rfl hwf0 (by rw [← hinst]; exact h1)
  · exact key w h hm hwf h1

/-- Witness of C12: the sample worker, without a map, looks up the reducer of
key 8 and gets the storage 9; it then registers the reducer of key 40, which
rehashes the table to two buckets and reallocates the bucket both keys share,
and looks up the reducer of key 24, which rehashes to four buckets; the second
lookup of key 8 still returns 9. -/
theorem C12_lookup_view_stable_witness :
    ((sample_worker.reducer_map = none ∨ ∃ h, sample_worker.reducer_map = some h ∧ WF h) ∧
      (∀ c ∈ [api_call.create hb_40, api_call.lookup hb_24 25], c.isDestroy = false) ∧
      __cilkrts_hyper_lookup (some sample_worker) 9 sample_hb =
        Res.ok 9 ⟨some lookup_owner_1, [Event.allocate 8 4, Event.identity 8 9]⟩ ∧
      run_calls [api_call.create hb_40, api_call.lookup hb_24 25] ⟨lookup_owner_1, []⟩ =
        Res.ok () ⟨lookup_owner_3, [Event.allocate 24 4, Event.identity 24 25]⟩) ∧
    __cilkrts_hyper_lookup (some lookup_owner_3) 10 sample_hb =
      Res.ok 9 ⟨some lookup_owner_3, []⟩ :=
  ⟨⟨Or.inl rfl, by decide, by decide, by decide⟩,
    C12_lookup_view_stable sample_worker sample_hb 9 10
      [api_call.create hb_40, api_call.lookup hb_24 25] (Or.inl rfl) (by decide) 9
      lookup_owner_1 [Event.allocate 8 4, Event.identity 8 9] (by decide)
      ⟨lookup_owner_3, [Event.allocate 24 4, Event.identity 24 25]⟩ (by decide)⟩

/-- C13, as stated, fails: the first insert into the map of
`cilkred_map_make_map` leaves `nelem = 1` in a table of `nbuckets = 1`, and
`1 + 1/8 + 1 = 2` exceeds `1`. -/
theorem C13_counterexample :
    (cilkred_map_make_map sample_worker).bind (fun _ m0 =>
        cilkred_map_rehash_and_insert m0 (some sample_worker) 8 1 9) =
      Res.ok (0, 0) map_8_9 ∧
    ¬ (map_8_9.nelem + map_8_9.nelem / 8 + 1 ≤ map_8_9.nbuckets) := by
  decide

/-- C13, amended: `cilkred_map_rehash_and_insert` tests the load before it
inserts.  On the map reached from `cilkred_map_make_map` by any non-empty
sequence of returning `cilkred_map_rehash_and_insert` calls, `nelem` is the
number of inserts and the bound holds for the count before the last insert:
`(nelem - 1) + (nelem - 1)/8 + 1 <= nbuckets`. -/
theorem C13_load_bound_before_insert (w0 : __cilkrts_worker) (w : Option __cilkrts_worker)
    (l : List elem) (m0 m1 : cilkred_map)
    (hmk : cilkred_map_make_map w0 = Res.ok () m0)
    (hrun : insert_all w l m0 = Res.ok () m1) (hne : l ≠ []) :
    m1.nelem = l.length ∧ 1 ≤ m1.nelem ∧
      (m1.nelem - 1) + (m1.nelem - 1) / 8 + 1 ≤ m1.nbuckets := by
  obtain ⟨m0', hmk', -, -, hn0, hnb0, -⟩ := make_map_spec w0
  rw [hmk] at hmk'
  injection hmk' with _ hh
  subst hh
  obtain ⟨hb, hn⟩ := insert_all_load w l m0 m1 (by rw [hn0, hnb0]; decide) hrun
  have hlen : 0 < l.length := List.length_pos.2 hne
  unfold minsz at hb
  refine ⟨by omega, by omega, by omega⟩

/-- Witness of C13 (amended): the five sample elements inserted into a fresh
map give `nelem = 5` in a table of 8 buckets. -/
theorem C13_load_bound_before_insert_witness :
    (cilkred_map_make_map sample_worker = Res.ok () fresh_map ∧
      insert_all (some sample_worker) sample_elems fresh_map = Res.ok () five_map ∧
      sample_elems ≠ []) ∧
    five_map.nelem = sample_elems.length ∧ 1 ≤ five_map.nelem ∧
      (five_map.nelem - 1) + (five_map.nelem - 1) / 8 + 1 ≤ five_map.nbuckets :=
  ⟨⟨by decide, by decide, by decide⟩,
    C13_load_bound_before_insert sample_worker (some sample_worker) sample_elems
      fresh_map five_map (by decide) (by decide) (by decide)⟩

/-- C14: start from the map `cilkred_map_make_map` returns, owned by a worker,
and let that worker make any sequence of `__cilkrts_hyper_create`,
`__cilkrts_hyper_lookup` and `__cilkrts_hyper_destroy` calls (on whatever
descriptors, with the rehashes they trigger) that all return.  On the map the
worker then owns, `cilkred_map_check` passes in both modes and ends with
`count = nelem`: the full scan over all buckets, counting the slots before the
first zero key, finds exactly `nelem` elements, the live elements of the map. -/
theorem C14_nelem_is_live_count (w0 : __cilkrts_worker) (m0 : cilkred_map)
    (calls : List api_call) (s : worker_state)
    (hmk : cilkred_map_make_map w0 = Res.ok () m0)
    (hrun : run_calls calls ⟨{ w0 with reducer_map := some m0 }, []⟩ = Res.ok () s) :
    ∃ h, s.w.reducer_map = some h ∧
      check_buckets false (h.buckets.take h.nbuckets) 0 = Res.ok () h.nelem ∧
      cilkred_map_check h false = Res.ok () h.nelem ∧
      cilkred_map_check h true = Res.ok () h.nelem ∧
      h.nelem = (entries h).length := by
  obtain ⟨m0', hmk', hwf0, -⟩ := make_map_spec w0
  rw [hmk] at hmk'
  injection hmk' with _ hh
  subst hh
  obtain ⟨h, hw, hwf, -, -⟩ := run_calls_inv calls _ s m0 rfl hwf0 hrun
  have hf := check_spec h hwf false
  have ht := check_spec h hwf true
  refine ⟨h, by rw [hw], ?_, hf.1, ht.1, hf.2⟩
  have h1 := hf.1
  unfold cilkred_map_check at h1
  cases hc : check_buckets false (List.take h.nbuckets h.buckets) 0 with
  | fatal why c => rw [hc] at h1; cases h1
  | ok u c =>
    rw [hc] at h1
    simp only [Res.bind] at h1
    by_cases hne : h.nelem = c
    · rw [hne]
    · simp [hne] at h1

/-- Witness of C14: the sample worker registers the reducer of key 8, looks up
the reducers of keys 40 and 24, and destroys the reducer of key 8; the scan
counts the two remaining elements. -/
theorem C14_nelem_is_live_count_witness :
    (cilkred_map_make_map sample_worker = Res.ok () fresh_map ∧
      run_calls [api_call.create sample_hb, api_call.lookup hb_40 41, api_call.lookup hb_24 25,
          api_call.destroy sample_hb] ⟨{ sample_worker with reducer_map := some fresh_map }, []⟩ =
        Res.ok () ⟨⟨100, 7, 200, some after_calls_map⟩,
          [Event.allocate 40 4, Event.identity 40 41, Event.allocate 24 4,
            Event.identity 24 25]⟩) ∧
    ∃ h, (⟨100, 7, 200, some after_calls_map⟩ : __cilkrts_worker).reducer_map = some h ∧
      check_buckets false (h.buckets.take h.nbuckets) 0 = Res.ok () h.nelem ∧
      cilkred_map_check h false = Res.ok () h.nelem ∧
      cilkred_map_check h true = Res.ok () h.nelem ∧
      h.nelem = (entries h).length :=
  ⟨⟨by decide, by decide⟩,
    C14_nelem_is_live_count sample_worker fresh_map
      [api_call.create sample_hb, api_call.lookup hb_40 41, api_call.lookup hb_24 25,
        api_call.destroy sample_hb]
      ⟨⟨100, 7, 200, some after_calls_map⟩,
        [Event.allocate 40 4, Event.identity 40 41, Event.allocate 24 4, Event.identity 24 25]⟩
      (by decide) (by decide)⟩

/-- C15: let a map be shaped as the data model says (`shaped`) and have no two
live elements with the same key.  Then every returning
`__cilkrts_hyper_create`, `__cilkrts_hyper_lookup`, `__cilkrts_hyper_destroy`
and `cilkred_map_rehash` leaves a map of that shape in which again no two live
elements have the same key; and so does every returning `cilkred_map_merge` of
two such maps (called by the thread-local worker on its own frame, the maps
being of its global state) for the surviving map. -/
theorem C15_no_duplicate_keys :
    (∀ tls dflt hb h w1, (tls.getD dflt).reducer_map = some h → shaped h → no_dup_keys h →
      __cilkrts_hyper_create tls dflt hb = Res.ok () w1 →
      ∃ h1, w1.reducer_map = some h1 ∧ shaped h1 ∧ no_dup_keys h1) ∧
    (∀ w storage hb h v w1 tr, w.reducer_map = some h → shaped h → no_dup_keys h →
      __cilkrts_hyper_lookup (some w) storage hb = Res.ok v ⟨some w1, tr⟩ →
      ∃ h1, w1.reducer_map = some h1 ∧ shaped h1 ∧ no_dup_keys h1) ∧
    (∀ tls dflt hb h st, (tls.getD dflt).reducer_map = some h → shaped h → no_dup_keys h →
      __cilkrts_hyper_destroy tls dflt hb = Res.ok () st →
      ∃ h1, st.w.reducer_map = some h1 ∧ shaped h1 ∧ no_dup_keys h1) ∧
    (∀ m w m1, shaped m → no_dup_keys m → cilkred_map_rehash m w = Res.ok () m1 →
      shaped m1 ∧ no_dup_keys m1) ∧
    (∀ env this_map w other_map kind w1 st, shaped this_map → no_dup_keys this_map →
      shaped other_map → no_dup_keys other_map →
      g_ok (some w) this_map = true → g_ok (some w) other_map = true →
      env.sf_worker w.current_stack_frame = w.self → w.self = env.tls_worker →
      cilkred_map_merge env this_map w other_map kind = Res.ok w1 st →
      shaped st.this_map ∧ no_dup_keys st.this_map) := by
  refine ⟨?_, ?_, ?_, ?_, ?_⟩
  · intro tls dflt hb h w1 hm hs hnd hok
    have hwf := (WF_iff_shaped h).2 ⟨hs, hnd⟩
    obtain ⟨h1, hw1, hwf1, -⟩ := hyper_create_ok_inv tls dflt hb h hm hwf w1 hok
    exact ⟨h1, by rw [hw1], (WF_iff_shaped h1).1 hwf1⟩
  · intro w storage hb h v w1 tr hm hs hnd hok
    have hwf := (WF_iff_shaped h).2 ⟨hs, hnd⟩
    obtain ⟨h1, hw1, hwf1, -⟩ := hyper_lookup_ok_inv w storage hb h hm hwf v _ hok
    injection hw1 with hw1
    exact ⟨h1, by rw [hw1], (WF_iff_shaped h1).1 hwf1⟩
  · intro tls dflt hb h st hm hs hnd hok
    have hwf := (WF_iff_shaped h).2 ⟨hs, hnd⟩
    obtain ⟨h1, hst, hwf1, -⟩ := hyper_destroy_ok_inv tls dflt hb h hm hwf st hok
    exact ⟨h1, by rw [hst], (WF_iff_shaped h1).1 hwf1⟩
  · intro m w m1 hs hnd hok
    have hwf := (WF_iff_shaped m).2 ⟨hs, hnd⟩
    obtain ⟨hg, -, -⟩ := rehash_ok m m1 w hok
    obtain ⟨m1', hr, hwf1, -⟩ := rehash_spec m hwf w hg
    rw [hok] at hr
    injection hr with _ hh
    subst hh
    exact (WF_iff_shaped m1).1 hwf1
  · intro env this_map w other_map kind w1 st hs hnd hso hndo hg hgo hfr htls hok
    have hwf := (WF_iff_shaped this_map).2 ⟨hs, hnd⟩
    have hwfo := (WF_iff_shaped other_map).2 ⟨hso, hndo⟩
    obtain ⟨-, -, hwf1, -⟩ :=
      merge_ok_spec env this_map w other_map kind hwf hwfo hg hgo hfr htls w1 st hok
    exact (WF_iff_shaped _).1 hwf1

/-- Witness of C15: on the sample maps, the registration of key 16, the lookup
of key 16 (an insert), the destruction of key 8, a rehash, and the merge of a
map holding key 8 into another map holding key 8. -/
theorem C15_no_duplicate_keys_witness :
    (((some sample_owner).getD sample_worker).reducer_map = some sample_map ∧
      shaped sample_map ∧ no_dup_keys sample_map ∧
      __cilkrts_hyper_create (some sample_owner) sample_worker sample_hb2 =
        Res.ok () (__cilkrts_hyper_create (some sample_owner) sample_worker sample_hb2).state ∧
      __cilkrts_hyper_lookup (some sample_owner) 77 sample_hb2 =
        Res.ok 77 ⟨some ((__cilkrts_hyper_lookup (some sample_owner) 77 sample_hb2).state.w.getD
          sample_owner), [Event.allocate 10 4, Event.identity 10 77]⟩ ∧
      __cilkrts_hyper_destroy (some sample_owner) sample_worker sample_hb =
        Res.ok () (__cilkrts_hyper_destroy (some sample_owner) sample_worker sample_hb).state ∧
      cilkred_map_rehash sample_map (some sample_worker) =
        Res.ok () (cilkred_map_rehash sample_map (some sample_worker)).state ∧
      shaped map_8_9 ∧ no_dup_keys map_8_9 ∧ shaped map_8_10 ∧ no_dup_keys map_8_10 ∧
      g_ok (some sample_worker) map_8_9 = true ∧ g_ok (some sample_worker) map_8_10 = true ∧
      sample_env.sf_worker sample_worker.current_stack_frame = sample_worker.self ∧
      sample_worker.self = sample_env.tls_worker ∧
      cilkred_map_merge sample_env map_8_9 sample_worker map_8_10 merge_kind.MERGE_INTO_LEFT =
        Res.ok sample_worker ⟨map_8_9, [Event.reduce 8 1 9 10, Event.deallocate 8 1 10]⟩) ∧
    (∃ h1, (__cilkrts_hyper_create (some sample_owner) sample_worker sample_hb2).state.reducer_map =
        some h1 ∧ shaped h1 ∧ no_dup_keys h1) ∧
    (∃ h1, ((__cilkrts_hyper_lookup (some sample_owner) 77 sample_hb2).state.w.getD
        sample_owner).reducer_map = some h1 ∧ shaped h1 ∧ no_dup_keys h1) ∧
    (∃ h1, (__cilkrts_hyper_destroy (some sample_owner) sample_worker sample_hb).state.w.reducer_map =
        some h1 ∧ shaped h1 ∧ no_dup_keys h1) ∧
    (shaped (cilkred_map_rehash sample_map (some sample_worker)).state ∧
      no_dup_keys (cilkred_map_rehash sample_map (some sample_worker)).state) ∧
    (shaped map_8_9 ∧ no_dup_keys map_8_9) :=
  ⟨⟨rfl, by decide, by decide, by decide, by decide, by decide, by decide, by decide, by decide,
      by decide, by decide, by decide, by decide, rfl, rfl, by decide⟩,
    C15_no_duplicate_keys.1 (some sample_owner) sample_worker sample_hb2 sample_map _ rfl
      (by decide) (by decide) (by decide),
    C15_no_duplicate_keys.2.1 sample_owner 77 sample_hb2 sample_map 77
      ((__cilkrts_hyper_lookup (some sample_owner) 77 sample_hb2).state.w.getD sample_owner)
      [Event.allocate 10 4, Event.identity 10 77] rfl (by decide) (by decide) (by decide),
    C15_no_duplicate_keys.2.2.1 (some sample_owner) sample_worker sample_hb sample_map _ rfl
      (by decide) (by decide) (by decide),
    C15_no_duplicate_keys.2.2.2.1 sample_map (some sample_worker) _ (by decide) (by decide)
      (by decide),
    C15_no_duplicate_keys.2.2.2.2 sample_env map_8_9 sample_worker map_8_10
      merge_kind.MERGE_INTO_LEFT sample_worker
      ⟨map_8_9, [Event.reduce 8 1 9 10, Event.deallocate 8 1 10]⟩ (by decide) (by decide)
      (by decide) (by decide) (by decide) (by decide) rfl rfl (by decide)⟩

/-- C16: in every map reached from `cilkred_map_make_map` (which starts at
`nbuckets = 1`) by returning calls of `cilkred_map_rehash`,
`cilkred_map_rehash_and_insert` and `cilkred_map_merge`, `nbuckets` is a power
of two `2 ^ k` (and passes the test `is_power_of_2`); every returning
`cilkred_map_rehash` leaves exactly twice the `nbuckets` it found, and on a
well-formed map of the caller's global state it does return.  Sizes are
unbounded naturals (no `size_t` overflow). -/
theorem C16_nbuckets_power_of_two :
    (∀ m, reachable m → ∃ k, m.nbuckets = 2 ^ k ∧ is_power_of_2 m.nbuckets = true) ∧
    (∀ m w m1, cilkred_map_rehash m w = Res.ok () m1 → m1.nbuckets = 2 * m.nbuckets) ∧
    (∀ m w, WF m → g_ok w m = true →
      ∃ m1, cilkred_map_rehash m w = Res.ok () m1 ∧ m1.nbuckets = 2 * m.nbuckets) := by
  have hpow : ∀ m, reachable m → ∃ k, m.nbuckets = 2 ^ k := by
    intro m hr
    induction hr with
    | make w m hmk =>
      obtain ⟨m', hmk', -, -, -, hnb, -⟩ := make_map_spec w
      rw [hmk] at hmk'
      injection hmk' with _ hh
      subst hh
      exact ⟨0, by rw [hnb]; rfl⟩
    | rehash m m1 w _ hok ih =>
      obtain ⟨k, hk⟩ := ih
      exact ⟨k + 1, by rw [(rehash_ok m m1 w hok).2.1, hk, pow_succ, Nat.mul_comm]⟩
    | insert m m1 w key hb view p _ hok ih =>
      obtain ⟨k, hk⟩ := ih
      obtain ⟨j, hj⟩ := rehash_and_insert_nbuckets m m1 w key hb view p hok
      exact ⟨j + k, by rw [hj, hk, pow_add]⟩
    | set_leftmost m b _ ih => exact ih
    | merge env m other_map w w1 kind st _ hok ih =>
      obtain ⟨k, hk⟩ := ih
      obtain ⟨j, hj⟩ := merge_nbuckets env m w other_map kind w1 st hok
      exact ⟨j + k, by rw [hj, hk, pow_add]⟩
  refine ⟨?_, ?_, ?_⟩
  · intro m hr
    obtain ⟨k, hk⟩ := hpow m hr
    exact ⟨k, hk, by rw [hk]; exact is_power_of_2_pow k⟩
  · intro m w m1 hok
    exact (rehash_ok m m1 w hok).2.1
  · intro m w hwf hg
    obtain ⟨m1, hr, -, hnb, -⟩ := rehash_spec m hwf w hg
    exact ⟨m1, hr, hnb⟩

/-- Witness of C16: `map_8_9` is reached by one insert into a fresh map and
survives a merge unchanged; a rehash then takes it from one bucket to two. -/
theorem C16_nbuckets_power_of_two_witness :
    (reachable map_8_9_rehashed ∧
      cilkred_map_rehash map_8_9 (some sample_worker) = Res.ok () map_8_9_rehashed ∧
      WF map_8_9 ∧ g_ok (some sample_worker) map_8_9 = true) ∧
    (∃ k, map_8_9_rehashed.nbuckets = 2 ^ k ∧ is_power_of_2 map_8_9_rehashed.nbuckets = true) ∧
    map_8_9_rehashed.nbuckets = 2 * map_8_9.nbuckets ∧
    (∃ m1, cilkred_map_rehash map_8_9 (some sample_worker) = Res.ok () m1 ∧
      m1.nbuckets = 2 * map_8_9.nbuckets) :=
  have hr : reachable map_8_9_rehashed :=
    reachable.rehash map_8_9 map_8_9_rehashed (some sample_worker)
      (reachable.merge sample_env map_8_9 map_8_10 sample_worker sample_worker
        merge_kind.MERGE_INTO_LEFT ⟨map_8_9, [Event.reduce 8 1 9 10, Event.deallocate 8 1 10]⟩
        (reachable.insert fresh_map map_8_9 (some sample_worker) 8 1 9 (0, 0)
          (reachable.make sample_worker fresh_map (by decide)) (by decide))
        (by decide))
      (by decide)
  ⟨⟨hr, by decide, by decide, by decide⟩,
    C16_nbuckets_power_of_two.1 map_8_9_rehashed hr,
    C16_nbuckets_power_of_two.2.1 map_8_9 (some sample_worker) map_8_9_rehashed (by decide),
    C16_nbuckets_power_of_two.2.2 map_8_9 (some sample_worker) (by decide) (by decide)⟩

/-- C17, as stated, fails: with the sample map (three elements, not leftmost)
on the left and the empty leftmost map on the right,
`__cilkrts_internal_merge_two_rmaps` merges the right map into the left one and
stops at the assertion `!other_map->is_leftmost` of `cilkred_map_merge`. -/
theorem C17_counterexample :
    (WF sample_map ∧ WF empty_leftmost_map ∧ sample_map.is_leftmost = false ∧
      empty_leftmost_map.is_leftmost = true ∧
      g_ok (some sample_worker) sample_map = true ∧
      g_ok (some sample_worker) empty_leftmost_map = true) ∧
    __cilkrts_internal_merge_two_rmaps sample_env sample_worker (some sample_map)
        (some empty_leftmost_map) = Res.fatal Fault.assertion [] := by
  decide

/-- C17, amended: for two well-formed maps (the call made by the thread-local
worker on its own frame, the maps being of its global state).  If the left map
is the leftmost map and the right one is not, the call returns the survivor of
`cilkred_map_merge(left, ws, right, MERGE_INTO_LEFT)`, which is leftmost,
whatever the element counts.  If the right map is the leftmost map, the left
one is not and `left.nelem <= right.nelem`, the call returns the survivor of
`cilkred_map_merge(right, ws, left, MERGE_INTO_RIGHT)`, which is leftmost.  In
both cases the returned map is well-formed, holds at least as many elements as
the leftmost map held, and `cilkred_map_lookup` finds a key in it exactly when
it finds the key in the left or in the right map.  If the right map is leftmost
and the left map is leftmost too or holds more elements, the call ends in the
failed assertion `!other_map->is_leftmost`, before any callback. -/
theorem C17_merge_into_leftmost (env : sched_env) (ws : __cilkrts_worker)
    (l r : cilkred_map) (hwfl : WF l) (hwfr : WF r)
    (hgl : g_ok (some ws) l = true) (hgr : g_ok (some ws) r = true)
    (hfr : env.sf_worker ws.current_stack_frame = ws.self) (htls : ws.self = env.tls_worker) :
    (l.is_leftmost = true → r.is_leftmost = false →
      ∃ st, cilkred_map_merge env l ws r merge_kind.MERGE_INTO_LEFT = Res.ok ws st ∧
        __cilkrts_internal_merge_two_rmaps env ws (some l) (some r) =
          Res.ok (some st.this_map) st.trace ∧
        st.this_map.is_leftmost = true ∧
        WF st.this_map ∧ l.nelem ≤ st.this_map.nelem ∧
        ∀ K, (∃ p, cilkred_map_lookup st.this_map K = Res.ok (some p) st.this_map) ↔
          ((∃ p, cilkred_map_lookup l K = Res.ok (some p) l) ∨
            (∃ p, cilkred_map_lookup r K = Res.ok (some p) r))) ∧
    (l.is_leftmost = false → r.is_leftmost = true → l.nelem ≤ r.nelem →
      ∃ st, cilkred_map_merge env r ws l merge_kind.MERGE_INTO_RIGHT = Res.ok ws st ∧
        __cilkrts_internal_merge_two_rmaps env ws (some l) (some r) =
          Res.ok (some st.this_map) st.trace ∧
        st.this_map.is_leftmost = true ∧
        WF st.this_map ∧ r.nelem ≤ st.this_map.nelem ∧
        ∀ K, (∃ p, cilkred_map_lookup st.this_map K = Res.ok (some p) st.this_map) ↔
          ((∃ p, cilkred_map_lookup l K = Res.ok (some p) l) ∨
            (∃ p, cilkred_map_lookup r K = Res.ok (some p) r))) ∧
    (r.is_leftmost = true → l.is_leftmost = true ∨ l.nelem > r.nelem →
      __cilkrts_internal_merge_two_rmaps env ws (some l) (some r) =
        Res.fatal Fault.assertion []) := by
  refine ⟨?_, ?_, ?_⟩
  · intro hl hr
    obtain ⟨m1, hm, hwf1, -, -, hlm, -⟩ :=
      (merge_spec env l ws r merge_kind.MERGE_INTO_LEFT hwfl hwfr hgl hgr hfr htls hr).1
        (Or.inl (by decide))
    refine ⟨_, hm, ?_, by rw [hlm, hl], hwf1,
      (merge_nelem_bounds env l ws r _ hwfl hwfr hgl hgr hfr htls ws _ hm).1,
      merge_keys_union env l ws r _ hwfl hwfr hgl hgr hfr htls ws _ hm⟩
    simp only [__cilkrts_internal_merge_two_rmaps, hl, true_or, if_true, hm]
  · intro hl hr hle
    obtain ⟨m1, hm, hwf1, -, -, hlm, -⟩ :=
      (merge_spec env r ws l merge_kind.MERGE_INTO_RIGHT hwfr hwfl hgr hgl hfr htls hl).1
        (Or.inl (by decide))
    refine ⟨_, hm, ?_, by rw [hlm, hr], hwf1,
      (merge_nelem_bounds env r ws l _ hwfr hwfl hgr hgl hfr htls ws _ hm).1,
      fun K => (merge_keys_union env r ws l _ hwfr hwfl hgr hgl hfr htls ws _ hm K).trans
        Or.comm⟩
    have hcond : ¬ (l.is_leftmost = true ∨ l.nelem > r.nelem) := by
      rw [hl]
      simp only [Bool.false_eq_true, false_or]
      omega
    simp only [__cilkrts_internal_merge_two_rmaps, hcond, if_false, hm]
  · intro hr hcase
    simp only [__cilkrts_internal_merge_two_rmaps, hcase, if_true,
      merge_other_leftmost env l ws r merge_kind.MERGE_INTO_LEFT hr]

/-- Witness of C17 (amended): the empty leftmost map on the left of a
one-element map; a leftmost one-element map on the right of a one-element map;
the empty leftmost map on the right of the three-element sample map. -/
theorem C17_merge_into_leftmost_witness :
    (WF empty_leftmost_map ∧ WF map_8_9 ∧ WF map_24_25 ∧ WF leftmost_map_8_8 ∧ WF sample_map ∧
      sample_env.sf_worker sample_worker.current_stack_frame = sample_worker.self ∧
      sample_worker.self = sample_env.tls_worker ∧
      empty_leftmost_map.nelem < map_8_9.nelem ∧ map_24_25.nelem ≤ leftmost_map_8_8.nelem ∧
      sample_map.nelem > empty_leftmost_map.nelem) ∧
    (∃ st, cilkred_map_merge sample_env empty_leftmost_map sample_worker map_8_9
          merge_kind.MERGE_INTO_LEFT = Res.ok sample_worker st ∧
        __cilkrts_internal_merge_two_rmaps sample_env sample_worker (some empty_leftmost_map)
          (some map_8_9) = Res.ok (some st.this_map) st.trace ∧
        st.this_map.is_leftmost = true ∧
        WF st.this_map ∧ empty_leftmost_map.nelem ≤ st.this_map.nelem ∧
        ∀ K, (∃ p, cilkred_map_lookup st.this_map K = Res.ok (some p) st.this_map) ↔
          ((∃ p, cilkred_map_lookup empty_leftmost_map K = Res.ok (some p) empty_leftmost_map) ∨
            (∃ p, cilkred_map_lookup map_8_9 K = Res.ok (some p) map_8_9))) ∧
    (∃ st, cilkred_map_merge sample_env leftmost_map_8_8 sample_worker map_24_25
          merge_kind.MERGE_INTO_RIGHT = Res.ok sample_worker st ∧
        __cilkrts_internal_merge_two_rmaps sample_env sample_worker (some map_24_25)
          (some leftmost_map_8_8) = Res.ok (some st.this_map) st.trace ∧
        st.this_map.is_leftmost = true ∧
        WF st.this_map ∧ leftmost_map_8_8.nelem ≤ st.this_map.nelem ∧
        ∀ K, (∃ p, cilkred_map_lookup st.this_map K = Res.ok (some p) st.this_map) ↔
          ((∃ p, cilkred_map_lookup map_24_25 K = Res.ok (some p) map_24_25) ∨
            (∃ p, cilkred_map_lookup leftmost_map_8_8 K = Res.ok (some p) leftmost_map_8_8))) ∧
    __cilkrts_internal_merge_two_rmaps sample_env sample_worker (some sample_map)
      (some empty_leftmost_map) = Res.fatal Fault.assertion [] :=
  ⟨⟨by decide, by decide, by decide, by decide, by decide, rfl, rfl, by decide, by decide,
      by decide⟩,
    (C17_merge_into_leftmost sample_env sample_worker empty_leftmost_map map_8_9 (by decide)
      (by decide) (by decide) (by decide) rfl rfl).1 rfl rfl,
    (C17_merge_into_leftmost sample_env sample_worker map_24_25 leftmost_map_8_8 (by decide)
      (by decide) (by decide) (by decide) rfl rfl).2.1 rfl rfl (by decide),
    (C17_merge_into_leftmost sample_env sample_worker sample_map empty_leftmost_map (by decide)
      (by decide) (by decide) (by decide) rfl rfl).2.2 rfl (Or.inr (by decide))⟩

/-- C18: with a null left map `__cilkrts_internal_merge_two_rmaps` returns its
right argument as it is, with a null right map its left argument as it is, in
both cases without any callback (and so without a merge); whenever the call
returns, the result is null exactly when both arguments are null. -/
theorem C18_merge_two_rmaps_null (env : sched_env) (ws : __cilkrts_worker)
    (left_map right_map : Option cilkred_map) :
    __cilkrts_internal_merge_two_rmaps env ws none right_map = Res.ok right_map [] ∧
    __cilkrts_internal_merge_two_rmaps env ws left_map none = Res.ok left_map [] ∧
    (∀ res tr, __cilkrts_internal_merge_two_rmaps env ws left_map right_map = Res.ok res tr →
      (res = none ↔ left_map = none ∧ right_map = none)) := by
  refine ⟨rfl, ?_, ?_⟩
  · cases left_map <;> rfl
  · intro res tr hok
    cases left_map with
    | none =>
      simp only [__cilkrts_internal_merge_two_rmaps] at hok
      injection hok with h1 _
      rw [← h1]
      simp
    | some l =>
      cases right_map with
      | none =>
        simp only [__cilkrts_internal_merge_two_rmaps] at hok
        injection hok with h1 _
        rw [← h1]
        simp
      | some r =>
        simp only [__cilkrts_internal_merge_two_rmaps] at hok
        split at hok
        · split at hok
          · injection hok with h1 _
            rw [← h1]
            simp
          · cases hok
        · split at hok
          · injection hok with h1 _
            rw [← h1]
            simp
          · cases hok

/-- Witness of C18: a null left map with a one-element right map. -/
theorem C18_merge_two_rmaps_null_witness :
    __cilkrts_internal_merge_two_rmaps sample_env sample_worker none (some map_8_9) =
      Res.ok (some map_8_9) [] ∧
    ((some map_8_9 : Option cilkred_map) = none ↔
      (none : Option cilkred_map) = none ∧ (some map_8_9 : Option cilkred_map) = none) :=
  ⟨by decide,
    (C18_merge_two_rmaps_null sample_env sample_worker none (some map_8_9)).2.2 (some map_8_9) []
      (by decide)⟩

/-- C19: `cilkred_map_destroy_map` (called for a map of the caller's global
state) makes exactly the calls `deallocate_fn(hb, view)` of the live elements
whose view is non-null and different from the key, one call per such element in
scan order, and nothing else: no call is made for an element whose view equals
its key or is null.  `elem_destroy` calls `deallocate_fn` once unless the
element is leftmost (view == key), and `__cilkrts_hyper_destroy`, which calls it
only on a leftmost element, never makes a callback. -/
theorem C19_destroy_deallocates (w : Option __cilkrts_worker) (h : cilkred_map)
    (hg : g_ok w h = true) :
    cilkred_map_destroy_map w h =
      Res.ok () (((entries h).filter (fun e => decide (e.view ≠ 0 ∧ e.view ≠ e.key))).map
        (fun e => Event.deallocate e.key e.hb e.view)) ∧
    (∀ tr, cilkred_map_destroy_map w h = Res.ok () tr → ∀ k hb v,
      Event.deallocate k hb v ∈ tr → v ≠ k ∧ v ≠ 0 ∧ (⟨k, hb, v⟩ : elem) ∈ entries h) ∧
    (∀ el : elem, (elem_destroy el).2 =
      if el.key = el.view then [] else [Event.deallocate el.key el.hb el.view]) ∧
    (∀ tls dflt hb, (__cilkrts_hyper_destroy tls dflt hb).state.trace = []) := by
  have hmain : cilkred_map_destroy_map w h =
      Res.ok () (((entries h).filter (fun e => decide (e.view ≠ 0 ∧ e.view ≠ e.key))).map
        (fun e => Event.deallocate e.key e.hb e.view)) := by
    unfold cilkred_map_destroy_map
    rw [hg, destroy_buckets_live, flatMap_dealloc_of]
    rfl
  refine ⟨hmain, ?_, ?_, ?_⟩
  · intro tr htr k hb v hmem
    rw [hmain] at htr
    injection htr with _ htr
    rw [← htr, List.mem_map] at hmem
    obtain ⟨e, he, hev⟩ := hmem
    rw [List.mem_filter] at he
    injection hev with h1 h2 h3
    have hcond : e.view ≠ 0 ∧ e.view ≠ e.key := by simpa using he.2
    subst h1 h2 h3
    exact ⟨hcond.2, hcond.1, he.1⟩
  · intro el
    unfold elem_destroy elem_is_leftmost
    by_cases hk : el.key = el.view <;> simp [hk]
  · intro tls dflt hb
    have h8 : ∀ why st, __cilkrts_hyper_destroy tls dflt hb = Res.fatal why st →
        st = ⟨tls.getD dflt, []⟩ := by
      intro why st hf
      cases hm : (tls.getD dflt).reducer_map with
      | none =>
        rw [hyper_destroy_no_map tls dflt hb hm] at hf
        injection hf with _ h2; rw [← h2]
      | some m =>
        by_cases hmg : m.merging = true
        · rw [hyper_destroy_merging tls dflt hb m hm hmg] at hf
          injection hf with _ h2; rw [← h2]
        · have hmg2 : m.merging = false := by simpa using hmg
          cases hfd : find m (get_hyperobject_key hb) with
          | none =>
            rw [hyper_destroy_absent tls dflt hb m hm hmg2 hfd] at hf
            injection hf with _ h2; rw [← h2]
          | some e =>
            by_cases hv : e.view = 0
            · rw [hyper_destroy_null_view tls dflt hb m hm hmg2 e hfd hv] at hf
              injection hf with _ h2; rw [← h2]
            · by_cases hl : e.view = e.key
              · obtain ⟨p, -, -, hp⟩ := hyper_destroy_leftmost tls dflt hb m hm hmg2 e hfd hl
                rw [hp] at hf
                cases hf
              · rw [hyper_destroy_not_leftmost tls dflt hb m hm hmg2 e hfd hv
                  (fun hh => hl hh.symm)] at hf
                injection hf with _ h2; rw [← h2]
    cases hres : __cilkrts_hyper_destroy tls dflt hb with
    | fatal why st => rw [h8 why st hres]; rfl
    | ok u st =>
      cases hm : (tls.getD dflt).reducer_map with
      | none => rw [hyper_destroy_no_map tls dflt hb hm] at hres; cases hres
      | some m =>
        by_cases hmg : m.merging = true
        · rw [hyper_destroy_merging tls dflt hb m hm hmg] at hres; cases hres
        · have hmg2 : m.merging = false := by simpa using hmg
          cases hfd : find m (get_hyperobject_key hb) with
          | none => rw [hyper_destroy_absent tls dflt hb m hm hmg2 hfd] at hres; cases hres
          | some e =>
            by_cases hv : e.view = 0
            · rw [hyper_destroy_null_view tls dflt hb m hm hmg2 e hfd hv] at hres; cases hres
            · by_cases hl : e.view = e.key
              · obtain ⟨p, -, -, hp⟩ := hyper_destroy_leftmost tls dflt hb m hm hmg2 e hfd hl
                rw [hp] at hres
                injection hres with _ h2
                rw [← h2]
                rfl
              · rw [hyper_destroy_not_leftmost tls dflt hb m hm hmg2 e hfd hv
                  (fun hh => hl hh.symm)] at hres
                cases hres

/-- Witness of C19: destroying a map that holds a leftmost element, an element
with a null view and an element with a private view deallocates the private
view only. -/
theorem C19_destroy_deallocates_witness :
    g_ok (some sample_worker) teardown_map = true ∧
    entries teardown_map = [⟨8, 1, 8⟩, ⟨16, 2, 0⟩, ⟨24, 3, 25⟩] ∧
    cilkred_map_destroy_map (some sample_worker) teardown_map =
      Res.ok () [Event.deallocate 24 3 25] ∧
    cilkred_map_destroy_map (some sample_worker) teardown_map =
      Res.ok () (((entries teardown_map).filter
        (fun e => decide (e.view ≠ 0 ∧ e.view ≠ e.key))).map
        (fun e => Event.deallocate e.key e.hb e.view)) :=
  ⟨by decide, by decide, by decide,
    (C19_destroy_deallocates (some sample_worker) teardown_map (by decide)).1⟩

/-- C20: let the map of the current worker `w` have `merging == true`.  Then
`__cilkrts_hyper_lookup` ends in `cilkrts_bug(w, "User error: hyperobject used
by another hyperobject")` instead of returning a view, `__cilkrts_hyper_destroy`
ends in the same call, and `__cilkrts_hyper_create` ends in that call or, when
the key is found in the map, in the failed assertion that precedes it.  The
same holds for create and destroy when there is no thread-local worker and `w`
is the default worker (destroy then fails the assertion
`w == __cilkrts_get_tls_worker()`).  On each of these fatal paths no callback
has run and the worker is as before: it owns the same map, with the same
elements and the same `nelem`. -/
theorem C20_merging_is_fatal (w dflt : __cilkrts_worker) (storage : Nat)
    (hb : __cilkrts_hyperobject_base) (h : cilkred_map)
    (hm : w.reducer_map = some h) (hmg : h.merging = true) :
    __cilkrts_hyper_lookup (some w) storage hb =
      Res.fatal Fault.hyperobject_in_use ⟨some w, []⟩ ∧
    __cilkrts_hyper_create (some w) dflt hb =
      Res.fatal (if find h (get_hyperobject_key hb) = none then Fault.hyperobject_in_use
        else Fault.assertion) w ∧
    __cilkrts_hyper_destroy (some w) dflt hb = Res.fatal Fault.hyperobject_in_use ⟨w, []⟩ ∧
    __cilkrts_hyper_create none w hb =
      Res.fatal (if find h (get_hyperobject_key hb) = none then Fault.hyperobject_in_use
        else Fault.assertion) w ∧
    __cilkrts_hyper_destroy none w hb = Res.fatal Fault.assertion ⟨w, []⟩ :=
  ⟨hyper_lookup_merging w storage hb h hm hmg,
    hyper_create_merging (some w) dflt hb h hm hmg,
    hyper_destroy_merging (some w) dflt hb h hm hmg,
    hyper_create_merging none w hb h hm hmg,
    hyper_destroy_merging none w hb h hm hmg⟩

/-- Witness of C20: the sample worker while its map is merging, on the
descriptor of key 16, which the map does not hold. -/
theorem C20_merging_is_fatal_witness :
    (merging_owner.reducer_map = some merging_map ∧ merging_map.merging = true) ∧
    __cilkrts_hyper_lookup (some merging_owner) 77 sample_hb2 =
      Res.fatal Fault.hyperobject_in_use ⟨some merging_owner, []⟩ ∧
    __cilkrts_hyper_create (some merging_owner) sample_worker sample_hb2 =
      Res.fatal (if find merging_map (get_hyperobject_key sample_hb2) = none then
        Fault.hyperobject_in_use else Fault.assertion) merging_owner ∧
    __cilkrts_hyper_destroy (some merging_owner) sample_worker sample_hb2 =
      Res.fatal Fault.hyperobject_in_use ⟨merging_owner, []⟩ ∧
    __cilkrts_hyper_create none merging_owner sample_hb2 =
      Res.fatal (if find merging_map (get_hyperobject_key sample_hb2) = none then
        Fault.hyperobject_in_use else Fault.assertion) merging_owner ∧
    __cilkrts_hyper_destroy none merging_owner sample_hb2 =
      Res.fatal Fault.assertion ⟨merging_owner, []⟩ :=
  ⟨⟨rfl, rfl⟩,
    C20_merging_is_fatal merging_owner sample_worker 77 sample_hb2 merging_map rfl rfl⟩

/-- C21: the scenario of bucket growth on the LP64 layout.  Five elements with
pairwise distinct non-null keys `K1..K5` (and non-null views) are inserted with
`cilkred_map_insert_no_rehash` into the map `cilkred_map_make_map` returns,
which has one bucket pointer, null.  Every insert returns; the bucket then has
the capacity `nmax` = 1, 4, 4, 4, 9 (reallocation at `K1`, `K2` and `K5`, the
new capacity being `roundup(2 * nmax)` of the old one, 0 for the null bucket),
the elements sit in the slots 0..4 in insertion order, and afterwards
`cilkred_map_lookup(K1)` returns slot 0, which holds `K1` with its descriptor
and its original view; the other four keys are found alike. -/
theorem C21_bucket_growth_scenario (w : __cilkrts_worker) (e1 e2 e3 e4 e5 : elem)
    (hk : e1.key ≠ 0 ∧ e2.key ≠ 0 ∧ e3.key ≠ 0 ∧ e4.key ≠ 0 ∧ e5.key ≠ 0)
    (hv : e1.view ≠ 0 ∧ e2.view ≠ 0 ∧ e3.view ≠ 0 ∧ e4.view ≠ 0 ∧ e5.view ≠ 0)
    (hd : [e1.key, e2.key, e3.key, e4.key, e5.key].Nodup) :
    cilkred_map_make_map w = Res.ok () ⟨w.g, 0, 1, [none], false, false⟩ ∧
    cilkred_map_insert_no_rehash ⟨w.g, 0, 1, [none], false, false⟩ (some w) e1.key e1.hb e1.view =
      Res.ok (0, 0) (one_bucket_map w.g 1 [e1]) ∧
    cilkred_map_insert_no_rehash (one_bucket_map w.g 1 [e1]) (some w) e2.key e2.hb e2.view =
      Res.ok (0, 1) (one_bucket_map w.g 4 [e1, e2]) ∧
    cilkred_map_insert_no_rehash (one_bucket_map w.g 4 [e1, e2]) (some w) e3.key e3.hb e3.view =
      Res.ok (0, 2) (one_bucket_map w.g 4 [e1, e2, e3]) ∧
    cilkred_map_insert_no_rehash (one_bucket_map w.g 4 [e1, e2, e3]) (some w)
        e4.key e4.hb e4.view =
      Res.ok (0, 3) (one_bucket_map w.g 4 [e1, e2, e3, e4]) ∧
    cilkred_map_insert_no_rehash (one_bucket_map w.g 4 [e1, e2, e3, e4]) (some w)
        e5.key e5.hb e5.view =
      Res.ok (0, 4) (one_bucket_map w.g 9 [e1, e2, e3, e4, e5]) ∧
    (roundup (2 * 0) = 1 ∧ roundup (2 * 1) = 4 ∧ roundup (2 * 4) = 9) ∧
    (cilkred_map_lookup (one_bucket_map w.g 9 [e1, e2, e3, e4, e5]) e1.key =
        Res.ok (some (0, 0)) (one_bucket_map w.g 9 [e1, e2, e3, e4, e5]) ∧
      get_slot (one_bucket_map w.g 9 [e1, e2, e3, e4, e5]) (0, 0) = e1) ∧
    (cilkred_map_lookup (one_bucket_map w.g 9 [e1, e2, e3, e4, e5]) e2.key =
        Res.ok (some (0, 1)) (one_bucket_map w.g 9 [e1, e2, e3, e4, e5]) ∧
      cilkred_map_lookup (one_bucket_map w.g 9 [e1, e2, e3, e4, e5]) e3.key =
        Res.ok (some (0, 2)) (one_bucket_map w.g 9 [e1, e2, e3, e4, e5]) ∧
      cilkred_map_lookup (one_bucket_map w.g 9 [e1, e2, e3, e4, e5]) e4.key =
        Res.ok (some (0, 3)) (one_bucket_map w.g 9 [e1, e2, e3, e4, e5]) ∧
      cilkred_map_lookup (one_bucket_map w.g 9 [e1, e2, e3, e4, e5]) e5.key =
        Res.ok (some (0, 4)) (one_bucket_map w.g 9 [e1, e2, e3, e4, e5])) := by
  obtain ⟨k1, k2, k3, k4, k5⟩ := hk
  obtain ⟨v1, v2, v3, v4, v5⟩ := hv
  have r0 : roundup 0 = 1 := by decide
  have r2 : roundup 2 = 4 := by decide
  have r8 : roundup 8 = 9 := by decide
  have hp : is_power_of_2 1 = true := by decide
  simp only [List.nodup_cons, List.mem_cons, List.mem_singleton, not_or, List.not_mem_nil,
    not_false_eq_true, List.nodup_nil, and_true] at hd
  obtain ⟨⟨d12, d13, d14, d15⟩, ⟨d23, d24, d25⟩, ⟨d34, d35⟩, d45⟩ := hd
  refine ⟨?_, ?_, ?_, ?_, ?_, ?_, ⟨r0, r2, r8⟩, ⟨?_, ?_⟩, ?_, ?_, ?_, ?_⟩
  · simp [cilkred_map_make_map, cilkred_map_make_buckets, Res.bind, hp]
  · simp [cilkred_map_insert_no_rehash, g_ok, k1, v1, hashfun_one, cilkred_map_grow,
      grow_realloc, r0, one_bucket_map, null_elem]
  · simp [cilkred_map_insert_no_rehash, g_ok, k1, k2, v2, hashfun_one, cilkred_map_grow,
      grow_realloc, r2, one_bucket_map, null_elem, find_empty, List.replicate]
  · simp [cilkred_map_insert_no_rehash, g_ok, k1, k2, k3, v3, hashfun_one, cilkred_map_grow,
      grow_realloc, one_bucket_map, null_elem, find_empty, List.replicate]
  · simp [cilkred_map_insert_no_rehash, g_ok, k1, k2, k3, k4, v4, hashfun_one, cilkred_map_grow,
      grow_realloc, one_bucket_map, null_elem, find_empty, List.replicate]
  · simp [cilkred_map_insert_no_rehash, g_ok, k1, k2, k3, k4, k5, v5, hashfun_one,
      cilkred_map_grow, grow_realloc, r8, one_bucket_map, null_elem, find_empty, List.replicate]
  · simp [cilkred_map_lookup, hashfun_one, one_bucket_map, lookup_scan, k1, v1]
  · simp [get_slot, one_bucket_map]
  · simp [cilkred_map_lookup, hashfun_one, one_bucket_map, lookup_scan, k1, k2, v2, d12]
  · simp [cilkred_map_lookup, hashfun_one, one_bucket_map, lookup_scan, k1, k2, k3, v3, d13, d23]
  · simp [cilkred_map_lookup, hashfun_one, one_bucket_map, lookup_scan, k1, k2, k3, k4, v4, d14,
      d24, d34]
  · simp [cilkred_map_lookup, hashfun_one, one_bucket_map, lookup_scan, k1, k2, k3, k4, k5, v5,
      d15, d25, d35, d45]

/-- Witness of C21: the five sample elements. -/
theorem C21_bucket_growth_scenario_witness :
    ((⟨8, 1, 8⟩ : elem).key ≠ 0 ∧ (⟨16, 2, 17⟩ : elem).key ≠ 0 ∧ (⟨24, 3, 25⟩ : elem).key ≠ 0 ∧
      (⟨2097160, 4, 33⟩ : elem).key ≠ 0 ∧ (⟨40, 5, 41⟩ : elem).key ≠ 0) ∧
    [(⟨8, 1, 8⟩ : elem).key, (⟨16, 2, 17⟩ : elem).key, (⟨24, 3, 25⟩ : elem).key,
      (⟨2097160, 4, 33⟩ : elem).key, (⟨40, 5, 41⟩ : elem).key].Nodup ∧
    cilkred_map_insert_no_rehash
        (one_bucket_map 7 4 [⟨8, 1, 8⟩, ⟨16, 2, 17⟩, ⟨24, 3, 25⟩, ⟨2097160, 4, 33⟩])
        (some sample_worker) 40 5 41 =
      Res.ok (0, 4)
        (one_bucket_map 7 9 [⟨8, 1, 8⟩, ⟨16, 2, 17⟩, ⟨24, 3, 25⟩, ⟨2097160, 4, 33⟩, ⟨40, 5, 41⟩]) ∧
    cilkred_map_lookup
        (one_bucket_map 7 9 [⟨8, 1, 8⟩, ⟨16, 2, 17⟩, ⟨24, 3, 25⟩, ⟨2097160, 4, 33⟩, ⟨40, 5, 41⟩]) 8 =
      Res.ok (some (0, 0))
        (one_bucket_map 7 9 [⟨8, 1, 8⟩, ⟨16, 2, 17⟩, ⟨24, 3, 25⟩, ⟨2097160, 4, 33⟩, ⟨40, 5, 41⟩]) ∧
    get_slot
        (one_bucket_map 7 9 [⟨8, 1, 8⟩, ⟨16, 2, 17⟩, ⟨24, 3, 25⟩, ⟨2097160, 4, 33⟩, ⟨40, 5, 41⟩])
        (0, 0) = ⟨8, 1, 8⟩ :=
  have h := C21_bucket_growth_scenario sample_worker ⟨8, 1, 8⟩ ⟨16, 2, 17⟩ ⟨24, 3, 25⟩
    ⟨2097160, 4, 33⟩ ⟨40, 5, 41⟩ (by decide) (by decide) (by decide)
  ⟨by decide, by decide, h.2.2.2.2.2.1, h.2.2.2.2.2.2.2.1.1, h.2.2.2.2.2.2.2.1.2⟩

/-- C22: migration.  Let both maps be well-formed and the surviving map not be
the leftmost map (the call made by the thread-local worker on its own frame,
the maps being of its global state).  A merge of kind `MERGE_INTO_LEFT` or
`MERGE_INTO_RIGHT` returns.  Whenever `cilkred_map_merge`, of any kind,
returns: for every key `K` found in the other map only, no callback has been
made for `K`, neither `reduce_fn` nor `deallocate_fn`, and
`cilkred_map_lookup(K)` on the surviving map finds an element with the key, the
descriptor and the view pointer it had in the other map; every key found in
the surviving map only is still found there with its descriptor and view
pointer. -/
theorem C22_merge_migration (env : sched_env) (this_map : cilkred_map)
    (w : __cilkrts_worker) (other_map : cilkred_map) (kind : merge_kind)
    (hwf : WF this_map) (hwfo : WF other_map)
    (hg : g_ok (some w) this_map = true) (hgo : g_ok (some w) other_map = true)
    (hfr : env.sf_worker w.current_stack_frame = w.self) (htls : w.self = env.tls_worker)
    (hnl : this_map.is_leftmost = false) :
    (kind ≠ merge_kind.MERGE_UNORDERED → other_map.is_leftmost = false →
      ∃ st, cilkred_map_merge env this_map w other_map kind = Res.ok w st) ∧
    (∀ w1 st, cilkred_map_merge env this_map w other_map kind = Res.ok w1 st →
      (∀ K pO, cilkred_map_lookup other_map K = Res.ok (some pO) other_map →
        cilkred_map_lookup this_map K = Res.ok none this_map →
        events_of K st.trace = [] ∧
        ∃ p, cilkred_map_lookup st.this_map K = Res.ok (some p) st.this_map ∧
          get_slot st.this_map p = get_slot other_map pO) ∧
      (∀ K pT, cilkred_map_lookup this_map K = Res.ok (some pT) this_map →
        cilkred_map_lookup other_map K = Res.ok none other_map →
        ∃ p, cilkred_map_lookup st.this_map K = Res.ok (some p) st.this_map ∧
          get_slot st.this_map p = get_slot this_map pT)) := by
  refine ⟨?_, ?_⟩
  · intro hkind hol
    obtain ⟨m1, hm, -⟩ :=
      (merge_spec env this_map w other_map kind hwf hwfo hg hgo hfr htls hol).1 (Or.inl hkind)
    exact ⟨_, hm⟩
  · intro w1 st hok
    obtain ⟨-, htr, hwf1, -, -, -, hf1, -⟩ :=
      merge_ok_spec env this_map w other_map kind hwf hwfo hg hgo hfr htls w1 st hok
    refine ⟨?_, ?_⟩
    · intro K pO hO hT
      have hfO := find_of_lookup_some other_map other_map hwfo K pO hO
      have hfT := find_of_lookup_none this_map this_map hwf K hT
      have hkey : (get_slot other_map pO).key = K := (find_key_ne_zero other_map K _ hfO).2
      generalize get_slot other_map pO = oe at hfO hkey ⊢
      have htarget : merge_target this_map.is_leftmost (find this_map oe.key) oe = none := by
        rw [hkey, hfT, hnl]
        simp [merge_target]
      refine ⟨?_, ?_⟩
      · rw [htr, merge_trace_of kind this_map.is_leftmost this_map other_map hwfo K, hfO]
        simp only [Option.map_some', Option.getD_some, loop_events, other_after, htarget,
          dealloc_of, ne_eq, not_true_eq_false, if_false, List.append_nil]
      · have hfS : find st.this_map K = some oe := by
          rw [hf1 K, hfO]
          simp only [Option.map_some', surv_elem, htarget, Option.or_some]
        obtain ⟨p, hp1, hp2, -⟩ := lookup_of_find_some st.this_map hwf1 K oe hfS
        exact ⟨p, hp1, hp2⟩
    · intro K pT hT hO
      have hfT := find_of_lookup_some this_map this_map hwf K pT hT
      have hfO := find_of_lookup_none other_map other_map hwfo K hO
      have hfS : find st.this_map K = some (get_slot this_map pT) := by
        rw [hf1 K, hfO, hfT]
        rfl
      obtain ⟨p, hp1, hp2, -⟩ := lookup_of_find_some st.this_map hwf1 K _ hfS
      exact ⟨p, hp1, hp2⟩

/-- Witness of C22: the one-element map of key 24 merged, unordered, into the
one-element map of key 8. -/
theorem C22_merge_migration_witness :
    (WF map_8_9 ∧ WF map_24_25 ∧ g_ok (some sample_worker) map_8_9 = true ∧
      g_ok (some sample_worker) map_24_25 = true ∧
      sample_env.sf_worker sample_worker.current_stack_frame = sample_worker.self ∧
      sample_worker.self = sample_env.tls_worker ∧ map_8_9.is_leftmost = false ∧
      cilkred_map_merge sample_env map_8_9 sample_worker map_24_25 merge_kind.MERGE_UNORDERED =
        Res.ok sample_worker ⟨merged_8_24, []⟩ ∧
      cilkred_map_lookup map_24_25 24 = Res.ok (some (0, 0)) map_24_25 ∧
      cilkred_map_lookup map_8_9 24 = Res.ok none map_8_9 ∧
      cilkred_map_lookup map_8_9 8 = Res.ok (some (0, 0)) map_8_9 ∧
      cilkred_map_lookup map_24_25 8 = Res.ok none map_24_25) ∧
    (events_of 24 [] = [] ∧
      ∃ p, cilkred_map_lookup merged_8_24 24 = Res.ok (some p) merged_8_24 ∧
        get_slot merged_8_24 p = get_slot map_24_25 (0, 0)) ∧
    (∃ p, cilkred_map_lookup merged_8_24 8 = Res.ok (some p) merged_8_24 ∧
      get_slot merged_8_24 p = get_slot map_8_9 (0, 0)) :=
  have h := (C22_merge_migration sample_env map_8_9 sample_worker map_24_25
    merge_kind.MERGE_UNORDERED (by decide) (by decide) (by decide) (by decide) rfl rfl rfl).2
    sample_worker ⟨merged_8_24, []⟩ (by decide)
  ⟨⟨by decide, by decide, by decide, by decide, rfl, rfl, rfl, by decide, by decide, by decide,
      by decide, by decide⟩,
    h.1 24 (0, 0) (by decide) (by decide), h.2 8 (0, 0) (by decide) (by decide)⟩

/-- C23: leftmost materialisation.  Let both maps be well-formed, the surviving
map be the leftmost map and the other map not (the call made by the
thread-local worker on its own frame, the maps being of its global state), and
let the other map hold the key `K` with a view `V != K` while the surviving map
does not hold `K`.  The loop body for `K` first inserts `(K, hb, K)` with
`cilkred_map_rehash_and_insert` and then goes through the switch of a
collision.  With `MERGE_INTO_LEFT` the merge returns, the callbacks made for
`K` are `reduce_fn(hb, K, V)` followed by the deallocation of `V` when the
other map is destroyed, and the surviving map maps `K` to the view `K`.  With
`MERGE_INTO_RIGHT` the merge returns, the only callback made for `K` is
`reduce_fn(hb, V, K)`, and the surviving map maps `K` to the view `V`.  With
`MERGE_UNORDERED` the merge is fatal. -/
theorem C23_leftmost_materialization (env : sched_env) (this_map : cilkred_map)
    (w : __cilkrts_worker) (other_map : cilkred_map)
    (hwf : WF this_map) (hwfo : WF other_map)
    (hg : g_ok (some w) this_map = true) (hgo : g_ok (some w) other_map = true)
    (hfr : env.sf_worker w.current_stack_frame = w.self) (htls : w.self = env.tls_worker)
    (hlm : this_map.is_leftmost = true) (hol : other_map.is_leftmost = false)
    (K hb V : Nat) (pO : Nat × Nat)
    (hO : cilkred_map_lookup other_map K = Res.ok (some pO) other_map)
    (hsl : get_slot other_map pO = ⟨K, hb, V⟩) (hVK : V ≠ K)
    (hT : cilkred_map_lookup this_map K = Res.ok none this_map) :
    (∀ kind tr, ∃ p m1,
      cilkred_map_rehash_and_insert { this_map with merging := true } (some w) K hb K =
        Res.ok p m1 ∧
      get_slot m1 p = ⟨K, hb, K⟩ ∧
      merge_elem env w kind true ⟨K, hb, V⟩ ⟨{ this_map with merging := true }, tr⟩ =
        match kind with
        | merge_kind.MERGE_UNORDERED => Res.fatal Fault.reducer_race ⟨m1, tr⟩
        | merge_kind.MERGE_INTO_RIGHT =>
          merge_reduce env w K hb p ⟨K, hb, K⟩ ⟨set_slot m1 p ⟨K, hb, V⟩, tr⟩
        | merge_kind.MERGE_INTO_LEFT => merge_reduce env w K hb p ⟨K, hb, V⟩ ⟨m1, tr⟩) ∧
    (∃ st p, cilkred_map_merge env this_map w other_map merge_kind.MERGE_INTO_LEFT =
        Res.ok w st ∧
      events_of K st.trace = [Event.reduce K hb K V, Event.deallocate K hb V] ∧
      cilkred_map_lookup st.this_map K = Res.ok (some p) st.this_map ∧
      get_slot st.this_map p = ⟨K, hb, K⟩) ∧
    (∃ st p, cilkred_map_merge env this_map w other_map merge_kind.MERGE_INTO_RIGHT =
        Res.ok w st ∧
      events_of K st.trace = [Event.reduce K hb V K] ∧
      cilkred_map_lookup st.this_map K = Res.ok (some p) st.this_map ∧
      get_slot st.this_map p = ⟨K, hb, V⟩) ∧
    (∃ why st, cilkred_map_merge env this_map w other_map merge_kind.MERGE_UNORDERED =
      Res.fatal why st) := by
  have hfO := find_of_lookup_some other_map other_map hwfo K pO hO
  rw [hsl] at hfO
  have hfT := find_of_lookup_none this_map this_map hwf K hT
  have hV0 : V ≠ 0 := (find_view_ne other_map hwfo K _ hfO).1
  have hK0 : K ≠ 0 := (find_view_ne other_map hwfo K _ hfO).2.1
  have htarget : merge_target this_map.is_leftmost (find this_map K) ⟨K, hb, V⟩ =
      some ⟨K, hb, K⟩ := by
    rw [hfT, hlm]
    simp only [merge_target, true_and, ne_eq]
    rw [if_pos (fun h => hVK h.symm)]
  have hev : ∀ kind, events_of K
      ((entries other_map).flatMap
          (fun oe => loop_events kind this_map.is_leftmost (find this_map oe.key) oe) ++
        ((entries other_map).map
          (fun oe => other_after kind this_map.is_leftmost (find this_map oe.key) oe)).flatMap
          dealloc_of) =
      loop_events kind this_map.is_leftmost (find this_map K) ⟨K, hb, V⟩ ++
        dealloc_of (other_after kind this_map.is_leftmost (find this_map K) ⟨K, hb, V⟩) := by
    intro kind
    rw [merge_trace_of kind this_map.is_leftmost this_map other_map hwfo K, hfO]
    rfl
  refine ⟨?_, ?_, ?_, ?_⟩
  · intro kind tr
    have hwfm : WF ({ this_map with merging := true } : cilkred_map) := hwf
    obtain ⟨p, m1, hri, hslot, hme⟩ :=
      merge_elem_materialize env w kind ⟨K, hb, V⟩ ⟨{ this_map with merging := true }, tr⟩
        hwfm hg hK0 hV0 hVK hfT
    refine ⟨p, m1, hri, hslot, ?_⟩
    rw [hme]
    cases kind <;> simp only [hslot]
  · obtain ⟨m1, hm, hwf1, -, -, -, hf1⟩ :=
      (merge_spec env this_map w other_map merge_kind.MERGE_INTO_LEFT hwf hwfo hg hgo hfr htls
        hol).1 (Or.inl (by decide))
    have hfS : find m1 K = some ⟨K, hb, K⟩ := by
      rw [hf1 K, hfO]
      simp only [Option.map_some', surv_elem, htarget, Option.or_some]
    obtain ⟨p, hp1, hp2, -⟩ := lookup_of_find_some m1 hwf1 K _ hfS
    refine ⟨_, p, hm, ?_, hp1, hp2⟩
    rw [hev]
    simp only [loop_events, other_after, htarget, dealloc_of_eq K hb V hV0, if_neg hVK,
      List.singleton_append]
  · obtain ⟨m1, hm, hwf1, -, -, -, hf1⟩ :=
      (merge_spec env this_map w other_map merge_kind.MERGE_INTO_RIGHT hwf hwfo hg hgo hfr htls
        hol).1 (Or.inl (by decide))
    have hfS : find m1 K = some ⟨K, hb, V⟩ := by
      rw [hf1 K, hfO]
      simp only [Option.map_some', surv_elem, htarget, Option.or_some]
    obtain ⟨p, hp1, hp2, -⟩ := lookup_of_find_some m1 hwf1 K _ hfS
    refine ⟨_, p, hm, ?_, hp1, hp2⟩
    rw [hev]
    simp only [loop_events, other_after, htarget, dealloc_of_eq K hb K hK0, if_true,
      List.append_nil]
  · refine (merge_spec env this_map w other_map merge_kind.MERGE_UNORDERED hwf hwfo hg hgo hfr
      htls hol).2 rfl ⟨⟨K, hb, V⟩, ((entries_spec other_map hwfo).2.2.2 _).2 hfO, ?_⟩
    rw [htarget]
    simp

/-- Witness of C23: the one-element map holding key 8 with the private view 10
merged into the empty leftmost map. -/
theorem C23_leftmost_materialization_witness :
    (WF empty_leftmost_map ∧ WF map_8_10 ∧ g_ok (some sample_worker) empty_leftmost_map = true ∧
      g_ok (some sample_worker) map_8_10 = true ∧
      sample_env.sf_worker sample_worker.current_stack_frame = sample_worker.self ∧
      sample_worker.self = sample_env.tls_worker ∧ empty_leftmost_map.is_leftmost = true ∧
      map_8_10.is_leftmost = false ∧
      cilkred_map_lookup map_8_10 8 = Res.ok (some (0, 0)) map_8_10 ∧
      get_slot map_8_10 (0, 0) = ⟨8, 1, 10⟩ ∧ 10 ≠ 8 ∧
      cilkred_map_lookup empty_leftmost_map 8 = Res.ok none empty_leftmost_map) ∧
    (∃ st p, cilkred_map_merge sample_env empty_leftmost_map sample_worker map_8_10
          merge_kind.MERGE_INTO_LEFT = Res.ok sample_worker st ∧
      events_of 8 st.trace = [Event.reduce 8 1 8 10, Event.deallocate 8 1 10] ∧
      cilkred_map_lookup st.this_map 8 = Res.ok (some p) st.this_map ∧
      get_slot st.this_map p = ⟨8, 1, 8⟩) ∧
    (∃ st p, cilkred_map_merge sample_env empty_leftmost_map sample_worker map_8_10
          merge_kind.MERGE_INTO_RIGHT = Res.ok sample_worker st ∧
      events_of 8 st.trace = [Event.reduce 8 1 10 8] ∧
      cilkred_map_lookup st.this_map 8 = Res.ok (some p) st.this_map ∧
      get_slot st.this_map p = ⟨8, 1, 10⟩) ∧
    (∃ why st, cilkred_map_merge sample_env empty_leftmost_map sample_worker map_8_10
      merge_kind.MERGE_UNORDERED = Res.fatal why st) :=
  ⟨⟨by decide, by decide, by decide, by decide, rfl, rfl, rfl, rfl, by decide, by decide,
      by decide, by decide⟩,
    (C23_leftmost_materialization sample_env empty_leftmost_map sample_worker map_8_10
      (by decide) (by decide) (by decide) (by decide) rfl rfl rfl rfl 8 1 10 (0, 0) (by decide)
      (by decide) (by decide) (by decide)).2⟩

/-- C24: for two well-formed maps neither of which is the leftmost map (the
call made by the thread-local worker on its own frame, the maps being of its
global state), `__cilkrts_internal_merge_two_rmaps` returns, and what it
returns is the larger map with the smaller one merged into it.

If `left.nelem > right.nelem`, the call returns the left map as
`cilkred_map_merge(left, ws, right, MERGE_INTO_LEFT)` leaves it, with the trace
of that merge.  The returned map is well-formed, not leftmost, not merging, of
the same global state, and holds at least `left.nelem` and at most
`left.nelem + right.nelem` elements.  `cilkred_map_lookup` finds a key in it
exactly when it finds the key in the left or in the right map.  Every key of
the left map is found with the element (key, descriptor, view pointer) it has
in the left map; every key of the right map only is found with the element it
has in the right map.  For a key of both maps the reduce calls are exactly one,
`reduce(left view, right view)`; for a key that one of the two maps lacks there
is no callback at all.

Otherwise, also when the two counts are equal, the call returns the right map
as `cilkred_map_merge(right, ws, left, MERGE_INTO_RIGHT)` leaves it, with the
trace of that merge.  The returned map is well-formed, not leftmost, not
merging, of the same global state, and holds at least `right.nelem` and at most
`left.nelem + right.nelem` elements.  `cilkred_map_lookup` finds a key in it
exactly when it finds the key in the left or in the right map.  Every key of
the right map only is found with the element it has in the right map, every key
of the left map only with the element it has in the left map.  For a key of
both maps the reduce calls are exactly one, `reduce(left view, right view)`,
and the key is found in the slot of the right map (its descriptor) with the
view pointer of the left map; for a key that one of the two maps lacks there is
no callback at all. -/
theorem C24_merge_smaller_into_larger (env : sched_env) (ws : __cilkrts_worker)
    (l r : cilkred_map) (hwfl : WF l) (hwfr : WF r)
    (hgl : g_ok (some ws) l = true) (hgr : g_ok (some ws) r = true)
    (hfr : env.sf_worker ws.current_stack_frame = ws.self) (htls : ws.self = env.tls_worker)
    (hl : l.is_leftmost = false) (hr : r.is_leftmost = false) :
    (l.nelem > r.nelem →
      ∃ st, cilkred_map_merge env l ws r merge_kind.MERGE_INTO_LEFT = Res.ok ws st ∧
        __cilkrts_internal_merge_two_rmaps env ws (some l) (some r) =
          Res.ok (some st.this_map) st.trace ∧
        WF st.this_map ∧ st.this_map.g = l.g ∧ st.this_map.is_leftmost = false ∧
        st.this_map.merging = false ∧
        l.nelem ≤ st.this_map.nelem ∧ st.this_map.nelem ≤ l.nelem + r.nelem ∧
        (∀ K, (∃ p, cilkred_map_lookup st.this_map K = Res.ok (some p) st.this_map) ↔
          ((∃ p, cilkred_map_lookup l K = Res.ok (some p) l) ∨
            (∃ p, cilkred_map_lookup r K = Res.ok (some p) r))) ∧
        (∀ K pL, cilkred_map_lookup l K = Res.ok (some pL) l →
          ∃ p, cilkred_map_lookup st.this_map K = Res.ok (some p) st.this_map ∧
            get_slot st.this_map p = get_slot l pL) ∧
        (∀ K pR, cilkred_map_lookup r K = Res.ok (some pR) r →
          cilkred_map_lookup l K = Res.ok none l →
          ∃ p, cilkred_map_lookup st.this_map K = Res.ok (some p) st.this_map ∧
            get_slot st.this_map p = get_slot r pR) ∧
        (∀ K pL pR, cilkred_map_lookup l K = Res.ok (some pL) l →
          cilkred_map_lookup r K = Res.ok (some pR) r →
          (events_of K st.trace).filter Event.isReduce =
            [Event.reduce K (get_slot r pR).hb (get_slot l pL).view (get_slot r pR).view]) ∧
        (∀ K, cilkred_map_lookup l K = Res.ok none l ∨
            cilkred_map_lookup r K = Res.ok none r →
          events_of K st.trace = [])) ∧
    (l.nelem ≤ r.nelem →
      ∃ st, cilkred_map_merge env r ws l merge_kind.MERGE_INTO_RIGHT = Res.ok ws st ∧
        __cilkrts_internal_merge_two_rmaps env ws (some l) (some r) =
          Res.ok (some st.this_map) st.trace ∧
        WF st.this_map ∧ st.this_map.g = r.g ∧ st.this_map.is_leftmost = false ∧
        st.this_map.merging = false ∧
        r.nelem ≤ st.this_map.nelem ∧ st.this_map.nelem ≤ l.nelem + r.nelem ∧
        (∀ K, (∃ p, cilkred_map_lookup st.this_map K = Res.ok (some p) st.this_map) ↔
          ((∃ p, cilkred_map_lookup l K = Res.ok (some p) l) ∨
            (∃ p, cilkred_map_lookup r K = Res.ok (some p) r))) ∧
        (∀ K pR, cilkred_map_lookup r K = Res.ok (some pR) r →
          cilkred_map_lookup l K = Res.ok none l →
          ∃ p, cilkred_map_lookup st.this_map K = Res.ok (some p) st.this_map ∧
            get_slot st.this_map p = get_slot r pR) ∧
        (∀ K pL, cilkred_map_lookup l K = Res.ok (some pL) l →
          cilkred_map_lookup r K = Res.ok none r →
          ∃ p, cilkred_map_lookup st.this_map K = Res.ok (some p) st.this_map ∧
            get_slot st.this_map p = get_slot l pL) ∧
        (∀ K pL pR, cilkred_map_lookup l K = Res.ok (some pL) l →
          cilkred_map_lookup r K = Res.ok (some pR) r →
          (events_of K st.trace).filter Event.isReduce =
              [Event.reduce K (get_slot l pL).hb (get_slot l pL).view (get_slot r pR).view] ∧
            ∃ p, cilkred_map_lookup st.this_map K = Res.ok (some p) st.this_map ∧
              get_slot st.this_map p = ⟨K, (get_slot r pR).hb, (get_slot l pL).view⟩) ∧
        (∀ K, cilkred_map_lookup l K = Res.ok none l ∨
            cilkred_map_lookup r K = Res.ok none r →
          events_of K st.trace = [])) := by
  have hsome : ∀ (m : cilkred_map), WF m → ∀ K,
      (∃ p, cilkred_map_lookup m K = Res.ok (some p) m) ∨
        cilkred_map_lookup m K = Res.ok none m := by
    intro m hwf K
    obtain ⟨res, h1, -⟩ := lookup_spec m hwf K
    cases res with
    | none => exact Or.inr h1
    | some p => exact Or.inl ⟨p, h1⟩
  refine ⟨?_, ?_⟩
  · intro hgt
    obtain ⟨m1, hm, -⟩ :=
      (merge_spec env l ws r merge_kind.MERGE_INTO_LEFT hwfl hwfr hgl hgr hfr htls hr).1
        (Or.inl (by decide))
    obtain ⟨-, -, hwf1, hg1, hmg1, hlm1, -, -⟩ :=
      merge_ok_spec env l ws r _ hwfl hwfr hgl hgr hfr htls ws _ hm
    obtain ⟨hT, hO, hB⟩ :=
      merge_survivor_holds env l ws r _ hwfl hwfr hgl hgr hfr htls hl ws _ hm
    obtain ⟨hn1, -, hn3⟩ := merge_nelem_bounds env l ws r _ hwfl hwfr hgl hgr hfr htls ws _ hm
    refine ⟨_, hm, ?_, hwf1, hg1, by rw [hlm1, hl], hmg1, hn1, hn3,
      merge_keys_union env l ws r _ hwfl hwfr hgl hgr hfr htls ws _ hm, ?_, ?_, ?_, ?_⟩
    · simp only [__cilkrts_internal_merge_two_rmaps, hgt, or_true, if_true, hm]
    · intro K pL hL
      rcases hsome r hwfr K with ⟨pR, hR⟩ | hR
      · exact (hB K pL pR hL hR).2
      · exact (hT K pL hL hR).2
    · intro K pR hR hL
      exact (hO K pR hR hL).2
    · intro K pL pR hL hR
      exact (hB K pL pR hL hR).1
    · intro K hK
      rcases hsome l hwfl K with ⟨pL, hL⟩ | hL
      · rcases hK with hL0 | hR
        · rw [hL] at hL0; cases hL0
        · exact (hT K pL hL hR).1
      · rcases hsome r hwfr K with ⟨pR, hR⟩ | hR
        · exact (hO K pR hR hL).1
        · obtain ⟨-, htr, -⟩ :=
            merge_ok_spec env l ws r _ hwfl hwfr hgl hgr hfr htls ws _ hm
          rw [htr, merge_trace_of _ _ l r hwfr K, find_of_lookup_none r r hwfr K hR]
          rfl
  · intro hle
    obtain ⟨m1, hm, -⟩ :=
      (merge_spec env r ws l merge_kind.MERGE_INTO_RIGHT hwfr hwfl hgr hgl hfr htls hl).1
        (Or.inl (by decide))
    obtain ⟨-, -, hwf1, hg1, hmg1, hlm1, -, -⟩ :=
      merge_ok_spec env r ws l _ hwfr hwfl hgr hgl hfr htls ws _ hm
    obtain ⟨hT, hO, hB⟩ :=
      merge_survivor_holds env r ws l _ hwfr hwfl hgr hgl hfr htls hr ws _ hm
    obtain ⟨hn1, -, hn3⟩ := merge_nelem_bounds env r ws l _ hwfr hwfl hgr hgl hfr htls ws _ hm
    have hcond : ¬ (l.is_leftmost = true ∨ l.nelem > r.nelem) := by
      rw [hl]
      simp only [Bool.false_eq_true, false_or]
      omega
    refine ⟨_, hm, ?_, hwf1, hg1, by rw [hlm1, hr], hmg1, hn1, by omega, ?_, ?_, ?_, ?_, ?_⟩
    · simp only [__cilkrts_internal_merge_two_rmaps, hcond, if_false, hm]
    · intro K
      rw [merge_keys_union env r ws l _ hwfr hwfl hgr hgl hfr htls ws _ hm K]
      exact Or.comm
    · intro K pR hR hL
      exact (hT K pR hR hL).2
    · intro K pL hL hR
      exact (hO K pL hL hR).2
    · intro K pL pR hL hR
      exact hB K pR pL hR hL
    · intro K hK
      rcases hsome r hwfr K with ⟨pR, hR⟩ | hR
      · rcases hK with hL | hR0
        · exact (hT K pR hR hL).1
        · rw [hR] at hR0; cases hR0
      · rcases hsome l hwfl K with ⟨pL, hL⟩ | hL
        · exact (hO K pL hL hR).1
        · obtain ⟨-, htr, -⟩ :=
            merge_ok_spec env r ws l _ hwfr hwfl hgr hgl hfr htls ws _ hm
          rw [htr, merge_trace_of _ _ r l hwfl K, find_of_lookup_none l l hwfl K hL]
          rfl

/-- Witness of C24: the three-element sample map on the left of a one-element
map holding one of its keys, so that the left map survives; and two one-element
maps with the same key, so that the right map survives with the view of the
left one. -/
theorem C24_merge_smaller_into_larger_witness :
    (WF sample_map ∧ WF map_24_25 ∧ WF map_8_9 ∧ WF map_8_10 ∧
      g_ok (some sample_worker) sample_map = true ∧
      g_ok (some sample_worker) map_24_25 = true ∧ g_ok (some sample_worker) map_8_9 = true ∧
      g_ok (some sample_worker) map_8_10 = true ∧
      sample_env.sf_worker sample_worker.current_stack_frame = sample_worker.self ∧
      sample_worker.self = sample_env.tls_worker ∧ sample_map.is_leftmost = false ∧
      map_24_25.is_leftmost = false ∧ map_8_9.is_leftmost = false ∧
      map_8_10.is_leftmost = false ∧
      sample_map.nelem > map_24_25.nelem ∧ map_8_9.nelem ≤ map_8_10.nelem) ∧
    (∃ st, cilkred_map_merge sample_env sample_map sample_worker map_24_25
          merge_kind.MERGE_INTO_LEFT = Res.ok sample_worker st ∧
        __cilkrts_internal_merge_two_rmaps sample_env sample_worker (some sample_map)
            (some map_24_25) =
          Res.ok (some st.this_map) st.trace ∧
        WF st.this_map ∧ st.this_map.g = sample_map.g ∧ st.this_map.is_leftmost = false ∧
        st.this_map.merging = false ∧
        sample_map.nelem ≤ st.this_map.nelem ∧
        st.this_map.nelem ≤ sample_map.nelem + map_24_25.nelem ∧
        (∀ K, (∃ p, cilkred_map_lookup st.this_map K = Res.ok (some p) st.this_map) ↔
          ((∃ p, cilkred_map_lookup sample_map K = Res.ok (some p) sample_map) ∨
            (∃ p, cilkred_map_lookup map_24_25 K = Res.ok (some p) map_24_25))) ∧
        (∀ K pL, cilkred_map_lookup sample_map K = Res.ok (some pL) sample_map →
          ∃ p, cilkred_map_lookup st.this_map K = Res.ok (some p) st.this_map ∧
            get_slot st.this_map p = get_slot sample_map pL) ∧
        (∀ K pR, cilkred_map_lookup map_24_25 K = Res.ok (some pR) map_24_25 →
          cilkred_map_lookup sample_map K = Res.ok none sample_map →
          ∃ p, cilkred_map_lookup st.this_map K = Res.ok (some p) st.this_map ∧
            get_slot st.this_map p = get_slot map_24_25 pR) ∧
        (∀ K pL pR, cilkred_map_lookup sample_map K = Res.ok (some pL) sample_map →
          cilkred_map_lookup map_24_25 K = Res.ok (some pR) map_24_25 →
          (events_of K st.trace).filter Event.isReduce =
            [Event.reduce K (get_slot map_24_25 pR).hb (get_slot sample_map pL).view
              (get_slot map_24_25 pR).view]) ∧
        (∀ K, cilkred_map_lookup sample_map K = Res.ok none sample_map ∨
            cilkred_map_lookup map_24_25 K = Res.ok none map_24_25 →
          events_of K st.trace = [])) ∧
    (∃ st, cilkred_map_merge sample_env map_8_10 sample_worker map_8_9
          merge_kind.MERGE_INTO_RIGHT = Res.ok sample_worker st ∧
        __cilkrts_internal_merge_two_rmaps sample_env sample_worker (some map_8_9) (some map_8_10) =
          Res.ok (some st.this_map) st.trace ∧
        WF st.this_map ∧ st.this_map.g = map_8_10.g ∧ st.this_map.is_leftmost = false ∧
        st.this_map.merging = false ∧
        map_8_10.nelem ≤ st.this_map.nelem ∧
        st.this_map.nelem ≤ map_8_9.nelem + map_8_10.nelem ∧
        (∀ K, (∃ p, cilkred_map_lookup st.this_map K = Res.ok (some p) st.this_map) ↔
          ((∃ p, cilkred_map_lookup map_8_9 K = Res.ok (some p) map_8_9) ∨
            (∃ p, cilkred_map_lookup map_8_10 K = Res.ok (some p) map_8_10))) ∧
        (∀ K pR, cilkred_map_lookup map_8_10 K = Res.ok (some pR) map_8_10 →
          cilkred_map_lookup map_8_9 K = Res.ok none map_8_9 →
          ∃ p, cilkred_map_lookup st.this_map K = Res.ok (some p) st.this_map ∧
            get_slot st.this_map p = get_slot map_8_10 pR) ∧
        (∀ K pL, cilkred_map_lookup map_8_9 K = Res.ok (some pL) map_8_9 →
          cilkred_map_lookup map_8_10 K = Res.ok none map_8_10 →
          ∃ p, cilkred_map_lookup st.this_map K = Res.ok (some p) st.this_map ∧
            get_slot st.this_map p = get_slot map_8_9 pL) ∧
        (∀ K pL pR, cilkred_map_lookup map_8_9 K = Res.ok (some pL) map_8_9 →
          cilkred_map_lookup map_8_10 K = Res.ok (some pR) map_8_10 →
          (events_of K st.trace).filter Event.isReduce =
              [Event.reduce K (get_slot map_8_9 pL).hb (get_slot map_8_9 pL).view
                (get_slot map_8_10 pR).view] ∧
            ∃ p, cilkred_map_lookup st.this_map K = Res.ok (some p) st.this_map ∧
              get_slot st.this_map p =
                ⟨K, (get_slot map_8_10 pR).hb, (get_slot map_8_9 pL).view⟩) ∧
        (∀ K, cilkred_map_lookup map_8_9 K = Res.ok none map_8_9 ∨
            cilkred_map_lookup map_8_10 K = Res.ok none map_8_10 →
          events_of K st.trace = [])) :=
  ⟨⟨by decide, by decide, by decide, by decide, by decide, by decide, by decide, by decide,
      rfl, rfl, rfl, rfl, rfl, rfl, by decide, by decide⟩,
    (C24_merge_smaller_into_larger sample_env sample_worker sample_map map_24_25 (by decide)
      (by decide) (by decide) (by decide) rfl rfl rfl rfl).1 (by decide),
    (C24_merge_smaller_into_larger sample_env sample_worker map_8_9 map_8_10 (by decide)
      (by decide) (by decide) (by decide) rfl rfl rfl rfl).2 (by decide)⟩

/-- C25: the bucket shape invariant (`bucket_shape`: `nmax + 1` slots, key zero
in slot `nmax`, the non-zero keys a prefix `el[0..n)` with `n <= nmax`).
`cilkred_map_grow` on a null bucket pointer returns slot 0 of a new bucket of
capacity 1 with that shape.  On a pointer to a bucket with that shape (or a
null pointer) it returns a bucket and a slot index below its capacity, the
first slot with key zero; the bucket is the old one or a new one of capacity
`roundup(2 * nmax)`, larger than the old capacity; after the write of an
element with non-zero key into that slot the bucket has the shape again.  A
returning `cilkred_map_insert_no_rehash` so keeps all buckets of a map in
shape.  The shift loop of `__cilkrts_hyper_destroy` at a slot with non-zero key
of a bucket in shape leaves the bucket in shape, and the last slot it touches
has an index of at most `nmax`; a returning `__cilkrts_hyper_destroy` so keeps
all buckets of the map in shape. -/
theorem C25_bucket_shape_invariant :
    (cilkred_map_grow none = (⟨1, [null_elem, null_elem]⟩, 0) ∧
      bucket_shape ⟨1, [null_elem, null_elem]⟩) ∧
    (∀ ob e, (∀ b, ob = some b → bucket_shape b) → e.key ≠ 0 →
      (cilkred_map_grow ob).2 < (cilkred_map_grow ob).1.nmax ∧
      (∀ i, i < (cilkred_map_grow ob).2 →
        ((cilkred_map_grow ob).1.el.getD i null_elem).key ≠ 0) ∧
      ((cilkred_map_grow ob).1.el.getD (cilkred_map_grow ob).2 null_elem).key = 0 ∧
      bucket_shape (cilkred_map_grow ob).1 ∧
      bucket_shape ⟨(cilkred_map_grow ob).1.nmax,
        (cilkred_map_grow ob).1.el.set (cilkred_map_grow ob).2 e⟩ ∧
      (∀ b, ob = some b → (cilkred_map_grow ob).1 = b ∨
        (b.nmax < (cilkred_map_grow ob).1.nmax ∧
          (cilkred_map_grow ob).1.nmax = roundup (2 * b.nmax)))) ∧
    (∀ m w key hb view p m1, (∀ i b, bkt m i = some b → bucket_shape b) →
      cilkred_map_insert_no_rehash m w key hb view = Res.ok p m1 →
      ∀ i b, bkt m1 i = some b → bucket_shape b) ∧
    (∀ b p e0, bucket_shape b → (b.el.getD p null_elem).key ≠ 0 →
      bucket_shape
        ⟨b.nmax, (b.el.set p e0).take p ++ shift_down ((b.el.set p e0).drop p)⟩ ∧
      p + shift_down_steps ((b.el.set p e0).drop p) ≤ b.nmax) ∧
    (∀ tls dflt hb h st, (tls.getD dflt).reducer_map = some h →
      (∀ i b, bkt h i = some b → bucket_shape b) →
      __cilkrts_hyper_destroy tls dflt hb = Res.ok () st →
      ∃ h1, st.w.reducer_map = some h1 ∧ ∀ i b, bkt h1 i = some b → bucket_shape b) := by
  have hlive_of_key : ∀ b : bucket, bucket_ok b → ∀ p,
      (b.el.getD p null_elem).key ≠ 0 → p < (live b.el).length := by
    intro b hok p hp
    obtain ⟨h1, -, h3⟩ := bucket_ok_index b hok
    by_contra hge
    by_cases hle : p ≤ b.nmax
    · exact hp (h3 p (by omega) hle)
    · apply hp
      rw [List.getD_eq_getElem?_getD, List.getElem?_eq_none (by rw [hok.1]; omega)]
      rfl
  refine ⟨⟨by decide, (bucket_ok_iff_shape _).1 (by decide)⟩, ?_, ?_, ?_, ?_⟩
  · intro ob e hs he
    have hok : opt_bucket_ok ob := by
      cases ob with
      | none => trivial
      | some b => exact (bucket_ok_iff_shape b).2 (hs b rfl)
    obtain ⟨h1, h2, h3, h4, -, h6⟩ := grow_slot_spec ob hok
    obtain ⟨-, i2, i3⟩ := bucket_ok_index _ h1
    rw [h2, ← h3] at i2 i3
    refine ⟨h4, i2, i3 _ (Nat.le_refl _) (Nat.le_of_lt h4), (bucket_ok_iff_shape _).1 h1,
      (bucket_ok_iff_shape _).1 (grow_spec ob hok e he).1, h6⟩
  · intro m w key hb view p m1 hs h
    exact insert_no_rehash_shape m m1 w key hb view p hs h
  · intro b p e0 hs hp
    have hok := (bucket_ok_iff_shape b).2 hs
    have hpl := hlive_of_key b hok p hp
    obtain ⟨h1, -, h3⟩ := shift_bucket_spec b hok p hpl e0
    refine ⟨(bucket_ok_iff_shape _).1 h1, ?_⟩
    rw [h3]
    exact hok.2.1
  · intro tls dflt hb h st hm hs hok
    by_cases hmg : h.merging = true
    · rw [hyper_destroy_merging tls dflt hb h hm hmg] at hok
      cases hok
    · have hmg2 : h.merging = false := by simpa using hmg
      cases hf : find h (get_hyperobject_key hb) with
      | none =>
        rw [hyper_destroy_absent tls dflt hb h hm hmg2 hf] at hok
        cases hok
      | some e =>
        by_cases hv : e.view = 0
        · rw [hyper_destroy_null_view tls dflt hb h hm hmg2 e hf hv] at hok
          cases hok
        · by_cases hl : e.view = e.key
          · obtain ⟨p, hp1, hp2, hp3⟩ := hyper_destroy_leftmost tls dflt hb h hm hmg2 e hf hl
            rw [← hp1] at hp2
            rw [hp3] at hok
            injection hok with _ hst
            subst hst
            refine ⟨_, rfl, ?_⟩
            cases hb1 : bkt h p.1 with
            | none => rw [hb1] at hp2; simp [blive] at hp2
            | some b =>
              rw [hb1] at hp2
              have hbok := (bucket_ok_iff_shape b).2 (hs _ b hb1)
              have hpl : p.2 < (live b.el).length := by
                by_contra hge
                rw [show blive (some b) = live b.el from rfl,
                  List.getElem?_eq_none (by omega)] at hp2
                cases hp2
              intro i b' hb'
              rw [unlink_bkt h p _ b hb1 i] at hb'
              by_cases hi : p.1 = i
              · rw [if_pos hi] at hb'
                injection hb' with hb'
                rw [← hb']
                exact (bucket_ok_iff_shape _).1 (shift_bucket_spec b hbok p.2 hpl _).1
              · rw [if_neg hi] at hb'
                exact hs i b' hb'
          · rw [hyper_destroy_not_leftmost tls dflt hb h hm hmg2 e hf hv
              (fun hh => hl hh.symm)] at hok
            cases hok

/-- Witness of C25: growing the full bucket of capacity 1 of the sample map for
the key 16; inserting the key 16 into the sample map; the shift loop at slot 0
of the bucket of capacity 4 of the sample map; destroying the reducer of key 8
in the sample map. -/
theorem C25_bucket_shape_invariant_witness :
    ((∀ b, some (⟨1, [⟨24, 3, 25⟩, ⟨0, 0, 0⟩]⟩ : bucket) = some b → bucket_shape b) ∧
      (⟨16, 2, 17⟩ : elem).key ≠ 0 ∧
      (∀ i b, bkt sample_map i = some b → bucket_shape b) ∧
      cilkred_map_insert_no_rehash sample_map (some sample_worker) 16 2 17 =
        Res.ok (2, 0) (cilkred_map_insert_no_rehash sample_map (some sample_worker) 16 2 17).state ∧
      bucket_shape ⟨4, [⟨8, 1, 8⟩, ⟨40, 5, 41⟩, ⟨0, 0, 0⟩, ⟨0, 0, 0⟩, ⟨0, 0, 0⟩]⟩ ∧
      sample_owner.reducer_map = some sample_map ∧
      __cilkrts_hyper_destroy (some sample_owner) sample_worker sample_hb =
        Res.ok () (__cilkrts_hyper_destroy (some sample_owner) sample_worker sample_hb).state) ∧
    (cilkred_map_grow (some ⟨1, [⟨24, 3, 25⟩, ⟨0, 0, 0⟩]⟩) =
        (⟨4, [⟨24, 3, 25⟩, ⟨0, 0, 0⟩, ⟨0, 0, 0⟩, ⟨0, 0, 0⟩, ⟨0, 0, 0⟩]⟩, 1) ∧
      bucket_shape ⟨(cilkred_map_grow (some ⟨1, [⟨24, 3, 25⟩, ⟨0, 0, 0⟩]⟩)).1.nmax,
        (cilkred_map_grow (some ⟨1, [⟨24, 3, 25⟩, ⟨0, 0, 0⟩]⟩)).1.el.set
          (cilkred_map_grow (some ⟨1, [⟨24, 3, 25⟩, ⟨0, 0, 0⟩]⟩)).2 ⟨16, 2, 17⟩⟩) ∧
    (∀ i b,
      bkt (cilkred_map_insert_no_rehash sample_map (some sample_worker) 16 2 17).state i =
        some b → bucket_shape b) ∧
    (bucket_shape
        ⟨4, (([⟨8, 1, 8⟩, ⟨40, 5, 41⟩, ⟨0, 0, 0⟩, ⟨0, 0, 0⟩, ⟨0, 0, 0⟩] : List elem).set 0
            ⟨8, 1, 0⟩).take 0 ++
          shift_down ((([⟨8, 1, 8⟩, ⟨40, 5, 41⟩, ⟨0, 0, 0⟩, ⟨0, 0, 0⟩, ⟨0, 0, 0⟩] :
            List elem).set 0 ⟨8, 1, 0⟩).drop 0)⟩ ∧
      0 + shift_down_steps ((([⟨8, 1, 8⟩, ⟨40, 5, 41⟩, ⟨0, 0, 0⟩, ⟨0, 0, 0⟩, ⟨0, 0, 0⟩] :
        List elem).set 0 ⟨8, 1, 0⟩).drop 0) ≤ 4) ∧
    (∃ h1, (__cilkrts_hyper_destroy (some sample_owner) sample_worker sample_hb).state.w.reducer_map =
        some h1 ∧ ∀ i b, bkt h1 i = some b → bucket_shape b) :=
  have hfull : ∀ b, some (⟨1, [⟨24, 3, 25⟩, ⟨0, 0, 0⟩]⟩ : bucket) = some b → bucket_shape b :=
    fun b hb => Option.some.inj hb ▸ (bucket_ok_iff_shape _).1 (by decide)
  have hsample := WF_buckets_shape sample_map (by decide)
  have hb4 : bucket_shape ⟨4, [⟨8, 1, 8⟩, ⟨40, 5, 41⟩, ⟨0, 0, 0⟩, ⟨0, 0, 0⟩, ⟨0, 0, 0⟩]⟩ :=
    (bucket_ok_iff_shape _).1 (by decide)
  ⟨⟨hfull, by decide, hsample, by decide, hb4, rfl, by decide⟩,
    ⟨by decide,
      (C25_bucket_shape_invariant.2.1 (some ⟨1, [⟨24, 3, 25⟩, ⟨0, 0, 0⟩]⟩) ⟨16, 2, 17⟩ hfull
        (by decide)).2.2.2.2.1⟩,
    C25_bucket_shape_invariant.2.2.1 sample_map (some sample_worker) 16 2 17 (2, 0) _ hsample
      (by decide),
    C25_bucket_shape_invariant.2.2.2.1 _ 0 ⟨8, 1, 0⟩ hb4 (by decide),
    C25_bucket_shape_invariant.2.2.2.2 (some sample_owner) sample_worker sample_hb sample_map _
      rfl hsample (by decide)⟩

/-- C26: a single doubling suffices.  Let a map be reached from
`cilkred_map_make_map` by returning `cilkred_map_rehash_and_insert` calls (on
keys not in the map) and removals by `__cilkrts_hyper_destroy`.  In a call of
`cilkred_map_rehash_and_insert` on it, the map after the conditional rehash
(the map itself, or what `cilkred_map_rehash` leaves when a rehash is needed)
no longer needs a rehash; the rehash, when needed, does return for a caller of
the map's global state.  Hence after the call, with the new count
`nelem >= 1`, `(nelem - 1) + (nelem - 1)/8 + 1 <= nbuckets`. -/
theorem C26_single_doubling_suffices (m : cilkred_map) (hr : load_reachable m)
    (w : Option __cilkrts_worker) :
    (∀ m1, (if cilkred_map_need_rehash_p m then cilkred_map_rehash m w else Res.ok () m) =
        Res.ok () m1 → cilkred_map_need_rehash_p m1 = false) ∧
    (g_ok w m = true →
      ∃ m1, (if cilkred_map_need_rehash_p m then cilkred_map_rehash m w else Res.ok () m) =
        Res.ok () m1) ∧
    (∀ key hb view p m2, cilkred_map_rehash_and_insert m w key hb view = Res.ok p m2 →
      1 ≤ m2.nelem ∧ (m2.nelem - 1) + (m2.nelem - 1) / 8 + 1 ≤ m2.nbuckets) := by
  obtain ⟨hwf, hinv⟩ := load_reachable_inv m hr
  refine ⟨?_, ?_, ?_⟩
  · intro m1 h1
    by_cases hn : cilkred_map_need_rehash_p m = true
    · rw [if_pos hn] at h1
      obtain ⟨-, hnb, hne⟩ := rehash_ok m m1 w h1
      unfold cilkred_map_need_rehash_p at hn ⊢
      rw [hnb, hne]
      have hn2 : minsz m.nelem > m.nbuckets := by simpa using hn
      unfold minsz at hinv hn2 ⊢
      simp only [gt_iff_lt, decide_eq_false_iff_not, not_lt]
      omega
    · rw [if_neg hn] at h1
      injection h1 with _ hh
      rw [← hh]
      simpa using hn
  · intro hg
    by_cases hn : cilkred_map_need_rehash_p m = true
    · rw [if_pos hn]
      obtain ⟨m1, h1, -⟩ := rehash_spec m hwf w hg
      exact ⟨m1, h1⟩
    · rw [if_neg hn]
      exact ⟨m, rfl⟩
  · intro key hb view p m2 hok
    obtain ⟨hb2, hn2⟩ := load_bound_step m m2 w key hb view p hinv hok
    unfold minsz at hb2
    rw [hn2, Nat.add_sub_cancel]
    exact ⟨by omega, by omega⟩

/-- Witness of C26: `map_8_9`, reached by one insert, is full (one element, one
bucket) and needs a rehash, after which two buckets suffice; the emptied map,
reached by an insert and a destroy, takes an insert without a rehash. -/
theorem C26_single_doubling_suffices_witness :
    (load_reachable map_8_9 ∧ load_reachable emptied_map ∧
      cilkred_map_need_rehash_p map_8_9 = true ∧
      cilkred_map_rehash map_8_9 (some sample_worker) = Res.ok () map_8_9_rehashed ∧
      g_ok (some sample_worker) map_8_9 = true ∧
      cilkred_map_rehash_and_insert map_8_9 (some sample_worker) 24 3 25 =
        Res.ok (1, 1) merged_8_24 ∧
      cilkred_map_rehash_and_insert emptied_map (some sample_worker) 24 3 25 =
        Res.ok (0, 0) map_24_25) ∧
    cilkred_map_need_rehash_p map_8_9_rehashed = false ∧
    (∃ m1, (if cilkred_map_need_rehash_p map_8_9 then
        cilkred_map_rehash map_8_9 (some sample_worker) else Res.ok () map_8_9) = Res.ok () m1) ∧
    (1 ≤ merged_8_24.nelem ∧
      (merged_8_24.nelem - 1) + (merged_8_24.nelem - 1) / 8 + 1 ≤ merged_8_24.nbuckets) ∧
    (1 ≤ map_24_25.nelem ∧
      (map_24_25.nelem - 1) + (map_24_25.nelem - 1) / 8 + 1 ≤ map_24_25.nbuckets) :=
  have h89 : load_reachable map_8_9 :=
    load_reachable.insert fresh_map map_8_9 (some sample_worker) 8 1 9 (0, 0)
      (load_reachable.make sample_worker fresh_map (by decide)) (by decide) (by decide)
  have hem : load_reachable emptied_map :=
    load_reachable.destroy map_8_8 emptied_map (some owner_8_8) sample_worker sample_hb
      ⟨⟨100, 7, 200, some emptied_map⟩, []⟩
      (load_reachable.insert fresh_map map_8_8 (some sample_worker) 8 1 8 (0, 0)
        (load_reachable.make sample_worker fresh_map (by decide)) (by decide) (by decide))
      rfl (by decide) rfl
  ⟨⟨h89, hem, by decide, by decide, by decide, by decide, by decide⟩,
    (C26_single_doubling_suffices map_8_9 h89 (some sample_worker)).1 map_8_9_rehashed
      (by decide),
    (C26_single_doubling_suffices map_8_9 h89 (some sample_worker)).2.1 (by decide),
    (C26_single_doubling_suffices map_8_9 h89 (some sample_worker)).2.2 24 3 25 (1, 1)
      merged_8_24 (by decide),
    (C26_single_doubling_suffices emptied_map hem (some sample_worker)).2.2 24 3 25 (0, 0)
      map_24_25 (by decide)⟩

/-- C27: bucket capacity rounding on the LP64 layout (`sizeof(bucket) = 32`,
`sizeof(elem) = 24`, sizes as unbounded naturals).  For every requested
capacity `n`, `roundup(n)` is the value `roundup_spec n` the specification
states: `(S - 32) / 24` with `sz = 32 + 24 * n` and `S = 64` if `sz < 64`, the
least power of two that is at least `sz` if `64 <= sz < 2048`, and `sz`
otherwise; `least_pow2_ge sz` is indeed a power of two, at least `sz`, and at
most every power of two that is at least `sz`.  Consequently `roundup(n) >= n`
for every `n`, `roundup(0) = 1`, and the capacity `roundup(2 * nmax)` that
`cilkred_map_grow` gives a new bucket is greater than the old capacity
`nmax`. -/
theorem C27_roundup_closed_form :
    (∀ n, roundup n = roundup_spec n) ∧
    (∀ sz, (∃ k, least_pow2_ge sz = 2 ^ k) ∧ sz ≤ least_pow2_ge sz ∧
      ∀ j, sz ≤ 2 ^ j → least_pow2_ge sz ≤ 2 ^ j) ∧
    (∀ n, n ≤ roundup n) ∧ roundup 0 = 1 ∧
    (∀ old nmax, (grow_realloc old nmax).1.nmax = roundup (2 * nmax) ∧
      nmax < (grow_realloc old nmax).1.nmax) :=
  ⟨roundup_eq_spec, least_pow2_ge_spec, roundup_ge, by decide,
    fun _ nmax => ⟨rfl, roundup_double_gt nmax⟩⟩

/-- Witness of C27: a request of 5 elements has `sz = 152`, which is rounded up
to 256 bytes, room for 9 elements. -/
theorem C27_roundup_closed_form_witness :
    (152 ≤ 2 ^ 8 ∧ 32 + 24 * 5 = 152) ∧
    roundup 5 = 9 ∧ roundup 5 = roundup_spec 5 ∧ least_pow2_ge 152 = 256 ∧
    least_pow2_ge 152 ≤ 2 ^ 8 ∧ 5 ≤ roundup 5 :=
  ⟨⟨by decide, by decide⟩, by decide, C27_roundup_closed_form.1 5, by decide,
    (C27_roundup_closed_form.2.1 152).2.2 8 (by decide), C27_roundup_closed_form.2.2.1 5⟩

end CilkRed
